import Mathlib

/-!
# Snowball decision tree (`snow/consensus/snowball/tree.go`)

A shallow embedding of the modified patricia tree that drives Snowball
consensus, together with the properties of its public operations
`Add`, `RecordPoll`, `RecordUnsuccessfulPoll`, `Preference` and `Finalized`.

Conventions of the embedding:

* a bit (Go `int` restricted to `0` and `1`) is a `Bool`, `true` standing for `1`;
  a two-element Go array `[2]T` is a pair of fields with suffixes `0` and `1`;
* prefixes and bit indices (Go `int`, never negative in the code) are `Nat`;
* a node's back-reference `tree *Tree` is only used to read `tree.params` and
  `tree.factory`; the parameters are passed explicitly instead;
* Go mutates nodes in place and returns a node pointer.  `Node.RecordPoll`
  therefore returns both the receiver as it is left in memory after the call
  (this is what a parent that keeps its child pointer still sees) and the
  node that the Go method returns.
-/

namespace Snowball

/-! ## Identifiers, bags, parameters and counters -/

/-- Modelled from the spec: `ids.NumBits`, the width of an identifier. -/
def NumBits : Nat := 256

/-- Modelled from the spec: `ids.ID`, a 256-bit opaque value. -/
structure ID where
  val : Nat
  isLt : val < 2 ^ 256
deriving DecidableEq, Repr

/-- Modelled from the spec: `ID.Bit(i)`, bit `i` of the identifier, for `i` in `[0, 256)`. -/
def ID.Bit (id : ID) (i : Nat) : Bool := id.val.testBit i

/-- Modelled from the spec: `ids.EqualSubset(start, stop, a, b)` is true iff the bits
`[start, stop)` of `a` and `b` match. -/
def EqualSubset (start stop : Nat) (a b : ID) : Bool :=
  (List.range' start (stop - start)).all fun i => a.Bit i == b.Bit i

/-- Modelled from the spec: `ids.FirstDifferenceSubset(start, stop, a, b)` returns the
smallest index in `[start, stop)` where `a` and `b` differ, or none. -/
def FirstDifferenceSubset (start stop : Nat) (a b : ID) : Option Nat :=
  (List.range' start (stop - start)).find? fun i => a.Bit i != b.Bit i

/-- Modelled from the spec: `bag.Bag[ids.ID]`, a multiset of ids, kept as the list of its
elements with repetitions; `Len`, `Filter` and `Split` do not depend on the order. -/
abbrev Bag := List ID

/-- Modelled from the spec: `Bag.Len()`, the total count. -/
def Bag.Len (votes : Bag) : Nat := votes.length

/-- Modelled from the spec: `Bag.Filter(pred)`. -/
def Bag.Filter (votes : Bag) (pred : ID → Bool) : Bag := List.filter pred votes

/-- Modelled from the spec: `Bag.Split(pred)`, the pair (votes failing `pred`, votes
satisfying `pred`), indexed as `[0]` and `[1]`. -/
def Bag.Split (votes : Bag) (pred : ID → Bool) : Bag × Bag :=
  (List.filter (fun id => !pred id) votes, List.filter pred votes)

/-- Modelled from the spec: `Parameters`, the thresholds of the counters. -/
structure Parameters where
  K : Nat
  AlphaPreference : Nat
  AlphaConfidence : Nat
  BetaUnary : Nat
  BetaBinary : Nat
deriving DecidableEq, Repr

/-- Modelled from the spec: the invariants of `Parameters`
(`alpha_preference <= K`, `alpha_confidence >= alpha_preference`,
`beta_unary <= beta_binary`). -/
def Parameters.Valid (p : Parameters) : Prop :=
  p.AlphaPreference ≤ p.K ∧ p.AlphaPreference ≤ p.AlphaConfidence ∧ p.BetaUnary ≤ p.BetaBinary

instance (p : Parameters) : Decidable p.Valid := by
  unfold Parameters.Valid; infer_instance

/-- Modelled from the spec: the unary Snowball counter (confidence and finalized flag). -/
structure Unary where
  confidence : Nat
  finalized : Bool
deriving DecidableEq, Repr

/-- Modelled from the spec: the binary Snowball counter (per-side confidence, preferred
side, finalized flag).  The transitions of section 4.5 set the preferred side to the
polled side on every poll of a counter that is not finalized, so one field stands for
the preferred side and the side that polled last.  A counter whose preferred side lags
behind the polled side (the stickiness that section 3 mentions) is not modelled. -/
structure Binary where
  confidence0 : Nat
  confidence1 : Nat
  preference : Bool
  finalized : Bool
deriving DecidableEq, Repr

/-- Modelled from the spec: `Factory.NewUnary(params)`, a fresh unary counter
(confidence 0, not finalized). -/
def NewUnary (_p : Parameters) : Unary := { confidence := 0, finalized := false }

/-- Modelled from the spec: `Unary.Finalized()`. -/
def Unary.Finalized (s : Unary) : Bool := s.finalized

/-- Modelled from the spec: `Unary.RecordPoll(n)`: with `n >= alpha_confidence` the
confidence is incremented and the counter finalizes once it reaches `beta_unary`,
otherwise the confidence is reset.  The flag `finalized` is never cleared; the
confidence of a finalized counter is counted and reset like that of any other. -/
def Unary.RecordPoll (p : Parameters) (s : Unary) (n : Nat) : Unary :=
  if p.AlphaConfidence ≤ n then
    { confidence := s.confidence + 1
      finalized := s.finalized || decide (p.BetaUnary ≤ s.confidence + 1) }
  else { confidence := 0, finalized := s.finalized }

/-- Modelled from the spec: `Unary.RecordUnsuccessfulPoll()` resets the confidence, of a
finalized counter too; the flag `finalized` stays as it is. -/
def Unary.RecordUnsuccessfulPoll (s : Unary) : Unary :=
  { confidence := 0, finalized := s.finalized }

/-- Modelled from the spec: `Unary.Extend(bit)`, a binary counter preferring `bit` that
inherits the confidence on that side and has 0 on the other. -/
def Unary.Extend (s : Unary) (bit : Bool) : Binary :=
  { confidence0 := if bit then 0 else s.confidence
    confidence1 := if bit then s.confidence else 0
    preference := bit
    finalized := s.finalized }

/-- Modelled from the spec: `Unary.Clone()`, a deep copy. -/
def Unary.Clone (s : Unary) : Unary := s

/-- Modelled from the spec: `Binary.Preference()`, the preferred side. -/
def Binary.Preference (s : Binary) : Bool := s.preference

/-- Modelled from the spec: `Binary.Finalized()`. -/
def Binary.Finalized (s : Binary) : Bool := s.finalized

/-- Modelled from the spec: `Binary.RecordPoll(n, side)` (called with
`n >= alpha_preference`).  With `n >= alpha_confidence`: if `side` is not the preferred
side, the confidence of the old preferred side is reset, the preference becomes `side`
and its confidence 1; otherwise the confidence of `side` is incremented; the counter
finalizes once the confidence of the preferred side reaches `beta_binary`.  With
`n < alpha_confidence` the preference becomes `side` and the confidences are reset.
A finalized counter returns at once: `RecordPoll` leaves it as it is. -/
def Binary.RecordPoll (p : Parameters) (s : Binary) (n : Nat) (side : Bool) : Binary :=
  if s.finalized then s
  else if p.AlphaConfidence ≤ n then
    if side = s.preference then
      { confidence0 := if side then s.confidence0 else s.confidence0 + 1
        confidence1 := if side then s.confidence1 + 1 else s.confidence1
        preference := side
        finalized :=
          decide (p.BetaBinary ≤ (if side then s.confidence1 else s.confidence0) + 1) }
    else
      { confidence0 := if side then 0 else 1
        confidence1 := if side then 1 else 0
        preference := side
        finalized := decide (p.BetaBinary ≤ 1) }
  else { confidence0 := 0, confidence1 := 0, preference := side, finalized := false }

/-- Modelled from the spec: `Binary.RecordUnsuccessfulPoll()` resets both confidences,
of a finalized counter too, and keeps the preference and the flag `finalized`. -/
def Binary.RecordUnsuccessfulPoll (s : Binary) : Binary :=
  { confidence0 := 0, confidence1 := 0, preference := s.preference, finalized := s.finalized }

/-! ## Nodes -/

/-- The two kinds of node of the tree (`unaryNode` and `binaryNode`); a nil child is
`none`. -/
inductive Node where
  | unary (preference : ID) (decidedPrefix commonPrefix : Nat) (snow : Unary)
      (shouldReset : Bool) (child : Option Node)
  | binary (preferences0 preferences1 : ID) (bit : Nat) (snow : Binary)
      (shouldReset0 shouldReset1 : Bool) (children0 children1 : Option Node)
deriving Repr

/-- Element `bit` of a two-element array. -/
def sel {α : Type} (bit : Bool) (x0 x1 : α) : α := if bit then x1 else x0

/-- Methods `unaryNode.Preference` and `binaryNode.Preference`. -/
def Node.Preference : Node → ID
  | .unary preference _ _ _ _ _ => preference
  | .binary preferences0 preferences1 _ snow _ _ _ _ => sel snow.Preference preferences0 preferences1

/-- Methods `unaryNode.DecidedPrefix` and `binaryNode.DecidedPrefix`. -/
def Node.DecidedPrefix : Node → Nat
  | .unary _ decidedPrefix _ _ _ _ => decidedPrefix
  | .binary _ _ bit _ _ _ _ _ => bit

/-- Methods `unaryNode.Finalized` and `binaryNode.Finalized`. -/
def Node.Finalized : Node → Bool
  | .unary _ _ _ snow _ _ => snow.Finalized
  | .binary _ _ _ snow _ _ _ _ => snow.Finalized

/-- The binary node built by `unaryNode.Add`: `preferences[bit] = prefBit`,
`preferences[1-bit] = prefOther`, both reset flags equal to `shouldReset`,
`children[bit] = childBit` and `children[1-bit] = childOther`. -/
def Node.mkBinary (bit : Bool) (prefBit prefOther : ID) (index : Nat) (snow : Binary)
    (shouldReset : Bool) (childBit childOther : Option Node) : Node :=
  if bit then .binary prefOther prefBit index snow shouldReset shouldReset childOther childBit
  else .binary prefBit prefOther index snow shouldReset shouldReset childBit childOther

/-- Methods `unaryNode.Add` and `binaryNode.Add`. -/
def Node.Add (p : Parameters) : Node → ID → Node
  | .unary preference decidedPrefix commonPrefix snow shouldReset child, newChoice =>
    if snow.Finalized then
      .unary preference decidedPrefix commonPrefix snow shouldReset child
    else
      match FirstDifferenceSubset decidedPrefix commonPrefix preference newChoice with
      | none =>
        match child with
        | some c =>
          .unary preference decidedPrefix commonPrefix snow shouldReset (some (c.Add p newChoice))
        | none => .unary preference decidedPrefix commonPrefix snow shouldReset none
      | some index =>
        let bit := preference.Bit index
        let bSnow := snow.Extend bit
        let newChild := Node.unary newChoice (index + 1) NumBits (NewUnary p) false none
        if decidedPrefix = commonPrefix - 1 then
          Node.mkBinary bit preference newChoice index bSnow shouldReset child
            (match child with
             | some _ => some newChild
             | none => none)
        else if index = decidedPrefix then
          Node.mkBinary bit preference newChoice index bSnow shouldReset
            (some (.unary preference (decidedPrefix + 1) commonPrefix snow shouldReset child))
            (some newChild)
        else if index = commonPrefix - 1 then
          .unary preference decidedPrefix (commonPrefix - 1) snow shouldReset
            (some (Node.mkBinary bit preference newChoice index bSnow shouldReset child
              (match child with
               | some _ => some newChild
               | none => none)))
        else
          .unary preference decidedPrefix index snow.Clone false
            (some (Node.mkBinary bit preference newChoice index bSnow shouldReset
              (some (.unary preference (index + 1) commonPrefix snow shouldReset child))
              (some newChild)))
  | .binary preferences0 preferences1 bit snow shouldReset0 shouldReset1 children0 children1, id =>
    if id.Bit bit then
      .binary preferences0 preferences1 bit snow shouldReset0 shouldReset1 children0
        (match children1 with
         | some c => some (c.Add p id)
         | none => none)
    else
      .binary preferences0 preferences1 bit snow shouldReset0 shouldReset1
        (match children0 with
         | some c => some (c.Add p id)
         | none => none)
        children1

/-- The result of a node's `RecordPoll`: the receiver as the call leaves it in memory,
the node the method returns, and whether the poll was successful. -/
structure PollResult where
  self : Node
  ret : Node
  successful : Bool
deriving Repr

/-- The part of `unaryNode.RecordPoll` that follows `u.snow.RecordPoll(numVotes)`;
`rec` is the result of the child's `RecordPoll`, when there is a child. -/
def Node.unaryFinish (preference : ID) (decidedPrefix commonPrefix : Nat) (snow : Unary)
    (shouldReset : Bool) (rec : Option PollResult) : PollResult :=
  match rec with
  | some r =>
    if snow.Finalized then
      { self := .unary preference decidedPrefix commonPrefix snow shouldReset (some r.self)
        ret := r.ret
        successful := true }
    else
      let u := Node.unary r.self.Preference decidedPrefix commonPrefix snow false (some r.self)
      { self := u, ret := u, successful := true }
  | none =>
    let u := Node.unary preference decidedPrefix commonPrefix snow false none
    { self := u, ret := u, successful := true }

/-- The part of `binaryNode.RecordPoll` that follows `b.snow.RecordPoll(numVotes, bit)`;
`shouldResetBit` is `b.shouldReset[bit]`, `rec` is the result of the `RecordPoll` of
`children[bit]`, when that child exists. -/
def Node.binaryFinish (side : Bool) (preferences0 preferences1 : ID) (bit : Nat) (snow : Binary)
    (shouldResetBit : Bool) (children0 children1 : Option Node)
    (rec : Option PollResult) : PollResult :=
  match rec with
  | some r =>
    if snow.Finalized then
      { self :=
          if side then
            .binary preferences0 preferences1 bit snow true shouldResetBit children0 (some r.self)
          else
            .binary preferences0 preferences1 bit snow shouldResetBit true (some r.self) children1
        ret := r.ret
        successful := true }
    else
      let b :=
        if side then
          Node.binary preferences0 r.ret.Preference bit snow true false children0 (some r.self)
        else
          Node.binary r.ret.Preference preferences1 bit snow false true (some r.self) children1
      { self := b, ret := b, successful := true }
  | none =>
    let b :=
      if side then Node.binary preferences0 preferences1 bit snow true false children0 children1
      else Node.binary preferences0 preferences1 bit snow false true children0 children1
    { self := b, ret := b, successful := true }

/-- Methods `unaryNode.RecordPoll` and `binaryNode.RecordPoll`. -/
def Node.RecordPoll (p : Parameters) : Node → Bag → Bool → PollResult
  | .unary preference decidedPrefix commonPrefix snow shouldReset child, votes, reset =>
    let snow1 := if reset then snow.RecordUnsuccessfulPoll else snow
    let shouldReset1 := if reset then true else shouldReset
    let numVotes := votes.Len
    if numVotes < p.AlphaPreference then
      let u := Node.unary preference decidedPrefix commonPrefix snow1.RecordUnsuccessfulPoll true child
      { self := u, ret := u, successful := false }
    else
      Node.unaryFinish preference decidedPrefix commonPrefix (snow1.RecordPoll p numVotes) shouldReset1
        (match child with
         | some c => some (c.RecordPoll p votes shouldReset1)
         | none => none)
  | .binary preferences0 preferences1 bit snow shouldReset0 shouldReset1 children0 children1,
      votes, reset =>
    let splitVotes := votes.Split fun id => id.Bit bit
    let side : Bool := decide (p.AlphaPreference ≤ splitVotes.2.Len)
    let snow1 := if reset then snow.RecordUnsuccessfulPoll else snow
    let shouldResetBit := if reset then true else sel side shouldReset0 shouldReset1
    let prunedVotes := sel side splitVotes.1 splitVotes.2
    let numVotes := prunedVotes.Len
    if numVotes < p.AlphaPreference then
      let b := Node.binary preferences0 preferences1 bit snow1.RecordUnsuccessfulPoll true true
        children0 children1
      { self := b, ret := b, successful := false }
    else
      Node.binaryFinish side preferences0 preferences1 bit (snow1.RecordPoll p numVotes side)
        shouldResetBit children0 children1
        (sel side
          (match children0 with
           | some c => some (c.RecordPoll p prunedVotes shouldResetBit)
           | none => none)
          (match children1 with
           | some c => some (c.RecordPoll p prunedVotes shouldResetBit)
           | none => none))

/-! ## The tree -/

/-- The `Tree` struct: the root node, the parameters and the lazy reset flag (the
factory is `NewUnary`). -/
structure Tree where
  node : Node
  params : Parameters
  shouldReset : Bool
deriving Repr

/-- Function `NewTree`. -/
def NewTree (params : Parameters) (choice : ID) : Tree :=
  { node := .unary choice 0 NumBits (NewUnary params) false none
    params := params
    shouldReset := false }

/-- Method `Preference` of the embedded root node. -/
def Tree.Preference (t : Tree) : ID := t.node.Preference

/-- Method `Finalized` of the embedded root node. -/
def Tree.Finalized (t : Tree) : Bool := t.node.Finalized

/-- Method `Tree.Add`. -/
def Tree.Add (t : Tree) (choice : ID) : Tree :=
  let decided := t.node.DecidedPrefix
  if EqualSubset 0 decided t.Preference choice then
    { t with node := t.node.Add t.params choice }
  else t

/-- Method `Tree.RecordPoll`: the tree after the call and the returned boolean. -/
def Tree.RecordPoll (t : Tree) (votes : Bag) : Tree × Bool :=
  let decidedPrefix := t.node.DecidedPrefix
  let preference := t.Preference
  let filteredVotes := votes.Filter fun id => EqualSubset 0 decidedPrefix preference id
  let r := t.node.RecordPoll t.params filteredVotes t.shouldReset
  ({ t with node := r.ret, shouldReset := false }, r.successful)

/-- Method `Tree.RecordUnsuccessfulPoll`. -/
def Tree.RecordUnsuccessfulPoll (t : Tree) : Tree :=
  { t with shouldReset := true }

/-! ## The split of a unary node, named for the proofs -/

/-- The fresh unary node that `unaryNode.Add` creates for the new choice. -/
def Node.freshChild (p : Parameters) (newChoice : ID) (index : Nat) : Node :=
  .unary newChoice (index + 1) NumBits (NewUnary p) false none

/-- The node that `unaryNode.Add` returns when the first difference is at `index`
(the four splitting cases of the `switch`). -/
def Node.split (p : Parameters) (preference : ID) (decidedPrefix commonPrefix : Nat)
    (snow : Unary) (shouldReset : Bool) (child : Option Node) (newChoice : ID)
    (index : Nat) : Node :=
  if decidedPrefix = commonPrefix - 1 then
    Node.mkBinary (preference.Bit index) preference newChoice index
      (snow.Extend (preference.Bit index)) shouldReset child
      (child.map fun _ => Node.freshChild p newChoice index)
  else if index = decidedPrefix then
    Node.mkBinary (preference.Bit index) preference newChoice index
      (snow.Extend (preference.Bit index)) shouldReset
      (some (.unary preference (decidedPrefix + 1) commonPrefix snow shouldReset child))
      (some (Node.freshChild p newChoice index))
  else if index = commonPrefix - 1 then
    .unary preference decidedPrefix (commonPrefix - 1) snow shouldReset
      (some (Node.mkBinary (preference.Bit index) preference newChoice index
        (snow.Extend (preference.Bit index)) shouldReset child
        (child.map fun _ => Node.freshChild p newChoice index)))
  else
    .unary preference decidedPrefix index snow.Clone false
      (some (Node.mkBinary (preference.Bit index) preference newChoice index
        (snow.Extend (preference.Bit index)) shouldReset
        (some (.unary preference (index + 1) commonPrefix snow shouldReset child))
        (some (Node.freshChild p newChoice index))))

/-! ## Reachable trees -/

/-- The trees that `NewTree params choice` can become under any sequence of `Add`,
`RecordPoll` and `RecordUnsuccessfulPoll` calls. -/
inductive Reachable (params : Parameters) (choice : ID) : Tree → Prop where
  | newTree : Reachable params choice (NewTree params choice)
  | add (t : Tree) (c : ID) : Reachable params choice t → Reachable params choice (t.Add c)
  | recordPoll (t : Tree) (votes : Bag) :
      Reachable params choice t → Reachable params choice (t.RecordPoll votes).1
  | recordUnsuccessfulPoll (t : Tree) :
      Reachable params choice t → Reachable params choice t.RecordUnsuccessfulPoll

/-- The tree after `k` consecutive `RecordPoll` calls with the same bag. -/
def Tree.pollN (t : Tree) (votes : Bag) : Nat → Tree
  | 0 => t
  | k + 1 => ((t.pollN votes k).RecordPoll votes).1

/-- A unary counter that started fresh and has seen `k` consecutive polls of at least
`alpha_confidence` votes. -/
def Unary.polled (p : Parameters) (k : Nat) (s : Unary) : Prop :=
  s.finalized = decide (1 ≤ k ∧ p.BetaUnary ≤ k) ∧ (s.finalized = false → s.confidence = k)

/-- A binary counter whose side `side` has seen `k` consecutive polls of at least
`alpha_confidence` votes since the counter on that path started fresh. -/
def Binary.polled (p : Parameters) (k : Nat) (side : Bool) (s : Binary) : Prop :=
  s.finalized = decide (1 ≤ k ∧ p.BetaBinary ≤ k) ∧
    (s.finalized = false → sel side s.confidence0 s.confidence1 = k) ∧
    (1 ≤ k → s.preference = side)

/-- A childless unary node for the choice `b` that was polled `k` times for `b`. -/
def Node.leadLeaf (p : Parameters) (b : ID) (k : Nat) : Node → Prop
  | .unary pr _ _ snow sr child => pr = b ∧ snow.polled p k ∧ sr = false ∧ child = none
  | .binary _ _ _ _ _ _ _ _ => False

/-- A binary node that was polled `k` times for `b`: its side of `b` holds `b`, has no
pending reset and is childless or leads to a leaf for `b`. -/
def Node.leadBinary (p : Parameters) (b : ID) (k : Nat) : Node → Prop
  | .unary _ _ _ _ _ _ => False
  | .binary p0 p1 bit snow sr0 sr1 c0 c1 =>
    sel (b.Bit bit) p0 p1 = b ∧ snow.polled p k (b.Bit bit) ∧
      sel (b.Bit bit) sr0 sr1 = false ∧
      (sel (b.Bit bit) c0 c1 = none ∨
        ∃ leaf, sel (b.Bit bit) c0 c1 = some leaf ∧ leaf.leadLeaf p b k)

/-- A unary node above a binary node, both polled `k` times for `b`, the unary node not
yet finalized. -/
def Node.leadTop (p : Parameters) (b : ID) (k : Nat) : Node → Prop
  | .unary pr _ _ snow sr child =>
    snow.polled p k ∧ snow.finalized = false ∧ sr = false ∧ (1 ≤ k → pr = b) ∧
      ∃ bin, child = some bin ∧ bin.leadBinary p b k
  | .binary _ _ _ _ _ _ _ _ => False

/-- The root of a tree created on some choice, to which `b` was added and which was
then polled `k` times for `b`. -/
def Node.leadRoot (p : Parameters) (b : ID) (k : Nat) (n : Node) : Prop :=
  (n.DecidedPrefix = 0 ∨ n.Preference = b) ∧
    (n.leadLeaf p b k ∨ n.leadBinary p b k ∨ n.leadTop p b k)

/-- One call of the public interface of the tree. -/
inductive Op where
  | add (choice : ID)
  | recordPoll (votes : Bag)
  | recordUnsuccessfulPoll

/-- The tree after one call of its public interface. -/
def Tree.step (t : Tree) : Op → Tree
  | .add choice => t.Add choice
  | .recordPoll votes => (t.RecordPoll votes).1
  | .recordUnsuccessfulPoll => t.RecordUnsuccessfulPoll

/-- Whether a node has a child. -/
def Node.hasChild : Node → Bool
  | .unary _ _ _ _ _ child => child.isSome
  | .binary _ _ _ _ _ _ c0 c1 => c0.isSome || c1.isSome

/-- Two ids have the same bits `[0, stop)`. -/
def ID.agree (a b : ID) (stop : Nat) : Prop := ∀ i, i < stop → a.Bit i = b.Bit i

/-- Structural invariant of a subtree: the prefixes are in range and continue from
parent to child, a childless unary node runs to bit 256, a binary node has no child
(and then decides bit 255) or two children, the two preferences of a binary node differ
at its bit as their index says and agree before it, and the preference kept at a node
agrees with the preference kept at each child up to the child's decided prefix. -/
def Node.WF : Node → Prop
  | .unary pr dp cp _ _ child =>
    dp < cp ∧ cp ≤ NumBits ∧
      (match child with
       | none => cp = NumBits
       | some c => c.DecidedPrefix = cp ∧ pr.agree c.Preference cp ∧ c.WF)
  | .binary p0 p1 bit _ _ _ c0 c1 =>
    bit < NumBits ∧ p0.agree p1 bit ∧ p0.Bit bit = false ∧ p1.Bit bit = true ∧
      c0.isSome = c1.isSome ∧ (c0 = none → bit + 1 = NumBits) ∧
      (match c0 with
       | none => True
       | some c => c.DecidedPrefix = bit + 1 ∧ p0.agree c.Preference (bit + 1) ∧ c.WF) ∧
      (match c1 with
       | none => True
       | some c => c.DecidedPrefix = bit + 1 ∧ p1.agree c.Preference (bit + 1) ∧ c.WF)

/-- The ids represented in a subtree: the preference of a childless unary node and the
two preferences of a childless binary node. -/
def Node.represented : Node → List ID
  | .unary pr _ _ _ _ child =>
    (match child with
     | none => [pr]
     | some c => c.represented)
  | .binary p0 p1 _ _ _ _ c0 c1 =>
    (match c0 with
     | none => (match c1 with
                | none => [p0, p1]
                | some _ => [])
     | some c => c.represented) ++
    (match c1 with
     | none => []
     | some c => c.represented)

/-- No counter of the subtree is finalized. -/
def Node.noneFinalized : Node → Prop
  | .unary _ _ _ snow _ child =>
    snow.Finalized = false ∧
      (match child with
       | none => True
       | some c => c.noneFinalized)
  | .binary _ _ _ snow _ _ c0 c1 =>
    snow.Finalized = false ∧
      (match c0 with
       | none => True
       | some c => c.noneFinalized) ∧
      (match c1 with
       | none => True
       | some c => c.noneFinalized)

/-- Confidence invariant of a subtree under lazy resets.  `pend` tells whether a reset is
pending for the subtree (it will be passed as the `reset` argument of its next
`RecordPoll`), `cap` is the confidence of the nearest counter above that is not
finalized.  Without a pending reset the confidence of a counter that is not finalized
is at most `cap`; the flags `shouldReset` of a node add to the pending resets of its
children; the side of a binary counter that is not preferred has confidence 0; a
binary node has no child or two, and none when its counter is finalized. -/
def Node.Dom : Bool → Nat → Node → Prop
  | pend, cap, .unary _ _ _ snow sr child =>
    (pend = false → snow.finalized = false → snow.confidence ≤ cap) ∧
      (match child with
       | none => True
       | some c => Node.Dom (pend || sr) (if snow.finalized then cap else snow.confidence) c)
  | pend, cap, .binary _ _ _ snow sr0 sr1 c0 c1 =>
    (pend = false → snow.finalized = false →
        snow.confidence0 ≤ cap ∧ snow.confidence1 ≤ cap) ∧
      (if snow.preference then snow.confidence0 else snow.confidence1) = 0 ∧
      c0.isSome = c1.isSome ∧
      (snow.finalized = true → c0 = none) ∧
      (match c0 with
       | none => True
       | some c => Node.Dom (pend || sr0) snow.confidence0 c) ∧
      (match c1 with
       | none => True
       | some c => Node.Dom (pend || sr1) snow.confidence1 c)

/-- The invariant of the tree: the root is well formed, satisfies the confidence
invariant under the pending reset of the tree, and has no child when its counter is
finalized. -/
def Tree.Inv (t : Tree) : Prop :=
  t.node.WF ∧ (t.node.Finalized = true → t.node.hasChild = false) ∧
    ∃ cap, t.node.Dom t.shouldReset cap

/-- The votes of a bag that agree with the preference of the tree on its decided prefix. -/
def Tree.legalVotes (t : Tree) (votes : Bag) : Bag :=
  votes.Filter fun id => EqualSubset 0 t.node.DecidedPrefix t.Preference id

/-! ## Scenarios of the specification -/

/-- The identifier whose bits are all 0. -/
def idZero : ID := ⟨0, by decide⟩

/-- The identifier `1000...0`: bit 0 is set, the others are 0. -/
def idOne : ID := ⟨1, by decide⟩

/-- The identifier `1100...0`: bits 0 and 1 are set, the others are 0. -/
def idThree : ID := ⟨3, by decide⟩

/-- The identifier `0100...0`: bit 1 is set, the others are 0. -/
def idTwo : ID := ⟨2, by decide⟩

/-- Parameters with distinct thresholds: K = 5, alpha = 3, `beta_unary` = 1,
`beta_binary` = 2. -/
def unequalBetaParams : Parameters :=
  { K := 5, AlphaPreference := 3, AlphaConfidence := 3, BetaUnary := 1, BetaBinary := 2 }

/-- The parameters of the scenarios: K = 5, alpha = 3, beta = 2. -/
def scenarioParams : Parameters :=
  { K := 5, AlphaPreference := 3, AlphaConfidence := 3, BetaUnary := 2, BetaBinary := 2 }

/-- Parameters with `alpha_preference = 0`: K = 5, `alpha_confidence` = 3, beta = 2. -/
def zeroAlphaParams : Parameters :=
  { K := 5, AlphaPreference := 0, AlphaConfidence := 3, BetaUnary := 2, BetaBinary := 2 }

/-- Scenario S1: initial choice `0...0` and two polls of five votes for it. -/
def scenarioS1 : Tree :=
  (((NewTree scenarioParams idZero).RecordPoll (List.replicate 5 idZero)).1.RecordPoll
    (List.replicate 5 idZero)).1

/-- Scenario S5: initial choice `0...0`, `Add(1000...0)`, then two polls of five votes
for `0...0`; bit 0 is decided afterwards. -/
def scenarioS5 : Tree :=
  ((((NewTree scenarioParams idZero).Add idOne).RecordPoll
    (List.replicate 5 idZero)).1.RecordPoll (List.replicate 5 idZero)).1

/-! ## Sequences of calls and the ids kept in the tree -/

/-- The tree after a sequence of calls of its public interface. -/
def Tree.run (t : Tree) : List Op → Tree
  | [] => t
  | op :: ops => (t.step op).run ops

/-- The ids passed to `Add` in a sequence of calls. -/
def Op.added : List Op → List ID
  | [] => []
  | .add choice :: ops => choice :: Op.added ops
  | .recordPoll _ :: ops => Op.added ops
  | .recordUnsuccessfulPoll :: ops => Op.added ops

/-- Every id kept in a subtree: the preference of each unary node and the two
preferences of each binary node. -/
def Node.stored : Node → List ID
  | .unary pr _ _ _ _ child =>
    pr :: (match child with
           | none => []
           | some c => c.stored)
  | .binary p0 p1 _ _ _ _ c0 c1 =>
    p0 :: p1 :: ((match c0 with
                  | none => []
                  | some c => c.stored) ++
                 (match c1 with
                  | none => []
                  | some c => c.stored))

/-! ## Rendering -/

/-- The `String` methods of the counters, which `Printable` calls through the verb `%s`;
the counters are not part of tree.go, so the two renderings are parameters. -/
structure Stringer where
  unary : Unary → String
  binary : Binary → String

/-- Methods `unaryNode.Printable` and `binaryNode.Printable`: the text of the node and
the nodes to print below it (a nil node is `none`). -/
def Node.Printable (f : Stringer) : Node → String × List (Option Node)
  | .unary _ decidedPrefix commonPrefix snow _ child =>
    (f.unary snow ++ " Bits = [" ++ toString decidedPrefix ++ ", " ++ toString commonPrefix
        ++ ")",
      match child with
      | none => []
      | some c => [some c])
  | .binary _ _ bit snow _ _ children0 children1 =>
    (f.binary snow ++ " Bit = " ++ toString bit,
      match children0 with
      | none => []
      | some c => [children1, some c])

/-- Function `strings.TrimSuffix` of the Go library: `s` without the trailing `suffix`,
or `s` itself when it does not end with `suffix`. -/
def TrimSuffix (s suffix : String) : String :=
  if suffix.data.isSuffixOf s.data then
    ⟨s.data.take (s.data.length - suffix.data.length)⟩
  else s

/-- The loop of `Tree.String`, run for at most `fuel` iterations.  The two slices
`prefixes` and `nodes` grow and shrink together and are kept as one slice of pairs; the
loop takes the last pair, writes its line to the builder `sb` and appends the nodes to
print below it.  The result is `none` when the fuel runs out or when the node taken is
nil (a nil dereference in the source). -/
def Tree.stringLoop (f : Stringer) :
    Nat → List (String × Option Node) → String → Option String
  | 0, _, _ => none
  | fuel + 1, stack, sb =>
    match stack.getLast? with
    | none => some sb
    | some (_, none) => none
    | some (pre, some node) =>
      Tree.stringLoop f fuel
        (stack.dropLast ++ (node.Printable f).2.map fun n => (pre ++ "    ", n))
        (sb ++ pre ++ (node.Printable f).1 ++ "\n")

/-- Number of nodes of a subtree. -/
def Node.size : Node → Nat
  | .unary _ _ _ _ _ child =>
    1 + (match child with
         | none => 0
         | some c => c.size)
  | .binary _ _ _ _ _ _ c0 c1 =>
    1 + (match c0 with
         | none => 0
         | some c => c.size) +
        (match c1 with
         | none => 0
         | some c => c.size)

/-- Method `Tree.String`; the loop runs once for every node of the tree and once more
to find the slices empty. -/
def Tree.String (f : Stringer) (t : Tree) : Option String :=
  (Tree.stringLoop f (t.node.size + 1) [("", some t.node)] "").map fun s =>
    TrimSuffix s "\n"

/-- The lines of a subtree, each ended by a newline, children indented by four more
spaces, with the subtree of `children[0]` of a binary node before the subtree of
`children[1]`. -/
def Node.renderZeroFirst (f : Stringer) : Node → String → String
  | .unary pr dp cp snow sr child, pre =>
    pre ++ (Node.Printable f (.unary pr dp cp snow sr child)).1 ++ "\n" ++
      (match child with
       | none => ""
       | some c => c.renderZeroFirst f (pre ++ "    "))
  | .binary p0 p1 bit snow sr0 sr1 c0 c1, pre =>
    pre ++ (Node.Printable f (.binary p0 p1 bit snow sr0 sr1 c0 c1)).1 ++ "\n" ++
      (match c0 with
       | none => ""
       | some a =>
         a.renderZeroFirst f (pre ++ "    ") ++
           (match c1 with
            | none => ""
            | some b => b.renderZeroFirst f (pre ++ "    ")))

/-- The lines of a subtree in the order that the specification describes: the subtree of
`children[1]` of a binary node before the subtree of `children[0]`. -/
def Node.renderOneFirst (f : Stringer) : Node → String → String
  | .unary pr dp cp snow sr child, pre =>
    pre ++ (Node.Printable f (.unary pr dp cp snow sr child)).1 ++ "\n" ++
      (match child with
       | none => ""
       | some c => c.renderOneFirst f (pre ++ "    "))
  | .binary p0 p1 bit snow sr0 sr1 c0 c1, pre =>
    pre ++ (Node.Printable f (.binary p0 p1 bit snow sr0 sr1 c0 c1)).1 ++ "\n" ++
      (match c0 with
       | none => ""
       | some a =>
         (match c1 with
          | none => ""
          | some b => b.renderOneFirst f (pre ++ "    ")) ++
           a.renderOneFirst f (pre ++ "    "))

/-- A rendering of the counters for the examples: the fields of the counter. -/
def fieldStringer : Stringer :=
  { unary := fun s => "SF(" ++ toString s.confidence ++ ", " ++ toString s.finalized ++ ")"
    binary := fun s =>
      "SB(" ++ toString s.preference ++ ", " ++ toString s.confidence0 ++ ", "
        ++ toString s.confidence1 ++ ", " ++ toString s.finalized ++ ")" }

/-- The tree created on `0...0` to which `1000...0` and `1100...0` were added: a binary
root at bit 0 whose `children[0]` is a unary node and whose `children[1]` is a binary
node at bit 1. -/
def threeChoices : Tree := ((NewTree scenarioParams idZero).Add idOne).Add idThree

/-- Field `children[0]` of a binary node (nil for a unary node). -/
def Node.children0 : Node → Option Node
  | .unary _ _ _ _ _ _ => none
  | .binary _ _ _ _ _ _ c0 _ => c0

/-- Field `children[1]` of a binary node (nil for a unary node). -/
def Node.children1 : Node → Option Node
  | .unary _ _ _ _ _ _ => none
  | .binary _ _ _ _ _ _ _ c1 => c1

/-- What the loop of `Tree.String` writes for a slice of pairs: the subtrees of the
pairs, the last pair first. -/
def renderStack (f : Stringer) : List (String × Option Node) → String
  | [] => ""
  | (pre, n) :: rest =>
    renderStack f rest ++
      (match n with
       | none => ""
       | some m => m.renderZeroFirst f pre)

/-- Number of nodes in the subtrees of a slice of pairs. -/
def stackSize : List (String × Option Node) → Nat
  | [] => 0
  | (_, n) :: rest =>
    (match n with
     | none => 0
     | some m => m.size) + stackSize rest

/-! ## Confidence and resets -/

/-- The confidence of the counter of a node: the confidence of a unary counter, the
confidence of the preferred side of a binary counter. -/
def Node.confidence : Node → Nat
  | .unary _ _ _ snow _ _ => snow.confidence
  | .binary _ _ _ snow _ _ _ _ => sel snow.Preference snow.confidence0 snow.confidence1

/-- A node whose next successful poll starts from confidence 0: a reset is passed to
it, or its counter holds no confidence and its flags pass a reset on to its children. -/
def Node.primed (reset : Bool) : Node → Prop
  | .unary _ _ _ snow sr _ => reset = true ∨ (snow.confidence = 0 ∧ sr = true)
  | .binary _ _ _ snow sr0 sr1 _ _ =>
    reset = true ∨
      (snow.confidence0 = 0 ∧ snow.confidence1 = 0 ∧ sr0 = true ∧ sr1 = true)

/-- Invariant of a subtree for thresholds of at most 1: below a unary node whose counter
is not finalized the child is not finalized when `beta_unary <= 1`, and below a binary
node whose counter is not finalized the children are not finalized when
`beta_binary <= 1` (with such a threshold, every poll that could finalize the child
finalizes the parent first). -/
def Node.Lock (p : Parameters) : Node → Prop
  | .unary _ _ _ snow _ child =>
    (match child with
     | none => True
     | some c =>
       (p.BetaUnary ≤ 1 → snow.finalized = false → c.Finalized = false) ∧ c.Lock p)
  | .binary _ _ _ snow _ _ c0 c1 =>
    (match c0 with
     | none => True
     | some c =>
       (p.BetaBinary ≤ 1 → snow.finalized = false → c.Finalized = false) ∧ c.Lock p) ∧
    (match c1 with
     | none => True
     | some c =>
       (p.BetaBinary ≤ 1 → snow.finalized = false → c.Finalized = false) ∧ c.Lock p)

/-- The tree created on `0...0` with the parameters of the scenarios after one poll of
five votes for `0...0`: its root counter has confidence 1 and is not finalized. -/
def polledOnce : Tree :=
  ((NewTree scenarioParams idZero).RecordPoll (List.replicate 5 idZero)).1

/-- The tree created on `0...0` with `alpha_preference = 0`, to which `1000...0` was
added: a binary root at bit 0 that prefers `0...0`. -/
def zeroAlphaPair : Tree := (NewTree zeroAlphaParams idZero).Add idOne

/-! ## The eager variant of the resets -/

/-- Following the specification: `RecordUnsuccessfulPoll` called on every counter of a
subtree, the reset that a `shouldReset` flag stands for. -/
def Node.resetAll : Node → Node
  | .unary pr dp cp snow sr child =>
    .unary pr dp cp snow.RecordUnsuccessfulPoll sr
      (match child with
       | none => none
       | some c => some c.resetAll)
  | .binary p0 p1 bit snow sr0 sr1 c0 c1 =>
    .binary p0 p1 bit snow.RecordUnsuccessfulPoll sr0 sr1
      (match c0 with
       | none => none
       | some c => some c.resetAll)
      (match c1 with
       | none => none
       | some c => some c.resetAll)

/-- `RecordUnsuccessfulPoll` called on every counter of the subtree of a child, when
there is a child. -/
def Node.resetChild : Option Node → Option Node
  | none => none
  | some c => some c.resetAll

/-- Following the specification: `RecordPoll` of the eager variant, the tree without
`shouldReset` flags (the flags of the nodes are carried along, never read and never
written, and no `reset` is passed down).  Where `unaryNode.RecordPoll` and
`binaryNode.RecordPoll` set a flag, the eager variant calls `RecordUnsuccessfulPoll` at
once on every counter of the subtree the flag stands for: the subtree of the child of a
unary node that sees fewer than `alpha_preference` votes, the subtree of the child on
the side a binary node does not choose, and the subtrees of both children of a binary
node whose chosen side has fewer than `alpha_preference` votes.  The result has the
receiver as the call leaves it, the node returned and the boolean returned, as for
`Node.RecordPoll`. -/
def Node.RecordPollEager (p : Parameters) : Node → Bag → PollResult
  | .unary preference decidedPrefix commonPrefix snow shouldReset child, votes =>
    let numVotes := votes.Len
    if numVotes < p.AlphaPreference then
      let u := Node.unary preference decidedPrefix commonPrefix snow.RecordUnsuccessfulPoll
        shouldReset (Node.resetChild child)
      { self := u, ret := u, successful := false }
    else
      let snow1 := snow.RecordPoll p numVotes
      match child with
      | some c =>
        let r := c.RecordPollEager p votes
        if snow1.Finalized then
          { self := .unary preference decidedPrefix commonPrefix snow1 shouldReset (some r.self)
            ret := r.ret
            successful := true }
        else
          let u := Node.unary r.self.Preference decidedPrefix commonPrefix snow1 shouldReset
            (some r.self)
          { self := u, ret := u, successful := true }
      | none =>
        let u := Node.unary preference decidedPrefix commonPrefix snow1 shouldReset none
        { self := u, ret := u, successful := true }
  | .binary preferences0 preferences1 bit snow shouldReset0 shouldReset1 children0 children1,
      votes =>
    let splitVotes := votes.Split fun id => id.Bit bit
    let side : Bool := decide (p.AlphaPreference ≤ splitVotes.2.Len)
    let prunedVotes := sel side splitVotes.1 splitVotes.2
    let numVotes := prunedVotes.Len
    if numVotes < p.AlphaPreference then
      let b := Node.binary preferences0 preferences1 bit snow.RecordUnsuccessfulPoll
        shouldReset0 shouldReset1 (Node.resetChild children0) (Node.resetChild children1)
      { self := b, ret := b, successful := false }
    else
      let snow1 := snow.RecordPoll p numVotes side
      if side then
        match children1 with
        | some c =>
          let r := c.RecordPollEager p prunedVotes
          if snow1.Finalized then
            { self := .binary preferences0 preferences1 bit snow1 shouldReset0 shouldReset1
                (Node.resetChild children0) (some r.self)
              ret := r.ret
              successful := true }
          else
            let b := Node.binary preferences0 r.ret.Preference bit snow1 shouldReset0
              shouldReset1 (Node.resetChild children0) (some r.self)
            { self := b, ret := b, successful := true }
        | none =>
          let b := Node.binary preferences0 preferences1 bit snow1 shouldReset0 shouldReset1
            (Node.resetChild children0) none
          { self := b, ret := b, successful := true }
      else
        match children0 with
        | some c =>
          let r := c.RecordPollEager p prunedVotes
          if snow1.Finalized then
            { self := .binary preferences0 preferences1 bit snow1 shouldReset0 shouldReset1
                (some r.self) (Node.resetChild children1)
              ret := r.ret
              successful := true }
          else
            let b := Node.binary r.ret.Preference preferences1 bit snow1 shouldReset0
              shouldReset1 (some r.self) (Node.resetChild children1)
            { self := b, ret := b, successful := true }
        | none =>
          let b := Node.binary preferences0 preferences1 bit snow1 shouldReset0 shouldReset1
            none (Node.resetChild children1)
          { self := b, ret := b, successful := true }

/-- Following the specification: `Tree.RecordPoll` of the eager variant. -/
def Tree.RecordPollEager (t : Tree) (votes : Bag) : Tree × Bool :=
  let r := t.node.RecordPollEager t.params (t.legalVotes votes)
  ({ t with node := r.ret }, r.successful)

/-- Following the specification: `Tree.RecordUnsuccessfulPoll` of the eager variant,
which resets every counter of the tree at once. -/
def Tree.RecordUnsuccessfulPollEager (t : Tree) : Tree :=
  { t with node := t.node.resetAll }

/-- The eager variant after one call of its public interface (`Add` is the `Add` of the
code). -/
def Tree.stepEager (t : Tree) : Op → Tree
  | .add choice => t.Add choice
  | .recordPoll votes => (t.RecordPollEager votes).1
  | .recordUnsuccessfulPoll => t.RecordUnsuccessfulPollEager

/-- The eager variant after a sequence of calls of its public interface. -/
def Tree.runEager (t : Tree) : List Op → Tree
  | [] => t
  | op :: ops => (t.stepEager op).runEager ops

/-- The identifier `0010...0`: bit 2 is set, the others are 0. -/
def idFour : ID := ⟨4, by decide⟩

/-- Calls that leave a stale `shouldReset` flag: `Add(1000...0)`, `Add(0010...0)`,
`RecordUnsuccessfulPoll()`, then two polls of three votes for `0...0`. -/
def staleFlagCalls : List Op :=
  [.add idOne, .add idFour, .recordUnsuccessfulPoll, .recordPoll (List.replicate 3 idZero),
    .recordPoll (List.replicate 3 idZero)]

/-- The identifier `0...01`: bit 255 is set, the others are 0. -/
def idLast : ID := ⟨2 ^ 255, by decide⟩

/-- The binary node at bit 1 that `Add(0100...0)` puts below the root for `0...0`. -/
def forkAtBitOne : Node :=
  .binary idZero idTwo 1 ((NewUnary scenarioParams).Extend false) false false
    (some (.unary idZero 2 256 (NewUnary scenarioParams) false none))
    (some (.unary idTwo 2 256 (NewUnary scenarioParams) false none))

/-! ## The cases of the `switch` of `unaryNode.Add` -/

/-- Whether the condition of case `k` of the `switch` of `unaryNode.Add` holds: case 2 is
`u.decidedPrefix == u.commonPrefix-1`, case 3 is `index == u.decidedPrefix`, case 4 is
`index == u.commonPrefix-1`, and case 5, the `default`, stands for an interior bit,
`u.decidedPrefix < index < u.commonPrefix-1`. -/
def splitCondition (dp cp index : Nat) : Nat → Bool
  | 2 => decide (dp = cp - 1)
  | 3 => decide (index = dp)
  | 4 => decide (index = cp - 1)
  | 5 => decide (dp < index ∧ index < cp - 1)
  | _ => false

/-- The node that the branch of case `k` of the `switch` of `unaryNode.Add` builds (the
`default` branch for every `k` other than 2, 3 and 4). -/
def Node.splitBy (p : Parameters) (preference : ID) (decidedPrefix commonPrefix : Nat)
    (snow : Unary) (shouldReset : Bool) (child : Option Node) (newChoice : ID)
    (index : Nat) : Nat → Node
  | 2 =>
    Node.mkBinary (preference.Bit index) preference newChoice index
      (snow.Extend (preference.Bit index)) shouldReset child
      (child.map fun _ => Node.freshChild p newChoice index)
  | 3 =>
    Node.mkBinary (preference.Bit index) preference newChoice index
      (snow.Extend (preference.Bit index)) shouldReset
      (some (.unary preference (decidedPrefix + 1) commonPrefix snow shouldReset child))
      (some (Node.freshChild p newChoice index))
  | 4 =>
    .unary preference decidedPrefix (commonPrefix - 1) snow shouldReset
      (some (Node.mkBinary (preference.Bit index) preference newChoice index
        (snow.Extend (preference.Bit index)) shouldReset child
        (child.map fun _ => Node.freshChild p newChoice index)))
  | _ =>
    .unary preference decidedPrefix index snow.Clone false
      (some (Node.mkBinary (preference.Bit index) preference newChoice index
        (snow.Extend (preference.Bit index)) shouldReset
        (some (.unary preference (index + 1) commonPrefix snow shouldReset child))
        (some (Node.freshChild p newChoice index))))

/-- The `switch` of `unaryNode.Add` with the conditions of the cases 2, 3 and 4 tested in
the order `order`: the node of the first case of `order` whose condition holds, and the
node of the `default` when none holds.  The source tests them in the order 2, 3, 4. -/
def Node.splitIn (order : List Nat) (p : Parameters) (preference : ID)
    (decidedPrefix commonPrefix : Nat) (snow : Unary) (shouldReset : Bool)
    (child : Option Node) (newChoice : ID) (index : Nat) : Node :=
  Node.splitBy p preference decidedPrefix commonPrefix snow shouldReset child newChoice index
    ((order.find? (splitCondition decidedPrefix commonPrefix index)).getD 5)

/-! ## The nodes of a tree -/

/-- The nodes of a subtree, the node itself first. -/
def Node.nodes : Node → List Node
  | .unary pr dp cp snow sr child =>
    .unary pr dp cp snow sr child ::
      (match child with
       | none => []
       | some c => c.nodes)
  | .binary p0 p1 bit snow sr0 sr1 c0 c1 =>
    .binary p0 p1 bit snow sr0 sr1 c0 c1 ::
      ((match c0 with
        | none => []
        | some c => c.nodes) ++
       (match c1 with
        | none => []
        | some c => c.nodes))

/-- The children of a node that are not nil. -/
def Node.childNodes : Node → List Node
  | .unary _ _ _ _ _ child => child.toList
  | .binary _ _ _ _ _ _ c0 c1 => c0.toList ++ c1.toList

/-- The number of nodes on the longest path from a node down to a leaf. -/
def Node.depth : Node → Nat
  | .unary _ _ _ _ _ child =>
    1 + (match child with
         | none => 0
         | some c => c.depth)
  | .binary _ _ _ _ _ _ c0 c1 =>
    1 + max (match c0 with
             | none => 0
             | some c => c.depth)
            (match c1 with
             | none => 0
             | some c => c.depth)

/-- The number of calls of `Add` that `n.Add(id)` makes, the call on `n` included: the
recursion of `unaryNode.Add` and `binaryNode.Add`. -/
def Node.addCalls : Node → ID → Nat
  | .unary preference decidedPrefix commonPrefix snow _ child, newChoice =>
    if snow.Finalized then 1
    else
      match FirstDifferenceSubset decidedPrefix commonPrefix preference newChoice with
      | none =>
        (match child with
         | some c => 1 + c.addCalls newChoice
         | none => 1)
      | some _ => 1
  | .binary _ _ bit _ _ _ children0 children1, id =>
    if id.Bit bit then
      (match children1 with
       | some c => 1 + c.addCalls id
       | none => 1)
    else
      (match children0 with
       | some c => 1 + c.addCalls id
       | none => 1)

/-- The number of calls of `RecordPoll` that `n.RecordPoll(votes, reset)` makes, the call
on `n` included: the recursion of `unaryNode.RecordPoll` and `binaryNode.RecordPoll`
(the argument `reset` does not change which calls are made). -/
def Node.pollCalls (p : Parameters) : Node → Bag → Nat
  | .unary _ _ _ _ _ child, votes =>
    if votes.Len < p.AlphaPreference then 1
    else
      (match child with
       | some c => 1 + c.pollCalls p votes
       | none => 1)
  | .binary _ _ bit _ _ _ children0 children1, votes =>
    let splitVotes := votes.Split fun id => id.Bit bit
    let side : Bool := decide (p.AlphaPreference ≤ splitVotes.2.Len)
    let prunedVotes := sel side splitVotes.1 splitVotes.2
    if prunedVotes.Len < p.AlphaPreference then 1
    else if side then
      (match children1 with
       | some c => 1 + c.pollCalls p prunedVotes
       | none => 1)
    else
      (match children0 with
       | some c => 1 + c.pollCalls p prunedVotes
       | none => 1)

/-! ## The layout of the rendering -/

/-- Following the specification: the prefix of a node at depth `d`, `4 * d` spaces. -/
def indent (d : Nat) : String := ⟨List.replicate (4 * d) ' '⟩

/-- Following the specification: the lines of a subtree whose root is at depth `d`, one
line for each node in depth-first pre-order.  The line of a node is its prefix of
`4 * depth` spaces, the text of its counter and ` Bits = [decidedPrefix, commonPrefix)`
for a unary node or ` Bit = bit` for a binary node. -/
def Node.lines (f : Stringer) : Node → Nat → List String
  | .unary _ dp cp snow _ child, d =>
    (indent d ++ f.unary snow ++ " Bits = [" ++ toString dp ++ ", " ++ toString cp ++ ")") ::
      (match child with
       | none => []
       | some c => c.lines f (d + 1))
  | .binary _ _ bit snow _ _ c0 c1, d =>
    (indent d ++ f.binary snow ++ " Bit = " ++ toString bit) ::
      ((match c0 with
        | none => []
        | some c => c.lines f (d + 1)) ++
       (match c1 with
        | none => []
        | some c => c.lines f (d + 1)))

/-- The lines of a list, each followed by a newline. -/
def unlines : List String → String
  | [] => ""
  | l :: ls => l ++ "\n" ++ unlines ls

/-! ## The polled side of a binary node -/

/-- Local variable `bit` of `binaryNode.RecordPoll`, the side that is polled: 1 when
`splitVotes[1]` has at least `AlphaPreference` votes and 0 otherwise. -/
def Node.pollBit (p : Parameters) (bit : Nat) (votes : Bag) : Bool :=
  decide (p.AlphaPreference ≤ (votes.Split fun id => id.Bit bit).2.Len)

/-- Local variable `prunedVotes` of `binaryNode.RecordPoll`: `splitVotes[bit]`, the votes
of the side that is polled. -/
def Node.prunedVotes (p : Parameters) (bit : Nat) (votes : Bag) : Bag :=
  sel (Node.pollBit p bit votes) (votes.Split fun id => id.Bit bit).1
    (votes.Split fun id => id.Bit bit).2

/-- Field `shouldReset` of a unary node, element `side` of the field `shouldReset` of a
binary node. -/
def Node.shouldResetOf (side : Bool) : Node → Bool
  | .unary _ _ _ _ shouldReset _ => shouldReset
  | .binary _ _ _ _ shouldReset0 shouldReset1 _ _ => sel side shouldReset0 shouldReset1

/-- Parameters with `2 * alpha_preference <= K`. -/
def lowAlphaParams : Parameters :=
  { K := 5, AlphaPreference := 2, AlphaConfidence := 3, BetaUnary := 2, BetaBinary := 2 }

/-- The tree of `idZero` and `idOne` under `lowAlphaParams`: a binary root at bit 0. -/
def lowAlphaPair : Tree := (NewTree lowAlphaParams idZero).Add idOne

/-- A bag of four votes, two for `idZero` and two for `idOne`. -/
def evenVotes : Bag := [idZero, idZero, idOne, idOne]

/-- The tree of `0...0` and `1000...0` under the parameters of the scenarios after one
poll of three votes for `0...0`: the binary root has confidence 1 for side 0. -/
def pairPolledOnce : Tree :=
  (((NewTree scenarioParams idZero).Add idOne).RecordPoll (List.replicate 3 idZero)).1

/-! ## The order of finalization -/

/-- Order of finalization in a subtree.  `lim` is the smallest threshold (`beta_unary`
or `beta_binary`) of the counters above that are not finalized, and `beta_binary + 1`
when there is none.  A counter is finalized only if its own threshold is smaller than
`lim`: below a counter that is not finalized no counter with the same or a larger
threshold is finalized. -/
def Node.Age (p : Parameters) : Nat → Node → Prop
  | lim, .unary _ _ _ snow _ child =>
    (snow.finalized = true → p.BetaUnary < lim) ∧
      (match child with
       | none => True
       | some c => Node.Age p (if snow.finalized then lim else min p.BetaUnary lim) c)
  | lim, .binary _ _ _ snow _ _ c0 c1 =>
    (snow.finalized = true → p.BetaBinary < lim) ∧
      (match c0 with
       | none => True
       | some c => Node.Age p (if snow.finalized then lim else min p.BetaBinary lim) c) ∧
      (match c1 with
       | none => True
       | some c => Node.Age p (if snow.finalized then lim else min p.BetaBinary lim) c)
/-! ## The calls of a poll -/

/-- The calls of `RecordPoll` that `n.RecordPoll(votes, reset)` makes, the call on `n`
first: for each call the receiver as it is when it is called, the bag and the argument
`reset` (the recursion of `unaryNode.RecordPoll` and `binaryNode.RecordPoll`). -/
def Node.pollTrace (p : Parameters) : Node → Bag → Bool → List (Node × Bag × Bool)
  | .unary preference decidedPrefix commonPrefix snow shouldReset child, votes, reset =>
    let shouldReset1 := if reset then true else shouldReset
    (.unary preference decidedPrefix commonPrefix snow shouldReset child, votes, reset) ::
      (if votes.Len < p.AlphaPreference then []
       else
         (match child with
          | some c => c.pollTrace p votes shouldReset1
          | none => []))
  | .binary preferences0 preferences1 bit snow shouldReset0 shouldReset1 children0 children1,
      votes, reset =>
    let splitVotes := votes.Split fun id => id.Bit bit
    let side : Bool := decide (p.AlphaPreference ≤ splitVotes.2.Len)
    let shouldResetBit := if reset then true else sel side shouldReset0 shouldReset1
    let prunedVotes := sel side splitVotes.1 splitVotes.2
    (.binary preferences0 preferences1 bit snow shouldReset0 shouldReset1 children0 children1,
        votes, reset) ::
      (if prunedVotes.Len < p.AlphaPreference then []
       else if side then
         (match children1 with
          | some c => c.pollTrace p prunedVotes shouldResetBit
          | none => [])
       else
         (match children0 with
          | some c => c.pollTrace p prunedVotes shouldResetBit
          | none => []))

/-- The tree of `0...0` and `0010...0` under the parameters of the scenarios after one
poll of three votes for `0...0`: a unary root for the bits `[0, 2)` above a binary node. -/
def runPolledOnce : Tree :=
  (((NewTree scenarioParams idZero).Add idFour).RecordPoll (List.replicate 3 idZero)).1

/-- The tree of `0...0`, `1000...0` and `0010...0` with
`beta_unary = 1 < beta_binary = 2` after one poll of three votes for `0...0`: below the
binary root, which is not finalized, the unary node for bit 1 and the unary leaf of
`0...0` are finalized. -/
def decidedBelowBinary : Tree :=
  ((((NewTree unequalBetaParams idZero).Add idOne).Add idFour).RecordPoll
    (List.replicate 3 idZero)).1

/-! ## The pending resets of a lazy tree -/

/-- The subtree once the resets that its flags stand for are carried out.  `pending`
says that a reset is on its way to the root of the subtree (the argument `reset` of its
next `RecordPoll`); a `shouldReset` flag that is set passes a reset on to the child it
belongs to.  Every counter that a reset reaches gets `RecordUnsuccessfulPoll`, and all
flags are cleared. -/
def Node.flush : Bool → Node → Node
  | pending, .unary pr dp cp snow sr child =>
    .unary pr dp cp (if pending then snow.RecordUnsuccessfulPoll else snow) false
      (match child with
       | none => none
       | some c => some (Node.flush (pending || sr) c))
  | pending, .binary p0 p1 bit snow sr0 sr1 c0 c1 =>
    .binary p0 p1 bit (if pending then snow.RecordUnsuccessfulPoll else snow) false false
      (match c0 with
       | none => none
       | some c => some (Node.flush (pending || sr0) c))
      (match c1 with
       | none => none
       | some c => some (Node.flush (pending || sr1) c))

/-- The eager tree that a lazy tree stands for: the pending resets are carried out and
the tree-level flag is cleared. -/
def Tree.flush (t : Tree) : Tree :=
  { node := t.node.flush t.shouldReset, params := t.params, shouldReset := false }

theorem EqualSubset_iff (start stop : Nat) (a b : ID) :
    EqualSubset start stop a b = true ↔ ∀ i, start ≤ i → i < stop → a.Bit i = b.Bit i := by
  unfold EqualSubset
  rw [List.all_eq_true]
  constructor
  · intro h i h1 h2
    have := h i (by rw [List.mem_range'_1]; omega)
    simpa using this
  · intro h i hi
    rw [List.mem_range'_1] at hi
    simpa using h i hi.1 (by omega)

theorem find_range_none (q : Nat → Bool) (n s : Nat) :
    (List.range' s n).find? q = none ↔ ∀ j, s ≤ j → j < s + n → q j = false := by
  rw [List.find?_eq_none]
  constructor
  · intro h j h1 h2
    have := h j (by rw [List.mem_range'_1]; omega)
    simpa using this
  · intro h j hj
    rw [List.mem_range'_1] at hj
    simp [h j hj.1 hj.2]

theorem find_range_some (q : Nat → Bool) (n s i : Nat) :
    (List.range' s n).find? q = some i ↔
      s ≤ i ∧ i < s + n ∧ q i = true ∧ ∀ j, s ≤ j → j < i → q j = false := by
  induction n generalizing s with
  | zero =>
    simp only [List.range'_zero, List.find?_nil]
    constructor
    · intro h; cases h
    · rintro ⟨h1, h2, _⟩
      omega
  | succ n ih =>
    rw [List.range'_succ, List.find?_cons]
    by_cases hq : q s = true
    · simp only [hq, Option.some.injEq]
      constructor
      · rintro rfl
        exact ⟨le_refl _, by omega, hq, fun j h1 h2 => by omega⟩
      · rintro ⟨h1, _, _, h4⟩
        by_contra hne
        have := h4 s (le_refl _) (by omega)
        simp [hq] at this
    · have hq2 : q s = false := by simpa using hq
      simp only [hq2]
      rw [ih]
      constructor
      · rintro ⟨h1, h2, h3, h4⟩
        refine ⟨by omega, by omega, h3, fun j hj1 hj2 => ?_⟩
        by_cases hjs : j = s
        · subst hjs; exact hq2
        · exact h4 j (by omega) hj2
      · rintro ⟨h1, h2, h3, h4⟩
        have hne : i ≠ s := by
          rintro rfl
          simp [hq2] at h3
        exact ⟨by omega, by omega, h3, fun j hj1 hj2 => h4 j (by omega) hj2⟩

theorem FirstDifferenceSubset_none (start stop : Nat) (a b : ID) :
    FirstDifferenceSubset start stop a b = none ↔
      ∀ j, start ≤ j → j < stop → a.Bit j = b.Bit j := by
  unfold FirstDifferenceSubset
  rw [find_range_none]
  constructor
  · intro h j h1 h2
    simpa using h j h1 (by omega)
  · intro h j h1 h2
    simpa using h j h1 (by omega)

theorem FirstDifferenceSubset_some (start stop : Nat) (a b : ID) (i : Nat) :
    FirstDifferenceSubset start stop a b = some i ↔
      start ≤ i ∧ i < stop ∧ a.Bit i ≠ b.Bit i ∧
        ∀ j, start ≤ j → j < i → a.Bit j = b.Bit j := by
  unfold FirstDifferenceSubset
  rw [find_range_some]
  constructor
  · rintro ⟨h1, h2, h3, h4⟩
    exact ⟨h1, by omega, by simpa using h3, fun j hj1 hj2 => by simpa using h4 j hj1 hj2⟩
  · rintro ⟨h1, h2, h3, h4⟩
    exact ⟨h1, by omega, by simpa using h3, fun j hj1 hj2 => by simpa using h4 j hj1 hj2⟩

theorem FirstDifferenceSubset_self (start stop : Nat) (a : ID) :
    FirstDifferenceSubset start stop a a = none := by
  rw [FirstDifferenceSubset_none]; intros; rfl

theorem ID.ext_bits (a b : ID) (h : ∀ i, i < 256 → a.Bit i = b.Bit i) : a = b := by
  cases a with
  | mk x hx =>
    cases b with
    | mk y hy =>
      have : x = y := by
        apply Nat.eq_of_testBit_eq
        intro i
        by_cases hi : i < 256
        · exact h i hi
        · have h2 : 2 ^ 256 ≤ 2 ^ i := Nat.pow_le_pow_right (by decide) (by omega)
          rw [Nat.testBit_lt_two_pow (Nat.lt_of_lt_of_le hx h2),
            Nat.testBit_lt_two_pow (Nat.lt_of_lt_of_le hy h2)]
      subst this
      rfl

/-- An induction principle for nodes: a property holds of every node when it holds of
a node as soon as it holds of its children. -/
theorem Node.induct {P : Node → Prop}
    (unary : ∀ pr dp cp snow sr child, (∀ c, child = some c → P c) →
      P (.unary pr dp cp snow sr child))
    (binary : ∀ p0 p1 bit snow sr0 sr1 c0 c1, (∀ c, c0 = some c → P c) →
      (∀ c, c1 = some c → P c) → P (.binary p0 p1 bit snow sr0 sr1 c0 c1))
    (n : Node) : P n :=
  @Node.rec P (fun o => ∀ c, o = some c → P c)
    (fun pr dp cp snow sr child ih => unary pr dp cp snow sr child ih)
    (fun p0 p1 bit snow sr0 sr1 c0 c1 ih0 ih1 => binary p0 p1 bit snow sr0 sr1 c0 c1 ih0 ih1)
    (fun c h => by cases h)
    (fun val ih c h => by cases h; exact ih)
    n

@[simp] theorem sel_true {α : Type} (x0 x1 : α) : sel true x0 x1 = x1 := rfl

@[simp] theorem sel_false {α : Type} (x0 x1 : α) : sel false x0 x1 = x0 := rfl

/-! ## The poll reads only the legal votes -/

theorem Bag.Filter_Filter (votes : Bag) (pred : ID → Bool) :
    (votes.Filter pred).Filter pred = votes.Filter pred := by
  simp [Bag.Filter, List.filter_filter]

/-- C1: `Tree.RecordPoll` gives the same boolean and the same tree on a bag and on the
bag filtered to the ids that agree with the preference on the decided prefix (both
read before the poll). -/
theorem recordPoll_filtered_votes (t : Tree) (votes : Bag) :
    t.RecordPoll votes =
      t.RecordPoll
        (votes.Filter fun x => EqualSubset 0 t.node.DecidedPrefix t.Preference x) := by
  simp only [Tree.RecordPoll, Bag.Filter_Filter]

/-! ## When a poll is successful -/

theorem Node.RecordPoll_unary (p : Parameters) (pr : ID) (dp cp : Nat) (snow : Unary)
    (sr : Bool) (child : Option Node) (votes : Bag) (reset : Bool) :
    Node.RecordPoll p (.unary pr dp cp snow sr child) votes reset =
      if votes.Len < p.AlphaPreference then
        { self := .unary pr dp cp
            (if reset then snow.RecordUnsuccessfulPoll else snow).RecordUnsuccessfulPoll true child
          ret := .unary pr dp cp
            (if reset then snow.RecordUnsuccessfulPoll else snow).RecordUnsuccessfulPoll true child
          successful := false }
      else
        Node.unaryFinish pr dp cp
          ((if reset then snow.RecordUnsuccessfulPoll else snow).RecordPoll p votes.Len)
          (reset || sr)
          (child.map fun c => c.RecordPoll p votes (reset || sr)) := by
  cases child <;> cases reset <;> rfl

theorem Node.RecordPoll_binary (p : Parameters) (p0 p1 : ID) (bit : Nat) (snow : Binary)
    (sr0 sr1 : Bool) (c0 c1 : Option Node) (votes : Bag) (reset : Bool) :
    Node.RecordPoll p (.binary p0 p1 bit snow sr0 sr1 c0 c1) votes reset =
      if (sel (decide (p.AlphaPreference ≤ (votes.Filter fun x => x.Bit bit).Len))
            (votes.Filter fun x => !x.Bit bit) (votes.Filter fun x => x.Bit bit)).Len
          < p.AlphaPreference then
        { self := .binary p0 p1 bit
            (if reset then snow.RecordUnsuccessfulPoll else snow).RecordUnsuccessfulPoll
            true true c0 c1
          ret := .binary p0 p1 bit
            (if reset then snow.RecordUnsuccessfulPoll else snow).RecordUnsuccessfulPoll
            true true c0 c1
          successful := false }
      else
        Node.binaryFinish (decide (p.AlphaPreference ≤ (votes.Filter fun x => x.Bit bit).Len))
          p0 p1 bit
          ((if reset then snow.RecordUnsuccessfulPoll else snow).RecordPoll p
            (sel (decide (p.AlphaPreference ≤ (votes.Filter fun x => x.Bit bit).Len))
              (votes.Filter fun x => !x.Bit bit) (votes.Filter fun x => x.Bit bit)).Len
            (decide (p.AlphaPreference ≤ (votes.Filter fun x => x.Bit bit).Len)))
          (reset || sel (decide (p.AlphaPreference ≤ (votes.Filter fun x => x.Bit bit).Len))
            sr0 sr1)
          c0 c1
          ((sel (decide (p.AlphaPreference ≤ (votes.Filter fun x => x.Bit bit).Len))
              c0 c1).map fun c =>
            c.RecordPoll p
              (sel (decide (p.AlphaPreference ≤ (votes.Filter fun x => x.Bit bit).Len))
                (votes.Filter fun x => !x.Bit bit) (votes.Filter fun x => x.Bit bit))
              (reset || sel (decide (p.AlphaPreference ≤ (votes.Filter fun x => x.Bit bit).Len))
                sr0 sr1)) := by
  rw [Node.RecordPoll.eq_def]
  simp only [Bag.Split, Bag.Filter]
  cases decide (p.AlphaPreference ≤ Bag.Len (List.filter (fun x => x.Bit bit) votes)) <;>
    cases c0 <;> cases c1 <;> cases reset <;> rfl

theorem Node.unaryFinish_successful (pr : ID) (dp cp : Nat) (snow : Unary) (sr : Bool)
    (r : Option PollResult) : (Node.unaryFinish pr dp cp snow sr r).successful = true := by
  unfold Node.unaryFinish
  split <;> (try split) <;> rfl

theorem Node.binaryFinish_successful (side : Bool) (p0 p1 : ID) (bit : Nat) (snow : Binary)
    (sr : Bool) (c0 c1 : Option Node) (r : Option PollResult) :
    (Node.binaryFinish side p0 p1 bit snow sr c0 c1 r).successful = true := by
  unfold Node.binaryFinish
  split <;> (try split) <;> rfl

theorem Node.RecordPoll_successful (p : Parameters) (n : Node) (votes : Bag) (reset : Bool) :
    (n.RecordPoll p votes reset).successful =
      match n with
      | .unary _ _ _ _ _ _ => decide (p.AlphaPreference ≤ votes.Len)
      | .binary _ _ bit _ _ _ _ _ =>
        (decide (p.AlphaPreference ≤ (votes.Filter fun x => x.Bit bit).Len) ||
          decide (p.AlphaPreference ≤ (votes.Filter fun x => !x.Bit bit).Len)) := by
  cases n with
  | unary pr dp cp snow sr child =>
    rw [Node.RecordPoll_unary]
    split
    · simp; omega
    · rw [Node.unaryFinish_successful]; simp; omega
  | binary p0 p1 bit snow sr0 sr1 c0 c1 =>
    rw [Node.RecordPoll_binary]
    by_cases h1 : p.AlphaPreference ≤ (votes.Filter fun x => x.Bit bit).Len
    · simp only [h1, decide_True, sel_true, Bool.true_or]
      rw [if_neg (by omega), Node.binaryFinish_successful]
    · simp only [h1, decide_False, sel_false, Bool.false_or]
      split
      · simp; omega
      · rw [Node.binaryFinish_successful]; simp; omega

/-- C2: `Tree.RecordPoll` returns true exactly when the root counter records a successful
poll: with F the legal votes, for a unary root iff `|F| >= alpha_preference`, for a
binary root at bit i iff the votes of F with bit i = 1 or those with bit i = 0 number at
least `alpha_preference`; with `alpha_preference >= 1`, a bag in which every vote
disagrees with the preference on the decided prefix gives false. -/
theorem recordPoll_returns_root_success (t : Tree) (votes : Bag) :
    ((t.RecordPoll votes).2 =
      match t.node with
      | .unary _ _ _ _ _ _ => decide (t.params.AlphaPreference ≤ (t.legalVotes votes).Len)
      | .binary _ _ bit _ _ _ _ _ =>
        (decide (t.params.AlphaPreference ≤
            ((t.legalVotes votes).Filter fun x => x.Bit bit).Len) ||
          decide (t.params.AlphaPreference ≤
            ((t.legalVotes votes).Filter fun x => !x.Bit bit).Len))) ∧
    (1 ≤ t.params.AlphaPreference →
      (∀ v ∈ votes, EqualSubset 0 t.node.DecidedPrefix t.Preference v = false) →
      (t.RecordPoll votes).2 = false) := by
  have key := Node.RecordPoll_successful t.params t.node (t.legalVotes votes) t.shouldReset
  refine ⟨key, ?_⟩
  intro hα hv
  have hnil : t.legalVotes votes = [] := by
    simp only [Tree.legalVotes, Bag.Filter, List.filter_eq_nil_iff]
    intro v hmem
    simp [hv v hmem]
  show (t.node.RecordPoll t.params (t.legalVotes votes) t.shouldReset).successful = false
  rw [key, hnil]
  cases t.node <;> simp [Bag.Len, Bag.Filter] <;> omega

/-- Scenario S5 for C2: once bit 0 is decided for `0...0`, a poll of votes for
`1000...0` is filtered to nothing and returns false. -/
theorem recordPoll_returns_root_success_witness :
    1 ≤ scenarioS5.params.AlphaPreference ∧
    (∀ v ∈ List.replicate 3 idOne,
      EqualSubset 0 scenarioS5.node.DecidedPrefix scenarioS5.Preference v = false) ∧
    (scenarioS5.RecordPoll (List.replicate 3 idOne)).2 = false :=
  ⟨by decide, by decide,
    (recordPoll_returns_root_success scenarioS5 (List.replicate 3 idOne)).2
      (by decide) (by decide)⟩

/-! ## Adding a choice that was decided against -/

/-- C3: `Tree.Add` of a choice that differs from the preference on some bit of the
decided prefix leaves the whole tree state unchanged. -/
theorem add_decided_against (t : Tree) (c : ID) (i : Nat) (hi : i < t.node.DecidedPrefix)
    (hc : c.Bit i ≠ t.Preference.Bit i) : t.Add c = t := by
  have h : EqualSubset 0 t.node.DecidedPrefix t.Preference c = false := by
    rw [Bool.eq_false_iff]
    intro h
    rw [EqualSubset_iff] at h
    exact hc (h i (Nat.zero_le _) hi).symm
  simp [Tree.Add, h]

/-- Scenario S5 for C3: after bit 0 is decided for `0...0`, adding `1000...0` changes
nothing. -/
theorem add_decided_against_witness :
    0 < scenarioS5.node.DecidedPrefix ∧ idOne.Bit 0 ≠ scenarioS5.Preference.Bit 0 ∧
    scenarioS5.Add idOne = scenarioS5 :=
  ⟨by decide, by decide, add_decided_against scenarioS5 idOne 0 (by decide) (by decide)⟩

/-! ## Adding a choice twice -/

theorem Node.Add_unary (p : Parameters) (pr : ID) (dp cp : Nat) (snow : Unary) (sr : Bool)
    (child : Option Node) (c : ID) :
    Node.Add p (.unary pr dp cp snow sr child) c =
      if snow.Finalized then .unary pr dp cp snow sr child
      else
        match FirstDifferenceSubset dp cp pr c with
        | none => .unary pr dp cp snow sr (child.map fun n => n.Add p c)
        | some index => Node.split p pr dp cp snow sr child c index := by
  cases child <;> rw [Node.Add] <;> split <;> rfl

theorem Node.Add_binary (p : Parameters) (p0 p1 : ID) (bit : Nat) (snow : Binary)
    (sr0 sr1 : Bool) (c0 c1 : Option Node) (c : ID) :
    Node.Add p (.binary p0 p1 bit snow sr0 sr1 c0 c1) c =
      if c.Bit bit then .binary p0 p1 bit snow sr0 sr1 c0 (c1.map fun n => n.Add p c)
      else .binary p0 p1 bit snow sr0 sr1 (c0.map fun n => n.Add p c) c1 := by
  cases c0 <;> cases c1 <;> rw [Node.Add] <;> rfl

theorem Node.freshChild_Add (p : Parameters) (c : ID) (index : Nat) :
    (Node.freshChild p c index).Add p c = Node.freshChild p c index := by
  unfold Node.freshChild
  rw [Node.Add_unary, FirstDifferenceSubset_self]
  simp [NewUnary, Unary.Finalized]

theorem Node.mkBinary_Add (p : Parameters) (bit : Bool) (pr c : ID) (index : Nat)
    (snow : Binary) (sr : Bool) (childBit childOther : Option Node)
    (h : c.Bit index = !bit) :
    (Node.mkBinary bit pr c index snow sr childBit childOther).Add p c =
      Node.mkBinary bit pr c index snow sr childBit (childOther.map fun n => n.Add p c) := by
  unfold Node.mkBinary
  cases bit <;> simp [Node.Add_binary, h]

theorem Node.split_Add (p : Parameters) (pr : ID) (dp cp : Nat) (snow : Unary) (sr : Bool)
    (child : Option Node) (c : ID) (index : Nat) (hfin : snow.Finalized = false)
    (h : FirstDifferenceSubset dp cp pr c = some index) :
    (Node.split p pr dp cp snow sr child c index).Add p c =
      Node.split p pr dp cp snow sr child c index := by
  rw [FirstDifferenceSubset_some] at h
  obtain ⟨h1, h2, h3, h4⟩ := h
  have hbit : c.Bit index = !pr.Bit index := by
    cases hc : c.Bit index <;> cases hp : pr.Bit index <;> simp_all
  have hmap : ∀ o : Option Node,
      ((o.map fun _ => Node.freshChild p c index).map fun n => n.Add p c) =
        o.map fun _ => Node.freshChild p c index := by
    intro o; cases o <;> simp [Node.freshChild_Add]
  unfold Node.split
  split
  · rw [Node.mkBinary_Add _ _ _ _ _ _ _ _ _ hbit, hmap]
  · split
    · rw [Node.mkBinary_Add _ _ _ _ _ _ _ _ _ hbit]
      simp [Node.freshChild_Add]
    · split
      · have hnone : FirstDifferenceSubset dp (cp - 1) pr c = none := by
          rw [FirstDifferenceSubset_none]
          intro j hj1 hj2
          exact h4 j hj1 (by omega)
        rw [Node.Add_unary, hnone]
        simp [hfin, Node.mkBinary_Add _ _ _ _ _ _ _ _ _ hbit, hmap]
      · have hnone : FirstDifferenceSubset dp index pr c = none := by
          rw [FirstDifferenceSubset_none]
          intro j hj1 hj2
          exact h4 j hj1 hj2
        rw [Node.Add_unary, hnone]
        simp [hfin, Unary.Clone, Node.mkBinary_Add _ _ _ _ _ _ _ _ _ hbit,
          Node.freshChild_Add]

theorem Node.Add_Add (p : Parameters) (c : ID) (n : Node) :
    (n.Add p c).Add p c = n.Add p c := by
  induction n using Node.induct with
  | unary pr dp cp snow sr child ih =>
    rw [Node.Add_unary]
    by_cases hfin : snow.Finalized = true
    · simp [hfin, Node.Add_unary]
    · have hfin2 : snow.Finalized = false := by simpa using hfin
      simp only [hfin2, Bool.false_eq_true, if_false]
      cases hd : FirstDifferenceSubset dp cp pr c with
      | none =>
        simp only [Node.Add_unary, hfin2, hd, Bool.false_eq_true, if_false]
        cases child with
        | none => rfl
        | some ch => simp [ih ch rfl]
      | some index =>
        exact Node.split_Add p pr dp cp snow sr child c index hfin2 hd
  | binary p0 p1 bit snow sr0 sr1 c0 c1 ih0 ih1 =>
    rw [Node.Add_binary]
    by_cases hb : c.Bit bit = true
    · simp only [hb, if_true, Node.Add_binary]
      cases c1 with
      | none => rfl
      | some ch => simp [ih1 ch rfl]
    · have hb2 : c.Bit bit = false := by simpa using hb
      simp only [hb2, Bool.false_eq_true, if_false, Node.Add_binary]
      cases c0 with
      | none => rfl
      | some ch => simp [ih0 ch rfl]

theorem Tree.Add_eq (t : Tree) (c : ID) :
    t.Add c =
      if EqualSubset 0 t.node.DecidedPrefix t.Preference c then
        { node := t.node.Add t.params c, params := t.params, shouldReset := t.shouldReset }
      else t := rfl

/-- C4: `Add` is idempotent: the tree after `Add(x); Add(x)` is identical (same nodes,
prefixes, preferences, counters and reset flags) to the tree after a single `Add(x)`;
this holds for every tree, in particular for every reachable one. -/
theorem add_idempotent (t : Tree) (x : ID) : (t.Add x).Add x = t.Add x := by
  by_cases h : EqualSubset 0 t.node.DecidedPrefix t.Preference x = true
  · have e : t.Add x = { t with node := t.node.Add t.params x } := by
      simp [Tree.Add, h]
    rw [e, Tree.Add_eq]
    split
    · simp only [Node.Add_Add]
    · rfl
  · have e : t.Add x = t := by simp [Tree.Add, h]
    rw [e, e]

/-! ## Finalization without competition -/

theorem Tree.RecordPoll_eq (t : Tree) (votes : Bag) :
    t.RecordPoll votes =
      ({ node := (t.node.RecordPoll t.params (t.legalVotes votes) t.shouldReset).ret
         params := t.params
         shouldReset := false },
        (t.node.RecordPoll t.params (t.legalVotes votes) t.shouldReset).successful) := rfl

theorem EqualSubset_empty (stop : Nat) (a b : ID) : EqualSubset stop stop a b = true := by
  rw [EqualSubset_iff]; intro i h1 h2; omega

/-- The tree that `NewTree p a` has become after `k` polls that all reached
`alpha_confidence`, for `k` up to `beta_unary`. -/
theorem pollN_fresh (p : Parameters) (a : ID) (n : Nat) (hβ : 1 ≤ p.BetaUnary)
    (hα : p.AlphaPreference ≤ p.AlphaConfidence) (hn : p.AlphaConfidence ≤ n) (k : Nat)
    (hk : k ≤ p.BetaUnary) :
    (NewTree p a).pollN (List.replicate n a) k =
      { node := .unary a 0 NumBits
          { confidence := k, finalized := decide (p.BetaUnary ≤ k) } false none
        params := p
        shouldReset := false } := by
  induction k with
  | zero =>
    have : decide (p.BetaUnary ≤ 0) = false := by simp; omega
    rw [this]
    rfl
  | succ k ih =>
    have hfin : decide (p.BetaUnary ≤ k) = false := by simp; omega
    rw [Tree.pollN, ih (by omega), Tree.RecordPoll_eq]
    have hlegal : ∀ (v : Bag) (s : Unary),
        Tree.legalVotes ⟨.unary a 0 NumBits s false none, p, false⟩ v = v := by
      intro v s
      simp [Tree.legalVotes, Bag.Filter, Node.DecidedPrefix, EqualSubset_empty]
    simp only [hlegal, Node.RecordPoll_unary, Bag.Len, List.length_replicate]
    rw [if_neg (by omega)]
    simp [Node.unaryFinish, Unary.RecordPoll, hfin, hn, Unary.Finalized]

/-- C6: with `beta_unary >= 1` and `alpha_preference <= alpha_confidence`, a tree freshly
created on `a` that receives `beta_unary` consecutive polls of `n >= alpha_confidence`
votes for `a` returns true on every call, is not finalized after fewer than
`beta_unary` calls, and is finalized with preference `a` after the last one. -/
theorem finalize_without_competition (p : Parameters) (a : ID) (n : Nat)
    (hβ : 1 ≤ p.BetaUnary) (hα : p.AlphaPreference ≤ p.AlphaConfidence)
    (hn : p.AlphaConfidence ≤ n) :
    (∀ k, k < p.BetaUnary →
      (((NewTree p a).pollN (List.replicate n a) k).RecordPoll (List.replicate n a)).2 = true) ∧
    (∀ k, k < p.BetaUnary →
      ((NewTree p a).pollN (List.replicate n a) k).Finalized = false) ∧
    ((NewTree p a).pollN (List.replicate n a) p.BetaUnary).Finalized = true ∧
    ((NewTree p a).pollN (List.replicate n a) p.BetaUnary).Preference = a := by
  refine ⟨?_, ?_, ?_, ?_⟩
  · intro k hk
    rw [pollN_fresh p a n hβ hα hn k (by omega), Tree.RecordPoll_eq,
      Node.RecordPoll_successful]
    simp only [Tree.legalVotes, Bag.Filter, Node.DecidedPrefix, EqualSubset_empty,
      List.filter_true, Bag.Len, List.length_replicate, decide_eq_true_eq]
    omega
  · intro k hk
    rw [pollN_fresh p a n hβ hα hn k (by omega)]
    simp [Tree.Finalized, Node.Finalized, Unary.Finalized]
    omega
  · rw [pollN_fresh p a n hβ hα hn _ (le_refl _)]
    simp [Tree.Finalized, Node.Finalized, Unary.Finalized]
  · rw [pollN_fresh p a n hβ hα hn _ (le_refl _)]
    rfl

/-- Scenario S1 for C6: K = 5, alpha = 3, beta = 2 and two polls of five votes for the
zero id. -/
theorem finalize_without_competition_witness :
    (∀ k, k < 2 →
      (((NewTree scenarioParams idZero).pollN (List.replicate 5 idZero) k).RecordPoll
        (List.replicate 5 idZero)).2 = true) ∧
    (∀ k, k < 2 →
      ((NewTree scenarioParams idZero).pollN (List.replicate 5 idZero) k).Finalized = false) ∧
    ((NewTree scenarioParams idZero).pollN (List.replicate 5 idZero) 2).Finalized = true ∧
    ((NewTree scenarioParams idZero).pollN (List.replicate 5 idZero) 2).Preference = idZero :=
  finalize_without_competition scenarioParams idZero 5 (by decide) (by decide) (by decide)

/-! ## Finalization on a competing choice -/

theorem Unary.polled_succ (p : Parameters) (k n : Nat) (s : Unary) (h : s.polled p k)
    (hn : p.AlphaConfidence ≤ n) : (s.RecordPoll p n).polled p (k + 1) := by
  obtain ⟨h1, h2⟩ := h
  unfold Unary.RecordPoll
  cases hf : s.finalized with
  | true =>
    rw [hf] at h1
    have : 1 ≤ k ∧ p.BetaUnary ≤ k := by simpa using h1.symm
    simp only [hn, if_true, Bool.true_or]
    refine ⟨?_, ?_⟩
    · symm; simp; omega
    · intro h; cases h
  | false =>
    have hc := h2 hf
    simp only [hn, if_true, hc, Bool.false_or]
    refine ⟨?_, fun _ => rfl⟩
    simp

theorem Binary.polledSide_succ (p : Parameters) (k n : Nat) (side : Bool) (s : Binary)
    (h : s.polled p k side) (hn : p.AlphaConfidence ≤ n) :
    (s.RecordPoll p n side).polled p (k + 1) side := by
  obtain ⟨h1, h2, h3⟩ := h
  unfold Binary.RecordPoll
  cases hf : s.finalized with
  | true =>
    rw [hf] at h1
    have hk : 1 ≤ k ∧ p.BetaBinary ≤ k := by simpa using h1.symm
    simp only [if_true]
    refine ⟨?_, ?_, fun _ => h3 hk.1⟩
    · rw [hf]; symm; simp; omega
    · intro h; rw [hf] at h; cases h
  | false =>
    have hc := h2 hf
    rw [hf] at h1
    simp only [Bool.false_eq_true, if_false, hn, if_true]
    by_cases hs : side = s.preference
    · rw [if_pos hs]
      cases side with
      | false =>
        have hc0 : s.confidence0 = k := hc
        refine ⟨?_, fun _ => ?_, fun _ => rfl⟩
        · simp [hc0]
        · simp [sel, hc0]
      | true =>
        have hc1 : s.confidence1 = k := hc
        refine ⟨?_, fun _ => ?_, fun _ => rfl⟩
        · simp [hc1]
        · simp [sel, hc1]
    · rw [if_neg hs]
      have hk : k = 0 := by
        by_contra hne
        exact hs (h3 (by omega)).symm
      subst hk
      refine ⟨?_, ?_, fun _ => rfl⟩
      · simp
      · intro _
        cases side <;> simp [sel]

theorem Bag.filter_replicate_bit (n : Nat) (b : ID) (bit : Nat) :
    (Bag.Filter (List.replicate n b) fun x => x.Bit bit) =
      (if b.Bit bit then List.replicate n b else []) ∧
    (Bag.Filter (List.replicate n b) fun x => !x.Bit bit) =
      (if b.Bit bit then [] else List.replicate n b) := by
  unfold Bag.Filter
  cases h : b.Bit bit <;> simp [List.filter_replicate, h]

theorem Node.leadLeaf_step (p : Parameters) (b : ID) (k n : Nat) (u : Node)
    (h : u.leadLeaf p b k) (hα : p.AlphaPreference ≤ p.AlphaConfidence)
    (hn : p.AlphaConfidence ≤ n) :
    (u.RecordPoll p (List.replicate n b) false).self =
        (u.RecordPoll p (List.replicate n b) false).ret ∧
      (u.RecordPoll p (List.replicate n b) false).ret.leadLeaf p b (k + 1) := by
  cases u with
  | binary p0 p1 bit snow sr0 sr1 c0 c1 => exact h.elim
  | unary pr dp cp snow sr child =>
    obtain ⟨rfl, hs, rfl, rfl⟩ := h
    rw [Node.RecordPoll_unary, if_neg (by simp [Bag.Len]; omega)]
    simp only [Node.unaryFinish, Option.map_none', Bool.false_eq_true, if_false, Bool.or_self,
      true_and]
    exact ⟨rfl, Unary.polled_succ p k _ snow hs (by simp [Bag.Len]; omega), rfl, rfl⟩

theorem Node.leadLeaf_Preference (p : Parameters) (b : ID) (k : Nat) (u : Node)
    (h : u.leadLeaf p b k) : u.Preference = b := by
  cases u with
  | unary pr dp cp sn sr ch => exact h.1
  | binary _ _ _ _ _ _ _ _ => exact h.elim

theorem Node.leadBinary_step (p : Parameters) (b : ID) (k n : Nat) (bin : Node)
    (h : bin.leadBinary p b k) (hα1 : 1 ≤ p.AlphaPreference)
    (hα : p.AlphaPreference ≤ p.AlphaConfidence) (hn : p.AlphaConfidence ≤ n) :
    (decide (1 ≤ k + 1 ∧ p.BetaBinary ≤ k + 1) = false →
      (bin.RecordPoll p (List.replicate n b) false).self =
          (bin.RecordPoll p (List.replicate n b) false).ret ∧
        (bin.RecordPoll p (List.replicate n b) false).ret.leadBinary p b (k + 1)) ∧
    (bin.RecordPoll p (List.replicate n b) false).ret.Preference = b ∧
    ((bin.RecordPoll p (List.replicate n b) false).ret.leadLeaf p b (k + 1) ∨
      (bin.RecordPoll p (List.replicate n b) false).ret.leadBinary p b (k + 1)) := by
  cases bin with
  | unary pr dp cp snow sr child => exact h.elim
  | binary p0 p1 bit snow sr0 sr1 c0 c1 =>
    obtain ⟨hp, hs, hsr, hc⟩ := h
    have hlen : Bag.Len (List.replicate n b) = n := by simp [Bag.Len]
    have hs1 := Binary.polledSide_succ p k n (b.Bit bit) snow hs hn
    rw [Node.RecordPoll_binary, (Bag.filter_replicate_bit n b bit).1,
      (Bag.filter_replicate_bit n b bit).2]
    obtain ⟨s, hb⟩ : ∃ s, b.Bit bit = s := ⟨_, rfl⟩
    rw [hb] at hp hsr hc hs1
    rw [hb]
    cases s with
    | false =>
      simp only [sel_false] at hp hsr hc hs1
      have hd : decide (p.AlphaPreference ≤ Bag.Len ([] : List ID)) = false := by
        simp [Bag.Len]; omega
      simp only [Bool.false_eq_true, if_false, hd, sel_false, hlen, Bool.false_or, hsr]
      rw [if_neg (by omega)]
      generalize snow.RecordPoll p n false = snow1 at hs1
      obtain ⟨hf1, hconf1, hpref1⟩ := hs1
      have hpref : snow1.preference = false := hpref1 (by omega)
      rcases hc with hnone | ⟨leaf, hsome, hleaf⟩
      · subst hnone
        have key : (Node.binary p0 p1 bit snow1 false true none c1).leadBinary p b (k + 1) := by
          simp only [Node.leadBinary]
          rw [hb]
          exact ⟨hp, ⟨hf1, hconf1, hpref1⟩, rfl, Or.inl rfl⟩
        have e : Node.binaryFinish false p0 p1 bit snow1 false none c1
            (Option.map (fun c : Node => c.RecordPoll p (List.replicate n b) false) none) =
            ⟨.binary p0 p1 bit snow1 false true none c1,
              .binary p0 p1 bit snow1 false true none c1, true⟩ := rfl
        rw [e]
        refine ⟨fun _ => ⟨rfl, key⟩, ?_, Or.inr key⟩
        simp [Node.Preference, Binary.Preference, hpref, hp]
      · subst hsome
        have hl := Node.leadLeaf_step p b k n leaf hleaf hα hn
        simp only [Option.map_some', Node.binaryFinish, Bool.false_eq_true, if_false]
        generalize leaf.RecordPoll p (List.replicate n b) false = r at hl
        obtain ⟨hself, hret⟩ := hl
        have hretp : r.ret.Preference = b := Node.leadLeaf_Preference p b _ _ hret
        cases hfin : snow1.Finalized with
        | true =>
          simp only [if_true]
          refine ⟨fun h => ?_, hretp, Or.inl hret⟩
          rw [Binary.Finalized, hf1] at hfin
          rw [hfin] at h
          cases h
        | false =>
          simp only [Bool.false_eq_true, if_false]
          have key : (Node.binary r.ret.Preference p1 bit snow1 false true (some r.self)
              c1).leadBinary p b (k + 1) := by
            simp only [Node.leadBinary]
            rw [hb]
            exact ⟨hretp, ⟨hf1, hconf1, hpref1⟩, rfl, Or.inr ⟨_, rfl, hself ▸ hret⟩⟩
          refine ⟨fun _ => ⟨trivial, key⟩, ?_, Or.inr key⟩
          simp only [Node.Preference, Binary.Preference, hpref, sel_false]
          exact hretp
    | true =>
      simp only [sel_true] at hp hsr hc hs1
      have hd : decide (p.AlphaPreference ≤ n) = true := by
        simp; omega
      simp only [if_true, hlen, hd, sel_true, Bool.false_or, hsr, Bool.false_eq_true, if_false]
      rw [if_neg (by omega)]
      generalize snow.RecordPoll p n true = snow1 at hs1
      obtain ⟨hf1, hconf1, hpref1⟩ := hs1
      have hpref : snow1.preference = true := hpref1 (by omega)
      rcases hc with hnone | ⟨leaf, hsome, hleaf⟩
      · subst hnone
        have key : (Node.binary p0 p1 bit snow1 true false c0 none).leadBinary p b (k + 1) := by
          simp only [Node.leadBinary]
          rw [hb]
          exact ⟨hp, ⟨hf1, hconf1, hpref1⟩, rfl, Or.inl rfl⟩
        have e : Node.binaryFinish true p0 p1 bit snow1 false c0 none
            (Option.map (fun c : Node => c.RecordPoll p (List.replicate n b) false) none) =
            ⟨.binary p0 p1 bit snow1 true false c0 none,
              .binary p0 p1 bit snow1 true false c0 none, true⟩ := rfl
        rw [e]
        refine ⟨fun _ => ⟨rfl, key⟩, ?_, Or.inr key⟩
        simp [Node.Preference, Binary.Preference, hpref, hp]
      · subst hsome
        have hl := Node.leadLeaf_step p b k n leaf hleaf hα hn
        simp only [Option.map_some', Node.binaryFinish, if_true]
        generalize leaf.RecordPoll p (List.replicate n b) false = r at hl
        obtain ⟨hself, hret⟩ := hl
        have hretp : r.ret.Preference = b := Node.leadLeaf_Preference p b _ _ hret
        cases hfin : snow1.Finalized with
        | true =>
          simp only [if_true]
          refine ⟨fun h => ?_, hretp, Or.inl hret⟩
          rw [Binary.Finalized, hf1] at hfin
          rw [hfin] at h
          cases h
        | false =>
          simp only [Bool.false_eq_true, if_false]
          have key : (Node.binary p0 r.ret.Preference bit snow1 true false c0
              (some r.self)).leadBinary p b (k + 1) := by
            simp only [Node.leadBinary]
            rw [hb]
            exact ⟨hretp, ⟨hf1, hconf1, hpref1⟩, rfl, Or.inr ⟨_, rfl, hself ▸ hret⟩⟩
          refine ⟨fun _ => ⟨trivial, key⟩, ?_, Or.inr key⟩
          simp only [Node.Preference, Binary.Preference, hpref, sel_true]
          exact hretp

theorem Node.leadTop_step (p : Parameters) (b : ID) (k n : Nat) (u : Node)
    (h : u.leadTop p b k) (hα1 : 1 ≤ p.AlphaPreference)
    (hα : p.AlphaPreference ≤ p.AlphaConfidence) (hn : p.AlphaConfidence ≤ n)
    (hβ : p.BetaUnary ≤ p.BetaBinary) :
    (u.RecordPoll p (List.replicate n b) false).ret.Preference = b ∧
    ((u.RecordPoll p (List.replicate n b) false).ret.leadLeaf p b (k + 1) ∨
      (u.RecordPoll p (List.replicate n b) false).ret.leadBinary p b (k + 1) ∨
      (u.RecordPoll p (List.replicate n b) false).ret.leadTop p b (k + 1)) := by
  cases u with
  | binary p0 p1 bit snow sr0 sr1 c0 c1 => exact h.elim
  | unary pr dp cp snow sr child =>
    obtain ⟨hs, hnf, rfl, hpr, bin, rfl, hbin⟩ := h
    have hs1 := Unary.polled_succ p k n snow hs hn
    have hb := Node.leadBinary_step p b k n bin hbin hα1 hα hn
    rw [Node.RecordPoll_unary, if_neg (by simp [Bag.Len]; omega)]
    simp only [Bool.false_eq_true, if_false, Bool.or_self, Option.map_some', Node.unaryFinish,
      Bag.Len, List.length_replicate]
    generalize snow.RecordPoll p n = snow1 at hs1
    generalize bin.RecordPoll p (List.replicate n b) false = r at hb
    obtain ⟨hb1, hb2, hb3⟩ := hb
    cases hfin : snow1.Finalized with
    | true =>
      simp only [if_true]
      rcases hb3 with h3 | h3
      · exact ⟨hb2, Or.inl h3⟩
      · exact ⟨hb2, Or.inr (Or.inl h3)⟩
    | false =>
      simp only [Bool.false_eq_true, if_false]
      have hfin1 : snow1.finalized = false := hfin
      have hk : decide (1 ≤ k + 1 ∧ p.BetaBinary ≤ k + 1) = false := by
        have := hs1.1
        rw [hfin1] at this
        have h2 : ¬ (1 ≤ k + 1 ∧ p.BetaUnary ≤ k + 1) := by simpa using this.symm
        simp only [decide_eq_false_iff_not]
        omega
      obtain ⟨hself, hlead⟩ := hb1 hk
      rw [hself]
      refine ⟨hb2, Or.inr (Or.inr ?_)⟩
      simp only [Node.leadTop]
      exact ⟨hs1, hfin1, trivial, fun _ => hb2, _, rfl, hlead⟩

theorem Tree.legalVotes_replicate (t : Tree) (b : ID) (n : Nat)
    (h : t.node.DecidedPrefix = 0 ∨ t.Preference = b) :
    t.legalVotes (List.replicate n b) = List.replicate n b := by
  have : EqualSubset 0 t.node.DecidedPrefix t.Preference b = true := by
    rcases h with h | h
    · rw [h]; exact EqualSubset_empty 0 _ _
    · rw [h, EqualSubset_iff]; intros; rfl
  simp [Tree.legalVotes, Bag.Filter, List.filter_replicate, this]

theorem Node.leadRoot_step (p : Parameters) (b : ID) (k n : Nat) (t : Tree)
    (h : t.node.leadRoot p b k) (hp : t.params = p) (hsr : t.shouldReset = false)
    (hα1 : 1 ≤ p.AlphaPreference) (hα : p.AlphaPreference ≤ p.AlphaConfidence)
    (hn : p.AlphaConfidence ≤ n) (hβ : p.BetaUnary ≤ p.BetaBinary) :
    (t.RecordPoll (List.replicate n b)).1.node.leadRoot p b (k + 1) ∧
      (t.RecordPoll (List.replicate n b)).1.params = p ∧
      (t.RecordPoll (List.replicate n b)).1.shouldReset = false := by
  obtain ⟨h1, h2⟩ := h
  rw [Tree.RecordPoll_eq, Tree.legalVotes_replicate t b n h1, hp, hsr]
  refine ⟨?_, rfl, rfl⟩
  show Node.leadRoot p b (k + 1) (t.node.RecordPoll p (List.replicate n b) false).ret
  rcases h2 with h2 | h2 | h2
  · have := Node.leadLeaf_step p b k n _ h2 hα hn
    exact ⟨Or.inr (Node.leadLeaf_Preference p b _ _ this.2), Or.inl this.2⟩
  · have := Node.leadBinary_step p b k n _ h2 hα1 hα hn
    refine ⟨Or.inr this.2.1, ?_⟩
    rcases this.2.2 with h3 | h3
    · exact Or.inl h3
    · exact Or.inr (Or.inl h3)
  · have := Node.leadTop_step p b k n _ h2 hα1 hα hn hβ
    exact ⟨Or.inr this.1, this.2⟩

theorem Node.mkBinary_leadBinary (p : Parameters) (bit : Bool) (a b : ID) (index k : Nat)
    (snow : Binary) (childBit childOther : Option Node) (hb : b.Bit index = !bit)
    (hs : snow.polled p k (!bit))
    (hc : childOther = none ∨ ∃ leaf, childOther = some leaf ∧ leaf.leadLeaf p b k) :
    (Node.mkBinary bit a b index snow false childBit childOther).leadBinary p b k := by
  cases bit with
  | false =>
    simp only [Node.mkBinary, Bool.false_eq_true, if_false, Node.leadBinary]
    rw [hb]
    exact ⟨rfl, hs, rfl, hc⟩
  | true =>
    simp only [Node.mkBinary, if_true, Node.leadBinary]
    rw [hb]
    exact ⟨rfl, hs, rfl, hc⟩

theorem Node.mkBinary_DecidedPrefix (bit : Bool) (a b : ID) (index : Nat) (snow : Binary)
    (sr : Bool) (childBit childOther : Option Node) :
    (Node.mkBinary bit a b index snow sr childBit childOther).DecidedPrefix = index := by
  cases bit <;> rfl

theorem NewUnary_polled (p : Parameters) : (NewUnary p).polled p 0 := by
  refine ⟨?_, fun _ => rfl⟩
  simp [NewUnary]

theorem NewUnary_Extend_polled (p : Parameters) (bit side : Bool) :
    ((NewUnary p).Extend bit).polled p 0 side := by
  refine ⟨?_, fun _ => ?_, fun h => by omega⟩
  · simp [NewUnary, Unary.Extend]
  · cases bit <;> cases side <;> rfl

theorem Node.freshChild_leadLeaf (p : Parameters) (b : ID) (index : Nat) :
    (Node.freshChild p b index).leadLeaf p b 0 :=
  ⟨rfl, NewUnary_polled p, rfl, rfl⟩

theorem NewTree_Add_leadRoot (p : Parameters) (a b : ID) (hab : b ≠ a) :
    ((NewTree p a).Add b).node.leadRoot p b 0 ∧ ((NewTree p a).Add b).params = p ∧
      ((NewTree p a).Add b).shouldReset = false := by
  have hg : EqualSubset 0 (NewTree p a).node.DecidedPrefix (NewTree p a).Preference b = true :=
    EqualSubset_empty 0 _ _
  rw [Tree.Add_eq, if_pos hg]
  refine ⟨?_, rfl, rfl⟩
  show Node.leadRoot p b 0 (Node.Add p (.unary a 0 NumBits (NewUnary p) false none) b)
  rw [Node.Add_unary]
  have hnf : (NewUnary p).Finalized = false := rfl
  rw [hnf]
  simp only [Bool.false_eq_true, if_false]
  cases hd : FirstDifferenceSubset 0 NumBits a b with
  | none =>
    exfalso
    rw [FirstDifferenceSubset_none] at hd
    exact hab (ID.ext_bits b a fun i hi => (hd i (Nat.zero_le _) hi).symm)
  | some i =>
    rw [FirstDifferenceSubset_some] at hd
    obtain ⟨_, hi, hne, _⟩ := hd
    have hb : b.Bit i = !a.Bit i := by
      cases h1 : a.Bit i <;> cases h2 : b.Bit i <;> simp_all
    have hN : NumBits = 256 := rfl
    simp only [Node.split, hN]
    rw [if_neg (by omega)]
    by_cases h0 : i = 0
    · rw [if_pos h0]
      refine ⟨Or.inl (Node.mkBinary_DecidedPrefix _ _ _ _ _ _ _ _ ▸ h0), Or.inr (Or.inl ?_)⟩
      exact Node.mkBinary_leadBinary p _ a b i 0 _ _ _ hb (NewUnary_Extend_polled p _ _)
        (Or.inr ⟨_, rfl, Node.freshChild_leadLeaf p b i⟩)
    · rw [if_neg h0]
      by_cases h255 : i = 256 - 1
      · rw [if_pos h255]
        refine ⟨Or.inl rfl, Or.inr (Or.inr ?_)⟩
        simp only [Node.leadTop]
        exact ⟨NewUnary_polled p, rfl, trivial, fun h => by omega, _, rfl,
          Node.mkBinary_leadBinary p _ a b i 0 _ _ _ hb (NewUnary_Extend_polled p _ _)
            (Or.inl rfl)⟩
      · rw [if_neg h255]
        refine ⟨Or.inl rfl, Or.inr (Or.inr ?_)⟩
        simp only [Node.leadTop]
        exact ⟨NewUnary_polled p, rfl, trivial, fun h => by omega, _, rfl,
          Node.mkBinary_leadBinary p _ a b i 0 _ _ _ hb (NewUnary_Extend_polled p _ _)
            (Or.inr ⟨_, rfl, Node.freshChild_leadLeaf p b i⟩)⟩

theorem pollN_leadRoot (p : Parameters) (a b : ID) (n : Nat) (hab : b ≠ a)
    (hα1 : 1 ≤ p.AlphaPreference) (hα : p.AlphaPreference ≤ p.AlphaConfidence)
    (hn : p.AlphaConfidence ≤ n) (hβ : p.BetaUnary ≤ p.BetaBinary) (k : Nat) :
    (((NewTree p a).Add b).pollN (List.replicate n b) k).node.leadRoot p b k ∧
      (((NewTree p a).Add b).pollN (List.replicate n b) k).params = p ∧
      (((NewTree p a).Add b).pollN (List.replicate n b) k).shouldReset = false := by
  induction k with
  | zero => exact NewTree_Add_leadRoot p a b hab
  | succ k ih =>
    exact Node.leadRoot_step p b k n _ ih.1 ih.2.1 ih.2.2 hα1 hα hn hβ

theorem Node.leadRoot_final (p : Parameters) (b : ID) (k : Nat) (n : Node)
    (h : n.leadRoot p b k) (hk : 1 ≤ k) (hu : p.BetaUnary ≤ k) (hb : p.BetaBinary ≤ k) :
    n.Finalized = true ∧ n.Preference = b := by
  obtain ⟨_, h2⟩ := h
  cases n with
  | unary pr dp cp snow sr child =>
    rcases h2 with h2 | h2 | h2
    · obtain ⟨rfl, hs, _, _⟩ := h2
      refine ⟨?_, rfl⟩
      rw [Node.Finalized, Unary.Finalized, hs.1]
      simp; omega
    · exact h2.elim
    · obtain ⟨hs, hnf, _⟩ := h2
      rw [hs.1] at hnf
      have : ¬ (1 ≤ k ∧ p.BetaUnary ≤ k) := by simpa using hnf
      omega
  | binary p0 p1 bit snow sr0 sr1 c0 c1 =>
    rcases h2 with h2 | h2 | h2
    · exact h2.elim
    · obtain ⟨hp, hs, _, _⟩ := h2
      refine ⟨?_, ?_⟩
      · rw [Node.Finalized, Binary.Finalized, hs.1]
        simp; omega
      · rw [Node.Preference, Binary.Preference, hs.2.2 hk]
        exact hp
    · exact h2.elim

/-- C7 (as amended): with `beta_binary >= 1`, `1 <= alpha_preference <= alpha_confidence`
and `beta_unary <= beta_binary`, a tree freshly created on `a`, followed by `Add(b)` for
any `b != a` and by `beta_binary` consecutive polls of `n >= alpha_confidence` votes for
`b`, is finalized with preference `b`. -/
theorem finalize_on_competitor (p : Parameters) (a b : ID) (n : Nat)
    (hβ1 : 1 ≤ p.BetaBinary) (hα1 : 1 ≤ p.AlphaPreference)
    (hα : p.AlphaPreference ≤ p.AlphaConfidence) (hβ : p.BetaUnary ≤ p.BetaBinary)
    (hab : b ≠ a) (hn : p.AlphaConfidence ≤ n) :
    (((NewTree p a).Add b).pollN (List.replicate n b) p.BetaBinary).Finalized = true ∧
    (((NewTree p a).Add b).pollN (List.replicate n b) p.BetaBinary).Preference = b :=
  Node.leadRoot_final p b p.BetaBinary _
    (pollN_leadRoot p a b n hab hα1 hα hn hβ p.BetaBinary).1 hβ1 hβ (le_refl _)

/-- Scenario S2 for C7: `a = 1000...0`, `b = 0000...0`, alpha = 3, beta = 2 and polls of
three votes for `b`. -/
theorem finalize_on_competitor_witness :
    (((NewTree scenarioParams idOne).Add idZero).pollN (List.replicate 3 idZero) 2).Finalized
        = true ∧
    (((NewTree scenarioParams idOne).Add idZero).pollN (List.replicate 3 idZero) 2).Preference
        = idZero :=
  finalize_on_competitor scenarioParams idOne idZero 3 (by decide) (by decide) (by decide)
    (by decide) (by decide) (by decide)

/-- Counterexample to C7 as stated: with `alpha_preference = 0` (and beta = 2,
`alpha_confidence = 3`) the binary node polls side 1 whatever the votes are, so after
`Add(0000...0)` to a tree on `1000...0` two polls of three votes for `0000...0` leave the
tree not finalized and still preferring `1000...0`. -/
theorem finalize_on_competitor_fails_alpha_zero :
    1 ≤ zeroAlphaParams.BetaBinary ∧
    zeroAlphaParams.AlphaPreference ≤ zeroAlphaParams.AlphaConfidence ∧
    zeroAlphaParams.BetaUnary ≤ zeroAlphaParams.BetaBinary ∧
    idZero ≠ idOne ∧ zeroAlphaParams.AlphaConfidence ≤ 3 ∧
    (((NewTree zeroAlphaParams idOne).Add idZero).pollN (List.replicate 3 idZero)
      zeroAlphaParams.BetaBinary).Finalized = false ∧
    (((NewTree zeroAlphaParams idOne).Add idZero).pollN (List.replicate 3 idZero)
      zeroAlphaParams.BetaBinary).Preference = idOne := by
  decide

/-! ## Votes for unknown ids -/

/-- C8 (as amended): the votes that `Tree.RecordPoll` discards are those for ids that
disagree with the preference on the decided prefix.  Whenever every vote outside a set
`known` of ids is of that kind, the poll on the bag and the poll on the bag restricted
to `known` return the same boolean and leave the same tree. -/
theorem recordPoll_discards_rejected_votes (t : Tree) (votes : Bag) (known : ID → Bool)
    (h : ∀ v ∈ votes, known v = false →
      EqualSubset 0 t.node.DecidedPrefix t.Preference v = false) :
    t.RecordPoll votes = t.RecordPoll (votes.Filter known) := by
  have e : t.legalVotes (votes.Filter known) = t.legalVotes votes := by
    simp only [Tree.legalVotes, Bag.Filter, List.filter_filter]
    apply List.filter_congr
    intro v hv
    cases hk : known v with
    | true => simp
    | false => simp [h v hv hk]
  rw [Tree.RecordPoll_eq, Tree.RecordPoll_eq, e]

/-- Scenario S5 for C8: once bit 0 is decided for `0...0`, three votes for the id
`1100...0`, which was never added, are discarded. -/
theorem recordPoll_discards_rejected_votes_witness :
    (∀ v ∈ List.replicate 3 idThree ++ List.replicate 5 idZero,
      (fun x => decide (x ∈ [idZero, idOne])) v = false →
      EqualSubset 0 scenarioS5.node.DecidedPrefix scenarioS5.Preference v = false) ∧
    scenarioS5.RecordPoll (List.replicate 3 idThree ++ List.replicate 5 idZero) =
      scenarioS5.RecordPoll
        (Bag.Filter (List.replicate 3 idThree ++ List.replicate 5 idZero)
          fun x => decide (x ∈ [idZero, idOne])) :=
  ⟨by decide,
    recordPoll_discards_rejected_votes scenarioS5
      (List.replicate 3 idThree ++ List.replicate 5 idZero)
      (fun x => decide (x ∈ [idZero, idOne])) (by decide)⟩

/-- Counterexample to C8 as stated: in the tree freshly created on `0...0` the id
`1000...0` was never added, yet three votes for it make `RecordPoll` return true and
raise the confidence of the root counter to 1, while the poll on the bag without them
(the empty bag) returns false and leaves the confidence at 0. -/
theorem recordPoll_counts_unknown_votes :
    Bag.Filter (List.replicate 3 idOne) (fun x => decide (x ∈ [idZero])) = [] ∧
    ((NewTree scenarioParams idZero).RecordPoll (List.replicate 3 idOne)).2 = true ∧
    ((NewTree scenarioParams idZero).RecordPoll
      (Bag.Filter (List.replicate 3 idOne) fun x => decide (x ∈ [idZero]))).2 = false ∧
    ((NewTree scenarioParams idZero).RecordPoll (List.replicate 3 idOne)).1.node =
      .unary idZero 0 256 { confidence := 1, finalized := false } false none ∧
    ((NewTree scenarioParams idZero).RecordPoll
      (Bag.Filter (List.replicate 3 idOne) fun x => decide (x ∈ [idZero]))).1.node =
      .unary idZero 0 256 { confidence := 0, finalized := false } true none := by
  refine ⟨by decide, by decide, by decide, rfl, rfl⟩

/-! ## The structural invariant -/

theorem ID.agree_refl (a : ID) (stop : Nat) : a.agree a stop := fun _ _ => rfl

theorem ID.agree_symm {a b : ID} {stop : Nat} (h : a.agree b stop) : b.agree a stop :=
  fun i hi => (h i hi).symm

theorem ID.agree_trans {a b c : ID} {stop : Nat} (h1 : a.agree b stop) (h2 : b.agree c stop) :
    a.agree c stop :=
  fun i hi => (h1 i hi).trans (h2 i hi)

theorem ID.agree_mono {a b : ID} {stop stop2 : Nat} (h : a.agree b stop) (hle : stop2 ≤ stop) :
    a.agree b stop2 :=
  fun i hi => h i (by omega)

theorem ID.agree_succ {a b : ID} {stop : Nat} (h : a.agree b stop)
    (hb : a.Bit stop = b.Bit stop) : a.agree b (stop + 1) := by
  intro i hi
  by_cases h1 : i = stop
  · subst h1; exact hb
  · exact h i (by omega)

theorem EqualSubset_zero_iff (stop : Nat) (a b : ID) :
    EqualSubset 0 stop a b = true ↔ a.agree b stop := by
  rw [EqualSubset_iff]
  exact ⟨fun h i hi => h i (Nat.zero_le _) hi, fun h i _ hi => h i hi⟩

theorem ID.agree_extend {a b : ID} {start stop : Nat} (h : a.agree b start)
    (h2 : ∀ j, start ≤ j → j < stop → a.Bit j = b.Bit j) : a.agree b stop := by
  intro i hi
  by_cases h1 : i < start
  · exact h i h1
  · exact h2 i (by omega) hi

theorem ID.eq_of_agree {a b : ID} (h : a.agree b NumBits) : a = b :=
  ID.ext_bits a b h

theorem Node.mkBinary_Preference (bit : Bool) (pr c : ID) (index : Nat) (snow : Unary)
    (sr : Bool) (childBit childOther : Option Node) :
    (Node.mkBinary bit pr c index (snow.Extend bit) sr childBit childOther).Preference = pr := by
  cases bit <;> rfl

theorem Node.mkBinary_Finalized (bit : Bool) (pr c : ID) (index : Nat) (snow : Unary)
    (sr : Bool) (childBit childOther : Option Node) :
    (Node.mkBinary bit pr c index (snow.Extend bit) sr childBit childOther).Finalized =
      snow.Finalized := by
  cases bit <;> rfl

theorem Node.split_facts (p : Parameters) (pr : ID) (dp cp : Nat) (snow : Unary) (sr : Bool)
    (child : Option Node) (c : ID) (index : Nat)
    (h : FirstDifferenceSubset dp cp pr c = some index) :
    (Node.split p pr dp cp snow sr child c index).DecidedPrefix = dp ∧
    (Node.split p pr dp cp snow sr child c index).Preference = pr ∧
    (Node.split p pr dp cp snow sr child c index).Finalized = snow.Finalized := by
  rw [FirstDifferenceSubset_some] at h
  obtain ⟨h1, h2, _, _⟩ := h
  unfold Node.split
  split
  · exact ⟨by rw [Node.mkBinary_DecidedPrefix]; omega, Node.mkBinary_Preference _ _ _ _ _ _ _ _,
      Node.mkBinary_Finalized _ _ _ _ _ _ _ _⟩
  · split
    · exact ⟨by rw [Node.mkBinary_DecidedPrefix]; omega,
        Node.mkBinary_Preference _ _ _ _ _ _ _ _, Node.mkBinary_Finalized _ _ _ _ _ _ _ _⟩
    · split
      · exact ⟨rfl, rfl, rfl⟩
      · exact ⟨rfl, rfl, rfl⟩

theorem Node.Add_facts (p : Parameters) (c : ID) (n : Node) :
    (n.Add p c).DecidedPrefix = n.DecidedPrefix ∧ (n.Add p c).Preference = n.Preference ∧
      (n.Add p c).Finalized = n.Finalized := by
  cases n with
  | unary pr dp cp snow sr child =>
    rw [Node.Add_unary]
    split
    · exact ⟨rfl, rfl, rfl⟩
    · split
      · exact ⟨rfl, rfl, rfl⟩
      · next index hd => exact Node.split_facts p pr dp cp snow sr child c index hd
  | binary p0 p1 bit snow sr0 sr1 c0 c1 =>
    rw [Node.Add_binary]
    split <;> exact ⟨rfl, rfl, rfl⟩

theorem Node.WF_unary (pr : ID) (dp cp : Nat) (snow : Unary) (sr : Bool)
    (child : Option Node) :
    (Node.unary pr dp cp snow sr child).WF ↔
      dp < cp ∧ cp ≤ NumBits ∧ (child = none → cp = NumBits) ∧
        ∀ c, child = some c → c.DecidedPrefix = cp ∧ pr.agree c.Preference cp ∧ c.WF := by
  cases child <;> simp [Node.WF]

theorem Node.WF_binary (p0 p1 : ID) (bit : Nat) (snow : Binary) (sr0 sr1 : Bool)
    (c0 c1 : Option Node) :
    (Node.binary p0 p1 bit snow sr0 sr1 c0 c1).WF ↔
      bit < NumBits ∧ p0.agree p1 bit ∧ p0.Bit bit = false ∧ p1.Bit bit = true ∧
        c0.isSome = c1.isSome ∧ (c0 = none → bit + 1 = NumBits) ∧
        (∀ c, c0 = some c →
          c.DecidedPrefix = bit + 1 ∧ p0.agree c.Preference (bit + 1) ∧ c.WF) ∧
        (∀ c, c1 = some c →
          c.DecidedPrefix = bit + 1 ∧ p1.agree c.Preference (bit + 1) ∧ c.WF) := by
  cases c0 <;> cases c1 <;> simp [Node.WF]

theorem Node.WF_DecidedPrefix_lt (n : Node) (h : n.WF) : n.DecidedPrefix < NumBits := by
  cases n with
  | unary pr dp cp snow sr child =>
    rw [Node.WF_unary] at h
    obtain ⟨h1, h2, _⟩ := h
    show dp < NumBits
    omega
  | binary p0 p1 bit snow sr0 sr1 c0 c1 =>
    rw [Node.WF_binary] at h
    exact h.1

theorem Node.freshChild_WF (p : Parameters) (c : ID) (index : Nat) (h : index + 1 < NumBits) :
    (Node.freshChild p c index).WF := by
  unfold Node.freshChild
  rw [Node.WF_unary]
  exact ⟨h, le_refl _, fun _ => rfl, fun c h => by cases h⟩

theorem Node.mkBinary_WF (bit : Bool) (pr c : ID) (index : Nat) (snow : Binary) (sr : Bool)
    (childBit childOther : Option Node) (hi : index < NumBits) (ha : pr.agree c index)
    (hpb : pr.Bit index = bit) (hcb : c.Bit index = !bit)
    (hsome : childBit.isSome = childOther.isSome) (hnone : childBit = none → index + 1 = NumBits)
    (h1 : ∀ n, childBit = some n →
      n.DecidedPrefix = index + 1 ∧ pr.agree n.Preference (index + 1) ∧ n.WF)
    (h2 : ∀ n, childOther = some n →
      n.DecidedPrefix = index + 1 ∧ c.agree n.Preference (index + 1) ∧ n.WF) :
    (Node.mkBinary bit pr c index snow sr childBit childOther).WF := by
  cases bit with
  | false =>
    simp only [Node.mkBinary, Bool.false_eq_true, if_false]
    rw [Node.WF_binary]
    exact ⟨hi, ha, hpb, by simpa using hcb, hsome, hnone, h1, h2⟩
  | true =>
    simp only [Node.mkBinary, if_true]
    rw [Node.WF_binary]
    refine ⟨hi, ID.agree_symm ha, by simpa using hcb, hpb, hsome.symm, ?_, h2, h1⟩
    intro h
    apply hnone
    cases childBit with
    | none => rfl
    | some n => rw [h] at hsome; cases hsome

theorem Node.split_WF (p : Parameters) (pr : ID) (dp cp : Nat) (snow : Unary) (sr : Bool)
    (child : Option Node) (c : ID) (index : Nat)
    (hwf : (Node.unary pr dp cp snow sr child).WF) (hc : pr.agree c dp)
    (h : FirstDifferenceSubset dp cp pr c = some index) :
    (Node.split p pr dp cp snow sr child c index).WF := by
  rw [FirstDifferenceSubset_some] at h
  obtain ⟨h1, h2, h3, h4⟩ := h
  rw [Node.WF_unary] at hwf
  obtain ⟨w1, w2, w3, w4⟩ := hwf
  have ha : pr.agree c index := ID.agree_extend hc h4
  have hcb : c.Bit index = !pr.Bit index := by
    cases hx : c.Bit index <;> cases hy : pr.Bit index <;> simp_all
  have hfresh : ∀ n, (child.map fun _ => Node.freshChild p c index) = some n →
      index + 1 = cp →
      n.DecidedPrefix = index + 1 ∧ c.agree n.Preference (index + 1) ∧ n.WF := by
    intro n hn hcp
    cases child with
    | none => cases hn
    | some ch =>
      simp only [Option.map_some', Option.some.injEq] at hn
      subst hn
      have := Node.WF_DecidedPrefix_lt ch (w4 ch rfl).2.2
      rw [(w4 ch rfl).1] at this
      exact ⟨rfl, ID.agree_refl _ _, Node.freshChild_WF p c index (by omega)⟩
  have hmk : index + 1 = cp →
      (Node.mkBinary (pr.Bit index) pr c index (snow.Extend (pr.Bit index)) sr child
        (child.map fun _ => Node.freshChild p c index)).WF := by
    intro hcp
    apply Node.mkBinary_WF _ _ _ _ _ _ _ _ (by omega) ha rfl hcb
    · cases child <;> rfl
    · intro hn
      rw [w3 hn] at hcp
      exact hcp
    · intro n hn
      rw [hcp]
      exact w4 n hn
    · intro n hn
      exact hfresh n hn hcp
  have hN : NumBits = 256 := rfl
  unfold Node.split
  split
  · exact hmk (by omega)
  · split
    · refine Node.mkBinary_WF _ _ _ _ _ _ _ _ (by omega) ha rfl hcb ?_ ?_ ?_ ?_
      · rfl
      · intro hn; cases hn
      · intro n hn
        simp only [Option.some.injEq] at hn
        subst hn
        refine ⟨by show dp + 1 = index + 1; omega, ID.agree_refl _ _, ?_⟩
        rw [Node.WF_unary]
        exact ⟨by omega, w2, w3, w4⟩
      · intro n hn
        simp only [Option.some.injEq] at hn
        subst hn
        exact ⟨rfl, ID.agree_refl _ _, Node.freshChild_WF p c index (by omega)⟩
    · split
      · rw [Node.WF_unary]
        refine ⟨by omega, by omega, (fun hn => by cases hn), ?_⟩
        intro n hn
        simp only [Option.some.injEq] at hn
        subst hn
        refine ⟨by rw [Node.mkBinary_DecidedPrefix]; omega, ?_, hmk (by omega)⟩
        rw [Node.mkBinary_Preference]
        exact ID.agree_refl _ _
      · rw [Node.WF_unary]
        refine ⟨by omega, by omega, (fun hn => by cases hn), ?_⟩
        intro n hn
        simp only [Option.some.injEq] at hn
        subst hn
        refine ⟨by rw [Node.mkBinary_DecidedPrefix], ?_, ?_⟩
        · rw [Node.mkBinary_Preference]
          exact ID.agree_refl _ _
        · refine Node.mkBinary_WF _ _ _ _ _ _ _ _ (by omega) ha rfl hcb ?_ ?_ ?_ ?_
          · rfl
          · intro hn; cases hn
          · intro n hn
            simp only [Option.some.injEq] at hn
            subst hn
            refine ⟨rfl, ID.agree_refl _ _, ?_⟩
            rw [Node.WF_unary]
            exact ⟨by omega, w2, w3, w4⟩
          · intro n hn
            simp only [Option.some.injEq] at hn
            subst hn
            exact ⟨rfl, ID.agree_refl _ _, Node.freshChild_WF p c index (by omega)⟩

theorem Node.Add_WF (p : Parameters) (c : ID) (n : Node) :
    n.WF → n.Preference.agree c n.DecidedPrefix → (n.Add p c).WF := by
  induction n using Node.induct with
  | unary pr dp cp snow sr child ih =>
    intro hwf hc
    rw [Node.Add_unary]
    split
    · exact hwf
    · split
      · next hd =>
        rw [FirstDifferenceSubset_none] at hd
        have ha : pr.agree c cp := ID.agree_extend hc hd
        rw [Node.WF_unary] at hwf ⊢
        obtain ⟨w1, w2, w3, w4⟩ := hwf
        refine ⟨w1, w2, ?_, ?_⟩
        · intro hn
          cases child with
          | none => exact w3 rfl
          | some ch => cases hn
        · intro n hn
          cases child with
          | none => cases hn
          | some ch =>
            simp only [Option.map_some', Option.some.injEq] at hn
            subst hn
            obtain ⟨x1, x2, x3⟩ := w4 ch rfl
            have hf := Node.Add_facts p c ch
            rw [hf.1, hf.2.1]
            refine ⟨x1, x2, ih ch rfl x3 ?_⟩
            rw [x1]
            exact ID.agree_trans (ID.agree_symm x2) ha
      · next index hd => exact Node.split_WF p pr dp cp snow sr child c index hwf hc hd
  | binary p0 p1 bit snow sr0 sr1 c0 c1 ih0 ih1 =>
    intro hwf hc
    rw [Node.WF_binary] at hwf
    obtain ⟨w1, w2, w3, w4, w5, w6, w7, w8⟩ := hwf
    have hc0 : p0.agree c bit := by
      have : (Node.binary p0 p1 bit snow sr0 sr1 c0 c1).Preference = p0 ∨
          (Node.binary p0 p1 bit snow sr0 sr1 c0 c1).Preference = p1 := by
        simp only [Node.Preference]
        cases snow.Preference <;> simp
      rcases this with h | h
      · rw [h] at hc; exact hc
      · rw [h] at hc; exact ID.agree_trans w2 hc
    rw [Node.Add_binary]
    split
    · next hb =>
      rw [Node.WF_binary]
      refine ⟨w1, w2, w3, w4, ?_, w6, w7, ?_⟩
      · cases c1 <;> simpa using w5
      · intro n hn
        cases c1 with
        | none => cases hn
        | some ch =>
          simp only [Option.map_some', Option.some.injEq] at hn
          subst hn
          obtain ⟨x1, x2, x3⟩ := w8 ch rfl
          have hf := Node.Add_facts p c ch
          rw [hf.1, hf.2.1]
          refine ⟨x1, x2, ih1 ch rfl x3 ?_⟩
          rw [x1]
          refine ID.agree_trans (ID.agree_symm x2) ?_
          exact ID.agree_succ (ID.agree_trans (ID.agree_symm w2) hc0) (by rw [w4, hb])
    · next hb =>
      have hb2 : c.Bit bit = false := by simpa using hb
      rw [Node.WF_binary]
      refine ⟨w1, w2, w3, w4, ?_, ?_, ?_, w8⟩
      · cases c0 <;> simpa using w5
      · intro hn
        cases c0 with
        | none => exact w6 rfl
        | some ch => cases hn
      · intro n hn
        cases c0 with
        | none => cases hn
        | some ch =>
          simp only [Option.map_some', Option.some.injEq] at hn
          subst hn
          obtain ⟨x1, x2, x3⟩ := w7 ch rfl
          have hf := Node.Add_facts p c ch
          rw [hf.1, hf.2.1]
          refine ⟨x1, x2, ih0 ch rfl x3 ?_⟩
          rw [x1]
          refine ID.agree_trans (ID.agree_symm x2) ?_
          exact ID.agree_succ hc0 (by rw [w3, hb2])

theorem Node.unaryFinish_none (pr : ID) (dp cp : Nat) (snow : Unary) (sr : Bool) :
    Node.unaryFinish pr dp cp snow sr none =
      { self := .unary pr dp cp snow false none
        ret := .unary pr dp cp snow false none
        successful := true } := rfl

theorem Node.unaryFinish_fin (pr : ID) (dp cp : Nat) (snow : Unary) (sr : Bool)
    (r : PollResult) (h : snow.Finalized = true) :
    Node.unaryFinish pr dp cp snow sr (some r) =
      { self := .unary pr dp cp snow sr (some r.self), ret := r.ret, successful := true } := by
  simp [Node.unaryFinish, h]

theorem Node.unaryFinish_notFin (pr : ID) (dp cp : Nat) (snow : Unary) (sr : Bool)
    (r : PollResult) (h : snow.Finalized = false) :
    Node.unaryFinish pr dp cp snow sr (some r) =
      { self := .unary r.self.Preference dp cp snow false (some r.self)
        ret := .unary r.self.Preference dp cp snow false (some r.self)
        successful := true } := by
  simp [Node.unaryFinish, h]

theorem Node.binaryFinish_none_false (p0 p1 : ID) (bit : Nat) (snow : Binary) (sr : Bool)
    (c0 c1 : Option Node) :
    Node.binaryFinish false p0 p1 bit snow sr c0 c1 none =
      { self := .binary p0 p1 bit snow false true c0 c1
        ret := .binary p0 p1 bit snow false true c0 c1
        successful := true } := rfl

theorem Node.binaryFinish_none_true (p0 p1 : ID) (bit : Nat) (snow : Binary) (sr : Bool)
    (c0 c1 : Option Node) :
    Node.binaryFinish true p0 p1 bit snow sr c0 c1 none =
      { self := .binary p0 p1 bit snow true false c0 c1
        ret := .binary p0 p1 bit snow true false c0 c1
        successful := true } := rfl

theorem Node.binaryFinish_fin_false (p0 p1 : ID) (bit : Nat) (snow : Binary) (sr : Bool)
    (c0 c1 : Option Node) (r : PollResult) (h : snow.Finalized = true) :
    Node.binaryFinish false p0 p1 bit snow sr c0 c1 (some r) =
      { self := .binary p0 p1 bit snow sr true (some r.self) c1
        ret := r.ret
        successful := true } := by
  simp [Node.binaryFinish, h]

theorem Node.binaryFinish_fin_true (p0 p1 : ID) (bit : Nat) (snow : Binary) (sr : Bool)
    (c0 c1 : Option Node) (r : PollResult) (h : snow.Finalized = true) :
    Node.binaryFinish true p0 p1 bit snow sr c0 c1 (some r) =
      { self := .binary p0 p1 bit snow true sr c0 (some r.self)
        ret := r.ret
        successful := true } := by
  simp [Node.binaryFinish, h]

theorem Node.binaryFinish_notFin_false (p0 p1 : ID) (bit : Nat) (snow : Binary) (sr : Bool)
    (c0 c1 : Option Node) (r : PollResult) (h : snow.Finalized = false) :
    Node.binaryFinish false p0 p1 bit snow sr c0 c1 (some r) =
      { self := .binary r.ret.Preference p1 bit snow false true (some r.self) c1
        ret := .binary r.ret.Preference p1 bit snow false true (some r.self) c1
        successful := true } := by
  simp [Node.binaryFinish, h]

theorem Node.binaryFinish_notFin_true (p0 p1 : ID) (bit : Nat) (snow : Binary) (sr : Bool)
    (c0 c1 : Option Node) (r : PollResult) (h : snow.Finalized = false) :
    Node.binaryFinish true p0 p1 bit snow sr c0 c1 (some r) =
      { self := .binary p0 r.ret.Preference bit snow true false c0 (some r.self)
        ret := .binary p0 r.ret.Preference bit snow true false c0 (some r.self)
        successful := true } := by
  simp [Node.binaryFinish, h]

theorem Node.binary_Preference_cases (p0 p1 : ID) (bit : Nat) (snow : Binary) (sr0 sr1 : Bool)
    (c0 c1 : Option Node) :
    (Node.binary p0 p1 bit snow sr0 sr1 c0 c1).Preference = p0 ∨
      (Node.binary p0 p1 bit snow sr0 sr1 c0 c1).Preference = p1 := by
  simp only [Node.Preference]
  cases snow.Preference <;> simp

theorem Node.binary_Preference_agree (p0 p1 q0 q1 : ID) (bit : Nat) (s1 s2 : Binary)
    (a0 a1 b0 b1 : Bool) (c0 c1 d0 d1 : Option Node) (h01 : p0.agree p1 bit)
    (h0 : p0.agree q0 bit) (h1 : p1.agree q1 bit) :
    (Node.binary p0 p1 bit s1 a0 a1 c0 c1).Preference.agree
      (Node.binary q0 q1 bit s2 b0 b1 d0 d1).Preference bit := by
  rcases Node.binary_Preference_cases p0 p1 bit s1 a0 a1 c0 c1 with h | h <;>
    rcases Node.binary_Preference_cases q0 q1 bit s2 b0 b1 d0 d1 with h2 | h2 <;>
    rw [h, h2]
  · exact h0
  · exact ID.agree_trans h01 h1
  · exact ID.agree_trans (ID.agree_symm h01) h0
  · exact h1

/-- The structural invariant is kept by `RecordPoll`, both by the receiver as left in
memory and by the returned node, whose preferences agree with the old preference on
the old decided prefix. -/
theorem Node.RecordPoll_WF (p : Parameters) (n : Node) :
    ∀ (votes : Bag) (reset : Bool), n.WF →
      (n.RecordPoll p votes reset).self.WF ∧ (n.RecordPoll p votes reset).ret.WF ∧
      (n.RecordPoll p votes reset).self.DecidedPrefix = n.DecidedPrefix ∧
      n.DecidedPrefix ≤ (n.RecordPoll p votes reset).ret.DecidedPrefix ∧
      n.Preference.agree (n.RecordPoll p votes reset).self.Preference n.DecidedPrefix ∧
      n.Preference.agree (n.RecordPoll p votes reset).ret.Preference n.DecidedPrefix := by
  induction n using Node.induct with
  | unary pr dp cp snow sr child ih =>
    intro votes reset hwf
    have hsame : ∀ (s : Unary) (f : Bool), (Node.unary pr dp cp s f child).WF := by
      intro s f
      rw [Node.WF_unary] at hwf ⊢
      exact hwf
    rw [Node.RecordPoll_unary]
    split
    · exact ⟨hsame _ _, hsame _ _, rfl, le_refl _, ID.agree_refl _ _, ID.agree_refl _ _⟩
    · cases child with
      | none =>
        exact ⟨hsame _ _, hsame _ _, rfl, le_refl _, ID.agree_refl _ _, ID.agree_refl _ _⟩
      | some ch =>
        rw [Node.WF_unary] at hwf
        obtain ⟨w1, w2, w3, w4⟩ := hwf
        obtain ⟨x1, x2, x3⟩ := w4 ch rfl
        obtain ⟨i1, i2, i3, i4, i5, i6⟩ := ih ch rfl votes (reset || sr) x3
        simp only [Option.map_some']
        generalize ch.RecordPoll p votes (reset || sr) = r at i1 i2 i3 i4 i5 i6
        generalize (if reset = true then snow.RecordUnsuccessfulPoll else snow).RecordPoll p
          votes.Len = s1
        rw [x1] at i3 i4 i5 i6
        have hself : ∀ (q : ID) (s : Unary) (f : Bool), q.agree r.self.Preference cp →
            (Node.unary q dp cp s f (some r.self)).WF := by
          intro q s f hq
          rw [Node.WF_unary]
          refine ⟨w1, w2, (fun h => by cases h), ?_⟩
          intro c hc
          simp only [Option.some.injEq] at hc
          subst hc
          exact ⟨i3, hq, i1⟩
        cases hfin : s1.Finalized with
        | true =>
          rw [Node.unaryFinish_fin _ _ _ _ _ _ hfin]
          refine ⟨hself _ _ _ (ID.agree_trans x2 i5), i2, rfl, ?_, ID.agree_refl _ _, ?_⟩
          · show dp ≤ r.ret.DecidedPrefix
            omega
          · exact ID.agree_mono (ID.agree_trans x2 i6) (by show dp ≤ _; omega)
        | false =>
          rw [Node.unaryFinish_notFin _ _ _ _ _ _ hfin]
          refine ⟨hself _ _ _ (ID.agree_refl _ _), hself _ _ _ (ID.agree_refl _ _), rfl,
            le_refl _, ?_, ?_⟩
          · exact ID.agree_mono (ID.agree_trans x2 i5) (by show dp ≤ _; omega)
          · exact ID.agree_mono (ID.agree_trans x2 i5) (by show dp ≤ _; omega)
  | binary p0 p1 bit snow sr0 sr1 c0 c1 ih0 ih1 =>
    intro votes reset hwf
    have hsame : ∀ (s : Binary) (f0 f1 : Bool), (Node.binary p0 p1 bit s f0 f1 c0 c1).WF := by
      intro s f0 f1
      rw [Node.WF_binary] at hwf ⊢
      exact hwf
    have hagree : ∀ (s : Binary) (f0 f1 : Bool),
        (Node.binary p0 p1 bit snow sr0 sr1 c0 c1).Preference.agree
          (Node.binary p0 p1 bit s f0 f1 c0 c1).Preference bit := by
      intro s f0 f1
      rw [Node.WF_binary] at hwf
      exact Node.binary_Preference_agree _ _ _ _ _ _ _ _ _ _ _ _ _ _ _ hwf.2.1
        (ID.agree_refl _ _) (ID.agree_refl _ _)
    rw [Node.RecordPoll_binary]
    split
    · exact ⟨hsame _ _ _, hsame _ _ _, rfl, le_refl _, hagree _ _ _, hagree _ _ _⟩
    · rw [Node.WF_binary] at hwf
      obtain ⟨w1, w2, w3, w4, w5, w6, w7, w8⟩ := hwf
      generalize decide (p.AlphaPreference ≤ (votes.Filter fun x => x.Bit bit).Len) = side
      cases side with
      | false =>
        simp only [sel_false]
        cases c0 with
        | none =>
          simp only [Option.map_none', Node.binaryFinish_none_false]
          exact ⟨hsame _ _ _, hsame _ _ _, rfl, le_refl _, hagree _ _ _, hagree _ _ _⟩
        | some ch =>
          obtain ⟨x1, x2, x3⟩ := w7 ch rfl
          obtain ⟨i1, i2, i3, i4, i5, i6⟩ := ih0 ch rfl
            (votes.Filter fun x => !x.Bit bit) (reset || sr0) x3
          simp only [Option.map_some']
          generalize ch.RecordPoll p (votes.Filter fun x => !x.Bit bit) (reset || sr0) = r
            at i1 i2 i3 i4 i5 i6
          generalize (if reset = true then snow.RecordUnsuccessfulPoll else snow).RecordPoll p
            (votes.Filter fun x => !x.Bit bit).Len false = s1
          rw [x1] at i3 i4 i5 i6
          have hself : ∀ (q : ID) (s : Binary) (f0 f1 : Bool), p0.agree q (bit + 1) →
              q.agree r.self.Preference (bit + 1) →
              (Node.binary q p1 bit s f0 f1 (some r.self) c1).WF := by
            intro q s f0 f1 hq hq2
            rw [Node.WF_binary]
            refine ⟨w1, ID.agree_trans (ID.agree_mono (ID.agree_symm hq) (by omega)) w2,
              ?_, w4, w5, (fun h => by cases h), ?_, w8⟩
            · rw [← hq bit (by omega)]; exact w3
            · intro c hc
              simp only [Option.some.injEq] at hc
              subst hc
              exact ⟨i3, hq2, i1⟩
          cases hfin : s1.Finalized with
          | true =>
            rw [Node.binaryFinish_fin_false _ _ _ _ _ _ _ _ hfin]
            refine ⟨hself _ _ _ _ (ID.agree_refl _ _) (ID.agree_trans x2 i5), i2, rfl,
              ?_, ?_, ?_⟩
            · show bit ≤ r.ret.DecidedPrefix
              omega
            · exact Node.binary_Preference_agree _ _ _ _ _ _ _ _ _ _ _ _ _ _ _ w2
                (ID.agree_refl _ _) (ID.agree_refl _ _)
            · rcases Node.binary_Preference_cases p0 p1 bit snow sr0 sr1 (some ch) c1
                with h | h <;> rw [h]
              · exact ID.agree_mono (ID.agree_trans x2 i6) (by show bit ≤ _; omega)
              · exact ID.agree_trans (ID.agree_symm w2)
                  (ID.agree_mono (ID.agree_trans x2 i6) (by show bit ≤ _; omega))
          | false =>
            rw [Node.binaryFinish_notFin_false _ _ _ _ _ _ _ _ hfin]
            have hq : p0.agree r.ret.Preference (bit + 1) := ID.agree_trans x2 i6
            have hq2 : r.ret.Preference.agree r.self.Preference (bit + 1) :=
              ID.agree_trans (ID.agree_symm i6) i5
            have hpa := Node.binary_Preference_agree p0 p1 r.ret.Preference p1 bit snow
              s1 sr0 sr1 false true (some ch) c1 (some r.self) c1 w2
              (ID.agree_mono hq (by omega)) (ID.agree_refl _ _)
            exact ⟨hself _ _ _ _ hq hq2, hself _ _ _ _ hq hq2, rfl, le_refl _, hpa, hpa⟩
      | true =>
        simp only [sel_true]
        cases c1 with
        | none =>
          simp only [Option.map_none', Node.binaryFinish_none_true]
          exact ⟨hsame _ _ _, hsame _ _ _, rfl, le_refl _, hagree _ _ _, hagree _ _ _⟩
        | some ch =>
          obtain ⟨x1, x2, x3⟩ := w8 ch rfl
          obtain ⟨i1, i2, i3, i4, i5, i6⟩ := ih1 ch rfl
            (votes.Filter fun x => x.Bit bit) (reset || sr1) x3
          simp only [Option.map_some']
          generalize ch.RecordPoll p (votes.Filter fun x => x.Bit bit) (reset || sr1) = r
            at i1 i2 i3 i4 i5 i6
          generalize (if reset = true then snow.RecordUnsuccessfulPoll else snow).RecordPoll p
            (votes.Filter fun x => x.Bit bit).Len true = s1
          rw [x1] at i3 i4 i5 i6
          have hself : ∀ (q : ID) (s : Binary) (f0 f1 : Bool), p1.agree q (bit + 1) →
              q.agree r.self.Preference (bit + 1) →
              (Node.binary p0 q bit s f0 f1 c0 (some r.self)).WF := by
            intro q s f0 f1 hq hq2
            rw [Node.WF_binary]
            refine ⟨w1, ID.agree_trans w2 (ID.agree_mono hq (by omega)),
              w3, ?_, w5, w6, w7, ?_⟩
            · rw [← hq bit (by omega)]; exact w4
            · intro c hc
              simp only [Option.some.injEq] at hc
              subst hc
              exact ⟨i3, hq2, i1⟩
          cases hfin : s1.Finalized with
          | true =>
            rw [Node.binaryFinish_fin_true _ _ _ _ _ _ _ _ hfin]
            refine ⟨hself _ _ _ _ (ID.agree_refl _ _) (ID.agree_trans x2 i5), i2, rfl,
              ?_, ?_, ?_⟩
            · show bit ≤ r.ret.DecidedPrefix
              omega
            · exact Node.binary_Preference_agree _ _ _ _ _ _ _ _ _ _ _ _ _ _ _ w2
                (ID.agree_refl _ _) (ID.agree_refl _ _)
            · rcases Node.binary_Preference_cases p0 p1 bit snow sr0 sr1 c0 (some ch)
                with h | h <;> rw [h]
              · exact ID.agree_trans w2 (ID.agree_mono (ID.agree_trans x2 i6) (by show bit ≤ _; omega))
              · exact ID.agree_mono (ID.agree_trans x2 i6) (by show bit ≤ _; omega)
          | false =>
            rw [Node.binaryFinish_notFin_true _ _ _ _ _ _ _ _ hfin]
            have hq : p1.agree r.ret.Preference (bit + 1) := ID.agree_trans x2 i6
            have hq2 : r.ret.Preference.agree r.self.Preference (bit + 1) :=
              ID.agree_trans (ID.agree_symm i6) i5
            have hpa := Node.binary_Preference_agree p0 p1 p0 r.ret.Preference bit snow
              s1 sr0 sr1 true false c0 (some ch) c0 (some r.self) w2
              (ID.agree_refl _ _) (ID.agree_mono hq (by omega))
            exact ⟨hself _ _ _ _ hq hq2, hself _ _ _ _ hq hq2, rfl, le_refl _, hpa, hpa⟩

/-! ## The ids represented in the tree -/

theorem Node.mem_represented_unary (x pr : ID) (dp cp : Nat) (snow : Unary) (sr : Bool)
    (child : Option Node) :
    x ∈ (Node.unary pr dp cp snow sr child).represented ↔
      (child = none ∧ x = pr) ∨ ∃ n, child = some n ∧ x ∈ n.represented := by
  cases child <;> simp [Node.represented]

theorem Node.mem_represented_binary (x p0 p1 : ID) (bit : Nat) (snow : Binary)
    (sr0 sr1 : Bool) (c0 c1 : Option Node) :
    x ∈ (Node.binary p0 p1 bit snow sr0 sr1 c0 c1).represented ↔
      (c0 = none ∧ c1 = none ∧ (x = p0 ∨ x = p1)) ∨
        (∃ n, c0 = some n ∧ x ∈ n.represented) ∨ ∃ n, c1 = some n ∧ x ∈ n.represented := by
  cases c0 <;> cases c1 <;> simp [Node.represented]

theorem Node.mem_represented_mkBinary (x : ID) (bit : Bool) (pr c : ID) (index : Nat)
    (snow : Binary) (sr : Bool) (childBit childOther : Option Node) :
    x ∈ (Node.mkBinary bit pr c index snow sr childBit childOther).represented ↔
      (childBit = none ∧ childOther = none ∧ (x = pr ∨ x = c)) ∨
        (∃ n, childBit = some n ∧ x ∈ n.represented) ∨
        ∃ n, childOther = some n ∧ x ∈ n.represented := by
  cases bit with
  | false =>
    simp only [Node.mkBinary, Bool.false_eq_true, if_false]
    rw [Node.mem_represented_binary]
  | true =>
    simp only [Node.mkBinary, if_true]
    rw [Node.mem_represented_binary]
    constructor
    · rintro (⟨h1, h2, h3⟩ | h | h)
      · exact Or.inl ⟨h2, h1, h3.symm⟩
      · exact Or.inr (Or.inr h)
      · exact Or.inr (Or.inl h)
    · rintro (⟨h1, h2, h3⟩ | h | h)
      · exact Or.inl ⟨h2, h1, h3.symm⟩
      · exact Or.inr (Or.inr h)
      · exact Or.inr (Or.inl h)

theorem Node.noneFinalized_unary (pr : ID) (dp cp : Nat) (snow : Unary) (sr : Bool)
    (child : Option Node) :
    (Node.unary pr dp cp snow sr child).noneFinalized ↔
      snow.Finalized = false ∧ ∀ c, child = some c → c.noneFinalized := by
  cases child <;> simp [Node.noneFinalized]

theorem Node.noneFinalized_binary (p0 p1 : ID) (bit : Nat) (snow : Binary) (sr0 sr1 : Bool)
    (c0 c1 : Option Node) :
    (Node.binary p0 p1 bit snow sr0 sr1 c0 c1).noneFinalized ↔
      snow.Finalized = false ∧ (∀ c, c0 = some c → c.noneFinalized) ∧
        ∀ c, c1 = some c → c.noneFinalized := by
  cases c0 <;> cases c1 <;> simp [Node.noneFinalized]

theorem Node.represented_unary_some (pr : ID) (dp cp : Nat) (snow : Unary) (sr : Bool)
    (ch : Node) : (Node.unary pr dp cp snow sr (some ch)).represented = ch.represented := rfl

theorem Node.represented_unary_none (pr : ID) (dp cp : Nat) (snow : Unary) (sr : Bool) :
    (Node.unary pr dp cp snow sr none).represented = [pr] := rfl

theorem Node.represented_binary_some (p0 p1 : ID) (bit : Nat) (snow : Binary)
    (sr0 sr1 : Bool) (a b : Node) :
    (Node.binary p0 p1 bit snow sr0 sr1 (some a) (some b)).represented =
      a.represented ++ b.represented := rfl

theorem Node.represented_binary_none (p0 p1 : ID) (bit : Nat) (snow : Binary)
    (sr0 sr1 : Bool) :
    (Node.binary p0 p1 bit snow sr0 sr1 none none).represented = [p0, p1] := rfl

theorem Node.freshChild_represented (p : Parameters) (c : ID) (index : Nat) :
    (Node.freshChild p c index).represented = [c] := rfl

theorem Node.mem_represented_split (p : Parameters) (x pr : ID) (dp cp : Nat) (snow : Unary)
    (sr : Bool) (child : Option Node) (c : ID) (index : Nat) :
    x ∈ (Node.split p pr dp cp snow sr child c index).represented ↔
      x ∈ (Node.unary pr dp cp snow sr child).represented ∨ x = c := by
  have hmk : x ∈ (Node.mkBinary (pr.Bit index) pr c index (snow.Extend (pr.Bit index)) sr
      child (child.map fun _ => Node.freshChild p c index)).represented ↔
      x ∈ (Node.unary pr dp cp snow sr child).represented ∨ x = c := by
    rw [Node.mem_represented_mkBinary, Node.mem_represented_unary]
    cases child with
    | none => simp
    | some ch => simp [Node.freshChild_represented]
  have hmk2 : ∀ d1 d2, x ∈ (Node.mkBinary (pr.Bit index) pr c index
      (snow.Extend (pr.Bit index)) sr (some (.unary pr d1 d2 snow sr child))
      (some (Node.freshChild p c index))).represented ↔
      x ∈ (Node.unary pr dp cp snow sr child).represented ∨ x = c := by
    intro d1 d2
    rw [Node.mem_represented_mkBinary, Node.mem_represented_unary]
    simp [Node.freshChild_represented, Node.mem_represented_unary]
  unfold Node.split
  split
  · exact hmk
  · split
    · exact hmk2 _ _
    · split
      · rw [Node.represented_unary_some]
        exact hmk
      · rw [Node.represented_unary_some]
        exact hmk2 _ _

theorem Node.Add_represented (p : Parameters) (c : ID) (n : Node) :
    n.WF → n.noneFinalized → n.Preference.agree c n.DecidedPrefix →
      ∀ x, x ∈ (n.Add p c).represented ↔ x ∈ n.represented ∨ x = c := by
  induction n using Node.induct with
  | unary pr dp cp snow sr child ih =>
    intro hwf hnf hc x
    rw [Node.noneFinalized_unary] at hnf
    rw [Node.Add_unary, hnf.1]
    simp only [Bool.false_eq_true, if_false]
    cases hd : FirstDifferenceSubset dp cp pr c with
    | some index => exact Node.mem_represented_split p x pr dp cp snow sr child c index
    | none =>
      rw [FirstDifferenceSubset_none] at hd
      have ha : pr.agree c cp := ID.agree_extend hc hd
      rw [Node.WF_unary] at hwf
      obtain ⟨w1, w2, w3, w4⟩ := hwf
      cases child with
      | none =>
        have hcp := w3 rfl
        rw [hcp] at ha
        have e : pr = c := ID.eq_of_agree ha
        subst e
        simp [Node.mem_represented_unary]
      | some ch =>
        obtain ⟨x1, x2, x3⟩ := w4 ch rfl
        simp only [Option.map_some', Node.represented_unary_some]
        apply ih ch rfl x3 (hnf.2 ch rfl)
        rw [x1]
        exact ID.agree_trans (ID.agree_symm x2) ha
  | binary p0 p1 bit snow sr0 sr1 c0 c1 ih0 ih1 =>
    intro hwf hnf hc x
    rw [Node.noneFinalized_binary] at hnf
    rw [Node.WF_binary] at hwf
    obtain ⟨w1, w2, w3, w4, w5, w6, w7, w8⟩ := hwf
    have hc0 : p0.agree c bit := by
      rcases Node.binary_Preference_cases p0 p1 bit snow sr0 sr1 c0 c1 with h | h
      · rw [h] at hc; exact hc
      · rw [h] at hc; exact ID.agree_trans w2 hc
    rw [Node.Add_binary]
    cases hb : c.Bit bit with
    | true =>
      simp only [if_true]
      cases c1 with
      | none =>
        have h0 : c0 = none := by
          cases c0 with
          | none => rfl
          | some _ => cases w5
        have hlast := w6 h0
        have e : p1 = c := by
          apply ID.eq_of_agree
          rw [← hlast]
          exact ID.agree_succ (ID.agree_trans (ID.agree_symm w2) hc0) (by rw [w4, hb])
        subst e
        subst h0
        simp only [Option.map_none', Node.represented_binary_none, List.mem_cons,
          List.mem_singleton, List.not_mem_nil, or_false]
        tauto
      | some ch =>
        cases c0 with
        | none => cases w5
        | some a =>
          obtain ⟨x1, x2, x3⟩ := w8 ch rfl
          have := ih1 ch rfl x3 (hnf.2.2 ch rfl) (by
            rw [x1]
            exact ID.agree_trans (ID.agree_symm x2)
              (ID.agree_succ (ID.agree_trans (ID.agree_symm w2) hc0) (by rw [w4, hb]))) x
          simp only [Option.map_some', Node.represented_binary_some, List.mem_append, this]
          tauto
    | false =>
      simp only [Bool.false_eq_true, if_false]
      cases c0 with
      | none =>
        have h1 : c1 = none := by
          cases c1 with
          | none => rfl
          | some _ => cases w5
        have hlast := w6 rfl
        have e : p0 = c := by
          apply ID.eq_of_agree
          rw [← hlast]
          exact ID.agree_succ hc0 (by rw [w3, hb])
        subst e
        subst h1
        simp only [Option.map_none', Node.represented_binary_none, List.mem_cons,
          List.mem_singleton, List.not_mem_nil, or_false]
        tauto
      | some ch =>
        cases c1 with
        | none => cases w5
        | some a =>
          obtain ⟨x1, x2, x3⟩ := w7 ch rfl
          have := ih0 ch rfl x3 (hnf.2.1 ch rfl) (by
            rw [x1]
            exact ID.agree_trans (ID.agree_symm x2) (ID.agree_succ hc0 (by rw [w3, hb]))) x
          simp only [Option.map_some', Node.represented_binary_some, List.mem_append, this]
          tauto

/-- Every reachable tree has a well-formed root and keeps its parameters. -/
theorem Reachable.wf {p : Parameters} {a : ID} {t : Tree} (h : Reachable p a t) :
    t.node.WF ∧ t.params = p := by
  induction h with
  | newTree =>
    refine ⟨?_, rfl⟩
    show (Node.unary a 0 NumBits (NewUnary p) false none).WF
    rw [Node.WF_unary]
    exact ⟨by decide, le_refl _, fun _ => rfl, fun c h => by cases h⟩
  | add t c _ ih =>
    rw [Tree.Add_eq]
    split
    · next hg =>
      refine ⟨?_, ih.2⟩
      exact Node.Add_WF _ c t.node ih.1 ((EqualSubset_zero_iff _ _ _).1 hg)
    · exact ih
  | recordPoll t votes _ ih =>
    rw [Tree.RecordPoll_eq]
    exact ⟨(Node.RecordPoll_WF _ t.node _ _ ih.1).2.1, ih.2⟩
  | recordUnsuccessfulPoll t _ ih => exact ih

/-- C5 (as amended): in a reachable tree none of whose counters is finalized, `Add(c)` of
a choice that agrees with the preference on the decided prefix makes the set of
represented ids the former set together with `c`. -/
theorem add_represents_choice (p : Parameters) (a : ID) (t : Tree) (c : ID)
    (hr : Reachable p a t) (hnf : t.node.noneFinalized)
    (hc : EqualSubset 0 t.node.DecidedPrefix t.Preference c = true) (x : ID) :
    x ∈ (t.Add c).node.represented ↔ x ∈ t.node.represented ∨ x = c := by
  rw [Tree.Add_eq, if_pos hc]
  exact Node.Add_represented t.params c t.node hr.wf.1 hnf ((EqualSubset_zero_iff _ _ _).1 hc) x

/-- Scenario for C5: after `Add(1000...0)` to the tree created on `0...0`, adding
`0100...0` makes it represented. -/
theorem add_represents_choice_witness :
    ((NewTree scenarioParams idZero).Add idOne).node.noneFinalized ∧
    EqualSubset 0 ((NewTree scenarioParams idZero).Add idOne).node.DecidedPrefix
      ((NewTree scenarioParams idZero).Add idOne).Preference idTwo = true ∧
    (idTwo ∈ (((NewTree scenarioParams idZero).Add idOne).Add idTwo).node.represented ↔
      idTwo ∈ ((NewTree scenarioParams idZero).Add idOne).node.represented ∨ idTwo = idTwo) :=
  ⟨⟨rfl, ⟨rfl, trivial⟩, ⟨rfl, trivial⟩⟩, by decide,
    add_represents_choice scenarioParams idZero _ idTwo
      (Reachable.add _ idOne Reachable.newTree) ⟨rfl, ⟨rfl, trivial⟩, ⟨rfl, trivial⟩⟩
      (by decide) idTwo⟩

/-- Counterexample to C5 as stated: with `beta_unary = 1 < beta_binary = 2`, after
`Add(1000...0)` and one poll of three votes for `0...0` the tree is not finalized, but
the unary node of `0...0` below the binary root is; `Add(0100...0)` stops at that node
and the choice is not represented afterwards. -/
theorem add_dropped_below_finalized_leaf :
    Reachable unequalBetaParams idZero
      (((NewTree unequalBetaParams idZero).Add idOne).RecordPoll (List.replicate 3 idZero)).1 ∧
    unequalBetaParams.BetaUnary ≤ unequalBetaParams.BetaBinary ∧
    (((NewTree unequalBetaParams idZero).Add idOne).RecordPoll
      (List.replicate 3 idZero)).1.Finalized = false ∧
    EqualSubset 0
      (((NewTree unequalBetaParams idZero).Add idOne).RecordPoll
        (List.replicate 3 idZero)).1.node.DecidedPrefix
      (((NewTree unequalBetaParams idZero).Add idOne).RecordPoll
        (List.replicate 3 idZero)).1.Preference idTwo = true ∧
    idTwo ∉ ((((NewTree unequalBetaParams idZero).Add idOne).RecordPoll
      (List.replicate 3 idZero)).1.Add idTwo).node.represented :=
  ⟨Reachable.recordPoll _ _ (Reachable.add _ _ Reachable.newTree), by decide, by decide,
    by decide, by decide⟩

/-! ## The confidence invariant -/

theorem Unary.poll_of_finalized (p : Parameters) (s : Unary) (reset : Bool) (n : Nat)
    (h : s.finalized = true) :
    ((if reset = true then s.RecordUnsuccessfulPoll else s).RecordPoll p n).finalized
      = true := by
  cases reset <;> by_cases hn : p.AlphaConfidence ≤ n <;>
    simp [Unary.RecordPoll, Unary.RecordUnsuccessfulPoll, h, hn]

theorem Unary.poll_low (p : Parameters) (s : Unary) (reset : Bool) (n : Nat)
    (h : s.finalized = false) (hn : n < p.AlphaConfidence) :
    (if reset = true then s.RecordUnsuccessfulPoll else s).RecordPoll p n =
      { confidence := 0, finalized := false } := by
  have : ¬ p.AlphaConfidence ≤ n := by omega
  cases reset <;> simp [Unary.RecordPoll, Unary.RecordUnsuccessfulPoll, h, this]

theorem Unary.poll_high (p : Parameters) (s : Unary) (reset : Bool) (n : Nat)
    (h : s.finalized = false) (hn : p.AlphaConfidence ≤ n) :
    (if reset = true then s.RecordUnsuccessfulPoll else s).RecordPoll p n =
      { confidence := (if reset = true then 0 else s.confidence) + 1
        finalized := decide (p.BetaUnary ≤ (if reset = true then 0 else s.confidence) + 1) } := by
  cases reset <;> simp [Unary.RecordPoll, Unary.RecordUnsuccessfulPoll, h, hn]

theorem Unary.unsuccessful_twice (s : Unary) (reset : Bool) :
    (if reset = true then s.RecordUnsuccessfulPoll else s).RecordUnsuccessfulPoll =
      { confidence := 0, finalized := s.finalized } := by
  cases reset <;> simp [Unary.RecordUnsuccessfulPoll]

theorem Binary.pollSide_of_finalized (p : Parameters) (s : Binary) (reset : Bool) (n : Nat)
    (side : Bool) (h : s.finalized = true) :
    (if reset = true then s.RecordUnsuccessfulPoll else s).RecordPoll p n side =
      (if reset = true then s.RecordUnsuccessfulPoll else s) := by
  cases reset <;> simp [Binary.RecordPoll, Binary.RecordUnsuccessfulPoll, h]

theorem Binary.pollSide_finalized_keeps (p : Parameters) (s : Binary) (reset : Bool) (n : Nat)
    (side : Bool) (h : s.finalized = true) :
    ((if reset = true then s.RecordUnsuccessfulPoll else s).RecordPoll p n side).finalized
        = true ∧
      ((if reset = true then s.RecordUnsuccessfulPoll else s).RecordPoll p n side).preference
        = s.preference := by
  rw [Binary.pollSide_of_finalized p s reset n side h]
  cases reset
  · exact ⟨h, rfl⟩
  · exact ⟨h, rfl⟩

theorem Binary.pollSide_low (p : Parameters) (s : Binary) (reset : Bool) (n : Nat) (side : Bool)
    (h : s.finalized = false) (hn : n < p.AlphaConfidence) :
    (if reset = true then s.RecordUnsuccessfulPoll else s).RecordPoll p n side =
      { confidence0 := 0, confidence1 := 0, preference := side, finalized := false } := by
  have : ¬ p.AlphaConfidence ≤ n := by omega
  cases reset <;> simp [Binary.RecordPoll, Binary.RecordUnsuccessfulPoll, h, this]

theorem Binary.pollSide_high (p : Parameters) (s : Binary) (reset : Bool) (n : Nat) (side : Bool)
    (h : s.finalized = false) (hn : p.AlphaConfidence ≤ n)
    (hz : (if s.preference = true then s.confidence0 else s.confidence1) = 0) :
    ((if reset = true then s.RecordUnsuccessfulPoll else s).RecordPoll p n side).preference
        = side ∧
    sel side ((if reset = true then s.RecordUnsuccessfulPoll else s).RecordPoll p n
        side).confidence0
      ((if reset = true then s.RecordUnsuccessfulPoll else s).RecordPoll p n side).confidence1
        = (if reset = true then 1 else sel side s.confidence0 s.confidence1 + 1) ∧
    sel (!side) ((if reset = true then s.RecordUnsuccessfulPoll else s).RecordPoll p n
        side).confidence0
      ((if reset = true then s.RecordUnsuccessfulPoll else s).RecordPoll p n side).confidence1
        = 0 ∧
    ((if reset = true then s.RecordUnsuccessfulPoll else s).RecordPoll p n side).finalized
        = decide (p.BetaBinary ≤
            (if reset = true then 1 else sel side s.confidence0 s.confidence1 + 1)) := by
  cases s with
  | mk c0 c1 pref fin =>
    simp only at h hz
    subst h
    cases reset <;> cases side <;> cases pref <;>
      simp_all [Binary.RecordPoll, Binary.RecordUnsuccessfulPoll, sel]

theorem Binary.unsuccessfulSide_twice (s : Binary) (reset : Bool) :
    (if reset = true then s.RecordUnsuccessfulPoll else s).RecordUnsuccessfulPoll =
      { confidence0 := 0, confidence1 := 0, preference := s.preference,
        finalized := s.finalized } := by
  cases reset <;> simp [Binary.RecordUnsuccessfulPoll]

theorem Node.Dom_unary (pend : Bool) (cap : Nat) (pr : ID) (dp cp : Nat) (snow : Unary)
    (sr : Bool) (child : Option Node) :
    (Node.unary pr dp cp snow sr child).Dom pend cap ↔
      (pend = false → snow.finalized = false → snow.confidence ≤ cap) ∧
        ∀ c, child = some c →
          c.Dom (pend || sr) (if snow.finalized = true then cap else snow.confidence) := by
  cases child <;> simp [Node.Dom]

theorem Node.Dom_binary (pend : Bool) (cap : Nat) (p0 p1 : ID) (bit : Nat) (snow : Binary)
    (sr0 sr1 : Bool) (c0 c1 : Option Node) :
    (Node.binary p0 p1 bit snow sr0 sr1 c0 c1).Dom pend cap ↔
      (pend = false → snow.finalized = false →
        snow.confidence0 ≤ cap ∧ snow.confidence1 ≤ cap) ∧
      (if snow.preference = true then snow.confidence0 else snow.confidence1) = 0 ∧
      c0.isSome = c1.isSome ∧ (snow.finalized = true → c0 = none) ∧
      (∀ c, c0 = some c → c.Dom (pend || sr0) snow.confidence0) ∧
      ∀ c, c1 = some c → c.Dom (pend || sr1) snow.confidence1 := by
  cases c0 <;> cases c1 <;> simp [Node.Dom]

/-- The confidence invariant can be weakened: to a pending reset, or to a larger cap. -/
theorem Node.Dom_mono (n : Node) :
    ∀ (pend pend2 : Bool) (cap cap2 : Nat), n.Dom pend cap → (pend = true → pend2 = true) →
      (pend2 = false → cap ≤ cap2) → n.Dom pend2 cap2 := by
  induction n using Node.induct with
  | unary pr dp cp snow sr child ih =>
    intro pend pend2 cap cap2 h hp hc
    rw [Node.Dom_unary] at h ⊢
    obtain ⟨h1, h2⟩ := h
    refine ⟨?_, ?_⟩
    · intro hp2 hf
      have hp1 : pend = false := by
        cases pend with
        | false => rfl
        | true => rw [hp rfl] at hp2; cases hp2
      exact le_trans (h1 hp1 hf) (hc hp2)
    · intro c hch
      refine ih c hch _ _ _ _ (h2 c hch) ?_ ?_
      · cases pend <;> cases sr <;> simp_all
      · intro hx
        have hp2 : pend2 = false := by cases pend2 <;> simp_all
        split
        · exact hc hp2
        · exact le_refl _
  | binary p0 p1 bit snow sr0 sr1 c0 c1 ih0 ih1 =>
    intro pend pend2 cap cap2 h hp hc
    rw [Node.Dom_binary] at h ⊢
    obtain ⟨h1, h2, h3, h4, h5, h6⟩ := h
    refine ⟨?_, h2, h3, h4, ?_, ?_⟩
    · intro hp2 hf
      have hp1 : pend = false := by
        cases pend with
        | false => rfl
        | true => rw [hp rfl] at hp2; cases hp2
      have := h1 hp1 hf
      have := hc hp2
      omega
    · intro c hch
      refine ih0 c hch _ _ _ _ (h5 c hch) ?_ (fun _ => le_refl _)
      cases pend <;> cases sr0 <;> simp_all
    · intro c hch
      refine ih1 c hch _ _ _ _ (h6 c hch) ?_ (fun _ => le_refl _)
      cases pend <;> cases sr1 <;> simp_all

theorem Bag.Len_Filter_le (votes : Bag) (q : ID → Bool) : (votes.Filter q).Len ≤ votes.Len := by
  simp only [Bag.Len, Bag.Filter]
  exact List.length_filter_le _ _

theorem Bag.Len_sel_le (votes : Bag) (side : Bool) (q : ID → Bool) :
    (sel side (votes.Filter fun x => !q x) (votes.Filter q)).Len ≤ votes.Len := by
  cases side
  · exact Bag.Len_Filter_le votes _
  · exact Bag.Len_Filter_le votes _

/-- After a poll the receiver, as left in memory, satisfies the confidence invariant
with no pending reset under any cap that the counter above allows. -/
theorem Node.RecordPoll_Dom_self (p : Parameters) (hβ : p.BetaUnary ≤ p.BetaBinary) (n : Node) :
    ∀ (pend : Bool) (cap cap2 : Nat) (votes : Bag), n.Dom pend cap →
      (p.AlphaConfidence ≤ votes.Len → (if pend = true then 1 else cap + 1) ≤ cap2) →
      ((p.AlphaConfidence ≤ votes.Len → cap2 < p.BetaBinary) ∨
        ((n.RecordPoll p votes pend).self.Finalized = true →
          (n.RecordPoll p votes pend).self.hasChild = false)) →
      (n.RecordPoll p votes pend).self.Dom false cap2 := by
  induction n using Node.induct with
  | unary pr dp cp snow sr child ih =>
    intro pend cap cap2 votes h hcap1 hcap2
    rw [Node.Dom_unary] at h
    obtain ⟨hown, hch⟩ := h
    rw [Node.RecordPoll_unary] at hcap2 ⊢
    by_cases hlow : votes.Len < p.AlphaPreference
    · rw [if_pos hlow]
      rw [Node.Dom_unary, Unary.unsuccessful_twice]
      refine ⟨?_, ?_⟩
      · intro _ hf
        cases hs : snow.finalized with
        | true => simp [hs] at hf
        | false => simp
      · intro c hc
        exact Node.Dom_mono c _ _ _ _ (hch c hc) (fun _ => by simp) (fun h => by simp at h)
    · rw [if_neg hlow] at hcap2 ⊢
      -- the counter after the poll
      have hs1 : ∀ s1, s1 = (if pend = true then snow.RecordUnsuccessfulPoll else snow).RecordPoll p
            votes.Len →
          (s1.finalized = false → snow.finalized = false) ∧
          (s1.finalized = false → s1.confidence ≤ cap2) ∧
          (s1.finalized = false → p.AlphaConfidence ≤ votes.Len →
            s1.confidence = (if pend = true then 0 else snow.confidence) + 1 ∧
              s1.confidence < p.BetaBinary) := by
        intro s1 e
        cases hs : snow.finalized with
        | true =>
          have hf1 := Unary.poll_of_finalized p snow pend votes.Len hs
          rw [← e] at hf1
          simp [hf1]
        | false =>
          by_cases hn : p.AlphaConfidence ≤ votes.Len
          · rw [Unary.poll_high p snow pend _ hs hn] at e
            subst e
            have h1 := hcap1 hn
            refine ⟨fun _ => rfl, ?_, ?_⟩
            · intro _
              cases pend with
              | true => simpa using h1
              | false =>
                have := hown rfl hs
                simp only [Bool.false_eq_true, if_false] at h1 ⊢
                omega
            · intro hf _
              refine ⟨rfl, ?_⟩
              simp only [decide_eq_false_iff_not] at hf
              show (if pend = true then 0 else snow.confidence) + 1 < p.BetaBinary
              omega
          · rw [Unary.poll_low p snow pend _ hs (by omega)] at e
            subst e
            exact ⟨fun _ => rfl, fun _ => Nat.zero_le _, fun _ h => absurd h hn⟩
      generalize (if pend = true then snow.RecordUnsuccessfulPoll else snow).RecordPoll p
        votes.Len = s1 at hs1 hcap2 ⊢
      obtain ⟨hs1a, hs1b, hs1c⟩ := hs1 s1 rfl
      cases child with
      | none =>
        rw [Option.map_none', Node.unaryFinish_none, Node.Dom_unary]
        exact ⟨fun _ hf => hs1b hf, fun c hc => by cases hc⟩
      | some ch =>
        rw [Option.map_some'] at hcap2 ⊢
        have hdc := hch ch rfl
        have hcapc : p.AlphaConfidence ≤ votes.Len →
            (if (pend || sr) = true then 1
              else (if snow.finalized = true then cap else snow.confidence) + 1) ≤ cap2 := by
          intro hn
          have h1 := hcap1 hn
          cases pend with
          | true => simpa using h1
          | false =>
            cases sr with
            | true =>
              simp only [Bool.false_eq_true, if_false] at h1
              simp only [Bool.or_true, if_true]
              omega
            | false =>
              simp only [Bool.false_eq_true, if_false, Bool.or_self] at h1 ⊢
              split
              · exact h1
              · next hf =>
                have := hown rfl (by simpa using hf)
                omega
        cases hfin : s1.Finalized with
        | true =>
          rw [Node.unaryFinish_fin _ _ _ _ _ _ hfin] at hcap2 ⊢
          have hcap2c : p.AlphaConfidence ≤ votes.Len → cap2 < p.BetaBinary := by
            rcases hcap2 with h | h
            · exact h
            · have := h hfin
              simp [Node.hasChild] at this
          rw [Node.Dom_unary]
          refine ⟨fun _ hf => hs1b hf, ?_⟩
          intro c hc
          simp only [Option.some.injEq] at hc
          subst hc
          have hf1 : s1.finalized = true := hfin
          rw [if_pos hf1]
          refine Node.Dom_mono _ false _ cap2 cap2
            (ih ch rfl _ _ cap2 votes hdc hcapc (Or.inl hcap2c)) (fun h => by cases h)
            (fun _ => le_refl _)
        | false =>
          rw [Node.unaryFinish_notFin _ _ _ _ _ _ hfin]
          have hf1 : s1.finalized = false := hfin
          have hsf := hs1a hf1
          rw [Node.Dom_unary]
          refine ⟨fun _ hf => hs1b hf, ?_⟩
          intro c hc
          simp only [Option.some.injEq] at hc
          subst hc
          rw [hsf] at hdc
          simp only [Bool.false_eq_true, if_false, hf1, Bool.or_false] at hdc ⊢
          refine ih ch rfl _ _ s1.confidence votes hdc ?_ (Or.inl fun hn => (hs1c hf1 hn).2)
          intro hn
          rw [(hs1c hf1 hn).1]
          cases pend <;> cases sr <;> simp
  | binary p0 p1 bit snow sr0 sr1 c0 c1 ih0 ih1 =>
    intro pend cap cap2 votes h hcap1 hcap2
    rw [Node.Dom_binary] at h
    obtain ⟨hown, hz, hsome, hfinc, hc0, hc1⟩ := h
    rw [Node.RecordPoll_binary] at hcap2 ⊢
    have hm := Bag.Len_sel_le votes
      (decide (p.AlphaPreference ≤ (votes.Filter fun x => x.Bit bit).Len)) fun x => x.Bit bit
    generalize decide (p.AlphaPreference ≤ (votes.Filter fun x => x.Bit bit).Len) = side
      at hm hcap2 ⊢
    generalize sel side (votes.Filter fun x => !x.Bit bit) (votes.Filter fun x => x.Bit bit)
      = pruned at hm hcap2 ⊢
    by_cases hlow : pruned.Len < p.AlphaPreference
    · rw [if_pos hlow]
      rw [Node.Dom_binary, Binary.unsuccessfulSide_twice]
      refine ⟨?_, ?_, hsome, ?_, ?_, ?_⟩
      · intro _ hf
        cases hs : snow.finalized with
        | true => simp [hs] at hf
        | false => simp
      · cases hs : snow.finalized with
        | true => simp
        | false => simp
      · intro hf
        cases hs : snow.finalized with
        | true => exact hfinc hs
        | false => simp [hs] at hf
      · intro c hc
        exact Node.Dom_mono c _ _ _ _ (hc0 c hc) (fun _ => by simp) (fun h => by simp at h)
      · intro c hc
        exact Node.Dom_mono c _ _ _ _ (hc1 c hc) (fun _ => by simp) (fun h => by simp at h)
    · rw [if_neg hlow] at hcap2 ⊢
      have hs1 : ∀ s1, s1 = (if pend = true then snow.RecordUnsuccessfulPoll else
            snow).RecordPoll p pruned.Len side →
          (snow.finalized = true → s1.finalized = true) ∧
          (s1.finalized = false → s1.confidence0 ≤ cap2 ∧ s1.confidence1 ≤ cap2) ∧
          (if s1.preference = true then s1.confidence0 else s1.confidence1) = 0 ∧
          (s1.finalized = false → p.AlphaConfidence ≤ pruned.Len →
            sel side s1.confidence0 s1.confidence1 =
                (if pend = true then 1 else sel side snow.confidence0 snow.confidence1 + 1) ∧
              sel side s1.confidence0 s1.confidence1 < p.BetaBinary) ∧
          (s1.finalized = false → pruned.Len < p.AlphaConfidence →
            s1.confidence0 = 0 ∧ s1.confidence1 = 0) ∧
          ((p.AlphaConfidence ≤ votes.Len → cap2 < p.BetaBinary) →
            snow.finalized = false → s1.finalized = false) := by
        intro s1 e
        cases hs : snow.finalized with
        | true =>
          rw [Binary.pollSide_of_finalized p snow pend _ side hs] at e
          subst e
          cases pend <;> simp [hs, hz, Binary.RecordUnsuccessfulPoll]
        | false =>
          by_cases hn : p.AlphaConfidence ≤ pruned.Len
          · obtain ⟨e1, e2, e3, e4⟩ := Binary.pollSide_high p snow pend _ side hs hn hz
            rw [← e] at e1 e2 e3 e4
            have h1 := hcap1 (by omega)
            have hbound : sel side s1.confidence0 s1.confidence1 ≤ cap2 := by
              rw [e2]
              cases pend with
              | true => simpa using h1
              | false =>
                have := hown rfl hs
                simp only [Bool.false_eq_true, if_false] at h1 ⊢
                cases side <;> simp only [sel_true, sel_false] <;> omega
            refine ⟨(fun h => by cases h), ?_, ?_, ?_, ?_, ?_⟩
            · intro _
              cases side <;> simp only [sel_true, sel_false, Bool.not_true, Bool.not_false]
                at hbound e3 <;> omega
            · rw [e1]
              cases side <;> simp only [sel_true, sel_false, Bool.not_true, Bool.not_false]
                at e3 <;> simp [e3]
            · intro hf _
              refine ⟨e2, ?_⟩
              rw [e4] at hf
              simp only [decide_eq_false_iff_not] at hf
              rw [e2]
              omega
            · intro _ hlt
              omega
            · intro hc2 _
              have := hc2 (by omega)
              rw [e4]
              simp only [decide_eq_false_iff_not]
              rw [← e2]
              omega
          · rw [Binary.pollSide_low p snow pend _ side hs (by omega)] at e
            subst e
            refine ⟨(fun h => by cases h), (fun _ => ⟨Nat.zero_le _, Nat.zero_le _⟩), (by simp),
              (fun _ h => absurd h hn), (fun _ _ => ⟨rfl, rfl⟩), (fun _ _ => rfl)⟩
      generalize (if pend = true then snow.RecordUnsuccessfulPoll else snow).RecordPoll p
        pruned.Len side = s1 at hs1 hcap2 ⊢
      obtain ⟨hs1a, hs1b, hs1z, hs1c, hs1d, hs1e⟩ := hs1 s1 rfl
      cases side with
      | false =>
        simp only [sel_false, Bool.not_false, sel_true] at hs1c hs1d hcap2 ⊢
        cases c0 with
        | none =>
          have hco : c1 = none := by
            cases c1 with
            | none => rfl
            | some _ => cases hsome
          subst hco
          rw [Option.map_none', Node.binaryFinish_none_false, Node.Dom_binary]
          exact ⟨fun _ hf => hs1b hf, hs1z, rfl, fun _ => rfl, (fun c hc => by cases hc),
            (fun c hc => by cases hc)⟩
        | some ch =>
          rw [Option.map_some'] at hcap2 ⊢
          have hdc := hc0 ch rfl
          cases hfin : s1.Finalized with
          | true =>
            exfalso
            rw [Node.binaryFinish_fin_false _ _ _ _ _ _ _ _ hfin] at hcap2
            have hf1 : s1.finalized = true := hfin
            rcases hcap2 with h | h
            · have := hs1e h
              cases hsf : snow.finalized with
              | true =>
                have := hfinc hsf
                cases this
              | false =>
                rw [this hsf] at hf1
                cases hf1
            · have := h hfin
              simp [Node.hasChild] at this
          | false =>
            have hf1 : s1.finalized = false := hfin
            rw [Node.binaryFinish_notFin_false _ _ _ _ _ _ _ _ hfin, Node.Dom_binary]
            refine ⟨fun _ hf => hs1b hf, hs1z, hsome, (fun h => by rw [hf1] at h; cases h),
              ?_, ?_⟩
            · intro c hc
              simp only [Option.some.injEq] at hc
              subst hc
              simp only [Bool.false_or]
              refine ih0 ch rfl _ _ s1.confidence0 pruned hdc ?_
                (Or.inl fun hn => (hs1c hf1 hn).2)
              intro hn
              rw [(hs1c hf1 hn).1]
              cases pend <;> cases sr0 <;> simp
            · intro c hc
              exact Node.Dom_mono c _ _ _ _ (hc1 c hc) (fun _ => by simp)
                (fun h => by simp at h)
      | true =>
        simp only [sel_true, Bool.not_true, sel_false] at hs1c hs1d hcap2 ⊢
        cases c1 with
        | none =>
          have hco : c0 = none := by
            cases c0 with
            | none => rfl
            | some _ => cases hsome
          subst hco
          rw [Option.map_none', Node.binaryFinish_none_true, Node.Dom_binary]
          exact ⟨fun _ hf => hs1b hf, hs1z, rfl, fun _ => rfl, (fun c hc => by cases hc),
            (fun c hc => by cases hc)⟩
        | some ch =>
          rw [Option.map_some'] at hcap2 ⊢
          have hdc := hc1 ch rfl
          cases hfin : s1.Finalized with
          | true =>
            exfalso
            rw [Node.binaryFinish_fin_true _ _ _ _ _ _ _ _ hfin] at hcap2
            have hf1 : s1.finalized = true := hfin
            rcases hcap2 with h | h
            · have := hs1e h
              cases hsf : snow.finalized with
              | true =>
                have := hfinc hsf
                rw [this] at hsome
                cases hsome
              | false =>
                rw [this hsf] at hf1
                cases hf1
            · have := h hfin
              simp [Node.hasChild] at this
          | false =>
            have hf1 : s1.finalized = false := hfin
            rw [Node.binaryFinish_notFin_true _ _ _ _ _ _ _ _ hfin, Node.Dom_binary]
            refine ⟨fun _ hf => hs1b hf, hs1z, hsome, (fun h => by rw [hf1] at h; cases h),
              ?_, ?_⟩
            · intro c hc
              exact Node.Dom_mono c _ _ _ _ (hc0 c hc) (fun _ => by simp)
                (fun h => by simp at h)
            · intro c hc
              simp only [Option.some.injEq] at hc
              subst hc
              simp only [Bool.false_or]
              refine ih1 ch rfl _ _ s1.confidence1 pruned hdc ?_
                (Or.inl fun hn => (hs1c hf1 hn).2)
              intro hn
              rw [(hs1c hf1 hn).1]
              cases pend <;> cases sr1 <;> simp
theorem Node.RecordPoll_Dom_stay (p : Parameters) (hβ : p.BetaUnary ≤ p.BetaBinary) (n : Node)
    (pend : Bool) (cap : Nat) (votes : Bag) (h : n.Dom pend cap)
    (hret : (n.RecordPoll p votes pend).ret = (n.RecordPoll p votes pend).self)
    (hroot : (n.RecordPoll p votes pend).self.Finalized = true →
      (n.RecordPoll p votes pend).self.hasChild = false) :
    (∃ cap2, (n.RecordPoll p votes pend).ret.Dom false cap2) ∧
      ((n.RecordPoll p votes pend).ret.Finalized = true →
        (n.RecordPoll p votes pend).ret.hasChild = false) := by
  rw [hret]
  refine ⟨⟨cap + 1, ?_⟩, hroot⟩
  refine Node.RecordPoll_Dom_self p hβ n pend cap (cap + 1) votes h ?_ (Or.inr hroot)
  intro _
  split <;> omega

/-- After a poll the returned node satisfies the confidence invariant with no pending
reset, and has no child when its counter is finalized. -/
theorem Node.RecordPoll_Dom_ret (p : Parameters) (hβ : p.BetaUnary ≤ p.BetaBinary) (n : Node) :
    ∀ (pend : Bool) (cap : Nat) (votes : Bag), n.Dom pend cap →
      (p.AlphaPreference ≤ votes.Len ∨ (n.Finalized = true → n.hasChild = false)) →
      (∃ cap2, (n.RecordPoll p votes pend).ret.Dom false cap2) ∧
        ((n.RecordPoll p votes pend).ret.Finalized = true →
          (n.RecordPoll p votes pend).ret.hasChild = false) := by
  induction n using Node.induct with
  | unary pr dp cp snow sr child ih =>
    intro pend cap votes h hpre
    apply Classical.byContradiction
    intro hcon
    have hstay := fun h1 h2 => hcon (Node.RecordPoll_Dom_stay p hβ _ pend cap votes h h1 h2)
    rw [Node.RecordPoll_unary] at hstay hcon
    by_cases hlow : votes.Len < p.AlphaPreference
    · rw [if_pos hlow] at hstay
      refine hstay rfl ?_
      intro hf
      rcases hpre with h1 | h1
      · omega
      · rw [Node.Finalized, Unary.Finalized, Unary.unsuccessful_twice] at hf
        cases hs : snow.finalized with
        | true => exact h1 hs
        | false => simp [hs] at hf
    · rw [if_neg hlow] at hstay hcon
      cases child with
      | none =>
        rw [Option.map_none', Node.unaryFinish_none] at hstay
        exact hstay rfl (fun _ => rfl)
      | some ch =>
        rw [Option.map_some'] at hstay hcon
        rw [Node.Dom_unary] at h
        cases hfin : ((if pend = true then snow.RecordUnsuccessfulPoll else snow).RecordPoll p
            votes.Len).Finalized with
        | true =>
          rw [Node.unaryFinish_fin _ _ _ _ _ _ hfin] at hcon
          exact hcon (ih ch rfl _ _ votes (h.2 ch rfl) (Or.inl (by omega)))
        | false =>
          rw [Node.unaryFinish_notFin _ _ _ _ _ _ hfin] at hstay
          refine hstay rfl ?_
          intro hf
          rw [Node.Finalized, hfin] at hf
          cases hf
  | binary p0 p1 bit snow sr0 sr1 c0 c1 ih0 ih1 =>
    intro pend cap votes h hpre
    apply Classical.byContradiction
    intro hcon
    have hstay := fun h1 h2 => hcon (Node.RecordPoll_Dom_stay p hβ _ pend cap votes h h1 h2)
    rw [Node.RecordPoll_binary] at hstay hcon
    rw [Node.Dom_binary] at h
    obtain ⟨hown, hz, hsome, hfinc, hc0, hc1⟩ := h
    generalize decide (p.AlphaPreference ≤ (votes.Filter fun x => x.Bit bit).Len) = side
      at hstay hcon
    generalize sel side (votes.Filter fun x => !x.Bit bit) (votes.Filter fun x => x.Bit bit)
      = pruned at hstay hcon
    by_cases hlow : pruned.Len < p.AlphaPreference
    · rw [if_pos hlow] at hstay
      refine hstay rfl ?_
      intro hf
      rw [Node.Finalized, Binary.Finalized, Binary.unsuccessfulSide_twice] at hf
      cases hs : snow.finalized with
      | true =>
        have h0 := hfinc hs
        subst h0
        cases c1 with
        | none => rfl
        | some _ => cases hsome
      | false => simp [hs] at hf
    · rw [if_neg hlow] at hstay hcon
      cases side with
      | false =>
        simp only [sel_false, Bool.false_or] at hstay hcon
        cases c0 with
        | none =>
          have hco : c1 = none := by
            cases c1 with
            | none => rfl
            | some _ => cases hsome
          subst hco
          rw [Option.map_none', Node.binaryFinish_none_false] at hstay
          exact hstay rfl (fun _ => rfl)
        | some ch =>
          rw [Option.map_some'] at hstay hcon
          cases hfin : ((if pend = true then snow.RecordUnsuccessfulPoll else snow).RecordPoll p
              pruned.Len false).Finalized with
          | true =>
            rw [Node.binaryFinish_fin_false _ _ _ _ _ _ _ _ hfin] at hcon
            exact hcon (ih0 ch rfl _ _ pruned (hc0 ch rfl) (Or.inl (by omega)))
          | false =>
            rw [Node.binaryFinish_notFin_false _ _ _ _ _ _ _ _ hfin] at hstay
            refine hstay rfl ?_
            intro hf
            rw [Node.Finalized, hfin] at hf
            cases hf
      | true =>
        simp only [sel_true] at hstay hcon
        cases c1 with
        | none =>
          have hco : c0 = none := by
            cases c0 with
            | none => rfl
            | some _ => cases hsome
          subst hco
          rw [Option.map_none', Node.binaryFinish_none_true] at hstay
          exact hstay rfl (fun _ => rfl)
        | some ch =>
          rw [Option.map_some'] at hstay hcon
          cases hfin : ((if pend = true then snow.RecordUnsuccessfulPoll else snow).RecordPoll p
              pruned.Len true).Finalized with
          | true =>
            rw [Node.binaryFinish_fin_true _ _ _ _ _ _ _ _ hfin] at hcon
            exact hcon (ih1 ch rfl _ _ pruned (hc1 ch rfl) (Or.inl (by omega)))
          | false =>
            rw [Node.binaryFinish_notFin_true _ _ _ _ _ _ _ _ hfin] at hstay
            refine hstay rfl ?_
            intro hf
            rw [Node.Finalized, hfin] at hf
            cases hf
theorem Node.freshChild_Dom (p : Parameters) (c : ID) (index : Nat) (pend : Bool) (cap : Nat) :
    (Node.freshChild p c index).Dom pend cap := by
  unfold Node.freshChild
  rw [Node.Dom_unary]
  exact ⟨fun _ _ => Nat.zero_le _, fun n h => by cases h⟩

theorem Node.mkBinary_Dom (pend : Bool) (cap : Nat) (bit : Bool) (pr c : ID) (index : Nat)
    (snow : Unary) (sr : Bool) (childBit childOther : Option Node)
    (hf : snow.finalized = false) (hown : pend = false → snow.confidence ≤ cap)
    (hsome : childBit.isSome = childOther.isSome)
    (h1 : ∀ n, childBit = some n → n.Dom (pend || sr) snow.confidence)
    (h2 : ∀ n, childOther = some n → n.Dom (pend || sr) 0) :
    (Node.mkBinary bit pr c index (snow.Extend bit) sr childBit childOther).Dom pend cap := by
  cases bit with
  | false =>
    simp only [Node.mkBinary, Bool.false_eq_true, if_false]
    rw [Node.Dom_binary]
    refine ⟨fun hp _ => ⟨hown hp, Nat.zero_le _⟩, rfl, hsome,
      (fun h => by rw [Unary.Extend, hf] at h; cases h), h1, h2⟩
  | true =>
    simp only [Node.mkBinary, if_true]
    rw [Node.Dom_binary]
    refine ⟨fun hp _ => ⟨Nat.zero_le _, hown hp⟩, rfl, hsome.symm,
      (fun h => by rw [Unary.Extend, hf] at h; cases h), h2, h1⟩

theorem Node.split_Dom (p : Parameters) (pend : Bool) (cap : Nat) (pr : ID) (dp cp : Nat)
    (snow : Unary) (sr : Bool) (child : Option Node) (c : ID) (index : Nat)
    (hf : snow.finalized = false) (h : (Node.unary pr dp cp snow sr child).Dom pend cap) :
    (Node.split p pr dp cp snow sr child c index).Dom pend cap := by
  rw [Node.Dom_unary] at h
  obtain ⟨hown, hch⟩ := h
  simp only [hf, Bool.false_eq_true, if_false] at hch
  have hown2 : pend = false → snow.confidence ≤ cap := fun hp => hown hp hf
  have hfresh : ∀ (q : Bool) (k : Nat) (n : Node),
      (child.map fun _ => Node.freshChild p c index) = some n → n.Dom q k := by
    intro q k n hn
    cases child with
    | none => cases hn
    | some ch =>
      simp only [Option.map_some', Option.some.injEq] at hn
      subst hn
      exact Node.freshChild_Dom p c index q k
  have hsm : child.isSome = (child.map fun _ => Node.freshChild p c index).isSome := by
    cases child <;> rfl
  have hinner : ∀ (d1 d2 : Nat),
      (Node.unary pr d1 d2 snow sr child).Dom (pend || sr) snow.confidence := by
    intro d1 d2
    rw [Node.Dom_unary]
    refine ⟨fun _ _ => le_refl _, ?_⟩
    intro n hn
    simp only [hf, Bool.false_eq_true, if_false]
    exact Node.Dom_mono n _ _ _ _ (hch n hn) (fun h => by simp [h]) (fun _ => le_refl _)
  unfold Node.split
  split
  · exact Node.mkBinary_Dom pend cap _ pr c index snow sr child _ hf hown2 hsm hch
      (hfresh _ _)
  · split
    · refine Node.mkBinary_Dom pend cap _ pr c index snow sr _ _ hf hown2 rfl ?_ ?_
      · intro n hn
        simp only [Option.some.injEq] at hn
        subst hn
        exact hinner (dp + 1) cp
      · intro n hn
        simp only [Option.some.injEq] at hn
        subst hn
        exact Node.freshChild_Dom p c index _ _
    · split
      · rw [Node.Dom_unary]
        refine ⟨hown, ?_⟩
        intro n hn
        simp only [Option.some.injEq] at hn
        subst hn
        simp only [hf, Bool.false_eq_true, if_false]
        refine Node.mkBinary_Dom _ _ _ pr c index snow sr child _ hf (fun _ => le_refl _) hsm
          ?_ (hfresh _ _)
        intro n hn
        exact Node.Dom_mono n _ _ _ _ (hch n hn) (fun h => by simp [h]) (fun _ => le_refl _)
      · rw [Node.Dom_unary]
        refine ⟨hown, ?_⟩
        intro n hn
        simp only [Option.some.injEq] at hn
        subst hn
        simp only [Unary.Clone, hf, Bool.false_eq_true, if_false, Bool.or_false]
        refine Node.mkBinary_Dom _ _ _ pr c index snow sr _ _ hf (fun _ => le_refl _) rfl ?_ ?_
        · intro n hn
          simp only [Option.some.injEq] at hn
          subst hn
          exact hinner (index + 1) cp
        · intro n hn
          simp only [Option.some.injEq] at hn
          subst hn
          exact Node.freshChild_Dom p c index _ _

/-- The confidence invariant is kept by `Add`. -/
theorem Node.Add_Dom (p : Parameters) (c : ID) (n : Node) :
    ∀ (pend : Bool) (cap : Nat), n.Dom pend cap → (n.Add p c).Dom pend cap := by
  induction n using Node.induct with
  | unary pr dp cp snow sr child ih =>
    intro pend cap h
    rw [Node.Add_unary]
    cases hf : snow.Finalized with
    | true => simpa using h
    | false =>
      simp only [Bool.false_eq_true, if_false]
      cases hd : FirstDifferenceSubset dp cp pr c with
      | some index => exact Node.split_Dom p pend cap pr dp cp snow sr child c index hf h
      | none =>
        rw [Node.Dom_unary] at h ⊢
        refine ⟨h.1, ?_⟩
        intro n hn
        cases child with
        | none => cases hn
        | some ch =>
          simp only [Option.map_some', Option.some.injEq] at hn
          subst hn
          exact ih ch rfl _ _ (h.2 ch rfl)
  | binary p0 p1 bit snow sr0 sr1 c0 c1 ih0 ih1 =>
    intro pend cap h
    rw [Node.Dom_binary] at h
    obtain ⟨h1, h2, h3, h4, h5, h6⟩ := h
    rw [Node.Add_binary]
    cases c.Bit bit with
    | true =>
      simp only [if_true]
      rw [Node.Dom_binary]
      refine ⟨h1, h2, by cases c1 <;> simpa using h3, h4, h5, ?_⟩
      intro n hn
      cases c1 with
      | none => cases hn
      | some ch =>
        simp only [Option.map_some', Option.some.injEq] at hn
        subst hn
        exact ih1 ch rfl _ _ (h6 ch rfl)
    | false =>
      simp only [Bool.false_eq_true, if_false]
      rw [Node.Dom_binary]
      refine ⟨h1, h2, by cases c0 <;> simpa using h3, ?_, ?_, h6⟩
      · intro hfin
        have := h4 hfin
        subst this
        rfl
      · intro n hn
        cases c0 with
        | none => cases hn
        | some ch =>
          simp only [Option.map_some', Option.some.injEq] at hn
          subst hn
          exact ih0 ch rfl _ _ (h5 ch rfl)
theorem Node.Add_of_finalized_leaf (p : Parameters) (c : ID) (n : Node)
    (hf : n.Finalized = true) (hc : n.hasChild = false) : n.Add p c = n := by
  cases n with
  | unary pr dp cp snow sr child =>
    rw [Node.Add_unary]
    have : snow.Finalized = true := hf
    simp [this]
  | binary p0 p1 bit snow sr0 sr1 c0 c1 =>
    simp only [Node.hasChild, Bool.or_eq_false_iff] at hc
    have h0 : c0 = none := by cases c0 <;> simp_all
    have h1 : c1 = none := by cases c1 <;> simp_all
    subst h0
    subst h1
    rw [Node.Add_binary]
    simp

theorem Node.RecordPoll_of_finalized_leaf (p : Parameters) (votes : Bag) (reset : Bool)
    (n : Node) (hf : n.Finalized = true) (hc : n.hasChild = false) :
    (n.RecordPoll p votes reset).ret.Preference = n.Preference ∧
      (n.RecordPoll p votes reset).ret.Finalized = true ∧
      (n.RecordPoll p votes reset).ret.hasChild = false ∧
      (n.RecordPoll p votes reset).ret.DecidedPrefix = n.DecidedPrefix := by
  cases n with
  | unary pr dp cp snow sr child =>
    have hs : snow.finalized = true := hf
    have h0 : child = none := by cases child <;> simp_all [Node.hasChild]
    subst h0
    rw [Node.RecordPoll_unary]
    split
    · rw [Unary.unsuccessful_twice]
      exact ⟨rfl, hs, rfl, rfl⟩
    · rw [Option.map_none', Node.unaryFinish_none]
      exact ⟨rfl, Unary.poll_of_finalized p snow reset _ hs, rfl, rfl⟩
  | binary p0 p1 bit snow sr0 sr1 c0 c1 =>
    have hs : snow.finalized = true := hf
    simp only [Node.hasChild, Bool.or_eq_false_iff] at hc
    have h0 : c0 = none := by cases c0 <;> simp_all
    have h1 : c1 = none := by cases c1 <;> simp_all
    subst h0
    subst h1
    rw [Node.RecordPoll_binary]
    split
    · rw [Binary.unsuccessfulSide_twice]
      exact ⟨rfl, hs, rfl, rfl⟩
    · generalize decide (p.AlphaPreference ≤ (votes.Filter fun x => x.Bit bit).Len) = side
      obtain ⟨k1, k2⟩ := Binary.pollSide_finalized_keeps p snow reset
        (sel side (votes.Filter fun x => !x.Bit bit) (votes.Filter fun x => x.Bit bit)).Len
        side hs
      generalize (if reset = true then snow.RecordUnsuccessfulPoll else snow).RecordPoll p
        (sel side (votes.Filter fun x => !x.Bit bit) (votes.Filter fun x => x.Bit bit)).Len
        side = s1 at k1 k2
      have hp : ∀ f0 f1, (Node.binary p0 p1 bit s1 f0 f1 none none).Preference =
          (Node.binary p0 p1 bit snow sr0 sr1 none none).Preference := by
        intro f0 f1
        show sel s1.preference p0 p1 = sel snow.preference p0 p1
        rw [k2]
      cases side
      · simp only [sel_false, Option.map_none', Node.binaryFinish_none_false]
        exact ⟨hp _ _, k1, rfl, rfl⟩
      · simp only [sel_true, Option.map_none', Node.binaryFinish_none_true]
        exact ⟨hp _ _, k1, rfl, rfl⟩

/-- Every tree reachable with `beta_unary <= beta_binary` satisfies the invariant of the
tree. -/
theorem Reachable.inv {p : Parameters} {a : ID} {t : Tree} (hβ : p.BetaUnary ≤ p.BetaBinary)
    (h : Reachable p a t) : t.Inv := by
  induction h with
  | newTree =>
    refine ⟨Reachable.newTree.wf.1, fun _ => rfl, 0, ?_⟩
    show (Node.unary a 0 NumBits (NewUnary p) false none).Dom false 0
    rw [Node.Dom_unary]
    exact ⟨fun _ _ => Nat.zero_le _, fun c h => by cases h⟩
  | add t c hr ih =>
    refine ⟨(Reachable.add t c hr).wf.1, ?_⟩
    obtain ⟨_, hroot, cap, hdom⟩ := ih
    rw [Tree.Add_eq]
    split
    · refine ⟨?_, cap, Node.Add_Dom _ c t.node _ _ hdom⟩
      intro hf
      have hf2 : t.node.Finalized = true := by
        rw [← (Node.Add_facts t.params c t.node).2.2]; exact hf
      show (t.node.Add t.params c).hasChild = false
      rw [Node.Add_of_finalized_leaf _ c t.node hf2 (hroot hf2)]
      exact hroot hf2
    · exact ⟨hroot, cap, hdom⟩
  | recordPoll t votes hr ih =>
    refine ⟨(Reachable.recordPoll t votes hr).wf.1, ?_⟩
    obtain ⟨_, hroot, cap, hdom⟩ := ih
    rw [Tree.RecordPoll_eq]
    have hp := hr.wf.2
    have := Node.RecordPoll_Dom_ret t.params (by rw [hp]; exact hβ) t.node t.shouldReset cap
      (t.legalVotes votes) hdom (Or.inr hroot)
    exact ⟨this.2, this.1⟩
  | recordUnsuccessfulPoll t hr ih =>
    obtain ⟨hwf, hroot, cap, hdom⟩ := ih
    exact ⟨hwf, hroot, cap, Node.Dom_mono t.node _ true cap cap hdom (fun _ => rfl)
      (fun h => by cases h)⟩

/-! ## Finalization is final -/

/-- C9: with `beta_unary <= beta_binary` (the invariant of `Parameters`), in a reachable
tree with `Finalized() = true` every operation (`Add` of any id, `RecordPoll` of any
bag, `RecordUnsuccessfulPoll`) leaves `Preference()` unchanged and `Finalized()` true. -/
theorem finalized_is_final (p : Parameters) (a : ID) (t : Tree)
    (hβ : p.BetaUnary ≤ p.BetaBinary) (hr : Reachable p a t) (hf : t.Finalized = true)
    (op : Op) :
    (t.step op).Preference = t.Preference ∧ (t.step op).Finalized = true := by
  have hleaf : t.node.hasChild = false := (hr.inv hβ).2.1 hf
  cases op with
  | add c =>
    show (t.Add c).Preference = t.Preference ∧ (t.Add c).Finalized = true
    rw [Tree.Add_eq]
    split
    · show (t.node.Add t.params c).Preference = t.node.Preference ∧
        (t.node.Add t.params c).Finalized = true
      rw [Node.Add_of_finalized_leaf _ c t.node hf hleaf]
      exact ⟨rfl, hf⟩
    · exact ⟨rfl, hf⟩
  | recordPoll votes =>
    show (t.RecordPoll votes).1.Preference = t.Preference ∧
      (t.RecordPoll votes).1.Finalized = true
    rw [Tree.RecordPoll_eq]
    have := Node.RecordPoll_of_finalized_leaf t.params (t.legalVotes votes) t.shouldReset
      t.node hf hleaf
    exact ⟨this.1, this.2.1⟩
  | recordUnsuccessfulPoll => exact ⟨rfl, hf⟩

/-- Scenario S1 for C9: the tree finalized on `0...0` keeps its preference when it is
polled with five votes for `1000...0`. -/
theorem finalized_is_final_witness :
    scenarioParams.BetaUnary ≤ scenarioParams.BetaBinary ∧ scenarioS1.Finalized = true ∧
    (scenarioS1.step (.recordPoll (List.replicate 5 idOne))).Preference
      = scenarioS1.Preference ∧
    (scenarioS1.step (.recordPoll (List.replicate 5 idOne))).Finalized = true :=
  ⟨by decide, by decide,
    finalized_is_final scenarioParams idZero scenarioS1 (by decide)
      (Reachable.recordPoll _ _ (Reachable.recordPoll _ _ Reachable.newTree)) (by decide)
      (.recordPoll (List.replicate 5 idOne))⟩

/-! ## When the tree is finalized -/

/-- C10 (as amended): with `beta_unary <= beta_binary`, in every reachable tree
`Finalized()` is true exactly when the root is a childless node whose counter is
finalized, and the decided prefix of the root stays below 256. -/
theorem finalized_iff_finalized_leaf (p : Parameters) (a : ID) (t : Tree)
    (hβ : p.BetaUnary ≤ p.BetaBinary) (hr : Reachable p a t) :
    (t.Finalized = true ↔
      ((∃ pr dp cp snow sr, t.node = .unary pr dp cp snow sr none ∧ snow.Finalized = true) ∨
        ∃ p0 p1 bit snow sr0 sr1,
          t.node = .binary p0 p1 bit snow sr0 sr1 none none ∧ snow.Finalized = true)) ∧
    t.node.DecidedPrefix < 256 := by
  refine ⟨⟨?_, ?_⟩, Node.WF_DecidedPrefix_lt t.node hr.wf.1⟩
  · intro hf
    have hleaf : t.node.hasChild = false := (hr.inv hβ).2.1 hf
    have hf2 : t.node.Finalized = true := hf
    cases hn : t.node with
    | unary pr dp cp snow sr child =>
      rw [hn] at hleaf hf2
      have h0 : child = none := by cases child <;> simp_all [Node.hasChild]
      subst h0
      exact Or.inl ⟨pr, dp, cp, snow, sr, rfl, hf2⟩
    | binary p0 p1 bit snow sr0 sr1 c0 c1 =>
      rw [hn] at hleaf hf2
      simp only [Node.hasChild, Bool.or_eq_false_iff] at hleaf
      have h0 : c0 = none := by cases c0 <;> simp_all
      have h1 : c1 = none := by cases c1 <;> simp_all
      subst h0
      subst h1
      exact Or.inr ⟨p0, p1, bit, snow, sr0, sr1, rfl, hf2⟩
  · rintro (⟨pr, dp, cp, snow, sr, hn, hs⟩ | ⟨p0, p1, bit, snow, sr0, sr1, hn, hs⟩)
    · show t.node.Finalized = true
      rw [hn]; exact hs
    · show t.node.Finalized = true
      rw [hn]; exact hs

/-- Scenario S1 for C10: the tree finalized on `0...0` has a childless unary root with a
finalized counter, and its decided prefix is below 256. -/
theorem finalized_iff_finalized_leaf_witness :
    scenarioParams.BetaUnary ≤ scenarioParams.BetaBinary ∧
    (scenarioS1.Finalized = true ↔
      ((∃ pr dp cp snow sr,
          scenarioS1.node = .unary pr dp cp snow sr none ∧ snow.Finalized = true) ∨
        ∃ p0 p1 bit snow sr0 sr1,
          scenarioS1.node = .binary p0 p1 bit snow sr0 sr1 none none ∧
            snow.Finalized = true)) ∧
    scenarioS1.node.DecidedPrefix < 256 :=
  ⟨by decide,
    finalized_iff_finalized_leaf scenarioParams idZero scenarioS1 (by decide)
      (Reachable.recordPoll _ _ (Reachable.recordPoll _ _ Reachable.newTree))⟩

/-- Counterexample to C10 as stated: in scenario S1 the tree is finalized while the
decided prefix of its root is 0, not 256. -/
theorem finalized_without_decided_prefix :
    Reachable scenarioParams idZero scenarioS1 ∧ scenarioS1.Finalized = true ∧
    scenarioS1.node.DecidedPrefix = 0 ∧
    ¬ (scenarioS1.Finalized = true ↔ scenarioS1.node.DecidedPrefix = 256) :=
  ⟨Reachable.recordPoll _ _ (Reachable.recordPoll _ _ Reachable.newTree), by decide, by decide,
    by decide⟩

/-! ## The finalized root is childless -/

/-- C11: with `beta_unary <= beta_binary`, in every reachable tree `Finalized()` holds
exactly when the root node reports finalized and has no child; whenever the counter of
the root is finalized, a unary root has `child = nil` and a binary root has both
children nil. -/
theorem finalized_root_is_childless (p : Parameters) (a : ID) (t : Tree)
    (hβ : p.BetaUnary ≤ p.BetaBinary) (hr : Reachable p a t) :
    (t.Finalized = true ↔ (t.node.Finalized = true ∧ t.node.hasChild = false)) ∧
    (∀ pr dp cp snow sr child, t.node = .unary pr dp cp snow sr child →
      snow.Finalized = true → child = none) ∧
    (∀ p0 p1 bit snow sr0 sr1 c0 c1, t.node = .binary p0 p1 bit snow sr0 sr1 c0 c1 →
      snow.Finalized = true → c0 = none ∧ c1 = none) := by
  have hleaf : t.node.Finalized = true → t.node.hasChild = false := (hr.inv hβ).2.1
  refine ⟨⟨fun hf => ⟨hf, hleaf hf⟩, fun h => h.1⟩, ?_, ?_⟩
  · intro pr dp cp snow sr child hn hs
    rw [hn] at hleaf
    have := hleaf hs
    cases child with
    | none => rfl
    | some c => cases this
  · intro p0 p1 bit snow sr0 sr1 c0 c1 hn hs
    rw [hn] at hleaf
    have := hleaf hs
    simp only [Node.hasChild, Bool.or_eq_false_iff] at this
    constructor
    · cases c0 with
      | none => rfl
      | some c => cases this.1
    · cases c1 with
      | none => rfl
      | some c => cases this.2

/-- Scenario S1 for C11: the root of the tree finalized on `0...0` reports finalized and
has no child. -/
theorem finalized_root_is_childless_witness :
    scenarioParams.BetaUnary ≤ scenarioParams.BetaBinary ∧
    (scenarioS1.Finalized = true ↔
      (scenarioS1.node.Finalized = true ∧ scenarioS1.node.hasChild = false)) ∧
    (∀ pr dp cp snow sr child, scenarioS1.node = .unary pr dp cp snow sr child →
      snow.Finalized = true → child = none) ∧
    (∀ p0 p1 bit snow sr0 sr1 c0 c1, scenarioS1.node = .binary p0 p1 bit snow sr0 sr1 c0 c1 →
      snow.Finalized = true → c0 = none ∧ c1 = none) :=
  ⟨by decide,
    finalized_root_is_childless scenarioParams idZero scenarioS1 (by decide)
      (Reachable.recordPoll _ _ (Reachable.recordPoll _ _ Reachable.newTree))⟩

/-! ## Calls after finalization -/

/-- C12: with `beta_unary <= beta_binary`, in a reachable tree with `Finalized() = true`
the call `Add(c)` leaves the whole tree state (root, parameters, reset flag) unchanged,
for every id `c`. -/
theorem add_after_finalized (p : Parameters) (a : ID) (t : Tree)
    (hβ : p.BetaUnary ≤ p.BetaBinary) (hr : Reachable p a t) (hf : t.Finalized = true)
    (c : ID) : t.Add c = t := by
  have hleaf : t.node.hasChild = false := (hr.inv hβ).2.1 hf
  rw [Tree.Add_eq]
  split
  · rw [Node.Add_of_finalized_leaf _ c t.node hf hleaf]
  · rfl

/-- Scenario S1 for C12: adding `1000...0` to the tree finalized on `0...0` changes
nothing. -/
theorem add_after_finalized_witness :
    scenarioParams.BetaUnary ≤ scenarioParams.BetaBinary ∧ scenarioS1.Finalized = true ∧
    scenarioS1.Add idOne = scenarioS1 :=
  ⟨by decide, by decide,
    add_after_finalized scenarioParams idZero scenarioS1 (by decide)
      (Reachable.recordPoll _ _ (Reachable.recordPoll _ _ Reachable.newTree)) (by decide)
      idOne⟩

/-- C13 (as amended): with `beta_unary <= beta_binary`, in a reachable tree with
`Finalized() = true` a `RecordPoll` of any bag leaves the parameters as they are and the
root the same childless node, with the same preference(s) and prefix bounds and a
counter that is still finalized (a binary counter also keeps its preferred side), so
that `Finalized()` and `Preference()` are unchanged.  The call is not a no-op: it sets
or clears the `shouldReset` flag(s) of the root and calls the counter, as on any other
node: `RecordUnsuccessfulPoll` when there are fewer than `alpha_preference` votes (after
a first `RecordUnsuccessfulPoll` when the tree-level flag was set), `RecordPoll`
otherwise, which resets the confidence or counts on. -/
theorem recordPoll_after_finalized_keeps_root (p : Parameters) (a : ID) (t : Tree)
    (hβ : p.BetaUnary ≤ p.BetaBinary) (hr : Reachable p a t) (hf : t.Finalized = true)
    (votes : Bag) :
    (t.RecordPoll votes).1.params = t.params ∧
    (t.RecordPoll votes).1.Finalized = true ∧
    (t.RecordPoll votes).1.Preference = t.Preference ∧
    ((∃ pr dp cp snow sr,
        t.node = .unary pr dp cp snow sr none ∧
        (t.RecordPoll votes).1.node =
          .unary pr dp cp
            (if (t.legalVotes votes).Len < p.AlphaPreference then
              (if t.shouldReset then snow.RecordUnsuccessfulPoll
                else snow).RecordUnsuccessfulPoll
             else
              (if t.shouldReset then snow.RecordUnsuccessfulPoll else snow).RecordPoll p
                (t.legalVotes votes).Len)
            (decide ((t.legalVotes votes).Len < p.AlphaPreference)) none) ∨
      ∃ p0 p1 bit snow snow1 sr0 sr1 sr2 sr3,
        t.node = .binary p0 p1 bit snow sr0 sr1 none none ∧
        (t.RecordPoll votes).1.node = .binary p0 p1 bit snow1 sr2 sr3 none none ∧
        snow1.finalized = true ∧ snow1.preference = snow.preference ∧
        (sr2 = true ∨ sr3 = true)) := by
  have hleaf : t.node.hasChild = false := (hr.inv hβ).2.1 hf
  have hf2 : t.node.Finalized = true := hf
  have hfacts := Node.RecordPoll_of_finalized_leaf t.params (t.legalVotes votes) t.shouldReset
    t.node hf2 hleaf
  refine ⟨rfl, hfacts.2.1, hfacts.1, ?_⟩
  rw [Tree.RecordPoll_eq, hr.wf.2]
  generalize t.legalVotes votes = vs
  generalize t.shouldReset = reset
  cases hn : t.node with
  | unary pr dp cp snow sr child =>
    rw [hn] at hleaf hf2
    have h0 : child = none := by cases child <;> simp_all [Node.hasChild]
    subst h0
    refine Or.inl ⟨pr, dp, cp, snow, sr, rfl, ?_⟩
    show (Node.RecordPoll p _ vs reset).ret = _
    rw [Node.RecordPoll_unary]
    by_cases hlow : vs.Len < p.AlphaPreference
    · rw [if_pos hlow, if_pos hlow, decide_eq_true hlow]
    · rw [if_neg hlow, if_neg hlow, decide_eq_false hlow, Option.map_none',
        Node.unaryFinish_none]
  | binary p0 p1 bit snow sr0 sr1 c0 c1 =>
    rw [hn] at hleaf hf2
    have hs : snow.finalized = true := hf2
    simp only [Node.hasChild, Bool.or_eq_false_iff] at hleaf
    have h0 : c0 = none := by cases c0 <;> simp_all
    have h1 : c1 = none := by cases c1 <;> simp_all
    subst h0
    subst h1
    refine Or.inr ⟨p0, p1, bit, snow, ?_⟩
    show ∃ snow1 sr0' sr1' sr2 sr3, _ ∧ (Node.RecordPoll p _ vs reset).ret = _ ∧ _
    rw [Node.RecordPoll_binary]
    split
    · rw [Binary.unsuccessfulSide_twice]
      exact ⟨_, sr0, sr1, true, true, rfl, rfl, hs, rfl, Or.inl rfl⟩
    · generalize decide (p.AlphaPreference ≤ (vs.Filter fun x => x.Bit bit).Len) = side
      obtain ⟨k1, k2⟩ := Binary.pollSide_finalized_keeps p snow reset
        (sel side (vs.Filter fun x => !x.Bit bit) (vs.Filter fun x => x.Bit bit)).Len
        side hs
      generalize (if reset = true then snow.RecordUnsuccessfulPoll else snow).RecordPoll p
        (sel side (vs.Filter fun x => !x.Bit bit) (vs.Filter fun x => x.Bit bit)).Len
        side = s1 at k1 k2
      cases side
      · simp only [sel_false, Option.map_none', Node.binaryFinish_none_false]
        exact ⟨s1, sr0, sr1, false, true, rfl, rfl, k1, k2, Or.inr rfl⟩
      · simp only [sel_true, Option.map_none', Node.binaryFinish_none_true]
        exact ⟨s1, sr0, sr1, true, false, rfl, rfl, k1, k2, Or.inl rfl⟩

/-- Scenario S1 for C13: a poll of five votes for `0...0` on the tree finalized on
`0...0` keeps the root, its preference and its finalized counter, and counts on. -/
theorem recordPoll_after_finalized_keeps_root_witness :
    scenarioParams.BetaUnary ≤ scenarioParams.BetaBinary ∧
    Reachable scenarioParams idZero scenarioS1 ∧ scenarioS1.Finalized = true ∧
    (scenarioS1.RecordPoll (List.replicate 5 idZero)).1.node
      = .unary idZero 0 256 { confidence := 3, finalized := true } false none ∧
    (scenarioS1.RecordPoll (List.replicate 5 idZero)).1.params = scenarioS1.params ∧
    (scenarioS1.RecordPoll (List.replicate 5 idZero)).1.Finalized = true ∧
    (scenarioS1.RecordPoll (List.replicate 5 idZero)).1.Preference = scenarioS1.Preference :=
  ⟨by decide, Reachable.recordPoll _ _ (Reachable.recordPoll _ _ Reachable.newTree),
    by decide, rfl,
    (recordPoll_after_finalized_keeps_root scenarioParams idZero scenarioS1 (by decide)
      (Reachable.recordPoll _ _ (Reachable.recordPoll _ _ Reachable.newTree)) (by decide)
      (List.replicate 5 idZero)).1,
    (recordPoll_after_finalized_keeps_root scenarioParams idZero scenarioS1 (by decide)
      (Reachable.recordPoll _ _ (Reachable.recordPoll _ _ Reachable.newTree)) (by decide)
      (List.replicate 5 idZero)).2.1,
    (recordPoll_after_finalized_keeps_root scenarioParams idZero scenarioS1 (by decide)
      (Reachable.recordPoll _ _ (Reachable.recordPoll _ _ Reachable.newTree)) (by decide)
      (List.replicate 5 idZero)).2.2.1⟩

/-- Counterexample to C13 as stated: in scenario S1 the tree is finalized and its root
has `shouldReset = false` and a counter with confidence 2; after a `RecordPoll` of the
empty bag the root has `shouldReset = true` and confidence 0, so the tree state is not
identical to the state before. -/
theorem recordPoll_after_finalized_sets_flag :
    Reachable scenarioParams idZero scenarioS1 ∧ scenarioS1.Finalized = true ∧
    scenarioS1.node = .unary idZero 0 256 { confidence := 2, finalized := true } false none ∧
    (scenarioS1.RecordPoll []).1.node
      = .unary idZero 0 256 { confidence := 0, finalized := true } true none ∧
    (scenarioS1.RecordPoll []).1 ≠ scenarioS1 := by
  have h1 : scenarioS1.node
      = .unary idZero 0 256 { confidence := 2, finalized := true } false none := rfl
  have h2 : (scenarioS1.RecordPoll []).1.node
      = .unary idZero 0 256 { confidence := 0, finalized := true } true none := rfl
  refine ⟨Reachable.recordPoll _ _ (Reachable.recordPoll _ _ Reachable.newTree), by decide,
    h1, h2, ?_⟩
  intro h
  have h3 := congrArg Tree.node h
  rw [h1, h2] at h3
  cases h3

/-! ## The ids kept in the tree -/

theorem Node.mem_stored_unary (x pr : ID) (dp cp : Nat) (snow : Unary) (sr : Bool)
    (child : Option Node) :
    x ∈ (Node.unary pr dp cp snow sr child).stored ↔
      x = pr ∨ ∃ n, child = some n ∧ x ∈ n.stored := by
  cases child <;> simp [Node.stored]

theorem Node.mem_stored_binary (x p0 p1 : ID) (bit : Nat) (snow : Binary)
    (sr0 sr1 : Bool) (c0 c1 : Option Node) :
    x ∈ (Node.binary p0 p1 bit snow sr0 sr1 c0 c1).stored ↔
      x = p0 ∨ x = p1 ∨ (∃ n, c0 = some n ∧ x ∈ n.stored) ∨
        ∃ n, c1 = some n ∧ x ∈ n.stored := by
  cases c0 <;> cases c1 <;> simp [Node.stored]

theorem Node.Preference_mem_stored (n : Node) : n.Preference ∈ n.stored := by
  cases n with
  | unary pr dp cp snow sr child =>
    rw [Node.mem_stored_unary]
    exact Or.inl rfl
  | binary p0 p1 bit snow sr0 sr1 c0 c1 =>
    rw [Node.mem_stored_binary]
    rcases Node.binary_Preference_cases p0 p1 bit snow sr0 sr1 c0 c1 with h | h
    · exact Or.inl h
    · exact Or.inr (Or.inl h)

theorem Node.mem_stored_mkBinary (x : ID) (bit : Bool) (pr c : ID) (index : Nat)
    (snow : Binary) (sr : Bool) (childBit childOther : Option Node) :
    x ∈ (Node.mkBinary bit pr c index snow sr childBit childOther).stored ↔
      x = pr ∨ x = c ∨ (∃ n, childBit = some n ∧ x ∈ n.stored) ∨
        ∃ n, childOther = some n ∧ x ∈ n.stored := by
  cases bit with
  | false =>
    simp only [Node.mkBinary, Bool.false_eq_true, if_false]
    rw [Node.mem_stored_binary]
  | true =>
    simp only [Node.mkBinary, if_true]
    rw [Node.mem_stored_binary]
    constructor
    · rintro (h | h | h | h)
      · exact Or.inr (Or.inl h)
      · exact Or.inl h
      · exact Or.inr (Or.inr (Or.inr h))
      · exact Or.inr (Or.inr (Or.inl h))
    · rintro (h | h | h | h)
      · exact Or.inr (Or.inl h)
      · exact Or.inl h
      · exact Or.inr (Or.inr (Or.inr h))
      · exact Or.inr (Or.inr (Or.inl h))

theorem Node.freshChild_stored (p : Parameters) (c : ID) (index : Nat) :
    (Node.freshChild p c index).stored = [c] := rfl

theorem Node.mem_stored_split (p : Parameters) (x pr : ID) (dp cp : Nat) (snow : Unary)
    (sr : Bool) (child : Option Node) (c : ID) (index : Nat) :
    x ∈ (Node.split p pr dp cp snow sr child c index).stored →
      x ∈ (Node.unary pr dp cp snow sr child).stored ∨ x = c := by
  have hmk : x ∈ (Node.mkBinary (pr.Bit index) pr c index (snow.Extend (pr.Bit index)) sr
      child (child.map fun _ => Node.freshChild p c index)).stored →
      x ∈ (Node.unary pr dp cp snow sr child).stored ∨ x = c := by
    rw [Node.mem_stored_mkBinary, Node.mem_stored_unary]
    rintro (h | h | ⟨n, hn, h⟩ | ⟨n, hn, h⟩)
    · exact Or.inl (Or.inl h)
    · exact Or.inr h
    · exact Or.inl (Or.inr ⟨n, hn, h⟩)
    · cases child with
      | none => cases hn
      | some ch =>
        simp only [Option.map_some', Option.some.injEq] at hn
        subst hn
        rw [Node.freshChild_stored] at h
        exact Or.inr (List.mem_singleton.mp h)
  have hmk2 : ∀ d1 d2, x ∈ (Node.mkBinary (pr.Bit index) pr c index
      (snow.Extend (pr.Bit index)) sr (some (.unary pr d1 d2 snow sr child))
      (some (Node.freshChild p c index))).stored →
      x ∈ (Node.unary pr dp cp snow sr child).stored ∨ x = c := by
    intro d1 d2
    rw [Node.mem_stored_mkBinary, Node.mem_stored_unary]
    rintro (h | h | ⟨n, hn, h⟩ | ⟨n, hn, h⟩)
    · exact Or.inl (Or.inl h)
    · exact Or.inr h
    · simp only [Option.some.injEq] at hn
      subst hn
      rw [Node.mem_stored_unary] at h
      exact Or.inl h
    · simp only [Option.some.injEq] at hn
      subst hn
      rw [Node.freshChild_stored] at h
      exact Or.inr (List.mem_singleton.mp h)
  unfold Node.split
  split
  · exact hmk
  · split
    · exact hmk2 _ _
    · split
      · rw [Node.mem_stored_unary]
        rintro (h | ⟨n, hn, h⟩)
        · left; rw [Node.mem_stored_unary]; exact Or.inl h
        · cases hn; exact hmk h
      · rw [Node.mem_stored_unary]
        rintro (h | ⟨n, hn, h⟩)
        · left; rw [Node.mem_stored_unary]; exact Or.inl h
        · cases hn; exact hmk2 _ _ h

/-- The ids kept after `Add(c)` are ids kept before, or `c`. -/
theorem Node.Add_stored (p : Parameters) (c : ID) (n : Node) :
    ∀ x, x ∈ (n.Add p c).stored → x ∈ n.stored ∨ x = c := by
  induction n using Node.induct with
  | unary pr dp cp snow sr child ih =>
    intro x
    rw [Node.Add_unary]
    cases hfin : snow.Finalized with
    | true => simp only [if_true]; exact Or.inl
    | false =>
      simp only [Bool.false_eq_true, if_false]
      cases hd : FirstDifferenceSubset dp cp pr c with
      | some index => exact Node.mem_stored_split p x pr dp cp snow sr child c index
      | none =>
        simp only [Node.mem_stored_unary]
        rintro (h | ⟨n, hn, h⟩)
        · exact Or.inl (Or.inl h)
        · cases child with
          | none => cases hn
          | some ch =>
            simp only [Option.map_some', Option.some.injEq] at hn
            subst hn
            rcases ih ch rfl x h with h2 | h2
            · exact Or.inl (Or.inr ⟨ch, rfl, h2⟩)
            · exact Or.inr h2
  | binary p0 p1 bit snow sr0 sr1 c0 c1 ih0 ih1 =>
    intro x
    rw [Node.Add_binary]
    cases hb : c.Bit bit with
    | true =>
      simp only [if_true, Node.mem_stored_binary]
      rintro (h | h | h | ⟨n, hn, h⟩)
      · exact Or.inl (Or.inl h)
      · exact Or.inl (Or.inr (Or.inl h))
      · exact Or.inl (Or.inr (Or.inr (Or.inl h)))
      · cases c1 with
        | none => cases hn
        | some ch =>
          simp only [Option.map_some', Option.some.injEq] at hn
          subst hn
          rcases ih1 ch rfl x h with h2 | h2
          · exact Or.inl (Or.inr (Or.inr (Or.inr ⟨ch, rfl, h2⟩)))
          · exact Or.inr h2
    | false =>
      simp only [Bool.false_eq_true, if_false, Node.mem_stored_binary]
      rintro (h | h | ⟨n, hn, h⟩ | h)
      · exact Or.inl (Or.inl h)
      · exact Or.inl (Or.inr (Or.inl h))
      · cases c0 with
        | none => cases hn
        | some ch =>
          simp only [Option.map_some', Option.some.injEq] at hn
          subst hn
          rcases ih0 ch rfl x h with h2 | h2
          · exact Or.inl (Or.inr (Or.inr (Or.inl ⟨ch, rfl, h2⟩)))
          · exact Or.inr h2
      · exact Or.inl (Or.inr (Or.inr (Or.inr h)))

/-- The ids kept after `RecordPoll`, in the receiver and in the returned node, are ids
kept before. -/
theorem Node.RecordPoll_stored (p : Parameters) (n : Node) :
    ∀ (votes : Bag) (reset : Bool) (x : ID),
      (x ∈ (n.RecordPoll p votes reset).self.stored → x ∈ n.stored) ∧
      (x ∈ (n.RecordPoll p votes reset).ret.stored → x ∈ n.stored) := by
  induction n using Node.induct with
  | unary pr dp cp snow sr child ih =>
    intro votes reset x
    rw [Node.RecordPoll_unary]
    by_cases hlt : votes.Len < p.AlphaPreference
    · rw [if_pos hlt]
      simp only [Node.mem_stored_unary]
      exact ⟨id, id⟩
    · rw [if_neg hlt]
      generalize (if reset = true then snow.RecordUnsuccessfulPoll else snow).RecordPoll p
        votes.Len = s1
      cases child with
      | none =>
        rw [Option.map_none', Node.unaryFinish_none]
        simp only [Node.mem_stored_unary]
        exact ⟨id, id⟩
      | some ch =>
        have h := ih ch rfl votes (reset || sr) x
        rw [Option.map_some']
        cases hfin : s1.Finalized with
        | true =>
          rw [Node.unaryFinish_fin _ _ _ _ _ _ hfin]
          simp only [Node.mem_stored_unary]
          constructor
          · rintro (hx | ⟨m, hm, hx⟩)
            · exact Or.inl hx
            · cases hm
              exact Or.inr ⟨ch, rfl, h.1 hx⟩
          · intro hx
            exact Or.inr ⟨ch, rfl, h.2 hx⟩
        | false =>
          rw [Node.unaryFinish_notFin _ _ _ _ _ _ hfin]
          simp only [Node.mem_stored_unary]
          have hp := (ih ch rfl votes (reset || sr)
            (ch.RecordPoll p votes (reset || sr)).self.Preference).1
            (Node.Preference_mem_stored _)
          have key : (x = (ch.RecordPoll p votes (reset || sr)).self.Preference ∨
              ∃ m, some (ch.RecordPoll p votes (reset || sr)).self = some m ∧ x ∈ m.stored) →
              x = pr ∨ ∃ m, some ch = some m ∧ x ∈ m.stored := by
            rintro (hx | ⟨m, hm, hx⟩)
            · exact Or.inr ⟨ch, rfl, hx ▸ hp⟩
            · cases hm
              exact Or.inr ⟨ch, rfl, h.1 hx⟩
          exact ⟨key, key⟩
  | binary p0 p1 bit snow sr0 sr1 c0 c1 ih0 ih1 =>
    intro votes reset x
    rw [Node.RecordPoll_binary]
    generalize decide (p.AlphaPreference ≤ (votes.Filter fun x => x.Bit bit).Len) = side
    generalize hvs : sel side (votes.Filter fun x => !x.Bit bit)
      (votes.Filter fun x => x.Bit bit) = vs
    by_cases hlt : vs.Len < p.AlphaPreference
    · rw [if_pos hlt]
      simp only [Node.mem_stored_binary]
      exact ⟨id, id⟩
    · rw [if_neg hlt]
      generalize (if reset = true then snow.RecordUnsuccessfulPoll else snow).RecordPoll p
        vs.Len side = s1
      cases side with
      | false =>
        simp only [sel_false]
        cases c0 with
        | none =>
          rw [Option.map_none', Node.binaryFinish_none_false]
          simp only [Node.mem_stored_binary]
          exact ⟨id, id⟩
        | some ch =>
          have h := ih0 ch rfl vs (reset || sr0) x
          rw [Option.map_some']
          cases hfin : s1.Finalized with
          | true =>
            rw [Node.binaryFinish_fin_false _ _ _ _ _ _ _ _ hfin]
            simp only [Node.mem_stored_binary]
            constructor
            · rintro (hx | hx | ⟨m, hm, hx⟩ | hx)
              · exact Or.inl hx
              · exact Or.inr (Or.inl hx)
              · cases hm
                exact Or.inr (Or.inr (Or.inl ⟨ch, rfl, h.1 hx⟩))
              · exact Or.inr (Or.inr (Or.inr hx))
            · intro hx
              exact Or.inr (Or.inr (Or.inl ⟨ch, rfl, h.2 hx⟩))
          | false =>
            rw [Node.binaryFinish_notFin_false _ _ _ _ _ _ _ _ hfin]
            simp only [Node.mem_stored_binary]
            have hp := (ih0 ch rfl vs (reset || sr0)
              (ch.RecordPoll p vs (reset || sr0)).ret.Preference).2
              (Node.Preference_mem_stored _)
            have key : (x = (ch.RecordPoll p vs (reset || sr0)).ret.Preference ∨ x = p1 ∨
                (∃ m, some (ch.RecordPoll p vs (reset || sr0)).self = some m ∧ x ∈ m.stored) ∨
                ∃ m, c1 = some m ∧ x ∈ m.stored) →
                x = p0 ∨ x = p1 ∨ (∃ m, some ch = some m ∧ x ∈ m.stored) ∨
                  ∃ m, c1 = some m ∧ x ∈ m.stored := by
              rintro (hx | hx | ⟨m, hm, hx⟩ | hx)
              · exact Or.inr (Or.inr (Or.inl ⟨ch, rfl, hx ▸ hp⟩))
              · exact Or.inr (Or.inl hx)
              · cases hm
                exact Or.inr (Or.inr (Or.inl ⟨ch, rfl, h.1 hx⟩))
              · exact Or.inr (Or.inr (Or.inr hx))
            exact ⟨key, key⟩
      | true =>
        simp only [sel_true]
        cases c1 with
        | none =>
          rw [Option.map_none', Node.binaryFinish_none_true]
          simp only [Node.mem_stored_binary]
          exact ⟨id, id⟩
        | some ch =>
          have h := ih1 ch rfl vs (reset || sr1) x
          rw [Option.map_some']
          cases hfin : s1.Finalized with
          | true =>
            rw [Node.binaryFinish_fin_true _ _ _ _ _ _ _ _ hfin]
            simp only [Node.mem_stored_binary]
            constructor
            · rintro (hx | hx | hx | ⟨m, hm, hx⟩)
              · exact Or.inl hx
              · exact Or.inr (Or.inl hx)
              · exact Or.inr (Or.inr (Or.inl hx))
              · cases hm
                exact Or.inr (Or.inr (Or.inr ⟨ch, rfl, h.1 hx⟩))
            · intro hx
              exact Or.inr (Or.inr (Or.inr ⟨ch, rfl, h.2 hx⟩))
          | false =>
            rw [Node.binaryFinish_notFin_true _ _ _ _ _ _ _ _ hfin]
            simp only [Node.mem_stored_binary]
            have hp := (ih1 ch rfl vs (reset || sr1)
              (ch.RecordPoll p vs (reset || sr1)).ret.Preference).2
              (Node.Preference_mem_stored _)
            have key : (x = p0 ∨ x = (ch.RecordPoll p vs (reset || sr1)).ret.Preference ∨
                (∃ m, c0 = some m ∧ x ∈ m.stored) ∨
                ∃ m, some (ch.RecordPoll p vs (reset || sr1)).self = some m ∧ x ∈ m.stored) →
                x = p0 ∨ x = p1 ∨ (∃ m, c0 = some m ∧ x ∈ m.stored) ∨
                  ∃ m, some ch = some m ∧ x ∈ m.stored := by
              rintro (hx | hx | hx | ⟨m, hm, hx⟩)
              · exact Or.inl hx
              · exact Or.inr (Or.inr (Or.inr ⟨ch, rfl, hx ▸ hp⟩))
              · exact Or.inr (Or.inr (Or.inl hx))
              · cases hm
                exact Or.inr (Or.inr (Or.inr ⟨ch, rfl, h.1 hx⟩))
            exact ⟨key, key⟩

/-- After one call, the ids kept in the tree are ids kept before the call or the id
passed to `Add`. -/
theorem Tree.step_stored (t : Tree) (op : Op) (x : ID) :
    x ∈ (t.step op).node.stored → x ∈ t.node.stored ∨ x ∈ Op.added [op] := by
  cases op with
  | add c =>
    show x ∈ (t.Add c).node.stored → _
    rw [Tree.Add_eq]
    split
    · intro h
      rcases Node.Add_stored t.params c t.node x h with h2 | h2
      · exact Or.inl h2
      · exact Or.inr (by rw [h2]; exact List.mem_singleton.mpr rfl)
    · exact Or.inl
  | recordPoll votes =>
    show x ∈ (t.RecordPoll votes).1.node.stored → _
    rw [Tree.RecordPoll_eq]
    intro h
    exact Or.inl ((Node.RecordPoll_stored t.params t.node _ _ x).2 h)
  | recordUnsuccessfulPoll => exact Or.inl

theorem Op.added_cons (op : Op) (ops : List Op) :
    Op.added (op :: ops) = Op.added [op] ++ Op.added ops := by
  cases op <;> rfl

theorem Tree.run_stored (ops : List Op) :
    ∀ (t : Tree) (x : ID), x ∈ (t.run ops).node.stored →
      x ∈ t.node.stored ∨ x ∈ Op.added ops := by
  induction ops with
  | nil => intro t x h; exact Or.inl h
  | cons op ops ih =>
    intro t x h
    rw [Op.added_cons, List.mem_append]
    rcases ih (t.step op) x h with h2 | h2
    · rcases Tree.step_stored t op x h2 with h3 | h3
      · exact Or.inl h3
      · exact Or.inr (Or.inl h3)
    · exact Or.inr (Or.inr h2)

/-! ## The preference is a known choice -/

/-- C14: after every sequence of `Add`, `RecordPoll` and `RecordUnsuccessfulPoll` calls
applied to `NewTree(initial)`, `Preference()` is the initial choice or an id that was
passed to `Add` in the sequence. -/
theorem preference_is_known_choice (params : Parameters) (initial : ID) (ops : List Op) :
    ((NewTree params initial).run ops).Preference = initial ∨
      ((NewTree params initial).run ops).Preference ∈ Op.added ops := by
  rcases Tree.run_stored ops (NewTree params initial) _
    (Node.Preference_mem_stored ((NewTree params initial).run ops).node) with h | h
  · left
    have h2 : ((NewTree params initial).run ops).node.Preference ∈ [initial] := h
    exact List.mem_singleton.mp h2
  · exact Or.inr h

/-! ## The decided prefix of the root -/

/-- C15: for every reachable tree and every operation (`Add`, `RecordPoll`,
`RecordUnsuccessfulPoll`), the decided prefix of the root after the operation is at
least the decided prefix of the root before it. -/
theorem decided_prefix_never_decreases (p : Parameters) (a : ID) (t : Tree)
    (hr : Reachable p a t) (op : Op) :
    t.node.DecidedPrefix ≤ (t.step op).node.DecidedPrefix := by
  cases op with
  | add c =>
    show t.node.DecidedPrefix ≤ (t.Add c).node.DecidedPrefix
    rw [Tree.Add_eq]
    split
    · show t.node.DecidedPrefix ≤ (t.node.Add t.params c).DecidedPrefix
      rw [(Node.Add_facts t.params c t.node).1]
    · exact Nat.le_refl _
  | recordPoll votes =>
    show t.node.DecidedPrefix ≤ (t.RecordPoll votes).1.node.DecidedPrefix
    rw [Tree.RecordPoll_eq]
    exact (Node.RecordPoll_WF t.params t.node (t.legalVotes votes) t.shouldReset hr.wf.1).2.2.2.1
  | recordUnsuccessfulPoll => exact Nat.le_refl _

/-- Scenario S5 for C15: the second poll for `0...0` raises the decided prefix of the
root from 0 to 1. -/
theorem decided_prefix_never_decreases_witness :
    Reachable scenarioParams idZero
      (((NewTree scenarioParams idZero).Add idOne).RecordPoll (List.replicate 5 idZero)).1 ∧
    (((NewTree scenarioParams idZero).Add idOne).RecordPoll
        (List.replicate 5 idZero)).1.node.DecidedPrefix
      ≤ ((((NewTree scenarioParams idZero).Add idOne).RecordPoll
          (List.replicate 5 idZero)).1.step
            (.recordPoll (List.replicate 5 idZero))).node.DecidedPrefix :=
  ⟨Reachable.recordPoll _ _ (Reachable.add _ _ Reachable.newTree),
    decided_prefix_never_decreases scenarioParams idZero _
      (Reachable.recordPoll _ _ (Reachable.add _ _ Reachable.newTree))
      (.recordPoll (List.replicate 5 idZero))⟩

/-! ## The reset flag of the tree -/

/-- C18: `Tree.RecordUnsuccessfulPoll` sets the reset flag of the tree and leaves the
root (with every node and counter below it) and the parameters as they are;
`Tree.RecordPoll` passes the flag of the tree as the `reset` argument to the root, so
it passes `true` right after `RecordUnsuccessfulPoll`, and after every `Tree.RecordPoll`
the flag of the tree is false. -/
theorem recordUnsuccessfulPoll_sets_only_the_flag (t : Tree) (votes : Bag) :
    t.RecordUnsuccessfulPoll.shouldReset = true ∧
    t.RecordUnsuccessfulPoll.node = t.node ∧
    t.RecordUnsuccessfulPoll.params = t.params ∧
    (t.RecordPoll votes).1.node
      = (t.node.RecordPoll t.params (t.legalVotes votes) t.shouldReset).ret ∧
    (t.RecordPoll votes).2
      = (t.node.RecordPoll t.params (t.legalVotes votes) t.shouldReset).successful ∧
    (t.RecordUnsuccessfulPoll.RecordPoll votes).1.node
      = (t.node.RecordPoll t.params (t.legalVotes votes) true).ret ∧
    (t.RecordUnsuccessfulPoll.RecordPoll votes).2
      = (t.node.RecordPoll t.params (t.legalVotes votes) true).successful ∧
    (t.RecordPoll votes).1.shouldReset = false :=
  ⟨rfl, rfl, rfl, rfl, rfl, rfl, rfl, rfl⟩

/-! ## The new tree -/

/-- C19: `NewTree(factory, params, choice)` is a tree whose root is a unary node with
preference `choice`, decided prefix 0, common prefix 256, a fresh unary counter, no
child and `shouldReset = false`; the reset flag of the tree is false; `Preference()` is
`choice` and the decided prefix of the root is 0. -/
theorem newTree_is_single_unary (params : Parameters) (choice : ID) :
    (NewTree params choice).node = .unary choice 0 256 (NewUnary params) false none ∧
    (NewTree params choice).params = params ∧
    (NewTree params choice).shouldReset = false ∧
    (NewTree params choice).Preference = choice ∧
    (NewTree params choice).node.DecidedPrefix = 0 ∧
    (NewTree params choice).Finalized = (NewUnary params).Finalized :=
  ⟨rfl, rfl, rfl, rfl, rfl, rfl⟩

/-! ## Rendering order -/

theorem renderStack_append (f : Stringer) (a b : List (String × Option Node)) :
    renderStack f (a ++ b) = renderStack f b ++ renderStack f a := by
  induction a with
  | nil => simp [renderStack]
  | cons e a ih =>
    obtain ⟨pre, n⟩ := e
    rw [List.cons_append]
    simp only [renderStack]
    rw [ih, String.append_assoc]

theorem stackSize_append (a b : List (String × Option Node)) :
    stackSize (a ++ b) = stackSize a + stackSize b := by
  induction a with
  | nil => simp [stackSize]
  | cons e a ih =>
    obtain ⟨pre, n⟩ := e
    rw [List.cons_append]
    simp only [stackSize]
    rw [ih]
    omega

/-- The nodes that `Printable` returns for a well-formed node are not nil and well
formed, they are all the nodes of the subtree but the node itself, and the lines of the
subtree are the line of the node followed by what the loop writes for them. -/
theorem Node.Printable_children (f : Stringer) (n : Node) (hwf : n.WF) (pre : String) :
    (∀ e ∈ (n.Printable f).2, ∃ m, e = some m ∧ m.WF) ∧
    stackSize ((n.Printable f).2.map fun c => (pre ++ "    ", c)) + 1 = n.size ∧
    n.renderZeroFirst f pre =
      pre ++ (n.Printable f).1 ++ "\n" ++
        renderStack f ((n.Printable f).2.map fun c => (pre ++ "    ", c)) := by
  cases n with
  | unary pr dp cp snow sr child =>
    rw [Node.WF_unary] at hwf
    cases child with
    | none =>
      refine ⟨(fun e he => by cases he), rfl, ?_⟩
      simp [Node.renderZeroFirst, Node.Printable, renderStack]
    | some c =>
      refine ⟨?_, ?_, ?_⟩
      · intro e he
        simp only [Node.Printable, List.mem_singleton] at he
        exact ⟨c, he, (hwf.2.2.2 c rfl).2.2⟩
      · simp only [Node.Printable, List.map_cons, List.map_nil, stackSize, Node.size]
        omega
      · simp [Node.renderZeroFirst, Node.Printable, renderStack]
  | binary p0 p1 bit snow sr0 sr1 c0 c1 =>
    rw [Node.WF_binary] at hwf
    obtain ⟨w1, w2, w3, w4, w5, w6, w7, w8⟩ := hwf
    cases c0 with
    | none =>
      cases c1 with
      | some b => cases w5
      | none =>
        refine ⟨(fun e he => by cases he), rfl, ?_⟩
        simp [Node.renderZeroFirst, Node.Printable, renderStack]
    | some a =>
      cases c1 with
      | none => cases w5
      | some b =>
        refine ⟨?_, ?_, ?_⟩
        · intro e he
          simp only [Node.Printable, List.mem_cons, List.mem_singleton, List.not_mem_nil,
            or_false] at he
          rcases he with he | he
          · exact ⟨b, he, (w8 b rfl).2.2⟩
          · exact ⟨a, he, (w7 a rfl).2.2⟩
        · simp only [Node.Printable, List.map_cons, List.map_nil, stackSize, Node.size]
          omega
        · simp [Node.renderZeroFirst, Node.Printable, renderStack, String.append_assoc]

/-- With enough fuel the loop of `Tree.String` ends, and it has written the subtrees of
the pairs of the slice, the last pair first, each subtree with `children[0]` before
`children[1]`. -/
theorem stringLoop_eq (f : Stringer) (fuel : Nat) :
    ∀ (stack : List (String × Option Node)) (sb : String),
      (∀ e ∈ stack, ∃ m, e.2 = some m ∧ m.WF) → stackSize stack < fuel →
      Tree.stringLoop f fuel stack sb = some (sb ++ renderStack f stack) := by
  induction fuel with
  | zero => intro stack sb _ h; omega
  | succ fuel ih =>
    intro stack sb hall hsize
    rcases List.eq_nil_or_concat stack with h | ⟨init, e, h⟩
    · subst h
      simp [Tree.stringLoop, renderStack]
    · rw [List.concat_eq_append] at h
      subst h
      obtain ⟨pre, x⟩ := e
      obtain ⟨m, hm, hwf⟩ := hall (pre, x) (by simp)
      have hx : x = some m := hm
      subst hx
      obtain ⟨k1, k2, k3⟩ := Node.Printable_children f m hwf pre
      rw [stackSize_append] at hsize
      simp only [stackSize] at hsize
      unfold Tree.stringLoop
      rw [List.getLast?_concat, List.dropLast_concat]
      show Tree.stringLoop f fuel _ _ = _
      rw [ih]
      · rw [renderStack_append, renderStack_append]
        simp only [renderStack, k3, String.append_assoc, String.empty_append]
      · intro e he
        rw [List.mem_append] at he
        rcases he with he | he
        · exact hall e (List.mem_append_left _ he)
        · rw [List.mem_map] at he
          obtain ⟨c, hc, rfl⟩ := he
          exact k1 c hc
      · rw [stackSize_append]
        omega

/-- C20 (as amended): for every stringer of the counters and every tree whose root is
well formed (as the root of every reachable tree is), `Tree.String()` returns the lines
of the tree in which the line of each binary node with children is followed by all the
lines of the subtree of `children[0]` and then by all the lines of the subtree of
`children[1]`, each child indented by four more spaces, without the last newline. -/
theorem string_renders_children_zero_first (f : Stringer) (t : Tree) (hwf : t.node.WF) :
    t.String f = some (TrimSuffix (t.node.renderZeroFirst f "") "\n") := by
  unfold Tree.String
  rw [stringLoop_eq f _ _ _ (by
    intro e he
    rw [List.mem_singleton] at he
    subst he
    exact ⟨t.node, rfl, hwf⟩) (by simp [stackSize])]
  simp [renderStack]

/-- The tree of three choices for C20: its rendering lists the subtree of `children[0]`
of each binary node before the subtree of `children[1]`. -/
theorem string_renders_children_zero_first_witness :
    threeChoices.node.WF ∧
    threeChoices.String fieldStringer
      = some (TrimSuffix (threeChoices.node.renderZeroFirst fieldStringer "") "\n") :=
  ⟨(Reachable.add _ _ (Reachable.add _ _ Reachable.newTree)).wf.1,
    string_renders_children_zero_first fieldStringer threeChoices
      (Reachable.add _ _ (Reachable.add _ _ (@Reachable.newTree scenarioParams idZero))).wf.1⟩

set_option maxRecDepth 100000 in
/-- Counterexample to C20 as stated: in the tree of three choices the root is a binary
node whose `children[0]` is a unary node for bits [1, 256) and whose `children[1]` is a
binary node at bit 1; in the output of `Tree.String()` the line of `children[0]` comes
before the lines of the subtree of `children[1]`, and the output is not the rendering
with `children[1]` first. -/
theorem string_renders_children_one_last :
    Reachable scenarioParams idZero threeChoices ∧
    (threeChoices.node.children0.map fun c => c.renderZeroFirst fieldStringer "    ")
      = some "    SF(0, false) Bits = [1, 256)\n" ∧
    (threeChoices.node.children1.map fun c => c.renderOneFirst fieldStringer "    ")
      = some ("    SB(false, 0, 0, false) Bit = 1\n" ++
          "        SF(0, false) Bits = [2, 256)\n" ++
          "        SF(0, false) Bits = [2, 256)\n") ∧
    threeChoices.String fieldStringer
      = some ("SB(false, 0, 0, false) Bit = 0\n" ++
          "    SF(0, false) Bits = [1, 256)\n" ++
          "    SB(false, 0, 0, false) Bit = 1\n" ++
          "        SF(0, false) Bits = [2, 256)\n" ++
          "        SF(0, false) Bits = [2, 256)") ∧
    threeChoices.String fieldStringer
      ≠ some (TrimSuffix (threeChoices.node.renderOneFirst fieldStringer "") "\n") :=
  ⟨Reachable.add _ _ (Reachable.add _ _ Reachable.newTree), by decide, by decide, by decide,
    by decide⟩

/-! ## Confidence after a reset -/

theorem Node.Lock_unary (p : Parameters) (pr : ID) (dp cp : Nat) (snow : Unary) (sr : Bool)
    (child : Option Node) :
    (Node.unary pr dp cp snow sr child).Lock p ↔
      ∀ c, child = some c →
        (p.BetaUnary ≤ 1 → snow.finalized = false → c.Finalized = false) ∧ c.Lock p := by
  cases child <;> simp [Node.Lock]

theorem Node.Lock_binary (p : Parameters) (p0 p1 : ID) (bit : Nat) (snow : Binary)
    (sr0 sr1 : Bool) (c0 c1 : Option Node) :
    (Node.binary p0 p1 bit snow sr0 sr1 c0 c1).Lock p ↔
      (∀ c, c0 = some c →
        (p.BetaBinary ≤ 1 → snow.finalized = false → c.Finalized = false) ∧ c.Lock p) ∧
      ∀ c, c1 = some c →
        (p.BetaBinary ≤ 1 → snow.finalized = false → c.Finalized = false) ∧ c.Lock p := by
  cases c0 <;> cases c1 <;> simp [Node.Lock]

theorem Unary.unsuccessful_finalized (s : Unary) (reset : Bool) :
    ((if reset = true then s.RecordUnsuccessfulPoll else s).RecordUnsuccessfulPoll).finalized
      = s.finalized := by
  rw [Unary.unsuccessful_twice]

theorem Binary.unsuccessfulSide_finalized (s : Binary) (reset : Bool) :
    ((if reset = true then s.RecordUnsuccessfulPoll else s).RecordUnsuccessfulPoll).finalized
      = s.finalized := by
  rw [Binary.unsuccessfulSide_twice]

/-- A unary counter that is not finalized after a poll was not finalized before it, and
with `beta_unary <= 1` the poll had fewer than `alpha_confidence` votes. -/
theorem Unary.poll_not_finalized (p : Parameters) (s : Unary) (reset : Bool) (n : Nat)
    (h : ((if reset = true then s.RecordUnsuccessfulPoll else s).RecordPoll p n).finalized
      = false) :
    s.finalized = false ∧ (p.BetaUnary ≤ 1 → n < p.AlphaConfidence) := by
  cases hs : s.finalized with
  | true => rw [Unary.poll_of_finalized p s reset n hs] at h; cases h
  | false =>
    refine ⟨rfl, fun hb => ?_⟩
    by_contra hn
    rw [Unary.poll_high p s reset n hs (by omega)] at h
    simp only [decide_eq_false_iff_not] at h
    omega

/-- A binary counter that is not finalized after a poll was not finalized before it, and
with `beta_binary <= 1` the poll had fewer than `alpha_confidence` votes. -/
theorem Binary.pollSide_not_finalized (p : Parameters) (s : Binary) (reset : Bool) (n : Nat)
    (side : Bool)
    (h : ((if reset = true then s.RecordUnsuccessfulPoll else s).RecordPoll p n side).finalized
      = false) :
    s.finalized = false ∧ (p.BetaBinary ≤ 1 → n < p.AlphaConfidence) := by
  cases hs : s.finalized with
  | true =>
    rw [(Binary.pollSide_finalized_keeps p s reset n side hs).1] at h
    cases h
  | false =>
    refine ⟨rfl, fun hb => ?_⟩
    by_contra hn
    have hn2 : p.AlphaConfidence ≤ n := by omega
    cases reset <;> cases side <;> cases hp : s.preference <;>
      simp [Binary.RecordPoll, Binary.RecordUnsuccessfulPoll, hs, hp, hn2] at h <;> omega

/-- A poll of fewer than `alpha_confidence` votes does not finalize the counter of the
node it is recorded on. -/
theorem Node.RecordPoll_low_not_finalized (p : Parameters) (n : Node) (votes : Bag)
    (reset : Bool) (hf : n.Finalized = false) (hlow : votes.Len < p.AlphaConfidence) :
    (n.RecordPoll p votes reset).self.Finalized = false := by
  cases n with
  | unary pr dp cp snow sr child =>
    have hs : snow.finalized = false := hf
    rw [Node.RecordPoll_unary]
    by_cases hlt : votes.Len < p.AlphaPreference
    · rw [if_pos hlt]
      show (Unary.RecordUnsuccessfulPoll _).finalized = false
      rw [Unary.unsuccessful_finalized, hs]
    · rw [if_neg hlt, Unary.poll_low p snow reset _ hs hlow]
      cases child with
      | none => rfl
      | some ch =>
        rw [Option.map_some', Node.unaryFinish_notFin]
        · rfl
        · rfl
  | binary p0 p1 bit snow sr0 sr1 c0 c1 =>
    have hs : snow.finalized = false := hf
    rw [Node.RecordPoll_binary]
    generalize decide (p.AlphaPreference ≤ (votes.Filter fun x => x.Bit bit).Len) = side
    have hle := Bag.Len_sel_le votes side fun x => x.Bit bit
    generalize sel side (votes.Filter fun x => !x.Bit bit)
      (votes.Filter fun x => x.Bit bit) = vs at hle ⊢
    by_cases hlt : vs.Len < p.AlphaPreference
    · rw [if_pos hlt]
      show (Binary.RecordUnsuccessfulPoll _).finalized = false
      rw [Binary.unsuccessfulSide_finalized, hs]
    · rw [if_neg hlt, Binary.pollSide_low p snow reset _ side hs (by omega)]
      cases side with
      | false =>
        simp only [sel_false]
        cases c0 with
        | none => rfl
        | some ch =>
          rw [Option.map_some', Node.binaryFinish_notFin_false]
          · rfl
          · rfl
      | true =>
        simp only [sel_true]
        cases c1 with
        | none => rfl
        | some ch =>
          rw [Option.map_some', Node.binaryFinish_notFin_true]
          · rfl
          · rfl

/-- `RecordPoll` keeps the invariant for thresholds of at most 1, in the receiver and in
the node it returns. -/
theorem Node.RecordPoll_Lock (p : Parameters) (n : Node) :
    ∀ (votes : Bag) (reset : Bool), n.Lock p →
      (n.RecordPoll p votes reset).self.Lock p ∧ (n.RecordPoll p votes reset).ret.Lock p := by
  induction n using Node.induct with
  | unary pr dp cp snow sr child ih =>
    intro votes reset hl
    rw [Node.Lock_unary] at hl
    rw [Node.RecordPoll_unary]
    by_cases hlt : votes.Len < p.AlphaPreference
    · rw [if_pos hlt]
      have : (Node.unary pr dp cp
          (if reset = true then snow.RecordUnsuccessfulPoll else snow).RecordUnsuccessfulPoll
          true child).Lock p := by
        rw [Node.Lock_unary, Unary.unsuccessful_finalized]
        exact hl
      exact ⟨this, this⟩
    · rw [if_neg hlt]
      have hpoll := Unary.poll_not_finalized p snow reset votes.Len
      generalize (if reset = true then snow.RecordUnsuccessfulPoll else snow).RecordPoll p
        votes.Len = s1 at hpoll ⊢
      cases child with
      | none =>
        rw [Option.map_none', Node.unaryFinish_none]
        have : (Node.unary pr dp cp s1 false none).Lock p := by
          rw [Node.Lock_unary]
          intro c hc
          cases hc
        exact ⟨this, this⟩
      | some ch =>
        obtain ⟨hlink, hch⟩ := hl ch rfl
        obtain ⟨i1, i2⟩ := ih ch rfl votes (reset || sr) hch
        rw [Option.map_some']
        cases hfin : s1.Finalized with
        | true =>
          rw [Node.unaryFinish_fin _ _ _ _ _ _ hfin]
          refine ⟨?_, i2⟩
          rw [Node.Lock_unary]
          intro c hc
          cases hc
          exact ⟨(fun _ h => by rw [show s1.finalized = true from hfin] at h; cases h), i1⟩
        | false =>
          rw [Node.unaryFinish_notFin _ _ _ _ _ _ hfin]
          obtain ⟨hs, hlow⟩ := hpoll hfin
          have : (Node.unary (ch.RecordPoll p votes (reset || sr)).self.Preference dp cp s1
              false (some (ch.RecordPoll p votes (reset || sr)).self)).Lock p := by
            rw [Node.Lock_unary]
            intro c hc
            cases hc
            refine ⟨fun hb _ => ?_, i1⟩
            exact Node.RecordPoll_low_not_finalized p ch votes _ (hlink hb hs) (hlow hb)
          exact ⟨this, this⟩
  | binary p0 p1 bit snow sr0 sr1 c0 c1 ih0 ih1 =>
    intro votes reset hl
    rw [Node.Lock_binary] at hl
    obtain ⟨hl0, hl1⟩ := hl
    rw [Node.RecordPoll_binary]
    generalize decide (p.AlphaPreference ≤ (votes.Filter fun x => x.Bit bit).Len) = side
    generalize sel side (votes.Filter fun x => !x.Bit bit)
      (votes.Filter fun x => x.Bit bit) = vs
    by_cases hlt : vs.Len < p.AlphaPreference
    · rw [if_pos hlt]
      have : (Node.binary p0 p1 bit
          (if reset = true then snow.RecordUnsuccessfulPoll else snow).RecordUnsuccessfulPoll
          true true c0 c1).Lock p := by
        rw [Node.Lock_binary, Binary.unsuccessfulSide_finalized]
        exact ⟨hl0, hl1⟩
      exact ⟨this, this⟩
    · rw [if_neg hlt]
      have hpoll := Binary.pollSide_not_finalized p snow reset vs.Len side
      generalize (if reset = true then snow.RecordUnsuccessfulPoll else snow).RecordPoll p
        vs.Len side = s1 at hpoll ⊢
      have keep0 : ∀ c, c0 = some c →
          (p.BetaBinary ≤ 1 → s1.finalized = false → c.Finalized = false) ∧ c.Lock p :=
        fun c hc => ⟨fun hb h => (hl0 c hc).1 hb (hpoll h).1, (hl0 c hc).2⟩
      have keep1 : ∀ c, c1 = some c →
          (p.BetaBinary ≤ 1 → s1.finalized = false → c.Finalized = false) ∧ c.Lock p :=
        fun c hc => ⟨fun hb h => (hl1 c hc).1 hb (hpoll h).1, (hl1 c hc).2⟩
      cases side with
      | false =>
        simp only [sel_false]
        cases c0 with
        | none =>
          rw [Option.map_none', Node.binaryFinish_none_false]
          have : (Node.binary p0 p1 bit s1 false true none c1).Lock p := by
            rw [Node.Lock_binary]
            exact ⟨keep0, keep1⟩
          exact ⟨this, this⟩
        | some ch =>
          obtain ⟨hlink, hch⟩ := hl0 ch rfl
          obtain ⟨i1, i2⟩ := ih0 ch rfl vs (reset || sr0) hch
          rw [Option.map_some']
          cases hfin : s1.Finalized with
          | true =>
            rw [Node.binaryFinish_fin_false _ _ _ _ _ _ _ _ hfin]
            refine ⟨?_, i2⟩
            rw [Node.Lock_binary]
            refine ⟨?_, keep1⟩
            intro c hc
            cases hc
            exact ⟨(fun _ h => by rw [show s1.finalized = true from hfin] at h; cases h), i1⟩
          | false =>
            rw [Node.binaryFinish_notFin_false _ _ _ _ _ _ _ _ hfin]
            obtain ⟨hs, hlow⟩ := hpoll hfin
            have : (Node.binary (ch.RecordPoll p vs (reset || sr0)).ret.Preference p1 bit s1
                false true (some (ch.RecordPoll p vs (reset || sr0)).self) c1).Lock p := by
              rw [Node.Lock_binary]
              refine ⟨?_, keep1⟩
              intro c hc
              cases hc
              refine ⟨fun hb _ => ?_, i1⟩
              exact Node.RecordPoll_low_not_finalized p ch vs _ (hlink hb hs) (hlow hb)
            exact ⟨this, this⟩
      | true =>
        simp only [sel_true]
        cases c1 with
        | none =>
          rw [Option.map_none', Node.binaryFinish_none_true]
          have : (Node.binary p0 p1 bit s1 true false c0 none).Lock p := by
            rw [Node.Lock_binary]
            exact ⟨keep0, keep1⟩
          exact ⟨this, this⟩
        | some ch =>
          obtain ⟨hlink, hch⟩ := hl1 ch rfl
          obtain ⟨i1, i2⟩ := ih1 ch rfl vs (reset || sr1) hch
          rw [Option.map_some']
          cases hfin : s1.Finalized with
          | true =>
            rw [Node.binaryFinish_fin_true _ _ _ _ _ _ _ _ hfin]
            refine ⟨?_, i2⟩
            rw [Node.Lock_binary]
            refine ⟨keep0, ?_⟩
            intro c hc
            cases hc
            exact ⟨(fun _ h => by rw [show s1.finalized = true from hfin] at h; cases h), i1⟩
          | false =>
            rw [Node.binaryFinish_notFin_true _ _ _ _ _ _ _ _ hfin]
            obtain ⟨hs, hlow⟩ := hpoll hfin
            have : (Node.binary p0 (ch.RecordPoll p vs (reset || sr1)).ret.Preference bit s1
                true false c0 (some (ch.RecordPoll p vs (reset || sr1)).self)).Lock p := by
              rw [Node.Lock_binary]
              refine ⟨keep0, ?_⟩
              intro c hc
              cases hc
              refine ⟨fun hb _ => ?_, i1⟩
              exact Node.RecordPoll_low_not_finalized p ch vs _ (hlink hb hs) (hlow hb)
            exact ⟨this, this⟩

theorem Node.freshChild_Lock (p : Parameters) (c : ID) (index : Nat) :
    (Node.freshChild p c index).Lock p ∧ (Node.freshChild p c index).Finalized = false :=
  ⟨trivial, rfl⟩

theorem Node.mkBinary_Lock (p : Parameters) (bit : Bool) (pr c : ID) (index : Nat)
    (snow : Binary) (sr : Bool) (childBit childOther : Option Node)
    (h1 : ∀ n, childBit = some n →
      (p.BetaBinary ≤ 1 → snow.finalized = false → n.Finalized = false) ∧ n.Lock p)
    (h2 : ∀ n, childOther = some n →
      (p.BetaBinary ≤ 1 → snow.finalized = false → n.Finalized = false) ∧ n.Lock p) :
    (Node.mkBinary bit pr c index snow sr childBit childOther).Lock p := by
  cases bit with
  | false =>
    simp only [Node.mkBinary, Bool.false_eq_true, if_false]
    rw [Node.Lock_binary]
    exact ⟨h1, h2⟩
  | true =>
    simp only [Node.mkBinary, if_true]
    rw [Node.Lock_binary]
    exact ⟨h2, h1⟩

theorem Node.split_Lock (p : Parameters) (hβ : p.BetaUnary ≤ p.BetaBinary) (pr : ID)
    (dp cp : Nat) (snow : Unary) (sr : Bool) (child : Option Node) (c : ID) (index : Nat)
    (hf : snow.finalized = false) (hl : (Node.unary pr dp cp snow sr child).Lock p) :
    (Node.split p pr dp cp snow sr child c index).Lock p := by
  rw [Node.Lock_unary] at hl
  have hfresh : ∀ n, (child.map fun _ => Node.freshChild p c index) = some n →
      (p.BetaBinary ≤ 1 → (snow.Extend (pr.Bit index)).finalized = false →
        n.Finalized = false) ∧ n.Lock p := by
    intro n hn
    cases child with
    | none => cases hn
    | some ch =>
      simp only [Option.map_some', Option.some.injEq] at hn
      subst hn
      exact ⟨fun _ _ => rfl, trivial⟩
  have hfresh2 : ∀ n, some (Node.freshChild p c index) = some n →
      (p.BetaBinary ≤ 1 → (snow.Extend (pr.Bit index)).finalized = false →
        n.Finalized = false) ∧ n.Lock p := by
    intro n hn
    simp only [Option.some.injEq] at hn
    subst hn
    exact ⟨fun _ _ => rfl, trivial⟩
  have hchild : ∀ n, child = some n →
      (p.BetaBinary ≤ 1 → (snow.Extend (pr.Bit index)).finalized = false →
        n.Finalized = false) ∧ n.Lock p := by
    intro n hn
    exact ⟨fun hb _ => (hl n hn).1 (by omega) hf, (hl n hn).2⟩
  have htail : ∀ d1 d2 n, some (Node.unary pr d1 d2 snow sr child) = some n →
      (p.BetaBinary ≤ 1 → (snow.Extend (pr.Bit index)).finalized = false →
        n.Finalized = false) ∧ n.Lock p := by
    intro d1 d2 n hn
    simp only [Option.some.injEq] at hn
    subst hn
    refine ⟨fun _ _ => hf, ?_⟩
    rw [Node.Lock_unary]
    exact hl
  have hmk := Node.mkBinary_Lock p (pr.Bit index) pr c index (snow.Extend (pr.Bit index)) sr
    child (child.map fun _ => Node.freshChild p c index) hchild hfresh
  have hmk2 := fun d1 d2 => Node.mkBinary_Lock p (pr.Bit index) pr c index
    (snow.Extend (pr.Bit index)) sr (some (.unary pr d1 d2 snow sr child))
    (some (Node.freshChild p c index)) (htail d1 d2) hfresh2
  unfold Node.split
  split
  · exact hmk
  · split
    · exact hmk2 _ _
    · split
      · rw [Node.Lock_unary]
        intro n hn
        cases hn
        refine ⟨fun _ _ => ?_, hmk⟩
        rw [Node.mkBinary_Finalized]
        exact hf
      · rw [Node.Lock_unary]
        intro n hn
        cases hn
        refine ⟨fun _ _ => ?_, hmk2 _ _⟩
        rw [Node.mkBinary_Finalized]
        exact hf

/-- `Add` keeps the invariant for thresholds of at most 1. -/
theorem Node.Add_Lock (p : Parameters) (hβ : p.BetaUnary ≤ p.BetaBinary) (c : ID) (n : Node) :
    n.Lock p → (n.Add p c).Lock p := by
  induction n using Node.induct with
  | unary pr dp cp snow sr child ih =>
    intro hl
    rw [Node.Add_unary]
    cases hfin : snow.Finalized with
    | true => simp only [if_true]; exact hl
    | false =>
      simp only [Bool.false_eq_true, if_false]
      cases hd : FirstDifferenceSubset dp cp pr c with
      | some index => exact Node.split_Lock p hβ pr dp cp snow sr child c index hfin hl
      | none =>
        show (Node.unary pr dp cp snow sr (child.map fun n => n.Add p c)).Lock p
        rw [Node.Lock_unary] at hl ⊢
        intro n hn
        cases child with
        | none => cases hn
        | some ch =>
          simp only [Option.map_some', Option.some.injEq] at hn
          subst hn
          refine ⟨fun hb hs => ?_, ih ch rfl (hl ch rfl).2⟩
          rw [(Node.Add_facts p c ch).2.2]
          exact (hl ch rfl).1 hb hs
  | binary p0 p1 bit snow sr0 sr1 c0 c1 ih0 ih1 =>
    intro hl
    rw [Node.Lock_binary] at hl
    rw [Node.Add_binary]
    cases hb : c.Bit bit with
    | true =>
      simp only [if_true]
      rw [Node.Lock_binary]
      refine ⟨hl.1, ?_⟩
      intro n hn
      cases c1 with
      | none => cases hn
      | some ch =>
        simp only [Option.map_some', Option.some.injEq] at hn
        subst hn
        refine ⟨fun hb hs => ?_, ih1 ch rfl (hl.2 ch rfl).2⟩
        rw [(Node.Add_facts p c ch).2.2]
        exact (hl.2 ch rfl).1 hb hs
    | false =>
      simp only [Bool.false_eq_true, if_false]
      rw [Node.Lock_binary]
      refine ⟨?_, hl.2⟩
      intro n hn
      cases c0 with
      | none => cases hn
      | some ch =>
        simp only [Option.map_some', Option.some.injEq] at hn
        subst hn
        refine ⟨fun hb hs => ?_, ih0 ch rfl (hl.1 ch rfl).2⟩
        rw [(Node.Add_facts p c ch).2.2]
        exact (hl.1 ch rfl).1 hb hs

/-- Every tree reachable with `beta_unary <= beta_binary` satisfies the invariant for
thresholds of at most 1. -/
theorem Reachable.lock {p : Parameters} {a : ID} {t : Tree} (hβ : p.BetaUnary ≤ p.BetaBinary)
    (h : Reachable p a t) : t.node.Lock p := by
  induction h with
  | newTree => exact trivial
  | add t c hr ih =>
    rw [Tree.Add_eq]
    split
    · have hp := hr.wf.2
      show (t.node.Add t.params c).Lock p
      rw [hp]
      exact Node.Add_Lock p hβ c t.node ih
    · exact ih
  | recordPoll t votes hr ih =>
    rw [Tree.RecordPoll_eq]
    have hp := hr.wf.2
    show (t.node.RecordPoll t.params (t.legalVotes votes) t.shouldReset).ret.Lock p
    rw [hp]
    exact (Node.RecordPoll_Lock p t.node _ _ ih).2
  | recordUnsuccessfulPoll t hr ih => exact ih

theorem Unary.poll_primed (p : Parameters) (s : Unary) (reset : Bool) (n : Nat)
    (h : s.finalized = false) (hn : p.AlphaConfidence ≤ n)
    (hz : reset = true ∨ s.confidence = 0) :
    ((if reset = true then s.RecordUnsuccessfulPoll else s).RecordPoll p n).confidence = 1 ∧
    ((if reset = true then s.RecordUnsuccessfulPoll else s).RecordPoll p n).finalized
      = decide (p.BetaUnary ≤ 1) := by
  rw [Unary.poll_high p s reset n h hn]
  rcases hz with hz | hz
  · subst hz
    exact ⟨rfl, rfl⟩
  · cases reset
    · rw [hz]
      exact ⟨rfl, rfl⟩
    · exact ⟨rfl, rfl⟩

theorem Binary.pollSide_primed (p : Parameters) (s : Binary) (reset : Bool) (n : Nat)
    (side : Bool) (h : s.finalized = false) (hn : p.AlphaConfidence ≤ n)
    (hz : reset = true ∨ (s.confidence0 = 0 ∧ s.confidence1 = 0)) :
    ((if reset = true then s.RecordUnsuccessfulPoll else s).RecordPoll p n side).preference
      = side ∧
    sel side
      ((if reset = true then s.RecordUnsuccessfulPoll else s).RecordPoll p n side).confidence0
      ((if reset = true then s.RecordUnsuccessfulPoll else s).RecordPoll p n side).confidence1
      = 1 ∧
    ((if reset = true then s.RecordUnsuccessfulPoll else s).RecordPoll p n side).finalized
      = decide (p.BetaBinary ≤ 1) := by
  rcases hz with hz | ⟨hz0, hz1⟩
  · subst hz
    cases side <;> cases hp : s.preference <;>
      simp [Binary.RecordPoll, Binary.RecordUnsuccessfulPoll, h, hp, hn, sel]
  · cases reset <;> cases side <;> cases hp : s.preference <;>
      simp [Binary.RecordPoll, Binary.RecordUnsuccessfulPoll, h, hp, hn, sel, hz0, hz1]

theorem Bag.Len_replicate (k : Nat) (b : ID) : Bag.Len (List.replicate k b) = k := by
  simp [Bag.Len]

/-- A poll of at least `alpha_confidence` votes for one id, recorded on a node that is
not finalized and starts from confidence 0, returns a node whose counter has confidence
exactly 1, also when counters finalize at confidence 1 and the node returned is a node
further down. -/
theorem Node.RecordPoll_primed (p : Parameters) (h1 : 1 ≤ p.AlphaPreference)
    (hα : p.AlphaPreference ≤ p.AlphaConfidence) (n : Node) :
    ∀ (b : ID) (k : Nat) (reset : Bool), p.AlphaConfidence ≤ k → n.Lock p →
      n.Finalized = false → n.primed reset →
      (n.RecordPoll p (List.replicate k b) reset).ret.confidence = 1 := by
  induction n using Node.induct with
  | unary pr dp cp snow sr child ih =>
    intro b k reset hk hl hf hpr
    have hs : snow.finalized = false := hf
    rw [Node.Lock_unary] at hl
    have hz : reset = true ∨ snow.confidence = 0 := by
      rcases hpr with h | h
      · exact Or.inl h
      · exact Or.inr h.1
    have hpass : (reset || sr) = true := by
      rcases hpr with h | h
      · rw [h]; rfl
      · rw [h.2]; exact Bool.or_true _
    rw [Node.RecordPoll_unary, Bag.Len_replicate, if_neg (by omega), hpass]
    obtain ⟨q1, q2⟩ := Unary.poll_primed p snow reset k hs hk hz
    generalize (if reset = true then snow.RecordUnsuccessfulPoll else snow).RecordPoll p k
      = s1 at q1 q2 ⊢
    cases child with
    | none =>
      rw [Option.map_none', Node.unaryFinish_none]
      exact q1
    | some ch =>
      rw [Option.map_some']
      cases hfin : s1.Finalized with
      | true =>
        rw [Node.unaryFinish_fin _ _ _ _ _ _ hfin]
        have hb : p.BetaUnary ≤ 1 := by
          have : s1.finalized = true := hfin
          rw [q2] at this
          exact of_decide_eq_true this
        exact ih ch rfl b k true hk (hl ch rfl).2 ((hl ch rfl).1 hb hs) (by
          cases ch <;> exact Or.inl rfl)
      | false =>
        rw [Node.unaryFinish_notFin _ _ _ _ _ _ hfin]
        exact q1
  | binary p0 p1 bit snow sr0 sr1 c0 c1 ih0 ih1 =>
    intro b k reset hk hl hf hpr
    have hs : snow.finalized = false := hf
    rw [Node.Lock_binary] at hl
    have hz : reset = true ∨ (snow.confidence0 = 0 ∧ snow.confidence1 = 0) := by
      rcases hpr with h | h
      · exact Or.inl h
      · exact Or.inr ⟨h.1, h.2.1⟩
    have hpass : ∀ side, (reset || sel side sr0 sr1) = true := by
      intro side
      rcases hpr with h | h
      · rw [h]; rfl
      · cases side
        · rw [sel_false, h.2.2.1]; exact Bool.or_true _
        · rw [sel_true, h.2.2.2]; exact Bool.or_true _
    rw [Node.RecordPoll_binary]
    have hside : decide (p.AlphaPreference ≤
        (Bag.Filter (List.replicate k b) fun x => x.Bit bit).Len) = b.Bit bit := by
      rw [(Bag.filter_replicate_bit k b bit).1]
      cases b.Bit bit
      · simp only [Bool.false_eq_true, if_false, decide_eq_false_iff_not]
        show ¬ p.AlphaPreference ≤ 0
        omega
      · simp only [if_true, decide_eq_true_eq, Bag.Len_replicate]
        omega
    have hvs : sel (b.Bit bit) (Bag.Filter (List.replicate k b) fun x => !x.Bit bit)
        (Bag.Filter (List.replicate k b) fun x => x.Bit bit) = List.replicate k b := by
      rw [(Bag.filter_replicate_bit k b bit).1, (Bag.filter_replicate_bit k b bit).2]
      cases b.Bit bit <;> rfl
    rw [hside, hvs, Bag.Len_replicate, if_neg (by omega), hpass]
    obtain ⟨q0, q1, q2⟩ := Binary.pollSide_primed p snow reset k (b.Bit bit) hs hk hz
    generalize (if reset = true then snow.RecordUnsuccessfulPoll else snow).RecordPoll p k
      (b.Bit bit) = s1 at q0 q1 q2 ⊢
    have hconf : ∀ x0 x1 f0 f1 d0 d1,
        (Node.binary x0 x1 bit s1 f0 f1 d0 d1).confidence = 1 := by
      intro x0 x1 f0 f1 d0 d1
      show sel s1.preference s1.confidence0 s1.confidence1 = 1
      rw [q0]
      exact q1
    have hbeta : s1.Finalized = true → p.BetaBinary ≤ 1 := by
      intro hfin
      have : s1.finalized = true := hfin
      rw [q2] at this
      exact of_decide_eq_true this
    cases b.Bit bit with
    | false =>
      simp only [sel_false]
      cases c0 with
      | none =>
        rw [Option.map_none', Node.binaryFinish_none_false]
        exact hconf _ _ _ _ _ _
      | some ch =>
        rw [Option.map_some']
        cases hfin : s1.Finalized with
        | true =>
          rw [Node.binaryFinish_fin_false _ _ _ _ _ _ _ _ hfin]
          exact ih0 ch rfl b k true hk (hl.1 ch rfl).2 ((hl.1 ch rfl).1 (hbeta hfin) hs) (by
            cases ch <;> exact Or.inl rfl)
        | false =>
          rw [Node.binaryFinish_notFin_false _ _ _ _ _ _ _ _ hfin]
          exact hconf _ _ _ _ _ _
    | true =>
      simp only [sel_true]
      cases c1 with
      | none =>
        rw [Option.map_none', Node.binaryFinish_none_true]
        exact hconf _ _ _ _ _ _
      | some ch =>
        rw [Option.map_some']
        cases hfin : s1.Finalized with
        | true =>
          rw [Node.binaryFinish_fin_true _ _ _ _ _ _ _ _ hfin]
          exact ih1 ch rfl b k true hk (hl.2 ch rfl).2 ((hl.2 ch rfl).1 (hbeta hfin) hs) (by
            cases ch <;> exact Or.inl rfl)
        | false =>
          rw [Node.binaryFinish_notFin_true _ _ _ _ _ _ _ _ hfin]
          exact hconf _ _ _ _ _ _

/-- An unsuccessful poll of a node that is not finalized returns the node with a counter
that is not finalized and holds no confidence, and with its flags set. -/
theorem Node.RecordPoll_failed (p : Parameters) (n : Node) (votes : Bag) (reset : Bool)
    (hf : n.Finalized = false) (hfail : (n.RecordPoll p votes reset).successful = false) :
    (n.RecordPoll p votes reset).ret.Finalized = false ∧
    (n.RecordPoll p votes reset).ret.confidence = 0 ∧
    (n.RecordPoll p votes reset).ret.primed false := by
  rw [Node.RecordPoll_successful] at hfail
  cases n with
  | unary pr dp cp snow sr child =>
    have hs : snow.finalized = false := hf
    simp only [decide_eq_false_iff_not] at hfail
    rw [Node.RecordPoll_unary, if_pos (by omega), Unary.unsuccessful_twice, hs]
    exact ⟨rfl, rfl, Or.inr ⟨rfl, rfl⟩⟩
  | binary p0 p1 bit snow sr0 sr1 c0 c1 =>
    have hs : snow.finalized = false := hf
    simp only [Bool.or_eq_false_iff, decide_eq_false_iff_not] at hfail
    have hside : decide (p.AlphaPreference ≤ (votes.Filter fun x => x.Bit bit).Len) = false :=
      decide_eq_false hfail.1
    rw [Node.RecordPoll_binary, hside, sel_false, if_pos (by omega),
      Binary.unsuccessfulSide_twice, hs]
    simp only [Bool.false_eq_true, if_false]
    refine ⟨rfl, ?_, Or.inr ⟨rfl, rfl, rfl, rfl⟩⟩
    show sel snow.preference 0 0 = 0
    cases snow.preference <;> rfl

/-- In a tree that is not finalized and whose root starts from confidence 0, a poll of
at least `alpha_confidence` votes for the preference leaves the root counter with
confidence exactly 1. -/
theorem Tree.poll_of_primed (t : Tree) (h1 : 1 ≤ t.params.AlphaPreference)
    (hα : t.params.AlphaPreference ≤ t.params.AlphaConfidence) (hl : t.node.Lock t.params)
    (hf : t.node.Finalized = false) (hpr : t.node.primed t.shouldReset) (k : Nat)
    (hk : t.params.AlphaConfidence ≤ k) :
    (t.RecordPoll (List.replicate k t.Preference)).1.node.confidence = 1 := by
  rw [Tree.RecordPoll_eq, Tree.legalVotes_replicate t t.Preference k (Or.inr rfl)]
  exact Node.RecordPoll_primed t.params h1 hα t.node t.Preference k t.shouldReset hk hl hf hpr

/-! ## An unsuccessful poll wipes the confidence -/

/-- C17 (as amended): for parameters with `1 <= alpha_preference <= alpha_confidence` and
`beta_unary <= beta_binary`, in a reachable tree that is not finalized: whenever
`RecordPoll` returns false the confidence of the root counter is 0 afterwards, and a
next `RecordPoll` of `k >= alpha_confidence` votes, all for the current preference,
leaves the confidence of the root counter at exactly 1.  `RecordUnsuccessfulPoll` called
in place of the failed poll leaves the root counter as it is (the reset is lazy), and a
next `RecordPoll` of `k >= alpha_confidence` votes for the current preference again
leaves the confidence of the root counter at exactly 1. -/
theorem unsuccessful_poll_wipes_confidence (p : Parameters) (a : ID) (t : Tree)
    (h1 : 1 ≤ p.AlphaPreference) (hα : p.AlphaPreference ≤ p.AlphaConfidence)
    (hβ : p.BetaUnary ≤ p.BetaBinary) (hr : Reachable p a t) (hf : t.Finalized = false)
    (k : Nat) (hk : p.AlphaConfidence ≤ k) :
    (∀ votes, (t.RecordPoll votes).2 = false →
      (t.RecordPoll votes).1.node.confidence = 0 ∧
      ((t.RecordPoll votes).1.RecordPoll
        (List.replicate k (t.RecordPoll votes).1.Preference)).1.node.confidence = 1) ∧
    t.RecordUnsuccessfulPoll.node.confidence = t.node.confidence ∧
    (t.RecordUnsuccessfulPoll.RecordPoll
      (List.replicate k t.RecordUnsuccessfulPoll.Preference)).1.node.confidence = 1 := by
  have hp := hr.wf.2
  refine ⟨?_, rfl, ?_⟩
  · intro votes hfail
    have hr1 : Reachable p a (t.RecordPoll votes).1 := Reachable.recordPoll t votes hr
    have hp1 : (t.RecordPoll votes).1.params = p := hr1.wf.2
    have hl1 := hr1.lock hβ
    have hfacts := Node.RecordPoll_failed t.params t.node (t.legalVotes votes) t.shouldReset
      hf hfail
    refine ⟨hfacts.2.1, ?_⟩
    apply Tree.poll_of_primed
    · rw [hp1]; exact h1
    · rw [hp1]; exact hα
    · rw [hp1]; exact hl1
    · exact hfacts.1
    · exact hfacts.2.2
    · rw [hp1]; exact hk
  · apply Tree.poll_of_primed
    · show 1 ≤ t.params.AlphaPreference
      rw [hp]; exact h1
    · show t.params.AlphaPreference ≤ t.params.AlphaConfidence
      rw [hp]; exact hα
    · show t.node.Lock t.params
      rw [hp]; exact hr.lock hβ
    · exact hf
    · show t.node.primed true
      cases t.node <;> exact Or.inl rfl
    · show t.params.AlphaConfidence ≤ k
      rw [hp]; exact hk

/-- The tree polled once for C17: after a failed poll, or after `RecordUnsuccessfulPoll`,
a poll of three votes for `0...0` leaves the root counter at confidence 1, not 2. -/
theorem unsuccessful_poll_wipes_confidence_witness :
    1 ≤ scenarioParams.AlphaPreference ∧
    scenarioParams.AlphaPreference ≤ scenarioParams.AlphaConfidence ∧
    scenarioParams.BetaUnary ≤ scenarioParams.BetaBinary ∧
    Reachable scenarioParams idZero polledOnce ∧ polledOnce.Finalized = false ∧
    scenarioParams.AlphaConfidence ≤ 3 ∧
    (∀ votes, (polledOnce.RecordPoll votes).2 = false →
      (polledOnce.RecordPoll votes).1.node.confidence = 0 ∧
      ((polledOnce.RecordPoll votes).1.RecordPoll
        (List.replicate 3 (polledOnce.RecordPoll votes).1.Preference)).1.node.confidence
          = 1) ∧
    polledOnce.RecordUnsuccessfulPoll.node.confidence = polledOnce.node.confidence ∧
    (polledOnce.RecordUnsuccessfulPoll.RecordPoll
      (List.replicate 3 polledOnce.RecordUnsuccessfulPoll.Preference)).1.node.confidence
        = 1 :=
  ⟨by decide, by decide, by decide, Reachable.recordPoll _ _ Reachable.newTree, by decide,
    by decide,
    unsuccessful_poll_wipes_confidence scenarioParams idZero polledOnce (by decide)
      (by decide) (by decide) (Reachable.recordPoll _ _ Reachable.newTree) (by decide) 3
      (by decide)⟩

/-- Counterexample to C17 as stated.  In the tree polled once the root counter has
confidence 1, and it still has confidence 1, not 0, after `RecordUnsuccessfulPoll`.
With `alpha_preference = 0` the binary root of the tree on `0...0` and `1000...0`, which
prefers `0...0`, has confidence 0, not 1, after `RecordUnsuccessfulPoll` and a poll of
three votes (`alpha_confidence = 3`) for `0...0`. -/
theorem recordUnsuccessfulPoll_keeps_confidence :
    Reachable scenarioParams idZero polledOnce ∧ polledOnce.Finalized = false ∧
    polledOnce.node.confidence = 1 ∧
    polledOnce.RecordUnsuccessfulPoll.node.confidence = 1 ∧
    Reachable zeroAlphaParams idZero zeroAlphaPair ∧ zeroAlphaPair.Finalized = false ∧
    zeroAlphaPair.RecordUnsuccessfulPoll.Preference = idZero ∧
    zeroAlphaParams.AlphaConfidence ≤ 3 ∧
    (zeroAlphaPair.RecordUnsuccessfulPoll.RecordPoll
      (List.replicate 3 idZero)).1.node.confidence = 0 :=
  ⟨Reachable.recordPoll _ _ Reachable.newTree, by decide, by decide, by decide,
    Reachable.add _ _ Reachable.newTree, by decide, by decide, by decide, by decide⟩

/-! ## A stale reset flag -/

/-- With two thresholds the lazy flags and the eager resets differ, which is why the
equivalence is stated for `beta_unary = beta_binary`: with `beta_unary = 1` and
`beta_binary = 2`, on the tree created on `0...0`, after `Add(1000...0)`,
`Add(0010...0)`, `RecordUnsuccessfulPoll()` and two polls of three votes for `0...0`,
both variants return true from both polls and prefer `0...0`, the eager variant is
finalized, and the tree of the code is not: the unary node for bit 1, finalized by the
first poll and still the child of the binary root, kept `shouldReset = true`, so the
second poll reset the counter of the binary node at bit 2 again. -/
theorem stale_flag_with_two_thresholds :
    unequalBetaParams.Valid ∧
    ((NewTree unequalBetaParams idZero).run (staleFlagCalls.take 3)).node
      = ((NewTree unequalBetaParams idZero).runEager (staleFlagCalls.take 3)).node ∧
    (((NewTree unequalBetaParams idZero).run (staleFlagCalls.take 3)).RecordPoll
      (List.replicate 3 idZero)).2 = true ∧
    (((NewTree unequalBetaParams idZero).runEager (staleFlagCalls.take 3)).RecordPollEager
      (List.replicate 3 idZero)).2 = true ∧
    (((NewTree unequalBetaParams idZero).run (staleFlagCalls.take 4)).RecordPoll
      (List.replicate 3 idZero)).2 = true ∧
    (((NewTree unequalBetaParams idZero).runEager (staleFlagCalls.take 4)).RecordPollEager
      (List.replicate 3 idZero)).2 = true ∧
    ((NewTree unequalBetaParams idZero).run staleFlagCalls).Preference = idZero ∧
    ((NewTree unequalBetaParams idZero).runEager staleFlagCalls).Preference = idZero ∧
    ((NewTree unequalBetaParams idZero).runEager staleFlagCalls).Finalized = true ∧
    ((NewTree unequalBetaParams idZero).run staleFlagCalls).Finalized = false :=
  ⟨by decide, rfl, by decide, by decide, by decide, by decide, by decide, by decide, by decide,
    by decide⟩

/-! ## The splitting cases of `unaryNode.Add` -/

theorem FirstDifferenceSubset_at_start (dp cp : Nat) (a b : ID) (hlt : dp < cp)
    (hb : a.Bit dp ≠ b.Bit dp) : FirstDifferenceSubset dp cp a b = some dp := by
  rw [FirstDifferenceSubset_some]
  exact ⟨Nat.le_refl _, hlt, hb, fun j h1 h2 => absurd h1 (by omega)⟩

/-- C26: for every unary node `u` that is not finalized, with run `[dp, cp)`, and every
choice `c` whose first differing bit from `u.preference` in the run is `index` with
`dp < index < cp - 1`, `u.Add(c)` is a unary node with the preference and decided prefix
of `u`, common prefix `index`, the clone of the counter of `u` (and `shouldReset`
false), whose child is the binary node at bit `index` with counter
`u.snow.Extend(bit)` for `bit = u.preference.Bit(index)`, both flags equal to
`u.shouldReset`, `preferences[bit] = u.preference`, `preferences[1-bit] = c`,
`children[bit]` the node `u` with decided prefix `index + 1` and nothing else changed,
and `children[1-bit]` a fresh childless unary node for `c` with range
`[index + 1, 256)`. -/
theorem add_interior_split (p : Parameters) (pr : ID) (dp cp : Nat) (snow : Unary) (sr : Bool)
    (child : Option Node) (c : ID) (index : Nat) (hfin : snow.Finalized = false)
    (hd : FirstDifferenceSubset dp cp pr c = some index) (h1 : dp < index)
    (h2 : index < cp - 1) :
    (Node.unary pr dp cp snow sr child).Add p c =
      .unary pr dp index snow.Clone false
        (some
          (if pr.Bit index then
            .binary c pr index (snow.Extend true) sr sr
              (some (.unary c (index + 1) 256 (NewUnary p) false none))
              (some (.unary pr (index + 1) cp snow sr child))
          else
            .binary pr c index (snow.Extend false) sr sr
              (some (.unary pr (index + 1) cp snow sr child))
              (some (.unary c (index + 1) 256 (NewUnary p) false none)))) := by
  rw [Node.Add_unary, hfin, hd]
  simp only [Bool.false_eq_true, if_false]
  unfold Node.split
  rw [if_neg (by omega), if_neg (by omega), if_neg (by omega)]
  cases pr.Bit index <;> rfl

/-- Scenario S3 for C26: adding `0100...0` to the root for `0...0` gives a unary node for
bits [0, 1) above a binary node at bit 1 with two unary children of decided prefix 2. -/
theorem add_interior_split_witness :
    (NewUnary scenarioParams).Finalized = false ∧
    FirstDifferenceSubset 0 256 idZero idTwo = some 1 ∧ 0 < 1 ∧ 1 < 256 - 1 ∧
    (Node.unary idZero 0 256 (NewUnary scenarioParams) false none).Add scenarioParams idTwo =
      .unary idZero 0 1 (NewUnary scenarioParams).Clone false
        (some
          (if idZero.Bit 1 then
            .binary idTwo idZero 1 ((NewUnary scenarioParams).Extend true) false false
              (some (.unary idTwo (1 + 1) 256 (NewUnary scenarioParams) false none))
              (some (.unary idZero (1 + 1) 256 (NewUnary scenarioParams) false none))
          else
            .binary idZero idTwo 1 ((NewUnary scenarioParams).Extend false) false false
              (some (.unary idZero (1 + 1) 256 (NewUnary scenarioParams) false none))
              (some (.unary idTwo (1 + 1) 256 (NewUnary scenarioParams) false none)))) :=
  ⟨rfl, by decide, by decide, by decide,
    add_interior_split scenarioParams idZero 0 256 (NewUnary scenarioParams) false none idTwo 1
      rfl (by decide) (by decide) (by decide)⟩

/-- C27: for every unary node `u` that is not finalized, with run `[dp, cp)` of at least
two bits, and every choice `c` that differs from `u.preference` at bit `dp`, `u.Add(c)`
is the binary node at bit `dp` with counter `u.snow.Extend(bit)` for
`bit = u.preference.Bit(dp)`, both flags equal to `u.shouldReset`,
`preferences[bit] = u.preference`, `preferences[1-bit] = c`, `children[bit]` the node `u`
with decided prefix `dp + 1` and nothing else changed, and `children[1-bit]` a fresh
childless unary node for `c` with range `[dp + 1, 256)`. -/
theorem add_first_bit_split (p : Parameters) (pr : ID) (dp cp : Nat) (snow : Unary)
    (sr : Bool) (child : Option Node) (c : ID) (hfin : snow.Finalized = false)
    (hrun : dp + 2 ≤ cp) (hb : pr.Bit dp ≠ c.Bit dp) :
    (Node.unary pr dp cp snow sr child).Add p c =
      if pr.Bit dp then
        .binary c pr dp (snow.Extend true) sr sr
          (some (.unary c (dp + 1) 256 (NewUnary p) false none))
          (some (.unary pr (dp + 1) cp snow sr child))
      else
        .binary pr c dp (snow.Extend false) sr sr
          (some (.unary pr (dp + 1) cp snow sr child))
          (some (.unary c (dp + 1) 256 (NewUnary p) false none)) := by
  rw [Node.Add_unary, hfin, FirstDifferenceSubset_at_start dp cp pr c (by omega) hb]
  simp only [Bool.false_eq_true, if_false]
  unfold Node.split
  rw [if_neg (by omega), if_pos rfl]
  cases pr.Bit dp <;> rfl

/-- The new tree for C27: adding `1000...0` to the root for `0...0` gives a binary node at
bit 0 above the root with decided prefix 1 and a fresh unary node for `1000...0`. -/
theorem add_first_bit_split_witness :
    (NewUnary scenarioParams).Finalized = false ∧ 0 + 2 ≤ 256 ∧ idZero.Bit 0 ≠ idOne.Bit 0 ∧
    (Node.unary idZero 0 256 (NewUnary scenarioParams) false none).Add scenarioParams idOne =
      if idZero.Bit 0 then
        .binary idOne idZero 0 ((NewUnary scenarioParams).Extend true) false false
          (some (.unary idOne (0 + 1) 256 (NewUnary scenarioParams) false none))
          (some (.unary idZero (0 + 1) 256 (NewUnary scenarioParams) false none))
      else
        .binary idZero idOne 0 ((NewUnary scenarioParams).Extend false) false false
          (some (.unary idZero (0 + 1) 256 (NewUnary scenarioParams) false none))
          (some (.unary idOne (0 + 1) 256 (NewUnary scenarioParams) false none)) :=
  ⟨rfl, by decide, by decide,
    add_first_bit_split scenarioParams idZero 0 256 (NewUnary scenarioParams) false none idOne
      rfl (by decide) (by decide)⟩

/-- C28: for every unary node `u` that is not finalized, with
`commonPrefix = decidedPrefix + 1`, and every choice `c` that differs from
`u.preference` at bit `decidedPrefix`, `u.Add(c)` is the binary node at bit
`u.decidedPrefix` with counter `u.snow.Extend(bit)` for
`bit = u.preference.Bit(decidedPrefix)`, both flags equal to `u.shouldReset`,
`preferences[bit] = u.preference`, `preferences[1-bit] = c`, `children[bit] = u.child`,
and `children[1-bit]` the fresh unary node for `c` if `u` had a child and nil if it had
none, so the binary node has two children or none. -/
theorem add_single_bit_split (p : Parameters) (pr : ID) (dp cp : Nat) (snow : Unary)
    (sr : Bool) (child : Option Node) (c : ID) (hfin : snow.Finalized = false)
    (hrun : cp = dp + 1) (hb : pr.Bit dp ≠ c.Bit dp) :
    (Node.unary pr dp cp snow sr child).Add p c =
      (if pr.Bit dp then
        .binary c pr dp (snow.Extend true) sr sr
          (child.map fun _ => .unary c (dp + 1) 256 (NewUnary p) false none) child
      else
        .binary pr c dp (snow.Extend false) sr sr child
          (child.map fun _ => .unary c (dp + 1) 256 (NewUnary p) false none)) ∧
    ((Node.unary pr dp cp snow sr child).Add p c).children0.isSome = child.isSome ∧
    ((Node.unary pr dp cp snow sr child).Add p c).children1.isSome = child.isSome := by
  have key : (Node.unary pr dp cp snow sr child).Add p c =
      (if pr.Bit dp then
        .binary c pr dp (snow.Extend true) sr sr
          (child.map fun _ => .unary c (dp + 1) 256 (NewUnary p) false none) child
      else
        .binary pr c dp (snow.Extend false) sr sr child
          (child.map fun _ => .unary c (dp + 1) 256 (NewUnary p) false none)) := by
    rw [Node.Add_unary, hfin, FirstDifferenceSubset_at_start dp cp pr c (by omega) hb]
    simp only [Bool.false_eq_true, if_false]
    unfold Node.split
    rw [if_pos (by omega)]
    cases pr.Bit dp <;> rfl
  rw [key]
  refine ⟨rfl, ?_, ?_⟩ <;> cases pr.Bit dp <;> cases child <;> rfl

/-- The root for bits [0, 1) above the fork at bit 1 for C28: adding `1000...0` replaces
it by a binary node at bit 0 above the fork and a fresh unary node for `1000...0`. -/
theorem add_single_bit_split_witness :
    ((NewTree scenarioParams idZero).Add idTwo).node
      = .unary idZero 0 1 (NewUnary scenarioParams) false (some forkAtBitOne) ∧
    (NewUnary scenarioParams).Finalized = false ∧ 1 = 0 + 1 ∧ idZero.Bit 0 ≠ idOne.Bit 0 ∧
    ((Node.unary idZero 0 1 (NewUnary scenarioParams) false (some forkAtBitOne)).Add
        scenarioParams idOne =
      (if idZero.Bit 0 then
        .binary idOne idZero 0 ((NewUnary scenarioParams).Extend true) false false
          ((some forkAtBitOne).map fun _ =>
            .unary idOne (0 + 1) 256 (NewUnary scenarioParams) false none)
          (some forkAtBitOne)
      else
        .binary idZero idOne 0 ((NewUnary scenarioParams).Extend false) false false
          (some forkAtBitOne)
          ((some forkAtBitOne).map fun _ =>
            .unary idOne (0 + 1) 256 (NewUnary scenarioParams) false none))) ∧
    ((Node.unary idZero 0 1 (NewUnary scenarioParams) false (some forkAtBitOne)).Add
        scenarioParams idOne).children0.isSome = (some forkAtBitOne).isSome ∧
    ((Node.unary idZero 0 1 (NewUnary scenarioParams) false (some forkAtBitOne)).Add
        scenarioParams idOne).children1.isSome = (some forkAtBitOne).isSome :=
  ⟨rfl, rfl, rfl, by decide,
    add_single_bit_split scenarioParams idZero 0 1 (NewUnary scenarioParams) false
      (some forkAtBitOne) idOne rfl rfl (by decide)⟩

/-- C29: for every unary node `u` that is not finalized, with run `[dp, cp)` of at least
two bits, and every choice `c` whose first differing bit from `u.preference` in the run
is `cp - 1`, `u.Add(c)` is the node `u` with common prefix `cp - 1` and the same
preference, decided prefix, counter and `shouldReset`, whose child is the binary node at
bit `cp - 1` with counter `u.snow.Extend(bit)` for `bit = u.preference.Bit(cp - 1)`,
both flags equal to `u.shouldReset`, `preferences[bit] = u.preference`,
`preferences[1-bit] = c`, `children[bit]` the old child of `u`, and `children[1-bit]`
the fresh unary node for `c` if `u` had a child and nil otherwise. -/
theorem add_last_bit_split (p : Parameters) (pr : ID) (dp cp : Nat) (snow : Unary)
    (sr : Bool) (child : Option Node) (c : ID) (hfin : snow.Finalized = false)
    (hrun : dp + 2 ≤ cp) (hd : FirstDifferenceSubset dp cp pr c = some (cp - 1)) :
    (Node.unary pr dp cp snow sr child).Add p c =
      .unary pr dp (cp - 1) snow sr
        (some
          (if pr.Bit (cp - 1) then
            .binary c pr (cp - 1) (snow.Extend true) sr sr
              (child.map fun _ => .unary c (cp - 1 + 1) 256 (NewUnary p) false none) child
          else
            .binary pr c (cp - 1) (snow.Extend false) sr sr child
              (child.map fun _ => .unary c (cp - 1 + 1) 256 (NewUnary p) false none))) := by
  rw [Node.Add_unary, hfin, hd]
  simp only [Bool.false_eq_true, if_false]
  unfold Node.split
  rw [if_neg (by omega), if_neg (by omega), if_pos rfl]
  cases pr.Bit (cp - 1) <;> rfl

/-- The new tree for C29: adding `0...01` to the childless root for `0...0` shortens the
root to bits [0, 255) and puts a childless binary node at bit 255 below it. -/
theorem add_last_bit_split_witness :
    (NewUnary scenarioParams).Finalized = false ∧ 0 + 2 ≤ 256 ∧
    FirstDifferenceSubset 0 256 idZero idLast = some (256 - 1) ∧
    (Node.unary idZero 0 256 (NewUnary scenarioParams) false none).Add scenarioParams idLast =
      .unary idZero 0 (256 - 1) (NewUnary scenarioParams) false
        (some
          (if idZero.Bit (256 - 1) then
            .binary idLast idZero (256 - 1) ((NewUnary scenarioParams).Extend true) false false
              ((none : Option Node).map fun _ =>
                .unary idLast (256 - 1 + 1) 256 (NewUnary scenarioParams) false none)
              none
          else
            .binary idZero idLast (256 - 1) ((NewUnary scenarioParams).Extend false) false
              false none
              ((none : Option Node).map fun _ =>
                .unary idLast (256 - 1 + 1) 256 (NewUnary scenarioParams) false none))) :=
  ⟨rfl, by decide, by decide,
    add_last_bit_split scenarioParams idZero 0 256 (NewUnary scenarioParams) false none idLast
      rfl (by decide) (by decide)⟩

/-! ## The cases of the split -/

/-- The node that `unaryNode.Add` builds at a split is the node of the first case, in
the order 2, 3, 4, whose condition holds. -/
theorem Node.split_eq_splitIn (p : Parameters) (pr : ID) (dp cp : Nat) (snow : Unary)
    (sr : Bool) (child : Option Node) (c : ID) (index : Nat) :
    Node.split p pr dp cp snow sr child c index =
      Node.splitIn [2, 3, 4] p pr dp cp snow sr child c index := by
  unfold Node.split Node.splitIn
  by_cases h2 : dp = cp - 1
  · rw [if_pos h2]
    simp [splitCondition, h2, Node.splitBy]
  · rw [if_neg h2]
    by_cases h3 : index = dp
    · rw [if_pos h3]
      simp [splitCondition, h2, h3, Node.splitBy]
    · rw [if_neg h3]
      by_cases h4 : index = cp - 1
      · rw [if_pos h4]
        have h34 : ¬ cp - 1 = dp := fun h => h2 h.symm
        simp [splitCondition, h2, h4, h34, Node.splitBy]
      · rw [if_neg h4]
        simp [splitCondition, h2, h3, h4, Node.splitBy]

theorem find_unique (q : Nat → Bool) (l : List Nat) (k : Nat) (hk : k ∈ l) (hq : q k = true)
    (huniq : ∀ x ∈ l, q x = true → x = k) : l.find? q = some k := by
  induction l with
  | nil => cases hk
  | cons a l ih =>
    cases ha : q a with
    | true =>
      rw [List.find?_cons_of_pos _ ha, huniq a (List.mem_cons_self _ _) ha]
    | false =>
      rw [List.find?_cons_of_neg _ (by rw [ha]; exact Bool.false_ne_true)]
      rcases List.mem_cons.mp hk with h | h
      · rw [h, ha] at hq; cases hq
      · exact ih h fun x hx => huniq x (List.mem_cons_of_mem _ hx)

/-- On a run of at least two bits the conditions of the cases 3 and 4 exclude each
other and the condition of case 2 fails, so the first case found does not depend on the
order of the tests. -/
theorem splitCondition_find (order : List Nat) (horder : order.Perm [2, 3, 4])
    (dp cp index : Nat) (hrun : dp + 2 ≤ cp) :
    (order.find? (splitCondition dp cp index)).getD 5 =
      if index = dp then 3 else if index = cp - 1 then 4 else 5 := by
  have hmem : ∀ x, x ∈ order ↔ x = 2 ∨ x = 3 ∨ x = 4 := by
    intro x
    rw [horder.mem_iff]
    simp
  have h2 : ¬ dp = cp - 1 := by omega
  by_cases h3 : index = dp
  · rw [if_pos h3, find_unique _ order 3 ((hmem 3).mpr (by simp)) (by simp [splitCondition, h3])]
    · rfl
    · intro x hx hq
      rcases (hmem x).mp hx with h | h | h
      · subst h; simp [splitCondition, h2] at hq
      · exact h
      · subst h
        simp only [splitCondition, decide_eq_true_eq] at hq
        omega
  · rw [if_neg h3]
    by_cases h4 : index = cp - 1
    · rw [if_pos h4,
        find_unique _ order 4 ((hmem 4).mpr (by simp)) (by simp [splitCondition, h4])]
      · rfl
      · intro x hx hq
        rcases (hmem x).mp hx with h | h | h
        · subst h; simp [splitCondition, h2] at hq
        · subst h; simp [splitCondition, h3] at hq
        · exact h
    · rw [if_neg h4]
      have : order.find? (splitCondition dp cp index) = none := by
        rw [List.find?_eq_none]
        intro x hx
        rcases (hmem x).mp hx with h | h | h <;> subst h <;> simp [splitCondition, h2, h3, h4]
      rw [this]
      rfl

/-- On a run of at least two bits the order of the tests does not matter. -/
theorem Node.splitIn_perm (order : List Nat) (horder : order.Perm [2, 3, 4])
    (p : Parameters) (pr : ID) (dp cp : Nat) (snow : Unary) (sr : Bool)
    (child : Option Node) (c : ID) (index : Nat) (hrun : dp + 2 ≤ cp) :
    Node.splitIn order p pr dp cp snow sr child c index =
      Node.splitIn [2, 3, 4] p pr dp cp snow sr child c index := by
  unfold Node.splitIn
  rw [splitCondition_find order horder dp cp index hrun,
    splitCondition_find [2, 3, 4] (List.Perm.refl _) dp cp index hrun]

/-- C30 (as amended): for every unary node with run `[dp, cp)` and every index in the
run at which a new choice first differs, the node that `unaryNode.Add` builds is the
node of the first case, in the order 2, 3, 4 of the `switch`, whose condition holds (the
`default`, case 5, when none holds), and at least one of the conditions of case 2
(`dp = cp - 1`), case 3 (`index = dp`), case 4 (`index = cp - 1`) and case 5 (interior)
holds.  On a run of at least two bits exactly one of them holds and the node built is the
same for every order in which the conditions of the cases 2, 3 and 4 are tested.  On a
run of one bit the conditions of the cases 2, 3 and 4 all hold and the `switch`, which
tests case 2 first, builds the node of case 2. -/
theorem split_cases_cover_run (p : Parameters) (pr : ID) (dp cp : Nat) (snow : Unary)
    (sr : Bool) (child : Option Node) (c : ID) (index : Nat) (h1 : dp ≤ index)
    (h2 : index < cp) :
    Node.split p pr dp cp snow sr child c index
      = Node.splitIn [2, 3, 4] p pr dp cp snow sr child c index ∧
    (∃ k, (k = 2 ∨ k = 3 ∨ k = 4 ∨ k = 5) ∧ splitCondition dp cp index k = true) ∧
    (dp + 2 ≤ cp →
      (∀ j k, (j = 2 ∨ j = 3 ∨ j = 4 ∨ j = 5) → (k = 2 ∨ k = 3 ∨ k = 4 ∨ k = 5) →
        splitCondition dp cp index j = true → splitCondition dp cp index k = true → j = k) ∧
      ∀ order : List Nat, order.Perm [2, 3, 4] →
        Node.splitIn order p pr dp cp snow sr child c index
          = Node.split p pr dp cp snow sr child c index) ∧
    (cp = dp + 1 →
      splitCondition dp cp index 2 = true ∧ splitCondition dp cp index 3 = true ∧
      splitCondition dp cp index 4 = true ∧ splitCondition dp cp index 5 = false ∧
      Node.split p pr dp cp snow sr child c index
        = Node.splitBy p pr dp cp snow sr child c index 2) := by
  refine ⟨Node.split_eq_splitIn p pr dp cp snow sr child c index, ?_, ?_, ?_⟩
  · by_cases h3 : index = dp
    · exact ⟨3, Or.inr (Or.inl rfl), by simp [splitCondition, h3]⟩
    · by_cases h4 : index = cp - 1
      · exact ⟨4, Or.inr (Or.inr (Or.inl rfl)), by simp [splitCondition, h4]⟩
      · refine ⟨5, Or.inr (Or.inr (Or.inr rfl)), ?_⟩
        simp only [splitCondition, decide_eq_true_eq]
        omega
  · intro hrun
    constructor
    · intro j k hj hk hqj hqk
      rcases hj with hj | hj | hj | hj <;> rcases hk with hk | hk | hk | hk <;> subst hj <;>
        subst hk <;> simp only [splitCondition, decide_eq_true_eq] at hqj hqk <;> omega
    · intro order horder
      rw [Node.split_eq_splitIn]
      exact Node.splitIn_perm order horder p pr dp cp snow sr child c index hrun
  · intro hrun
    have hi : index = dp := by omega
    refine ⟨?_, ?_, ?_, ?_, ?_⟩
    · simp only [splitCondition, decide_eq_true_eq]; omega
    · simp only [splitCondition, decide_eq_true_eq]; omega
    · simp only [splitCondition, decide_eq_true_eq]; omega
    · simp only [splitCondition, decide_eq_false_iff_not]; omega
    · unfold Node.split
      rw [if_pos (by omega)]
      rfl

/-- The new tree for C30: for the root for bits [0, 256) and a choice that first differs
at bit 1, only the condition of case 5 holds. -/
theorem split_cases_cover_run_witness :
    0 ≤ 1 ∧ 1 < 256 ∧
    (Node.split scenarioParams idZero 0 256 (NewUnary scenarioParams) false none idTwo 1
      = Node.splitIn [2, 3, 4] scenarioParams idZero 0 256 (NewUnary scenarioParams) false none
          idTwo 1 ∧
    (∃ k, (k = 2 ∨ k = 3 ∨ k = 4 ∨ k = 5) ∧ splitCondition 0 256 1 k = true) ∧
    (0 + 2 ≤ 256 →
      (∀ j k, (j = 2 ∨ j = 3 ∨ j = 4 ∨ j = 5) → (k = 2 ∨ k = 3 ∨ k = 4 ∨ k = 5) →
        splitCondition 0 256 1 j = true → splitCondition 0 256 1 k = true → j = k) ∧
      ∀ order : List Nat, order.Perm [2, 3, 4] →
        Node.splitIn order scenarioParams idZero 0 256 (NewUnary scenarioParams) false none
            idTwo 1
          = Node.split scenarioParams idZero 0 256 (NewUnary scenarioParams) false none
              idTwo 1) ∧
    (256 = 0 + 1 →
      splitCondition 0 256 1 2 = true ∧ splitCondition 0 256 1 3 = true ∧
      splitCondition 0 256 1 4 = true ∧ splitCondition 0 256 1 5 = false ∧
      Node.split scenarioParams idZero 0 256 (NewUnary scenarioParams) false none idTwo 1
        = Node.splitBy scenarioParams idZero 0 256 (NewUnary scenarioParams) false none
            idTwo 1 2)) :=
  ⟨by decide, by decide,
    split_cases_cover_run scenarioParams idZero 0 256 (NewUnary scenarioParams) false none
      idTwo 1 (by decide) (by decide)⟩

/-- Counterexample to C30 as stated: the root of the tree on `0...0` and `0100...0` is a
unary node for the single bit 0 above the fork at bit 1, and `1000...0` first differs
from its preference at bit 0.  The conditions of the cases 2, 3 and 4 all hold there,
and the case selected depends on the order of the tests: testing case 3 first builds a
tree of 6 nodes, the `switch` of the source (case 2 first) builds a tree of 5 nodes. -/
theorem split_cases_overlap_on_single_bit :
    ((NewTree scenarioParams idZero).Add idTwo).node
      = .unary idZero 0 1 (NewUnary scenarioParams) false (some forkAtBitOne) ∧
    FirstDifferenceSubset 0 1 idZero idOne = some 0 ∧
    splitCondition 0 1 0 2 = true ∧ splitCondition 0 1 0 3 = true ∧
    splitCondition 0 1 0 4 = true ∧
    (Node.splitIn [3, 2, 4] scenarioParams idZero 0 1 (NewUnary scenarioParams) false
      (some forkAtBitOne) idOne 0).size = 6 ∧
    (Node.split scenarioParams idZero 0 1 (NewUnary scenarioParams) false
      (some forkAtBitOne) idOne 0).size = 5 ∧
    Node.splitIn [3, 2, 4] scenarioParams idZero 0 1 (NewUnary scenarioParams) false
        (some forkAtBitOne) idOne 0
      ≠ Node.split scenarioParams idZero 0 1 (NewUnary scenarioParams) false
          (some forkAtBitOne) idOne 0 :=
  ⟨rfl, by decide, by decide, by decide, by decide, by decide, by decide,
    fun h => absurd (congrArg Node.size h) (by decide)⟩

/-! ## Every node of a reachable tree -/

theorem Node.mem_nodes_unary (m : Node) (pr : ID) (dp cp : Nat) (snow : Unary) (sr : Bool)
    (child : Option Node) :
    m ∈ (Node.unary pr dp cp snow sr child).nodes ↔
      m = .unary pr dp cp snow sr child ∨ ∃ c, child = some c ∧ m ∈ c.nodes := by
  cases child <;> simp [Node.nodes]

theorem Node.mem_nodes_binary (m : Node) (p0 p1 : ID) (bit : Nat) (snow : Binary)
    (sr0 sr1 : Bool) (c0 c1 : Option Node) :
    m ∈ (Node.binary p0 p1 bit snow sr0 sr1 c0 c1).nodes ↔
      m = .binary p0 p1 bit snow sr0 sr1 c0 c1 ∨ (∃ c, c0 = some c ∧ m ∈ c.nodes) ∨
        ∃ c, c1 = some c ∧ m ∈ c.nodes := by
  cases c0 <;> cases c1 <;> simp [Node.nodes]

theorem Node.self_mem_nodes (n : Node) : n ∈ n.nodes := by
  cases n with
  | unary pr dp cp snow sr child => rw [Node.mem_nodes_unary]; exact Or.inl rfl
  | binary p0 p1 bit snow sr0 sr1 c0 c1 => rw [Node.mem_nodes_binary]; exact Or.inl rfl

/-- Every node of a well-formed subtree is well formed. -/
theorem Node.WF_of_mem_nodes (n : Node) : n.WF → ∀ m, m ∈ n.nodes → m.WF := by
  induction n using Node.induct with
  | unary pr dp cp snow sr child ih =>
    intro hwf m hm
    rw [Node.mem_nodes_unary] at hm
    rcases hm with h | ⟨c, hc, h⟩
    · rw [h]; exact hwf
    · rw [Node.WF_unary] at hwf
      exact ih c hc (hwf.2.2.2 c hc).2.2 m h
  | binary p0 p1 bit snow sr0 sr1 c0 c1 ih0 ih1 =>
    intro hwf m hm
    rw [Node.mem_nodes_binary] at hm
    rcases hm with h | ⟨c, hc, h⟩ | ⟨c, hc, h⟩
    · rw [h]; exact hwf
    · rw [Node.WF_binary] at hwf
      exact ih0 c hc (hwf.2.2.2.2.2.2.1 c hc).2.2 m h
    · rw [Node.WF_binary] at hwf
      exact ih1 c hc (hwf.2.2.2.2.2.2.2 c hc).2.2 m h

/-- Every node of a reachable tree is well formed. -/
theorem Reachable.wf_nodes {p : Parameters} {a : ID} {t : Tree} (h : Reachable p a t)
    (n : Node) (hn : n ∈ t.node.nodes) : n.WF :=
  Node.WF_of_mem_nodes t.node h.wf.1 n hn

/-- In a well-formed subtree every represented id agrees with the preference of the root
of the subtree on the bits before its decided prefix. -/
theorem Node.WF_represented_agree (n : Node) :
    n.WF → ∀ x, x ∈ n.represented → n.Preference.agree x n.DecidedPrefix := by
  induction n using Node.induct with
  | unary pr dp cp snow sr child ih =>
    intro hwf x hx
    rw [Node.WF_unary] at hwf
    obtain ⟨w1, w2, w3, w4⟩ := hwf
    rw [Node.mem_represented_unary] at hx
    rcases hx with ⟨_, h⟩ | ⟨c, hc, h⟩
    · rw [h]; exact ID.agree_refl _ _
    · obtain ⟨x1, x2, x3⟩ := w4 c hc
      have := ih c hc x3 x h
      rw [x1] at this
      show pr.agree x dp
      exact ID.agree_mono (ID.agree_trans x2 this) (by omega)
  | binary p0 p1 bit snow sr0 sr1 c0 c1 ih0 ih1 =>
    intro hwf x hx
    rw [Node.WF_binary] at hwf
    obtain ⟨w1, w2, w3, w4, w5, w6, w7, w8⟩ := hwf
    have both : p0.agree x bit ∧ p1.agree x bit := by
      rw [Node.mem_represented_binary] at hx
      rcases hx with ⟨_, _, h | h⟩ | ⟨c, hc, h⟩ | ⟨c, hc, h⟩
      · rw [h]; exact ⟨ID.agree_refl _ _, ID.agree_symm w2⟩
      · rw [h]; exact ⟨w2, ID.agree_refl _ _⟩
      · obtain ⟨x1, x2, x3⟩ := w7 c hc
        have := ih0 c hc x3 x h
        rw [x1] at this
        have h0 : p0.agree x bit := ID.agree_mono (ID.agree_trans x2 this) (by omega)
        exact ⟨h0, ID.agree_trans (ID.agree_symm w2) h0⟩
      · obtain ⟨x1, x2, x3⟩ := w8 c hc
        have := ih1 c hc x3 x h
        rw [x1] at this
        have h1 : p1.agree x bit := ID.agree_mono (ID.agree_trans x2 this) (by omega)
        exact ⟨ID.agree_trans w2 h1, h1⟩
    show (Node.binary p0 p1 bit snow sr0 sr1 c0 c1).Preference.agree x bit
    rcases Node.binary_Preference_cases p0 p1 bit snow sr0 sr1 c0 c1 with h | h
    · rw [h]; exact both.1
    · rw [h]; exact both.2

/-- In a well-formed subtree under a unary node every represented id agrees with the
preference of the node on the bits before its common prefix. -/
theorem Node.WF_represented_agree_run (pr : ID) (dp cp : Nat) (snow : Unary) (sr : Bool)
    (child : Option Node) (hwf : (Node.unary pr dp cp snow sr child).WF) (x : ID)
    (hx : x ∈ (Node.unary pr dp cp snow sr child).represented) : pr.agree x cp := by
  rw [Node.WF_unary] at hwf
  obtain ⟨w1, w2, w3, w4⟩ := hwf
  rw [Node.mem_represented_unary] at hx
  rcases hx with ⟨_, h⟩ | ⟨c, hc, h⟩
  · rw [h]; exact ID.agree_refl _ _
  · obtain ⟨x1, x2, x3⟩ := w4 c hc
    have := Node.WF_represented_agree c x3 x h
    rw [x1] at this
    exact ID.agree_trans x2 this

/-! ## The prefix invariant of subtrees -/

/-- C22: in every reachable tree, for every node `n` and every id `x` represented in the
subtree of `n`, `x` agrees with `n.Preference()` on the bits `[0, n.DecidedPrefix())`,
and when `n` is a unary node `x` also agrees with `n.preference` on the bits
`[n.decidedPrefix, n.commonPrefix)`. -/
theorem represented_ids_share_prefix (p : Parameters) (a : ID) (t : Tree)
    (hr : Reachable p a t) (n : Node) (hn : n ∈ t.node.nodes) (x : ID)
    (hx : x ∈ n.represented) :
    (∀ i, i < n.DecidedPrefix → x.Bit i = n.Preference.Bit i) ∧
    ∀ pr dp cp snow sr child, n = .unary pr dp cp snow sr child →
      ∀ i, dp ≤ i → i < cp → x.Bit i = pr.Bit i := by
  have hwf := hr.wf_nodes n hn
  refine ⟨fun i hi => (Node.WF_represented_agree n hwf x hx i hi).symm, ?_⟩
  intro pr dp cp snow sr child hn2 i _ hi
  subst hn2
  exact (Node.WF_represented_agree_run pr dp cp snow sr child hwf x hx i hi).symm

/-- The tree on `0...0` and `0100...0` for C22: `0100...0`, represented below the root
for bits [0, 1), agrees with the preference `0...0` of the root on bit 0. -/
theorem represented_ids_share_prefix_witness :
    Reachable scenarioParams idZero ((NewTree scenarioParams idZero).Add idTwo) ∧
    ((NewTree scenarioParams idZero).Add idTwo).node
      ∈ ((NewTree scenarioParams idZero).Add idTwo).node.nodes ∧
    idTwo ∈ ((NewTree scenarioParams idZero).Add idTwo).node.represented ∧
    (∀ i, i < ((NewTree scenarioParams idZero).Add idTwo).node.DecidedPrefix →
      idTwo.Bit i = ((NewTree scenarioParams idZero).Add idTwo).node.Preference.Bit i) ∧
    ∀ pr dp cp snow sr child,
      ((NewTree scenarioParams idZero).Add idTwo).node = .unary pr dp cp snow sr child →
      ∀ i, dp ≤ i → i < cp → idTwo.Bit i = pr.Bit i :=
  ⟨Reachable.add _ _ Reachable.newTree, Node.self_mem_nodes _, by decide,
    represented_ids_share_prefix scenarioParams idZero _
      (Reachable.add _ _ Reachable.newTree) _ (Node.self_mem_nodes _) idTwo (by decide)⟩

/-! ## Prefix continuity and ranges -/

/-- In a well-formed node the run of a unary node ends where the decided prefix of its
child begins, and the children of a binary node have decided prefix `bit + 1`. -/
theorem Node.WF_continuity (n : Node) (hwf : n.WF) :
    (∀ pr dp cp snow sr c, n = .unary pr dp cp snow sr (some c) → c.DecidedPrefix = cp) ∧
    ∀ p0 p1 bit snow sr0 sr1 c0 c1, n = .binary p0 p1 bit snow sr0 sr1 c0 c1 →
      (∀ c, c0 = some c → c.DecidedPrefix = bit + 1) ∧
      ∀ c, c1 = some c → c.DecidedPrefix = bit + 1 := by
  constructor
  · intro pr dp cp snow sr c hn
    subst hn
    rw [Node.WF_unary] at hwf
    exact (hwf.2.2.2 c rfl).1
  · intro p0 p1 bit snow sr0 sr1 c0 c1 hn
    subst hn
    rw [Node.WF_binary] at hwf
    exact ⟨fun c hc => (hwf.2.2.2.2.2.2.1 c hc).1, fun c hc => (hwf.2.2.2.2.2.2.2 c hc).1⟩

/-- C23: in every reachable tree, and in the tree after `Add` of any choice and after
`RecordPoll` of any bag, every unary node with a child has
`commonPrefix = child.DecidedPrefix()` and every child of a binary node has
`DecidedPrefix() = bit + 1`. -/
theorem prefix_continuity (p : Parameters) (a : ID) (t : Tree) (hr : Reachable p a t)
    (choice : ID) (votes : Bag) (n : Node)
    (hn : n ∈ t.node.nodes ∨ n ∈ (t.Add choice).node.nodes ∨
      n ∈ (t.RecordPoll votes).1.node.nodes) :
    (∀ pr dp cp snow sr c, n = .unary pr dp cp snow sr (some c) → cp = c.DecidedPrefix) ∧
    ∀ p0 p1 bit snow sr0 sr1 c0 c1, n = .binary p0 p1 bit snow sr0 sr1 c0 c1 →
      (∀ c, c0 = some c → c.DecidedPrefix = bit + 1) ∧
      ∀ c, c1 = some c → c.DecidedPrefix = bit + 1 := by
  have hwf : n.WF := by
    rcases hn with h | h | h
    · exact hr.wf_nodes n h
    · exact (Reachable.add t choice hr).wf_nodes n h
    · exact (Reachable.recordPoll t votes hr).wf_nodes n h
  obtain ⟨h1, h2⟩ := Node.WF_continuity n hwf
  exact ⟨fun pr dp cp snow sr c hn => (h1 pr dp cp snow sr c hn).symm, h2⟩

/-- The tree on `0...0` and `0100...0` for C23: the root for bits [0, 1) after
`Add(1000...0)`, which is the binary node at bit 0, has children of decided prefix 1. -/
theorem prefix_continuity_witness :
    Reachable scenarioParams idZero ((NewTree scenarioParams idZero).Add idTwo) ∧
    (((NewTree scenarioParams idZero).Add idTwo).Add idOne).node
      ∈ (((NewTree scenarioParams idZero).Add idTwo).Add idOne).node.nodes ∧
    (∀ pr dp cp snow sr c,
      (((NewTree scenarioParams idZero).Add idTwo).Add idOne).node
        = .unary pr dp cp snow sr (some c) → cp = c.DecidedPrefix) ∧
    ∀ p0 p1 bit snow sr0 sr1 c0 c1,
      (((NewTree scenarioParams idZero).Add idTwo).Add idOne).node
        = .binary p0 p1 bit snow sr0 sr1 c0 c1 →
      (∀ c, c0 = some c → c.DecidedPrefix = bit + 1) ∧
      ∀ c, c1 = some c → c.DecidedPrefix = bit + 1 :=
  ⟨Reachable.add _ _ Reachable.newTree, Node.self_mem_nodes _,
    prefix_continuity scenarioParams idZero _ (Reachable.add _ _ Reachable.newTree) idOne []
      _ (Or.inr (Or.inl (Node.self_mem_nodes _)))⟩

/-- C24: in every reachable tree every unary node has
`0 <= decidedPrefix < commonPrefix <= 256`, so a fresh unary node created by a split,
whose decided prefix is `index + 1` and whose common prefix is 256, is in the tree only
with `index + 1 < 256`, and every binary node has `0 <= bit < 256`. -/
theorem node_ranges (p : Parameters) (a : ID) (t : Tree) (hr : Reachable p a t) (n : Node)
    (hn : n ∈ t.node.nodes) :
    (∀ pr dp cp snow sr child, n = .unary pr dp cp snow sr child →
      0 ≤ dp ∧ dp < cp ∧ cp ≤ 256) ∧
    ∀ p0 p1 bit snow sr0 sr1 c0 c1, n = .binary p0 p1 bit snow sr0 sr1 c0 c1 →
      0 ≤ bit ∧ bit < 256 := by
  have hwf := hr.wf_nodes n hn
  constructor
  · intro pr dp cp snow sr child hn2
    subst hn2
    rw [Node.WF_unary] at hwf
    exact ⟨Nat.zero_le _, hwf.1, hwf.2.1⟩
  · intro p0 p1 bit snow sr0 sr1 c0 c1 hn2
    subst hn2
    rw [Node.WF_binary] at hwf
    exact ⟨Nat.zero_le _, hwf.1⟩

/-- The tree on `0...0` and `0100...0` for C24: its root is a unary node for bits
[0, 1). -/
theorem node_ranges_witness :
    Reachable scenarioParams idZero ((NewTree scenarioParams idZero).Add idTwo) ∧
    ((NewTree scenarioParams idZero).Add idTwo).node
      ∈ ((NewTree scenarioParams idZero).Add idTwo).node.nodes ∧
    (∀ pr dp cp snow sr child,
      ((NewTree scenarioParams idZero).Add idTwo).node = .unary pr dp cp snow sr child →
      0 ≤ dp ∧ dp < cp ∧ cp ≤ 256) ∧
    ∀ p0 p1 bit snow sr0 sr1 c0 c1,
      ((NewTree scenarioParams idZero).Add idTwo).node
        = .binary p0 p1 bit snow sr0 sr1 c0 c1 →
      0 ≤ bit ∧ bit < 256 :=
  ⟨Reachable.add _ _ Reachable.newTree, Node.self_mem_nodes _,
    node_ranges scenarioParams idZero _ (Reachable.add _ _ Reachable.newTree) _
      (Node.self_mem_nodes _)⟩

/-! ## Bounded depth -/

/-- In a well-formed node the decided prefix of every child is greater than the decided
prefix of the node. -/
theorem Node.WF_child_DecidedPrefix (n : Node) (hwf : n.WF) (c : Node)
    (hc : c ∈ n.childNodes) : n.DecidedPrefix < c.DecidedPrefix := by
  cases n with
  | unary pr dp cp snow sr child =>
    rw [Node.WF_unary] at hwf
    have hc2 : child = some c := by
      cases child with
      | none => cases hc
      | some ch =>
        have : c = ch := by simpa [Node.childNodes] using hc
        rw [this]
    rw [(hwf.2.2.2 c hc2).1]
    exact hwf.1
  | binary p0 p1 bit snow sr0 sr1 c0 c1 =>
    rw [Node.WF_binary] at hwf
    have hc2 : c0 = some c ∨ c1 = some c := by
      cases c0 <;> cases c1 <;> simp [Node.childNodes] at hc
      · exact Or.inr (by rw [hc])
      · exact Or.inl (by rw [hc])
      · rcases hc with h | h
        · exact Or.inl (by rw [h])
        · exact Or.inr (by rw [h])
    rcases hc2 with h | h
    · rw [(hwf.2.2.2.2.2.2.1 c h).1]
      show bit < bit + 1
      omega
    · rw [(hwf.2.2.2.2.2.2.2 c h).1]
      show bit < bit + 1
      omega

/-- A path down from a well-formed node has at most `256 - DecidedPrefix()` nodes. -/
theorem Node.WF_depth (n : Node) : n.WF → n.depth + n.DecidedPrefix ≤ NumBits := by
  induction n using Node.induct with
  | unary pr dp cp snow sr child ih =>
    intro hwf
    rw [Node.WF_unary] at hwf
    obtain ⟨w1, w2, w3, w4⟩ := hwf
    show (Node.unary pr dp cp snow sr child).depth + dp ≤ NumBits
    cases child with
    | none =>
      show 1 + 0 + dp ≤ NumBits
      omega
    | some c =>
      obtain ⟨x1, x2, x3⟩ := w4 c rfl
      have := ih c rfl x3
      show 1 + c.depth + dp ≤ NumBits
      omega
  | binary p0 p1 bit snow sr0 sr1 c0 c1 ih0 ih1 =>
    intro hwf
    rw [Node.WF_binary] at hwf
    obtain ⟨w1, w2, w3, w4, w5, w6, w7, w8⟩ := hwf
    have h0 : ∀ c, c0 = some c → c.depth + (bit + 1) ≤ NumBits := by
      intro c hc
      have := ih0 c hc (w7 c hc).2.2
      rw [(w7 c hc).1] at this
      exact this
    have h1 : ∀ c, c1 = some c → c.depth + (bit + 1) ≤ NumBits := by
      intro c hc
      have := ih1 c hc (w8 c hc).2.2
      rw [(w8 c hc).1] at this
      exact this
    cases c0 with
    | none =>
      cases c1 with
      | none =>
        show 1 + max 0 0 + bit ≤ NumBits
        omega
      | some b =>
        have := h1 b rfl
        show 1 + max 0 b.depth + bit ≤ NumBits
        omega
    | some a =>
      have ha := h0 a rfl
      cases c1 with
      | none =>
        show 1 + max a.depth 0 + bit ≤ NumBits
        omega
      | some b =>
        have := h1 b rfl
        show 1 + max a.depth b.depth + bit ≤ NumBits
        omega

/-- The recursion of `Add` makes at most as many calls as the longest path has nodes. -/
theorem Node.addCalls_le_depth (id : ID) (n : Node) : n.addCalls id ≤ n.depth := by
  induction n using Node.induct with
  | unary pr dp cp snow sr child ih =>
    cases child with
    | none =>
      simp only [Node.addCalls, Node.depth]
      split <;> (try split) <;> omega
    | some c =>
      have := ih c rfl
      simp only [Node.addCalls, Node.depth]
      split <;> (try split) <;> omega
  | binary p0 p1 bit snow sr0 sr1 c0 c1 ih0 ih1 =>
    cases c0 with
    | none =>
      cases c1 with
      | none =>
        simp only [Node.addCalls, Node.depth]
        split <;> omega
      | some b =>
        have := ih1 b rfl
        simp only [Node.addCalls, Node.depth]
        split <;> omega
    | some a =>
      have ha := ih0 a rfl
      cases c1 with
      | none =>
        simp only [Node.addCalls, Node.depth]
        split <;> omega
      | some b =>
        have := ih1 b rfl
        simp only [Node.addCalls, Node.depth]
        split <;> omega

/-- The recursion of `RecordPoll` makes at most as many calls as the longest path has
nodes. -/
theorem Node.pollCalls_le_depth (p : Parameters) (n : Node) :
    ∀ votes : Bag, n.pollCalls p votes ≤ n.depth := by
  induction n using Node.induct with
  | unary pr dp cp snow sr child ih =>
    intro votes
    cases child with
    | none =>
      simp only [Node.pollCalls, Node.depth]
      split <;> omega
    | some c =>
      have := ih c rfl votes
      simp only [Node.pollCalls, Node.depth]
      split <;> omega
  | binary p0 p1 bit snow sr0 sr1 c0 c1 ih0 ih1 =>
    intro votes
    have k0 : ∀ c vs d, c0 = some c → 1 + c.pollCalls p vs ≤ 1 + max c.depth d :=
      fun c vs d hc => Nat.add_le_add_left (Nat.le_trans (ih0 c hc vs) (Nat.le_max_left _ _)) 1
    have k1 : ∀ c vs d, c1 = some c → 1 + c.pollCalls p vs ≤ 1 + max d c.depth :=
      fun c vs d hc => Nat.add_le_add_left (Nat.le_trans (ih1 c hc vs) (Nat.le_max_right _ _)) 1
    cases c0 with
    | none =>
      cases c1 with
      | none =>
        simp only [Node.pollCalls, Node.depth]
        split <;> (try split) <;> omega
      | some b =>
        simp only [Node.pollCalls, Node.depth]
        split <;> (try split) <;> first | omega | exact k1 b _ _ rfl
    | some a =>
      cases c1 with
      | none =>
        simp only [Node.pollCalls, Node.depth]
        split <;> (try split) <;> first | omega | exact k0 a _ _ rfl
      | some b =>
        simp only [Node.pollCalls, Node.depth]
        split <;> (try split) <;> first | omega | exact k0 a _ _ rfl | exact k1 b _ _ rfl

/-- C25: in every reachable tree `DecidedPrefix()` strictly increases from each node to
each of its children, every path from the root down to a leaf has at most 256 nodes, and
the recursions of `Add` (for every id) and of `RecordPoll` (for every bag) end after at
most 256 calls. -/
theorem bounded_depth (p : Parameters) (a : ID) (t : Tree) (hr : Reachable p a t) :
    (∀ n, n ∈ t.node.nodes → ∀ c, c ∈ n.childNodes →
      n.DecidedPrefix < c.DecidedPrefix) ∧
    t.node.depth ≤ 256 ∧
    (∀ id, t.node.addCalls id ≤ 256) ∧
    ∀ votes, t.node.pollCalls t.params votes ≤ 256 := by
  have hd : t.node.depth ≤ 256 := by
    have := Node.WF_depth t.node hr.wf.1
    show t.node.depth ≤ NumBits
    omega
  exact ⟨fun n hn c hc => Node.WF_child_DecidedPrefix n (hr.wf_nodes n hn) c hc, hd,
    fun id => Nat.le_trans (Node.addCalls_le_depth id t.node) hd,
    fun votes => Nat.le_trans (Node.pollCalls_le_depth t.params t.node votes) hd⟩

/-- The tree of three choices for C25: the decided prefix grows from parent to child and
the recursions are bounded. -/
theorem bounded_depth_witness :
    Reachable scenarioParams idZero threeChoices ∧
    (∀ n, n ∈ threeChoices.node.nodes → ∀ c, c ∈ n.childNodes →
      n.DecidedPrefix < c.DecidedPrefix) ∧
    threeChoices.node.depth ≤ 256 ∧
    (∀ id, threeChoices.node.addCalls id ≤ 256) ∧
    ∀ votes, threeChoices.node.pollCalls threeChoices.params votes ≤ 256 :=
  ⟨Reachable.add _ _ (Reachable.add _ _ Reachable.newTree),
    bounded_depth scenarioParams idZero threeChoices
      (Reachable.add _ _ (Reachable.add _ _ Reachable.newTree))⟩

/-! ## The layout of the rendering -/

theorem indent_succ (d : Nat) : indent d ++ "    " = indent (d + 1) := by
  apply String.ext
  show List.replicate (4 * d) ' ' ++ [' ', ' ', ' ', ' '] = List.replicate (4 * (d + 1)) ' '
  rw [show 4 * (d + 1) = 4 * d + 4 from by omega, List.replicate_add]
  rfl

theorem unlines_append (a b : List String) : unlines (a ++ b) = unlines a ++ unlines b := by
  induction a with
  | nil => simp [unlines]
  | cons l a ih =>
    rw [List.cons_append]
    simp only [unlines]
    rw [ih, String.append_assoc, String.append_assoc, String.append_assoc]

/-- What the loop of `Tree.String` writes for a well-formed subtree whose root has the
prefix of depth `d` is the lines of the subtree, each followed by a newline. -/
theorem Node.renderZeroFirst_eq_unlines (f : Stringer) (n : Node) :
    n.WF → ∀ d, n.renderZeroFirst f (indent d) = unlines (n.lines f d) := by
  induction n using Node.induct with
  | unary pr dp cp snow sr child ih =>
    intro hwf d
    rw [Node.WF_unary] at hwf
    cases child with
    | none =>
      simp [Node.renderZeroFirst, Node.Printable, Node.lines, unlines, String.append_assoc]
    | some c =>
      have := ih c rfl (hwf.2.2.2 c rfl).2.2 (d + 1)
      simp only [Node.renderZeroFirst, Node.Printable, Node.lines, unlines]
      rw [indent_succ, this]
      simp only [String.append_assoc]
  | binary p0 p1 bit snow sr0 sr1 c0 c1 ih0 ih1 =>
    intro hwf d
    rw [Node.WF_binary] at hwf
    obtain ⟨w1, w2, w3, w4, w5, w6, w7, w8⟩ := hwf
    cases c0 with
    | none =>
      cases c1 with
      | some b => cases w5
      | none =>
        simp [Node.renderZeroFirst, Node.Printable, Node.lines, unlines, String.append_assoc]
    | some a =>
      cases c1 with
      | none => cases w5
      | some b =>
        have ha := ih0 a rfl (w7 a rfl).2.2 (d + 1)
        have hb := ih1 b rfl (w8 b rfl).2.2 (d + 1)
        simp only [Node.renderZeroFirst, Node.Printable, Node.lines, unlines]
        rw [indent_succ, ha, hb, unlines_append]
        simp only [String.append_assoc]

theorem intercalate_go_newline (ls : List String) :
    ∀ acc : String, String.intercalate.go acc "\n" ls ++ "\n" = acc ++ "\n" ++ unlines ls := by
  induction ls with
  | nil =>
    intro acc
    simp [String.intercalate.go, unlines]
  | cons l ls ih =>
    intro acc
    simp only [String.intercalate.go, unlines]
    rw [ih]
    simp only [String.append_assoc]

/-- Lines each followed by a newline are the lines separated by newlines, followed by
one newline. -/
theorem unlines_eq_intercalate (l : String) (ls : List String) :
    unlines (l :: ls) = "\n".intercalate (l :: ls) ++ "\n" := by
  show l ++ "\n" ++ unlines ls = String.intercalate.go l "\n" ls ++ "\n"
  rw [intercalate_go_newline]

/-- `TrimSuffix` removes the newline at the end. -/
theorem TrimSuffix_newline (s : String) : TrimSuffix (s ++ "\n") "\n" = s := by
  unfold TrimSuffix
  have h1 : ("\n" : String).data = ['\n'] := rfl
  have h2 : (s ++ "\n").data = s.data ++ ['\n'] := rfl
  rw [h1, h2, if_pos (List.isSuffixOf_iff_suffix.mpr (List.suffix_append _ _))]
  apply String.ext
  show List.take ((s.data ++ ['\n']).length - [('\n' : Char)].length) (s.data ++ ['\n']) = s.data
  simp

theorem Node.lines_cons (f : Stringer) (n : Node) (d : Nat) :
    ∃ l ls, n.lines f d = l :: ls := by
  cases n with
  | unary pr dp cp snow sr child => cases child <;> exact ⟨_, _, rfl⟩
  | binary p0 p1 bit snow sr0 sr1 c0 c1 => cases c0 <;> cases c1 <;> exact ⟨_, _, rfl⟩

/-- There is one line for each node. -/
theorem Node.lines_length (f : Stringer) (n : Node) :
    ∀ d, (n.lines f d).length = n.nodes.length := by
  induction n using Node.induct with
  | unary pr dp cp snow sr child ih =>
    intro d
    cases child with
    | none => rfl
    | some c =>
      have := ih c rfl (d + 1)
      simp only [Node.lines, Node.nodes, List.length_cons]
      omega
  | binary p0 p1 bit snow sr0 sr1 c0 c1 ih0 ih1 =>
    intro d
    cases c0 with
    | none =>
      cases c1 with
      | none => rfl
      | some b =>
        have := ih1 b rfl (d + 1)
        simp only [Node.lines, Node.nodes, List.length_cons, List.length_append,
          List.length_nil]
        omega
    | some a =>
      have ha := ih0 a rfl (d + 1)
      cases c1 with
      | none =>
        simp only [Node.lines, Node.nodes, List.length_cons, List.length_append,
          List.length_nil]
        omega
      | some b =>
        have := ih1 b rfl (d + 1)
        simp only [Node.lines, Node.nodes, List.length_cons, List.length_append]
        omega

/-- With more fuel than the tree has nodes the loop of `Tree.String` ends, and with the
last newline removed its output is the lines of the tree separated by newlines. -/
theorem stringLoop_lines (f : Stringer) (n : Node) (hwf : n.WF) (fuel : Nat)
    (hfuel : n.size < fuel) :
    (Tree.stringLoop f fuel [("", some n)] "").map (fun s => TrimSuffix s "\n")
      = some ("\n".intercalate (n.lines f 0)) := by
  rw [stringLoop_eq f fuel _ _ (by
    intro e he
    rw [List.mem_singleton] at he
    subst he
    exact ⟨n, rfl, hwf⟩) (by simpa [stackSize] using hfuel)]
  have h0 : renderStack f [("", some n)] = n.renderZeroFirst f (indent 0) := by
    simp [renderStack, indent]
  obtain ⟨l, ls, hl⟩ := Node.lines_cons f n 0
  rw [Option.map_some', String.empty_append, h0, Node.renderZeroFirst_eq_unlines f n hwf 0, hl,
    unlines_eq_intercalate, TrimSuffix_newline]

/-- The lines of a well-formed subtree end with a line whose last character is `)` (a
unary leaf) or `5` (a binary leaf, at bit 255). -/
theorem Node.lines_last (f : Stringer) (n : Node) :
    n.WF → ∀ d, ∃ init body ch, n.lines f d = init ++ [body ++ String.singleton ch] ∧
      ch ≠ '\n' := by
  induction n using Node.induct with
  | unary pr dp cp snow sr child ih =>
    intro hwf d
    rw [Node.WF_unary] at hwf
    cases child with
    | none => exact ⟨[], _, ')', rfl, by decide⟩
    | some c =>
      obtain ⟨init, body, ch, h, hch⟩ := ih c rfl (hwf.2.2.2 c rfl).2.2 (d + 1)
      refine ⟨(indent d ++ f.unary snow ++ " Bits = [" ++ toString dp ++ ", " ++ toString cp
        ++ ")") :: init, body, ch, ?_, hch⟩
      simp only [Node.lines]
      rw [h, List.cons_append]
  | binary p0 p1 bit snow sr0 sr1 c0 c1 ih0 ih1 =>
    intro hwf d
    rw [Node.WF_binary] at hwf
    obtain ⟨w1, w2, w3, w4, w5, w6, w7, w8⟩ := hwf
    cases c1 with
    | none =>
      cases c0 with
      | some a => cases w5
      | none =>
        have hbit : bit = 255 := by
          have := w6 rfl
          have h256 : NumBits = 256 := rfl
          omega
        subst hbit
        have h255 : toString (255 : Nat) = "25" ++ String.singleton '5' := by decide
        refine ⟨[], indent d ++ f.binary snow ++ " Bit = " ++ "25", '5', ?_, by decide⟩
        simp only [Node.lines]
        rw [h255, List.nil_append, ← String.append_assoc]
        rfl
    | some b =>
      obtain ⟨init, body, ch, h, hch⟩ := ih1 b rfl (w8 b rfl).2.2 (d + 1)
      refine ⟨(indent d ++ f.binary snow ++ " Bit = " ++ toString bit) :: ((match c0 with
        | none => []
        | some c => c.lines f (d + 1)) ++ init), body, ch, ?_, hch⟩
      cases c0 <;> simp only [Node.lines] <;> rw [h] <;> simp

/-- The lines of a well-formed subtree, separated by newlines, do not end with a
newline. -/
theorem Node.lines_no_trailing_newline (f : Stringer) (n : Node) (hwf : n.WF) (d : Nat) :
    ∃ ch, ("\n".intercalate (n.lines f d)).data.getLast? = some ch ∧ ch ≠ '\n' := by
  obtain ⟨init, body, ch, h, hch⟩ := Node.lines_last f n hwf d
  refine ⟨ch, ?_, hch⟩
  obtain ⟨l, ls, hl⟩ := Node.lines_cons f n d
  have h1 : unlines (n.lines f d) = "\n".intercalate (n.lines f d) ++ "\n" := by
    rw [hl]
    exact unlines_eq_intercalate l ls
  have h2 : unlines (n.lines f d) = unlines init ++ (body ++ String.singleton ch) ++ "\n" := by
    rw [h, unlines_append]
    simp [unlines, String.append_assoc]
  have h3 : ("\n".intercalate (n.lines f d)).data ++ ['\n']
      = ((unlines init).data ++ body.data ++ [ch]) ++ ['\n'] := by
    have := congrArg String.data (h1.symm.trans h2)
    simpa [String.data_append, String.singleton] using this
  rw [List.append_cancel_right h3]
  simp

/-- C21: for every stringer of the counters and every reachable tree, `Tree.String()`
ends (within one iteration for every node and one more, and with the same output for
every larger bound) and returns the lines of the tree separated by newlines, without a
newline at the end: one line for each node, in depth-first pre-order, the line of a node
at depth `d` being `4 * d` spaces, the text of its counter and
` Bits = [decidedPrefix, commonPrefix)` for a unary node or ` Bit = bit` for a binary
node. -/
theorem string_layout (f : Stringer) (p : Parameters) (a : ID) (t : Tree)
    (hr : Reachable p a t) :
    t.String f = some ("\n".intercalate (t.node.lines f 0)) ∧
    (∀ fuel, t.node.size < fuel →
      (Tree.stringLoop f fuel [("", some t.node)] "").map (fun s => TrimSuffix s "\n")
        = some ("\n".intercalate (t.node.lines f 0))) ∧
    (t.node.lines f 0).length = t.node.nodes.length ∧
    ∃ ch, ("\n".intercalate (t.node.lines f 0)).data.getLast? = some ch ∧ ch ≠ '\n' :=
  ⟨stringLoop_lines f t.node hr.wf.1 (t.node.size + 1) (Nat.lt_succ_self _),
    fun fuel hfuel => stringLoop_lines f t.node hr.wf.1 fuel hfuel,
    Node.lines_length f t.node 0,
    Node.lines_no_trailing_newline f t.node hr.wf.1 0⟩

/-- The tree of three choices for C21: five nodes, five lines. -/
theorem string_layout_witness :
    Reachable scenarioParams idZero threeChoices ∧
    threeChoices.String fieldStringer
      = some ("\n".intercalate (threeChoices.node.lines fieldStringer 0)) ∧
    (∀ fuel, threeChoices.node.size < fuel →
      (Tree.stringLoop fieldStringer fuel [("", some threeChoices.node)] "").map
          (fun s => TrimSuffix s "\n")
        = some ("\n".intercalate (threeChoices.node.lines fieldStringer 0))) ∧
    (threeChoices.node.lines fieldStringer 0).length = threeChoices.node.nodes.length ∧
    ∃ ch, ("\n".intercalate (threeChoices.node.lines fieldStringer 0)).data.getLast?
      = some ch ∧ ch ≠ '\n' :=
  ⟨Reachable.add _ _ (Reachable.add _ _ Reachable.newTree),
    string_layout fieldStringer scenarioParams idZero threeChoices
      (Reachable.add _ _ (Reachable.add _ _ Reachable.newTree))⟩

/-! ## The frame of `binaryNode.Add` -/

/-- C31: `binaryNode.Add(c)` returns the binary node with `bit`, counter, preferences and
`shouldReset` flags unchanged; the child on side `1 - c.Bit(b.bit)` is unchanged; the
child on side `c.Bit(b.bit)` is replaced by the result of its own `Add(c)` when it
exists, and when it does not exist the node returned is the receiver with nothing
changed. -/
theorem binaryNode_add_frame (p : Parameters) (p0 p1 : ID) (bit : Nat) (snow : Binary)
    (sr0 sr1 : Bool) (c0 c1 : Option Node) (c : ID) :
    (∃ d0 d1,
      Node.Add p (.binary p0 p1 bit snow sr0 sr1 c0 c1) c
        = .binary p0 p1 bit snow sr0 sr1 d0 d1 ∧
      sel (!c.Bit bit) d0 d1 = sel (!c.Bit bit) c0 c1 ∧
      sel (c.Bit bit) d0 d1 = (sel (c.Bit bit) c0 c1).map fun n => n.Add p c) ∧
    (sel (c.Bit bit) c0 c1 = none →
      Node.Add p (.binary p0 p1 bit snow sr0 sr1 c0 c1) c
        = .binary p0 p1 bit snow sr0 sr1 c0 c1) := by
  rw [Node.Add_binary]
  cases hb : c.Bit bit
  · refine ⟨⟨c0.map fun (n : Node) => n.Add p c, c1, ?_, rfl, rfl⟩, ?_⟩
    · simp
    · intro h
      simp only [sel_false] at h
      subst h
      simp
  · refine ⟨⟨c0, c1.map fun (n : Node) => n.Add p c, ?_, rfl, rfl⟩, ?_⟩
    · simp
    · intro h
      simp only [sel_true] at h
      subst h
      simp

/-! ## Adding a choice keeps the decision state -/

/-- C39: for every tree (reachable or not) and every id `c`, `Tree.Add(c)` leaves
`Preference()`, `Finalized()` and the `DecidedPrefix()` of the root as they were before
the call; `Extend(bit)` is the counter of the specification, which prefers `bit` and is
finalized exactly when the unary counter was. -/
theorem add_keeps_decision_state (t : Tree) (c : ID) :
    (t.Add c).Preference = t.Preference ∧ (t.Add c).Finalized = t.Finalized ∧
      (t.Add c).node.DecidedPrefix = t.node.DecidedPrefix ∧
      ∀ (s : Unary) (bit : Bool),
        (s.Extend bit).Preference = bit ∧ (s.Extend bit).Finalized = s.Finalized := by
  have h := Node.Add_facts t.params c t.node
  refine ⟨?_, ?_, ?_, fun s bit => ⟨rfl, rfl⟩⟩
  · rw [Tree.Add_eq]
    split
    · exact h.2.1
    · rfl
  · rw [Tree.Add_eq]
    split
    · exact h.2.2
    · rfl
  · rw [Tree.Add_eq]
    split
    · exact h.1
    · rfl
/-! ## Side selection in `binaryNode.RecordPoll` -/

theorem Node.RecordPoll_binary_pollBit (p : Parameters) (p0 p1 : ID) (bit : Nat) (snow : Binary)
    (sr0 sr1 : Bool) (c0 c1 : Option Node) (votes : Bag) (reset : Bool) :
    Node.RecordPoll p (.binary p0 p1 bit snow sr0 sr1 c0 c1) votes reset =
      if (Node.prunedVotes p bit votes).Len < p.AlphaPreference then
        { self := .binary p0 p1 bit
            (if reset then snow.RecordUnsuccessfulPoll else snow).RecordUnsuccessfulPoll
            true true c0 c1
          ret := .binary p0 p1 bit
            (if reset then snow.RecordUnsuccessfulPoll else snow).RecordUnsuccessfulPoll
            true true c0 c1
          successful := false }
      else
        Node.binaryFinish (Node.pollBit p bit votes) p0 p1 bit
          ((if reset then snow.RecordUnsuccessfulPoll else snow).RecordPoll p
            (Node.prunedVotes p bit votes).Len (Node.pollBit p bit votes))
          (reset || sel (Node.pollBit p bit votes) sr0 sr1) c0 c1
          ((sel (Node.pollBit p bit votes) c0 c1).map fun c =>
            c.RecordPoll p (Node.prunedVotes p bit votes)
              (reset || sel (Node.pollBit p bit votes) sr0 sr1)) :=
  Node.RecordPoll_binary p p0 p1 bit snow sr0 sr1 c0 c1 votes reset

theorem Node.binaryFinish_shouldResetOf (side : Bool) (p0 p1 : ID) (bit : Nat) (snow : Binary)
    (sr : Bool) (c0 c1 : Option Node) (r : Option PollResult) :
    (Node.binaryFinish side p0 p1 bit snow sr c0 c1 r).self.shouldResetOf (!side) = true := by
  cases side <;> cases r <;> cases h : snow.Finalized <;>
    simp [Node.binaryFinish, h, Node.shouldResetOf]

theorem Bag.Len_Split (votes : Bag) (pred : ID → Bool) :
    (votes.Split pred).1.Len + (votes.Split pred).2.Len = votes.Len := by
  simp only [Bag.Split, Bag.Len]
  have := List.length_eq_length_filter_add (l := votes) pred
  omega

/-- C33 fails as stated: with `alpha_preference = 2` and a bag of four votes, two for
each side of the binary root at bit 0, side 1 is polled and side 0, which is not polled,
received `alpha_preference` votes; its `shouldReset` flag is set all the same. -/
theorem unpolled_side_reaches_alpha :
    Reachable lowAlphaParams idZero lowAlphaPair ∧
    lowAlphaParams.Valid ∧
    lowAlphaPair.node =
      .binary idZero idOne 0 ⟨0, 0, false, false⟩ false false
        (some (.unary idZero 1 256 ⟨0, false⟩ false none))
        (some (.unary idOne 1 256 ⟨0, false⟩ false none)) ∧
    evenVotes.Len ≤ lowAlphaParams.K ∧
    Node.pollBit lowAlphaParams 0 evenVotes = true ∧
    ¬ ((evenVotes.Split fun id => id.Bit 0).1).Len < lowAlphaParams.AlphaPreference ∧
    (lowAlphaPair.node.RecordPoll lowAlphaParams evenVotes false).self.shouldResetOf false
      = true :=
  ⟨Reachable.add _ _ Reachable.newTree, by decide, rfl, by decide, by decide, by decide,
    by decide⟩

/-- C33, amended: in `binaryNode.RecordPoll` the polled side is 1 exactly when the votes
with bit 1 at `b.bit` number at least `alpha_preference` and 0 otherwise; when side 0 is
polled, side 1 received fewer than `alpha_preference` votes; for every bag of fewer than
`2 * alpha_preference` votes the side that is not polled received fewer than
`alpha_preference` votes; and for every bag the `shouldReset` flag of the side that is
not polled is set after the call.  The call itself is spelled out with the polled side:
the counter records the votes of that side for that side and the child of that side is
polled with them. -/
theorem recordPoll_side_selection (p : Parameters) (p0 p1 : ID) (bit : Nat) (snow : Binary)
    (sr0 sr1 : Bool) (c0 c1 : Option Node) (votes : Bag) (reset : Bool) :
    (Node.pollBit p bit votes = true ↔
      p.AlphaPreference ≤ ((votes.Split fun id => id.Bit bit).2).Len) ∧
    (Node.pollBit p bit votes = false →
      ((votes.Split fun id => id.Bit bit).2).Len < p.AlphaPreference) ∧
    (votes.Len < 2 * p.AlphaPreference →
      (sel (!Node.pollBit p bit votes) (votes.Split fun id => id.Bit bit).1
        (votes.Split fun id => id.Bit bit).2).Len < p.AlphaPreference) ∧
    (Node.RecordPoll p (.binary p0 p1 bit snow sr0 sr1 c0 c1) votes reset).self.shouldResetOf
      (!Node.pollBit p bit votes) = true ∧
    Node.RecordPoll p (.binary p0 p1 bit snow sr0 sr1 c0 c1) votes reset =
      if (Node.prunedVotes p bit votes).Len < p.AlphaPreference then
        { self := .binary p0 p1 bit
            (if reset then snow.RecordUnsuccessfulPoll else snow).RecordUnsuccessfulPoll
            true true c0 c1
          ret := .binary p0 p1 bit
            (if reset then snow.RecordUnsuccessfulPoll else snow).RecordUnsuccessfulPoll
            true true c0 c1
          successful := false }
      else
        Node.binaryFinish (Node.pollBit p bit votes) p0 p1 bit
          ((if reset then snow.RecordUnsuccessfulPoll else snow).RecordPoll p
            (Node.prunedVotes p bit votes).Len (Node.pollBit p bit votes))
          (reset || sel (Node.pollBit p bit votes) sr0 sr1) c0 c1
          ((sel (Node.pollBit p bit votes) c0 c1).map fun c =>
            c.RecordPoll p (Node.prunedVotes p bit votes)
              (reset || sel (Node.pollBit p bit votes) sr0 sr1)) := by
  have hside : Node.pollBit p bit votes = true ↔
      p.AlphaPreference ≤ ((votes.Split fun id => id.Bit bit).2).Len := by
    simp [Node.pollBit]
  refine ⟨hside, ?_, ?_, ?_, Node.RecordPoll_binary_pollBit p p0 p1 bit snow sr0 sr1 c0 c1 votes reset⟩
  · intro h
    by_contra hn
    rw [hside.2 (by omega)] at h
    cases h
  · intro hlen
    have hsum := Bag.Len_Split votes fun id => id.Bit bit
    cases hb : Node.pollBit p bit votes with
    | true =>
      have := hside.1 hb
      show ((votes.Split fun id => id.Bit bit).1).Len < p.AlphaPreference
      omega
    | false =>
      show ((votes.Split fun id => id.Bit bit).2).Len < p.AlphaPreference
      by_contra hn
      rw [hside.2 (by omega)] at hb
      cases hb
  · rw [Node.RecordPoll_binary_pollBit]
    split
    · cases Node.pollBit p bit votes <;> rfl
    · exact Node.binaryFinish_shouldResetOf _ _ _ _ _ _ _ _ _
/-! ## Collapse on finalization -/

theorem Node.RecordPoll_self_Finalized_unary (p : Parameters) (pr : ID) (dp cp : Nat)
    (snow : Unary) (sr : Bool) (child : Option Node) (votes : Bag) (reset : Bool)
    (h : p.AlphaPreference ≤ votes.Len) :
    (Node.RecordPoll p (.unary pr dp cp snow sr child) votes reset).self.Finalized =
      ((if reset then snow.RecordUnsuccessfulPoll else snow).RecordPoll p votes.Len).Finalized := by
  rw [Node.RecordPoll_unary, if_neg (by omega)]
  cases child with
  | none => rfl
  | some c =>
    rw [Option.map_some']
    cases hf : ((if reset then snow.RecordUnsuccessfulPoll else snow).RecordPoll p
        votes.Len).Finalized with
    | true => rw [Node.unaryFinish_fin _ _ _ _ _ _ hf]; exact hf
    | false => rw [Node.unaryFinish_notFin _ _ _ _ _ _ hf]; exact hf

theorem Node.binaryFinish_self_Finalized (side : Bool) (p0 p1 : ID) (bit : Nat) (snow : Binary)
    (sr : Bool) (c0 c1 : Option Node) (r : Option PollResult) :
    (Node.binaryFinish side p0 p1 bit snow sr c0 c1 r).self.Finalized = snow.Finalized := by
  cases side <;> cases r <;> cases h : snow.Finalized <;>
    simp [Node.binaryFinish, h, Node.Finalized]

theorem Node.binaryFinish_ret (side : Bool) (p0 p1 : ID) (bit : Nat) (snow : Binary)
    (sr : Bool) (c0 c1 : Option Node) (r : Option PollResult) :
    (∀ x, r = some x → snow.Finalized = true →
      (Node.binaryFinish side p0 p1 bit snow sr c0 c1 r).ret = x.ret) ∧
    ((r = none ∨ snow.Finalized = false) →
      (Node.binaryFinish side p0 p1 bit snow sr c0 c1 r).ret
        = (Node.binaryFinish side p0 p1 bit snow sr c0 c1 r).self) := by
  cases side <;> cases r <;> cases h : snow.Finalized <;>
    simp [Node.binaryFinish, h]

theorem Node.unaryFinish_ret (pr : ID) (dp cp : Nat) (snow : Unary) (sr : Bool)
    (r : Option PollResult) :
    (∀ x, r = some x → snow.Finalized = true →
      (Node.unaryFinish pr dp cp snow sr r).ret = x.ret) ∧
    ((r = none ∨ snow.Finalized = false) →
      (Node.unaryFinish pr dp cp snow sr r).ret = (Node.unaryFinish pr dp cp snow sr r).self) := by
  cases r <;> cases h : snow.Finalized <;> simp [Node.unaryFinish, h]

/-- C34: a unary node that receives at least `alpha_preference` votes returns
(the node returned by the child's `RecordPoll`, true) when it has a child and its counter
is finalized after recording the poll, and (the node itself, true) otherwise, in
particular when it has no child; likewise a binary node whose polled side receives at
least `alpha_preference` votes returns (the node returned by the child of the polled
side, true) when that child exists and the binary counter is finalized after recording
the poll, and (the node itself, true) otherwise. -/
theorem recordPoll_collapse (p : Parameters) (votes : Bag) (reset : Bool) :
    (∀ (pr : ID) (dp cp : Nat) (snow : Unary) (sr : Bool) (child : Option Node),
      p.AlphaPreference ≤ votes.Len →
      (Node.RecordPoll p (.unary pr dp cp snow sr child) votes reset).successful = true ∧
      (Node.RecordPoll p (.unary pr dp cp snow sr child) votes reset).self.Finalized =
        ((if reset then snow.RecordUnsuccessfulPoll else snow).RecordPoll p
          votes.Len).Finalized ∧
      (∀ c, child = some c →
        (Node.RecordPoll p (.unary pr dp cp snow sr child) votes reset).self.Finalized = true →
        (Node.RecordPoll p (.unary pr dp cp snow sr child) votes reset).ret =
          (c.RecordPoll p votes (reset || sr)).ret) ∧
      ((child = none ∨
          (Node.RecordPoll p (.unary pr dp cp snow sr child) votes reset).self.Finalized
            = false) →
        (Node.RecordPoll p (.unary pr dp cp snow sr child) votes reset).ret =
          (Node.RecordPoll p (.unary pr dp cp snow sr child) votes reset).self)) ∧
    (∀ (p0 p1 : ID) (bit : Nat) (snow : Binary) (sr0 sr1 : Bool) (c0 c1 : Option Node),
      p.AlphaPreference ≤ (Node.prunedVotes p bit votes).Len →
      (Node.RecordPoll p (.binary p0 p1 bit snow sr0 sr1 c0 c1) votes reset).successful
        = true ∧
      (Node.RecordPoll p (.binary p0 p1 bit snow sr0 sr1 c0 c1) votes reset).self.Finalized =
        ((if reset then snow.RecordUnsuccessfulPoll else snow).RecordPoll p
          (Node.prunedVotes p bit votes).Len (Node.pollBit p bit votes)).Finalized ∧
      (∀ c, sel (Node.pollBit p bit votes) c0 c1 = some c →
        (Node.RecordPoll p (.binary p0 p1 bit snow sr0 sr1 c0 c1) votes reset).self.Finalized
          = true →
        (Node.RecordPoll p (.binary p0 p1 bit snow sr0 sr1 c0 c1) votes reset).ret =
          (c.RecordPoll p (Node.prunedVotes p bit votes)
            (reset || sel (Node.pollBit p bit votes) sr0 sr1)).ret) ∧
      ((sel (Node.pollBit p bit votes) c0 c1 = none ∨
          (Node.RecordPoll p (.binary p0 p1 bit snow sr0 sr1 c0 c1) votes reset).self.Finalized
            = false) →
        (Node.RecordPoll p (.binary p0 p1 bit snow sr0 sr1 c0 c1) votes reset).ret =
          (Node.RecordPoll p (.binary p0 p1 bit snow sr0 sr1 c0 c1) votes reset).self)) := by
  constructor
  · intro pr dp cp snow sr child h
    have hfin := Node.RecordPoll_self_Finalized_unary p pr dp cp snow sr child votes reset h
    refine ⟨?_, hfin, ?_, ?_⟩
    · rw [Node.RecordPoll_unary, if_neg (by omega)]
      exact Node.unaryFinish_successful _ _ _ _ _ _
    · intro c hc hf
      rw [hfin] at hf
      subst hc
      rw [Node.RecordPoll_unary, if_neg (by omega)]
      exact (Node.unaryFinish_ret _ _ _ _ _ _).1 _ rfl hf
    · intro hc
      rw [hfin] at hc
      rw [Node.RecordPoll_unary, if_neg (by omega)]
      refine (Node.unaryFinish_ret _ _ _ _ _ _).2 ?_
      rcases hc with hc | hc
      · subst hc
        exact Or.inl rfl
      · exact Or.inr hc
  · intro p0 p1 bit snow sr0 sr1 c0 c1 h
    have hfin : (Node.RecordPoll p (.binary p0 p1 bit snow sr0 sr1 c0 c1) votes
        reset).self.Finalized =
        ((if reset then snow.RecordUnsuccessfulPoll else snow).RecordPoll p
          (Node.prunedVotes p bit votes).Len (Node.pollBit p bit votes)).Finalized := by
      rw [Node.RecordPoll_binary_pollBit, if_neg (by omega)]
      exact Node.binaryFinish_self_Finalized _ _ _ _ _ _ _ _ _
    refine ⟨?_, hfin, ?_, ?_⟩
    · rw [Node.RecordPoll_binary_pollBit, if_neg (by omega)]
      exact Node.binaryFinish_successful _ _ _ _ _ _ _ _ _
    · intro c hc hf
      rw [hfin] at hf
      rw [Node.RecordPoll_binary_pollBit, if_neg (by omega)]
      exact (Node.binaryFinish_ret _ _ _ _ _ _ _ _ _).1 _ (by rw [hc]; rfl) hf
    · intro hc
      rw [hfin] at hc
      rw [Node.RecordPoll_binary_pollBit, if_neg (by omega)]
      refine (Node.binaryFinish_ret _ _ _ _ _ _ _ _ _).2 ?_
      rcases hc with hc | hc
      · rw [hc]
        exact Or.inl rfl
      · exact Or.inr hc
/-! ## A binary node has no child or two -/

/-- C38: in every tree reachable from `NewTree`, every binary node has
`children[0] = nil` iff `children[1] = nil`; consequently `Printable` of a node of the
tree never returns a nil node, and `Tree.String` never takes a nil node off its slice:
with fuel for every node and one more iteration the loop returns a string. -/
theorem binary_children_none_or_two (p : Parameters) (a : ID) (t : Tree)
    (hr : Reachable p a t) :
    (∀ p0 p1 bit snow sr0 sr1 c0 c1,
      Node.binary p0 p1 bit snow sr0 sr1 c0 c1 ∈ t.node.nodes → (c0 = none ↔ c1 = none)) ∧
    (∀ (f : Stringer) (n : Node), n ∈ t.node.nodes → ∀ e ∈ (n.Printable f).2, e ≠ none) ∧
    (∀ (f : Stringer) (fuel : Nat), t.node.size < fuel →
      (Tree.stringLoop f fuel [("", some t.node)] "").isSome = true) ∧
    ∀ f : Stringer, (t.String f).isSome = true := by
  refine ⟨?_, ?_, ?_, ?_⟩
  · intro p0 p1 bit snow sr0 sr1 c0 c1 hm
    have hwf := hr.wf_nodes _ hm
    rw [Node.WF_binary] at hwf
    have h := hwf.2.2.2.2.1
    cases c0 <;> cases c1 <;> simp at h ⊢
  · intro f n hn e he hnone
    obtain ⟨m, hm, _⟩ := (Node.Printable_children f n (hr.wf_nodes n hn) "").1 e he
    rw [hnone] at hm
    cases hm
  · intro f fuel hfuel
    have h := stringLoop_lines f t.node hr.wf.1 fuel hfuel
    cases hs : Tree.stringLoop f fuel [("", some t.node)] "" with
    | none => rw [hs] at h; cases h
    | some s => rfl
  · intro f
    have h := stringLoop_lines f t.node hr.wf.1 (t.node.size + 1) (Nat.lt_succ_self _)
    show ((Tree.stringLoop f (t.node.size + 1) [("", some t.node)] "").map fun s =>
      TrimSuffix s "\n").isSome = true
    rw [h]
    rfl

/-- The tree of three choices for C38: two binary nodes, each with two children. -/
theorem binary_children_none_or_two_witness :
    Reachable scenarioParams idZero threeChoices ∧
    (∀ p0 p1 bit snow sr0 sr1 c0 c1,
      Node.binary p0 p1 bit snow sr0 sr1 c0 c1 ∈ threeChoices.node.nodes →
        (c0 = none ↔ c1 = none)) ∧
    (∀ (f : Stringer) (n : Node), n ∈ threeChoices.node.nodes →
      ∀ e ∈ (n.Printable f).2, e ≠ none) ∧
    (∀ (f : Stringer) (fuel : Nat), threeChoices.node.size < fuel →
      (Tree.stringLoop f fuel [("", some threeChoices.node)] "").isSome = true) ∧
    ∀ f : Stringer, (threeChoices.String f).isSome = true :=
  ⟨Reachable.add _ _ (Reachable.add _ _ Reachable.newTree),
    binary_children_none_or_two scenarioParams idZero threeChoices
      (Reachable.add _ _ (Reachable.add _ _ Reachable.newTree))⟩

/-! ## A binary node collapses onto the side it decided -/

theorem Node.Dom_of_mem_nodes (n : Node) :
    ∀ (pend : Bool) (cap : Nat), n.Dom pend cap → ∀ m, m ∈ n.nodes →
      ∃ pend2 cap2, m.Dom pend2 cap2 := by
  induction n using Node.induct with
  | unary pr dp cp snow sr child ih =>
    intro pend cap h m hm
    rw [Node.mem_nodes_unary] at hm
    rcases hm with hm | ⟨c, hc, hm⟩
    · rw [hm]; exact ⟨_, _, h⟩
    · rw [Node.Dom_unary] at h
      exact ih c hc _ _ (h.2 c hc) m hm
  | binary p0 p1 bit snow sr0 sr1 c0 c1 ih0 ih1 =>
    intro pend cap h m hm
    rw [Node.mem_nodes_binary] at hm
    rcases hm with hm | ⟨c, hc, hm⟩ | ⟨c, hc, hm⟩
    · rw [hm]; exact ⟨_, _, h⟩
    · rw [Node.Dom_binary] at h
      exact ih0 c hc _ _ (h.2.2.2.2.1 c hc) m hm
    · rw [Node.Dom_binary] at h
      exact ih1 c hc _ _ (h.2.2.2.2.2 c hc) m hm

theorem Binary.pollSide_finalized_preference (p : Parameters) (s : Binary) (reset : Bool)
    (n : Nat) (side : Bool) (h : s.finalized = false)
    (hf : ((if reset = true then s.RecordUnsuccessfulPoll else s).RecordPoll p n
      side).finalized = true) :
    ((if reset = true then s.RecordUnsuccessfulPoll else s).RecordPoll p n side).preference
      = side := by
  cases s with
  | mk c0 c1 pref fin =>
    simp only at h
    subst h
    by_cases hn : p.AlphaConfidence ≤ n
    · cases reset <;> by_cases hs : side = pref <;>
        simp [Binary.RecordPoll, Binary.RecordUnsuccessfulPoll, hn, hs]
    · cases reset <;> simp [Binary.RecordPoll, Binary.RecordUnsuccessfulPoll, hn] at hf

/-- C35: in every tree reachable with `beta_unary <= beta_binary`, whenever
`binaryNode.RecordPoll` on a binary node of the tree (with any bag and any `reset`)
finds its counter finalized after recording a poll for side `bit` and the child of that
side exists, so that the call returns the node returned by that child, the preference
of the counter equals `bit` and the counter was not finalized before the poll. -/
theorem binary_collapses_on_decided_side (p : Parameters) (a : ID) (t : Tree)
    (hβ : p.BetaUnary ≤ p.BetaBinary) (hr : Reachable p a t) :
    ∀ p0 p1 bit snow sr0 sr1 c0 c1,
      Node.binary p0 p1 bit snow sr0 sr1 c0 c1 ∈ t.node.nodes →
      ∀ (votes : Bag) (reset : Bool) (c : Node),
        p.AlphaPreference ≤ (Node.prunedVotes p bit votes).Len →
        sel (Node.pollBit p bit votes) c0 c1 = some c →
        ((if reset then snow.RecordUnsuccessfulPoll else snow).RecordPoll p
          (Node.prunedVotes p bit votes).Len (Node.pollBit p bit votes)).Finalized = true →
        (Node.RecordPoll p (.binary p0 p1 bit snow sr0 sr1 c0 c1) votes reset).ret =
            (c.RecordPoll p (Node.prunedVotes p bit votes)
              (reset || sel (Node.pollBit p bit votes) sr0 sr1)).ret ∧
          ((if reset then snow.RecordUnsuccessfulPoll else snow).RecordPoll p
            (Node.prunedVotes p bit votes).Len (Node.pollBit p bit votes)).Preference
              = Node.pollBit p bit votes ∧
          snow.Finalized = false := by
  intro p0 p1 bit snow sr0 sr1 c0 c1 hm votes reset c hn hc hf
  obtain ⟨cap, hdom⟩ := (hr.inv hβ).2.2
  obtain ⟨pend2, cap2, hd⟩ := Node.Dom_of_mem_nodes _ _ _ hdom _ hm
  rw [Node.Dom_binary] at hd
  have hsnow : snow.finalized = false := by
    cases hs : snow.finalized with
    | false => rfl
    | true =>
      have h0 := hd.2.2.2.1 hs
      have h1 := hd.2.2.1
      rw [h0] at h1 hc
      cases c1 with
      | none =>
        generalize Node.pollBit p bit votes = side at hc
        cases side <;> cases hc
      | some x => simp at h1
  refine ⟨?_, ?_, hsnow⟩
  · rw [Node.RecordPoll_binary_pollBit, if_neg (by omega)]
    exact (Node.binaryFinish_ret _ _ _ _ _ _ _ _ _).1 _ (by rw [hc]; rfl) hf
  · exact Binary.pollSide_finalized_preference p snow reset _ _ hsnow hf

/-- The second poll of three votes for `0...0` on the pair `0...0`, `1000...0`: the binary
root finalizes, prefers side 0 and returns what its child on side 0 returns. -/
theorem binary_collapses_on_decided_side_witness :
    scenarioParams.BetaUnary ≤ scenarioParams.BetaBinary ∧
    Reachable scenarioParams idZero pairPolledOnce ∧
    pairPolledOnce.node =
      .binary idZero idOne 0 ⟨1, 0, false, false⟩ false true
        (some (.unary idZero 1 256 ⟨1, false⟩ false none))
        (some (.unary idOne 1 256 ⟨0, false⟩ false none)) ∧
    (pairPolledOnce.node.RecordPoll scenarioParams (List.replicate 3 idZero) false).ret =
      ((Node.unary idZero 1 256 ⟨1, false⟩ false none).RecordPoll scenarioParams
        (Node.prunedVotes scenarioParams 0 (List.replicate 3 idZero))
        (false || sel (Node.pollBit scenarioParams 0 (List.replicate 3 idZero)) false
          true)).ret ∧
    ((if false then (⟨1, 0, false, false⟩ : Binary).RecordUnsuccessfulPoll
        else (⟨1, 0, false, false⟩ : Binary)).RecordPoll scenarioParams
      (Node.prunedVotes scenarioParams 0 (List.replicate 3 idZero)).Len
      (Node.pollBit scenarioParams 0 (List.replicate 3 idZero))).Preference
        = Node.pollBit scenarioParams 0 (List.replicate 3 idZero) ∧
    (⟨1, 0, false, false⟩ : Binary).Finalized = false :=
  ⟨by decide, Reachable.recordPoll _ _ (Reachable.add _ _ Reachable.newTree), rfl,
    binary_collapses_on_decided_side scenarioParams idZero pairPolledOnce (by decide)
      (Reachable.recordPoll _ _ (Reachable.add _ _ Reachable.newTree))
      idZero idOne 0 ⟨1, 0, false, false⟩ false true
      (some (.unary idZero 1 256 ⟨1, false⟩ false none))
      (some (.unary idOne 1 256 ⟨0, false⟩ false none))
      (List.Mem.head _) (List.replicate 3 idZero) false
      (.unary idZero 1 256 ⟨1, false⟩ false none) (by decide) rfl (by decide)⟩

/-! ## The order of finalization is an invariant -/

theorem Node.Age_unary (p : Parameters) (lim : Nat) (pr : ID) (dp cp : Nat)
    (snow : Unary) (sr : Bool) (child : Option Node) :
    (Node.unary pr dp cp snow sr child).Age p lim ↔
      (snow.finalized = true → p.BetaUnary < lim) ∧
        ∀ c, child = some c →
          c.Age p (if snow.finalized = true then lim else min p.BetaUnary lim) := by
  cases child <;> simp [Node.Age]

theorem Node.Age_binary (p : Parameters) (lim : Nat) (p0 p1 : ID) (bit : Nat)
    (snow : Binary) (sr0 sr1 : Bool) (c0 c1 : Option Node) :
    (Node.binary p0 p1 bit snow sr0 sr1 c0 c1).Age p lim ↔
      (snow.finalized = true → p.BetaBinary < lim) ∧
        (∀ c, c0 = some c →
          c.Age p (if snow.finalized = true then lim else min p.BetaBinary lim)) ∧
        ∀ c, c1 = some c →
          c.Age p (if snow.finalized = true then lim else min p.BetaBinary lim) := by
  cases c0 <;> cases c1 <;> simp [Node.Age]

theorem limit_ite_le (fin : Bool) (lim lim2 b : Nat) (h : lim ≤ lim2) :
    (if fin = true then lim else min b lim) ≤ (if fin = true then lim2 else min b lim2) := by
  cases fin
  · simp only [Bool.false_eq_true, if_false]
    omega
  · simpa using h

/-- The order of finalization can be weakened to a larger limit. -/
theorem Node.Age_mono (p : Parameters) (n : Node) :
    ∀ (lim lim2 : Nat), n.Age p lim → lim ≤ lim2 → n.Age p lim2 := by
  induction n using Node.induct with
  | unary pr dp cp snow sr child ih =>
    intro lim lim2 h hle
    rw [Node.Age_unary] at h ⊢
    refine ⟨?_, ?_⟩
    · intro hf
      have := h.1 hf
      omega
    · intro c hc
      exact ih c hc _ _ (h.2 c hc) (limit_ite_le _ _ _ _ hle)
  | binary p0 p1 bit snow sr0 sr1 c0 c1 ih0 ih1 =>
    intro lim lim2 h hle
    rw [Node.Age_binary] at h ⊢
    refine ⟨?_, ?_, ?_⟩
    · intro hf
      have := h.1 hf
      omega
    · intro c hc
      exact ih0 c hc _ _ (h.2.1 c hc) (limit_ite_le _ _ _ _ hle)
    · intro c hc
      exact ih1 c hc _ _ (h.2.2 c hc) (limit_ite_le _ _ _ _ hle)

theorem Node.unaryFinish_Age (p : Parameters) (pr : ID) (dp cp : Nat) (s1 : Unary) (sr : Bool)
    (r : Option PollResult) (lim2 : Nat)
    (hown : s1.finalized = true → p.BetaUnary < lim2)
    (hr : ∀ x, r = some x →
      x.self.Age p (if s1.finalized = true then lim2 else min p.BetaUnary lim2)) :
    (Node.unaryFinish pr dp cp s1 sr r).self.Age p lim2 := by
  cases r with
  | none =>
    rw [Node.unaryFinish_none, Node.Age_unary]
    exact ⟨hown, fun c hc => by cases hc⟩
  | some x =>
    cases hf : s1.Finalized with
    | true =>
      rw [Node.unaryFinish_fin _ _ _ _ _ _ hf, Node.Age_unary]
      refine ⟨hown, ?_⟩
      intro c hc
      cases hc
      exact hr x rfl
    | false =>
      rw [Node.unaryFinish_notFin _ _ _ _ _ _ hf, Node.Age_unary]
      refine ⟨hown, ?_⟩
      intro c hc
      cases hc
      exact hr x rfl

theorem Node.binaryFinish_Age (p : Parameters) (side : Bool) (p0 p1 : ID) (bit : Nat)
    (s1 : Binary) (sr : Bool) (c0 c1 : Option Node) (r : Option PollResult)
    (lim2 : Nat)
    (hown : s1.finalized = true → p.BetaBinary < lim2)
    (hr : ∀ x, r = some x →
      x.self.Age p (if s1.finalized = true then lim2 else min p.BetaBinary lim2))
    (hnone : r = none → ∀ c, sel side c0 c1 = some c →
      c.Age p (if s1.finalized = true then lim2 else min p.BetaBinary lim2))
    (hother : ∀ c, sel (!side) c0 c1 = some c →
      c.Age p (if s1.finalized = true then lim2 else min p.BetaBinary lim2)) :
    (Node.binaryFinish side p0 p1 bit s1 sr c0 c1 r).self.Age p lim2 := by
  cases side with
  | false =>
    simp only [sel_false, Bool.not_false, sel_true] at hnone hother
    cases r with
    | none =>
      rw [Node.binaryFinish_none_false, Node.Age_binary]
      exact ⟨hown, hnone rfl, hother⟩
    | some x =>
      cases hf : s1.Finalized with
      | true =>
        rw [Node.binaryFinish_fin_false _ _ _ _ _ _ _ _ hf, Node.Age_binary]
        refine ⟨hown, ?_, hother⟩
        intro c hc
        cases hc
        exact hr x rfl
      | false =>
        rw [Node.binaryFinish_notFin_false _ _ _ _ _ _ _ _ hf, Node.Age_binary]
        refine ⟨hown, ?_, hother⟩
        intro c hc
        cases hc
        exact hr x rfl
  | true =>
    simp only [sel_false, Bool.not_true, sel_true] at hnone hother
    cases r with
    | none =>
      rw [Node.binaryFinish_none_true, Node.Age_binary]
      exact ⟨hown, hother, hnone rfl⟩
    | some x =>
      cases hf : s1.Finalized with
      | true =>
        rw [Node.binaryFinish_fin_true _ _ _ _ _ _ _ _ hf, Node.Age_binary]
        refine ⟨hown, hother, ?_⟩
        intro c hc
        cases hc
        exact hr x rfl
      | false =>
        rw [Node.binaryFinish_notFin_true _ _ _ _ _ _ _ _ hf, Node.Age_binary]
        refine ⟨hown, hother, ?_⟩
        intro c hc
        cases hc
        exact hr x rfl

theorem Unary.poll_step (p : Parameters) (snow : Unary) (pend : Bool) (n cap cap2 : Nat)
    (hown : pend = false → snow.finalized = false → snow.confidence ≤ cap)
    (hcap1 : p.AlphaConfidence ≤ n → (if pend = true then 1 else cap + 1) ≤ cap2) :
    (snow.finalized = true →
      ((if pend = true then snow.RecordUnsuccessfulPoll else snow).RecordPoll p n).finalized
        = true) ∧
    (snow.finalized = false →
      ((if pend = true then snow.RecordUnsuccessfulPoll else snow).RecordPoll p n).finalized
        = true → p.AlphaConfidence ≤ n ∧ p.BetaUnary ≤ cap2) ∧
    (snow.finalized = false →
      ((if pend = true then snow.RecordUnsuccessfulPoll else snow).RecordPoll p n).finalized
        = false → p.AlphaConfidence ≤ n →
      ((if pend = true then snow.RecordUnsuccessfulPoll else snow).RecordPoll p n).confidence
          = (if pend = true then 0 else snow.confidence) + 1 ∧
        ((if pend = true then snow.RecordUnsuccessfulPoll else snow).RecordPoll p
          n).confidence < p.BetaUnary) := by
  refine ⟨fun hs => Unary.poll_of_finalized p snow pend n hs, ?_, ?_⟩
  · intro hs hf
    by_cases hn : p.AlphaConfidence ≤ n
    · refine ⟨hn, ?_⟩
      rw [Unary.poll_high p snow pend n hs hn] at hf
      simp only [decide_eq_true_eq] at hf
      have h1 := hcap1 hn
      cases pend with
      | true => simp only [if_true] at hf h1; omega
      | false =>
        have := hown rfl hs
        simp only [Bool.false_eq_true, if_false] at hf h1
        omega
    · rw [Unary.poll_low p snow pend n hs (by omega)] at hf
      cases hf
  · intro hs hf hn
    rw [Unary.poll_high p snow pend n hs hn] at hf ⊢
    simp only [decide_eq_false_iff_not] at hf
    refine ⟨rfl, ?_⟩
    show (if pend = true then 0 else snow.confidence) + 1 < p.BetaUnary
    omega

theorem Binary.pollSide_step (p : Parameters) (snow : Binary) (pend : Bool) (n cap cap2 : Nat)
    (side : Bool)
    (hown : pend = false → snow.finalized = false →
      snow.confidence0 ≤ cap ∧ snow.confidence1 ≤ cap)
    (hz : (if snow.preference = true then snow.confidence0 else snow.confidence1) = 0)
    (hcap1 : p.AlphaConfidence ≤ n → (if pend = true then 1 else cap + 1) ≤ cap2) :
    (snow.finalized = true →
      ((if pend = true then snow.RecordUnsuccessfulPoll else snow).RecordPoll p n
        side).finalized = true) ∧
    (snow.finalized = false →
      ((if pend = true then snow.RecordUnsuccessfulPoll else snow).RecordPoll p n
        side).finalized = true → p.AlphaConfidence ≤ n ∧ p.BetaBinary ≤ cap2) ∧
    (snow.finalized = false →
      ((if pend = true then snow.RecordUnsuccessfulPoll else snow).RecordPoll p n
        side).finalized = false → p.AlphaConfidence ≤ n →
      sel side
          ((if pend = true then snow.RecordUnsuccessfulPoll else snow).RecordPoll p n
            side).confidence0
          ((if pend = true then snow.RecordUnsuccessfulPoll else snow).RecordPoll p n
            side).confidence1
          = (if pend = true then 1 else sel side snow.confidence0 snow.confidence1 + 1) ∧
        sel side
          ((if pend = true then snow.RecordUnsuccessfulPoll else snow).RecordPoll p n
            side).confidence0
          ((if pend = true then snow.RecordUnsuccessfulPoll else snow).RecordPoll p n
            side).confidence1 < p.BetaBinary) := by
  refine ⟨fun hs => (Binary.pollSide_finalized_keeps p snow pend n side hs).1, ?_, ?_⟩
  · intro hs hf
    by_cases hn : p.AlphaConfidence ≤ n
    · refine ⟨hn, ?_⟩
      obtain ⟨_, _, _, e4⟩ := Binary.pollSide_high p snow pend n side hs hn hz
      rw [e4] at hf
      simp only [decide_eq_true_eq] at hf
      have h1 := hcap1 hn
      cases pend with
      | true => simp only [if_true] at hf h1; omega
      | false =>
        have := hown rfl hs
        simp only [Bool.false_eq_true, if_false] at hf h1
        cases side <;> simp only [sel_true, sel_false] at hf <;> omega
    · rw [Binary.pollSide_low p snow pend n side hs (by omega)] at hf
      cases hf
  · intro hs hf hn
    obtain ⟨_, e2, _, e4⟩ := Binary.pollSide_high p snow pend n side hs hn hz
    rw [e4] at hf
    simp only [decide_eq_false_iff_not] at hf
    refine ⟨e2, ?_⟩
    rw [e2]
    omega

/-- After a poll the receiver, as left in memory, keeps the order of finalization under
any limit above that the confidence recorded in this poll does not reach. -/
theorem Node.RecordPoll_Age_self (p : Parameters) (hβ : p.BetaUnary ≤ p.BetaBinary) (n : Node) :
    ∀ (pend : Bool) (cap cap2 lim lim2 : Nat) (votes : Bag),
      n.Dom pend cap → n.Age p lim →
      (p.AlphaConfidence ≤ votes.Len → (if pend = true then 1 else cap + 1) ≤ cap2) →
      (lim2 ≤ p.BetaBinary → p.AlphaConfidence ≤ votes.Len → cap2 < lim2) →
      lim ≤ lim2 →
      (n.RecordPoll p votes pend).self.Age p lim2 := by
  induction n using Node.induct with
  | unary pr dp cp snow sr child ih =>
    intro pend cap cap2 lim lim2 votes hd ha hcap1 hlim hle
    rw [Node.Dom_unary] at hd
    rw [Node.Age_unary] at ha
    obtain ⟨hown, hch⟩ := hd
    obtain ⟨haown, hach⟩ := ha
    have hold : snow.finalized = true → p.BetaUnary < lim2 := by
      intro hs
      have := haown hs
      omega
    rw [Node.RecordPoll_unary]
    by_cases hlow : votes.Len < p.AlphaPreference
    · rw [if_pos hlow]
      rw [Node.Age_unary, Unary.unsuccessful_twice]
      cases hs : snow.finalized with
      | true =>
        simp only [if_true, hs]
        refine ⟨fun _ => hold hs, ?_⟩
        intro c hc
        have := hach c hc
        rw [hs] at this
        exact Node.Age_mono p c _ _ this hle
      | false =>
        simp only [Bool.false_eq_true, if_false]
        refine ⟨(fun h => by cases h), ?_⟩
        intro c hc
        have := hach c hc
        rw [hs] at this
        exact Node.Age_mono p c _ _ this (by simp only [Bool.false_eq_true, if_false]; omega)
    · rw [if_neg hlow]
      obtain ⟨f1, f2, f3⟩ := Unary.poll_step p snow pend votes.Len cap cap2 hown hcap1
      generalize (if pend = true then snow.RecordUnsuccessfulPoll else snow).RecordPoll p
        votes.Len = s1 at f1 f2 f3 ⊢
      have hnew : s1.finalized = true → p.BetaUnary < lim2 := by
        intro hf
        cases hs : snow.finalized with
        | true => exact hold hs
        | false =>
          obtain ⟨hn, hb⟩ := f2 hs hf
          by_cases hl : lim2 ≤ p.BetaBinary
          · have := hlim hl hn
            omega
          · omega
      refine Node.unaryFinish_Age p pr dp cp s1 _ _ lim2 hnew ?_
      intro x hx
      cases child with
      | none => cases hx
      | some ch =>
        rw [Option.map_some'] at hx
        cases hx
        have hdc := hch ch rfl
        have hac := hach ch rfl
        cases hs : snow.finalized with
        | true =>
          have e := f1 hs
          rw [hs] at hdc hac
          rw [e]
          simp only [if_true] at hdc hac ⊢
          refine ih ch rfl _ cap cap2 lim lim2 votes hdc hac ?_ hlim hle
          intro hn
          have h1 := hcap1 hn
          cases pend <;> cases sr <;> simp at h1 ⊢ <;> omega
        | false =>
          rw [hs] at hdc hac
          simp only [Bool.false_eq_true, if_false] at hdc hac
          cases hf : s1.finalized with
          | true =>
            simp only [if_true]
            obtain ⟨hn, hb⟩ := f2 hs hf
            have := hnew hf
            refine ih ch rfl _ snow.confidence cap2 _ lim2 votes hdc hac ?_ hlim (by omega)
            intro _
            have h1 := hcap1 hn
            cases pend with
            | true => simpa using h1
            | false =>
              have := hown rfl hs
              cases sr <;> simp at h1 ⊢ <;> omega
          | false =>
            simp only [Bool.false_eq_true, if_false]
            refine ih ch rfl _ snow.confidence s1.confidence _ _ votes hdc hac ?_ ?_
              (by omega)
            · intro hn
              rw [(f3 hs hf hn).1]
              cases pend <;> cases sr <;> simp
            · intro hl hn
              obtain ⟨e1, e2⟩ := f3 hs hf hn
              have h1 := hcap1 hn
              have hc2 : s1.confidence ≤ cap2 := by
                rw [e1]
                cases pend with
                | true => simpa using h1
                | false =>
                  have := hown rfl hs
                  simp only [Bool.false_eq_true, if_false] at h1 ⊢
                  omega
              by_cases hl2 : lim2 ≤ p.BetaBinary
              · have := hlim hl2 hn
                omega
              · omega
  | binary p0 p1 bit snow sr0 sr1 c0 c1 ih0 ih1 =>
    intro pend cap cap2 lim lim2 votes hd ha hcap1 hlim hle
    rw [Node.Dom_binary] at hd
    rw [Node.Age_binary] at ha
    obtain ⟨hown, hz, hsome, hfinc, hc0, hc1⟩ := hd
    obtain ⟨haown, hac0, hac1⟩ := ha
    have hold : snow.finalized = true → p.BetaBinary < lim2 := by
      intro hs
      have := haown hs
      omega
    rw [Node.RecordPoll_binary]
    have hlen := Bag.Len_sel_le votes
      (decide (p.AlphaPreference ≤ (votes.Filter fun x => x.Bit bit).Len)) fun x => x.Bit bit
    generalize decide (p.AlphaPreference ≤ (votes.Filter fun x => x.Bit bit).Len) = side
      at hlen ⊢
    generalize sel side (votes.Filter fun x => !x.Bit bit) (votes.Filter fun x => x.Bit bit)
      = pruned at hlen ⊢
    by_cases hlow : pruned.Len < p.AlphaPreference
    · rw [if_pos hlow]
      rw [Node.Age_binary, Binary.unsuccessfulSide_twice]
      cases hs : snow.finalized with
      | true =>
        simp only [if_true, hs]
        rw [hs] at hac0 hac1
        exact ⟨fun _ => hold hs, fun c hc => Node.Age_mono p c _ _ (hac0 c hc) hle,
          fun c hc => Node.Age_mono p c _ _ (hac1 c hc) hle⟩
      | false =>
        simp only [Bool.false_eq_true, if_false]
        rw [hs] at hac0 hac1
        have hm : (if false = true then lim else min p.BetaBinary lim) ≤ min p.BetaBinary lim2 := by
          simp only [Bool.false_eq_true, if_false]; omega
        exact ⟨(fun h => by cases h), fun c hc => Node.Age_mono p c _ _ (hac0 c hc) hm,
          fun c hc => Node.Age_mono p c _ _ (hac1 c hc) hm⟩
    · rw [if_neg hlow]
      have hcapp : p.AlphaConfidence ≤ pruned.Len → (if pend = true then 1 else cap + 1) ≤ cap2 :=
        fun hn => hcap1 (by omega)
      obtain ⟨f1, f2, f3⟩ := Binary.pollSide_step p snow pend pruned.Len cap cap2 side hown hz
        hcapp
      generalize (if pend = true then snow.RecordUnsuccessfulPoll else snow).RecordPoll p
        pruned.Len side = s1 at f1 f2 f3 ⊢
      have hnew : s1.finalized = true → p.BetaBinary < lim2 := by
        intro hf
        cases hs : snow.finalized with
        | true => exact hold hs
        | false =>
          obtain ⟨hn, hb⟩ := f2 hs hf
          by_cases hl : lim2 ≤ p.BetaBinary
          · have := hlim hl (by omega)
            omega
          · omega
      -- the limit of the children before and after the poll
      have hctx : (if snow.finalized = true then lim else min p.BetaBinary lim) ≤
          (if s1.finalized = true then lim2 else min p.BetaBinary lim2) := by
        cases hs : snow.finalized with
        | true =>
          have e := f1 hs
          rw [e]
          simpa using hle
        | false =>
          cases hf : s1.finalized with
          | true =>
            have := hnew hf
            simp only [Bool.false_eq_true, if_false, if_true]
            omega
          | false =>
            simp only [Bool.false_eq_true, if_false]
            omega
      have hkeep0 : ∀ c, c0 = some c →
          c.Age p (if s1.finalized = true then lim2 else min p.BetaBinary lim2) :=
        fun c hc => Node.Age_mono p c _ _ (hac0 c hc) hctx
      have hkeep1 : ∀ c, c1 = some c →
          c.Age p (if s1.finalized = true then lim2 else min p.BetaBinary lim2) :=
        fun c hc => Node.Age_mono p c _ _ (hac1 c hc) hctx
      -- the child that is polled
      have hpoll : ∀ (ch : Node) (srk : Bool) (ck : Nat),
          ch.Dom (pend || srk) ck → (sel side snow.confidence0 snow.confidence1 = ck) →
          ch.Age p (if snow.finalized = true then lim else min p.BetaBinary lim) →
          (∀ (pend2 : Bool) (capc cap2c limc lim2c : Nat) (votes : Bag),
            ch.Dom pend2 capc → ch.Age p limc →
            (p.AlphaConfidence ≤ votes.Len → (if pend2 = true then 1 else capc + 1) ≤ cap2c) →
            (lim2c ≤ p.BetaBinary → p.AlphaConfidence ≤ votes.Len → cap2c < lim2c) →
            limc ≤ lim2c → (ch.RecordPoll p votes pend2).self.Age p lim2c) →
          snow.finalized = false →
          (ch.RecordPoll p pruned (pend || srk)).self.Age p
            (if s1.finalized = true then lim2 else min p.BetaBinary lim2) := by
        intro ch srk ck hdc hck hac ihc hs
        rw [hs] at hac
        simp only [Bool.false_eq_true, if_false] at hac
        cases hf : s1.finalized with
        | true =>
          simp only [if_true]
          obtain ⟨hn, hb⟩ := f2 hs hf
          have := hnew hf
          refine ihc _ ck cap2 _ lim2 pruned hdc hac ?_ (fun hl hn => hlim hl (by omega))
            (by omega)
          intro _
          have h1 := hcapp hn
          cases pend with
          | true => simpa using h1
          | false =>
            have := hown rfl hs
            rw [← hck]
            cases srk <;> cases side <;> simp at h1 ⊢ <;> omega
        | false =>
          simp only [Bool.false_eq_true, if_false]
          refine ihc _ ck (sel side s1.confidence0 s1.confidence1) _ _ pruned hdc hac ?_ ?_
            (by omega)
          · intro hn
            rw [(f3 hs hf hn).1, ← hck]
            cases pend <;> cases srk <;> simp
          · intro hl hn
            obtain ⟨e1, e2⟩ := f3 hs hf hn
            have h1 := hcapp hn
            have hc2 : sel side s1.confidence0 s1.confidence1 ≤ cap2 := by
              rw [e1]
              cases pend with
              | true => simpa using h1
              | false =>
                have := hown rfl hs
                simp only [Bool.false_eq_true, if_false] at h1 ⊢
                cases side <;> simp only [sel_true, sel_false] <;> omega
            by_cases hl2 : lim2 ≤ p.BetaBinary
            · have := hlim hl2 (by omega)
              omega
            · omega
      have hsnow : ∀ c, sel side c0 c1 = some c → snow.finalized = false := by
        intro c hc
        cases hs : snow.finalized with
        | false => rfl
        | true =>
          have h0 := hfinc hs
          rw [h0] at hsome hc
          cases c1 with
          | none => cases side <;> cases hc
          | some _ => cases hsome
      refine Node.binaryFinish_Age p side p0 p1 bit s1 _ c0 c1 _ lim2 hnew ?_ ?_ ?_
      · intro x hx
        cases side with
        | false =>
          simp only [sel_false] at hx hsnow hpoll ⊢
          cases c0 with
          | none => cases hx
          | some ch =>
            rw [Option.map_some'] at hx
            cases hx
            exact hpoll ch sr0 _ (hc0 ch rfl) rfl (hac0 ch rfl)
              (ih0 ch rfl) (hsnow ch rfl)
        | true =>
          simp only [sel_true] at hx hsnow hpoll ⊢
          cases c1 with
          | none => cases hx
          | some ch =>
            rw [Option.map_some'] at hx
            cases hx
            exact hpoll ch sr1 _ (hc1 ch rfl) rfl (hac1 ch rfl)
              (ih1 ch rfl) (hsnow ch rfl)
      · intro hnone c hc
        cases side with
        | false => exact hkeep0 c hc
        | true => exact hkeep1 c hc
      · intro c hc
        cases side with
        | false => exact hkeep1 c hc
        | true => exact hkeep0 c hc

theorem Node.RecordPoll_ret_unary (p : Parameters) (pr : ID) (dp cp : Nat) (snow : Unary)
    (sr : Bool) (child : Option Node) (votes : Bag) (reset : Bool) :
    (Node.RecordPoll p (.unary pr dp cp snow sr child) votes reset).ret =
        (Node.RecordPoll p (.unary pr dp cp snow sr child) votes reset).self ∨
      ∃ c, child = some c ∧
        (Node.RecordPoll p (.unary pr dp cp snow sr child) votes reset).ret =
          (c.RecordPoll p votes (reset || sr)).ret := by
  rw [Node.RecordPoll_unary]
  split
  · exact Or.inl rfl
  · cases child with
    | none => exact Or.inl rfl
    | some c =>
      rw [Option.map_some']
      generalize (if reset = true then snow.RecordUnsuccessfulPoll else snow).RecordPoll p
        votes.Len = s1
      cases hf : s1.Finalized with
      | true =>
        rw [Node.unaryFinish_fin _ _ _ _ _ _ hf]
        exact Or.inr ⟨c, rfl, rfl⟩
      | false =>
        rw [Node.unaryFinish_notFin _ _ _ _ _ _ hf]
        exact Or.inl rfl

theorem Node.RecordPoll_ret_binary (p : Parameters) (p0 p1 : ID) (bit : Nat) (snow : Binary)
    (sr0 sr1 : Bool) (c0 c1 : Option Node) (votes : Bag) (reset : Bool) :
    (Node.RecordPoll p (.binary p0 p1 bit snow sr0 sr1 c0 c1) votes reset).ret =
        (Node.RecordPoll p (.binary p0 p1 bit snow sr0 sr1 c0 c1) votes reset).self ∨
      (∃ c v, c0 = some c ∧
        (Node.RecordPoll p (.binary p0 p1 bit snow sr0 sr1 c0 c1) votes reset).ret =
          (c.RecordPoll p v (reset || sr0)).ret) ∨
      ∃ c v, c1 = some c ∧
        (Node.RecordPoll p (.binary p0 p1 bit snow sr0 sr1 c0 c1) votes reset).ret =
          (c.RecordPoll p v (reset || sr1)).ret := by
  rw [Node.RecordPoll_binary]
  generalize decide (p.AlphaPreference ≤ (votes.Filter fun x => x.Bit bit).Len) = side
  generalize sel side (votes.Filter fun x => !x.Bit bit) (votes.Filter fun x => x.Bit bit)
    = pruned
  split
  · exact Or.inl rfl
  · generalize (if reset = true then snow.RecordUnsuccessfulPoll else snow).RecordPoll p
      pruned.Len side = s1
    cases side with
    | false =>
      simp only [sel_false]
      cases c0 with
      | none => exact Or.inl rfl
      | some c =>
        rw [Option.map_some']
        cases hf : s1.Finalized with
        | true =>
          rw [Node.binaryFinish_fin_false _ _ _ _ _ _ _ _ hf]
          exact Or.inr (Or.inl ⟨c, pruned, rfl, rfl⟩)
        | false =>
          rw [Node.binaryFinish_notFin_false _ _ _ _ _ _ _ _ hf]
          exact Or.inl rfl
    | true =>
      simp only [sel_true]
      cases c1 with
      | none => exact Or.inl rfl
      | some c =>
        rw [Option.map_some']
        cases hf : s1.Finalized with
        | true =>
          rw [Node.binaryFinish_fin_true _ _ _ _ _ _ _ _ hf]
          exact Or.inr (Or.inr ⟨c, pruned, rfl, rfl⟩)
        | false =>
          rw [Node.binaryFinish_notFin_true _ _ _ _ _ _ _ _ hf]
          exact Or.inl rfl

/-- After a poll the returned node keeps the order of finalization, with no counter
above it. -/
theorem Node.RecordPoll_Age_ret (p : Parameters) (hβ : p.BetaUnary ≤ p.BetaBinary) (n : Node) :
    ∀ (pend : Bool) (cap lim : Nat) (votes : Bag),
      n.Dom pend cap → n.Age p lim → lim ≤ p.BetaBinary + 1 →
      (n.RecordPoll p votes pend).ret.Age p (p.BetaBinary + 1) := by
  induction n using Node.induct with
  | unary pr dp cp snow sr child ih =>
    intro pend cap lim votes hd ha hl
    have hself := Node.RecordPoll_Age_self p hβ _ pend cap (if pend = true then 1 else cap + 1)
      lim (p.BetaBinary + 1) votes hd ha (fun _ => le_refl _) (fun h => by omega) hl
    rcases Node.RecordPoll_ret_unary p pr dp cp snow sr child votes pend with h | ⟨c, hc, h⟩
    · rw [h]; exact hself
    · rw [h]
      rw [Node.Dom_unary] at hd
      rw [Node.Age_unary] at ha
      refine ih c hc _ _ _ votes (hd.2 c hc) (ha.2 c hc) ?_
      split <;> omega
  | binary p0 p1 bit snow sr0 sr1 c0 c1 ih0 ih1 =>
    intro pend cap lim votes hd ha hl
    have hself := Node.RecordPoll_Age_self p hβ _ pend cap (if pend = true then 1 else cap + 1)
      lim (p.BetaBinary + 1) votes hd ha (fun _ => le_refl _) (fun h => by omega) hl
    rcases Node.RecordPoll_ret_binary p p0 p1 bit snow sr0 sr1 c0 c1 votes pend with
      h | ⟨c, v, hc, h⟩ | ⟨c, v, hc, h⟩
    · rw [h]; exact hself
    · rw [h]
      rw [Node.Dom_binary] at hd
      rw [Node.Age_binary] at ha
      refine ih0 c hc _ _ _ v (hd.2.2.2.2.1 c hc) (ha.2.1 c hc) ?_
      split <;> omega
    · rw [h]
      rw [Node.Dom_binary] at hd
      rw [Node.Age_binary] at ha
      refine ih1 c hc _ _ _ v (hd.2.2.2.2.2 c hc) (ha.2.2 c hc) ?_
      split <;> omega

theorem Node.freshChild_Age (p : Parameters) (c : ID) (index : Nat) (lim : Nat) :
    (Node.freshChild p c index).Age p lim := by
  unfold Node.freshChild
  rw [Node.Age_unary]
  exact ⟨(fun h => by cases h), (fun n h => by cases h)⟩

theorem Node.mkBinary_Age (p : Parameters) (lim : Nat) (bit : Bool) (pr c : ID)
    (index : Nat) (snow : Unary) (sr : Bool) (childBit childOther : Option Node)
    (hf : snow.finalized = false)
    (h1 : ∀ n, childBit = some n → n.Age p (min p.BetaBinary lim))
    (h2 : ∀ n, childOther = some n → n.Age p (min p.BetaBinary lim)) :
    (Node.mkBinary bit pr c index (snow.Extend bit) sr childBit childOther).Age p lim := by
  have he : (snow.Extend bit).finalized = false := hf
  cases bit with
  | false =>
    simp only [Node.mkBinary, Bool.false_eq_true, if_false]
    rw [Node.Age_binary]
    rw [he]
    exact ⟨(fun h => by cases h), h1, h2⟩
  | true =>
    simp only [Node.mkBinary, if_true]
    rw [Node.Age_binary]
    rw [he]
    exact ⟨(fun h => by cases h), h2, h1⟩

theorem Node.split_Age (p : Parameters) (hβ : p.BetaUnary ≤ p.BetaBinary) (lim : Nat)
    (pr : ID) (dp cp : Nat) (snow : Unary) (sr : Bool) (child : Option Node) (c : ID)
    (index : Nat) (hf : snow.finalized = false)
    (h : (Node.unary pr dp cp snow sr child).Age p lim) :
    (Node.split p pr dp cp snow sr child c index).Age p lim := by
  rw [Node.Age_unary] at h
  obtain ⟨hown, hch⟩ := h
  simp only [hf, Bool.false_eq_true, if_false] at hch
  have hup : ∀ (l : Nat), min p.BetaUnary lim ≤ l → ∀ n, child = some n → n.Age p l :=
    fun l hl n hn => Node.Age_mono p n _ _ (hch n hn) hl
  have hfresh : ∀ (l : Nat) (n : Node),
      (child.map fun _ => Node.freshChild p c index) = some n → n.Age p l := by
    intro l n hn
    cases child with
    | none => cases hn
    | some ch =>
      simp only [Option.map_some', Option.some.injEq] at hn
      subst hn
      exact Node.freshChild_Age p c index l
  have hinner : ∀ (d1 d2 l : Nat), min p.BetaUnary lim ≤ min p.BetaUnary l →
      (Node.unary pr d1 d2 snow sr child).Age p l := by
    intro d1 d2 l hl
    rw [Node.Age_unary]
    refine ⟨(fun h => by rw [hf] at h; cases h), ?_⟩
    intro n hn
    simp only [hf, Bool.false_eq_true, if_false]
    exact hup _ hl n hn
  unfold Node.split
  split
  · exact Node.mkBinary_Age p lim _ pr c index snow sr child _ hf (hup _ (by omega))
      (hfresh _)
  · split
    · refine Node.mkBinary_Age p lim _ pr c index snow sr _ _ hf ?_ ?_
      · intro n hn
        simp only [Option.some.injEq] at hn
        subst hn
        exact hinner (dp + 1) cp _ (by omega)
      · intro n hn
        simp only [Option.some.injEq] at hn
        subst hn
        exact Node.freshChild_Age p c index _
    · split
      · rw [Node.Age_unary]
        refine ⟨hown, ?_⟩
        intro n hn
        simp only [Option.some.injEq] at hn
        subst hn
        simp only [hf, Bool.false_eq_true, if_false]
        exact Node.mkBinary_Age p _ _ pr c index snow sr child _ hf (hup _ (by omega))
          (hfresh _)
      · rw [Node.Age_unary]
        refine ⟨hown, ?_⟩
        intro n hn
        simp only [Option.some.injEq] at hn
        subst hn
        simp only [Unary.Clone, hf, Bool.false_eq_true, if_false]
        refine Node.mkBinary_Age p _ _ pr c index snow sr _ _ hf ?_ ?_
        · intro n hn
          simp only [Option.some.injEq] at hn
          subst hn
          exact hinner (index + 1) cp _ (by omega)
        · intro n hn
          simp only [Option.some.injEq] at hn
          subst hn
          exact Node.freshChild_Age p c index _

/-- The order of finalization is kept by `Add`. -/
theorem Node.Add_Age (p : Parameters) (hβ : p.BetaUnary ≤ p.BetaBinary) (c : ID) (n : Node) :
    ∀ (lim : Nat), n.Age p lim → (n.Add p c).Age p lim := by
  induction n using Node.induct with
  | unary pr dp cp snow sr child ih =>
    intro lim h
    rw [Node.Add_unary]
    cases hf : snow.Finalized with
    | true => simpa using h
    | false =>
      simp only [Bool.false_eq_true, if_false]
      cases hd : FirstDifferenceSubset dp cp pr c with
      | some index => exact Node.split_Age p hβ lim pr dp cp snow sr child c index hf h
      | none =>
        rw [Node.Age_unary] at h ⊢
        refine ⟨h.1, ?_⟩
        intro n hn
        cases child with
        | none => cases hn
        | some ch =>
          simp only [Option.map_some', Option.some.injEq] at hn
          subst hn
          exact ih ch rfl _ (h.2 ch rfl)
  | binary p0 p1 bit snow sr0 sr1 c0 c1 ih0 ih1 =>
    intro lim h
    rw [Node.Age_binary] at h
    obtain ⟨h1, h2, h3⟩ := h
    rw [Node.Add_binary]
    cases c.Bit bit with
    | true =>
      simp only [if_true]
      rw [Node.Age_binary]
      refine ⟨h1, h2, ?_⟩
      intro n hn
      cases c1 with
      | none => cases hn
      | some ch =>
        simp only [Option.map_some', Option.some.injEq] at hn
        subst hn
        exact ih1 ch rfl _ (h3 ch rfl)
    | false =>
      simp only [Bool.false_eq_true, if_false]
      rw [Node.Age_binary]
      refine ⟨h1, ?_, h3⟩
      intro n hn
      cases c0 with
      | none => cases hn
      | some ch =>
        simp only [Option.map_some', Option.some.injEq] at hn
        subst hn
        exact ih0 ch rfl _ (h2 ch rfl)

/-- Every reachable tree keeps the order of finalization. -/
theorem Reachable.age {p : Parameters} {a : ID} {t : Tree} (hβ : p.BetaUnary ≤ p.BetaBinary)
    (h : Reachable p a t) : t.node.Age p (p.BetaBinary + 1) := by
  induction h with
  | newTree =>
    show (Node.unary a 0 NumBits (NewUnary p) false none).Age p _
    rw [Node.Age_unary]
    exact ⟨(fun h => by cases h), (fun c h => by cases h)⟩
  | add t c hr ih =>
    rw [Tree.Add_eq]
    split
    · have hp := hr.wf.2
      show (t.node.Add t.params c).Age p _
      rw [hp]
      exact Node.Add_Age p hβ c t.node _ ih
    · exact ih
  | recordPoll t votes hr ih =>
    rw [Tree.RecordPoll_eq]
    have hp := hr.wf.2
    obtain ⟨cap, hdom⟩ := (hr.inv hβ).2.2
    show (t.node.RecordPoll t.params (t.legalVotes votes) t.shouldReset).ret.Age p _
    rw [hp]
    exact Node.RecordPoll_Age_ret p hβ t.node t.shouldReset cap _ _ hdom ih (le_refl _)
  | recordUnsuccessfulPoll t hr ih => exact ih

theorem Node.Age_not_finalized (p : Parameters) (hβ : p.BetaUnary ≤ p.BetaBinary) (m : Node)
    (lim : Nat) (h : m.Age p lim) (hl : lim ≤ p.BetaUnary) : m.Finalized = false := by
  cases m with
  | unary pr dp cp snow sr child =>
    rw [Node.Age_unary] at h
    cases hs : snow.finalized with
    | false => exact hs
    | true =>
      have := h.1 hs
      omega
  | binary p0 p1 bit snow sr0 sr1 c0 c1 =>
    rw [Node.Age_binary] at h
    cases hs : snow.finalized with
    | false => exact hs
    | true =>
      have := h.1 hs
      omega

/-- Every node of a subtree keeps the order of finalization under a limit that is not
larger than the limit of the subtree. -/
theorem Node.Age_below (p : Parameters) (n : Node) :
    ∀ (lim : Nat), n.Age p lim → ∀ m, m ∈ n.nodes → ∃ lim2, lim2 ≤ lim ∧ m.Age p lim2 := by
  induction n using Node.induct with
  | unary pr dp cp snow sr child ih =>
    intro lim h m hm
    rw [Node.mem_nodes_unary] at hm
    rcases hm with hm | ⟨c, hc, hm⟩
    · rw [hm]; exact ⟨lim, le_refl _, h⟩
    · rw [Node.Age_unary] at h
      obtain ⟨l2, hl2, h2⟩ := ih c hc _ (h.2 c hc) m hm
      refine ⟨l2, ?_, h2⟩
      have : (if snow.finalized = true then lim else min p.BetaUnary lim) ≤ lim := by
        split <;> omega
      omega
  | binary p0 p1 bit snow sr0 sr1 c0 c1 ih0 ih1 =>
    intro lim h m hm
    have hctx : (if snow.finalized = true then lim else min p.BetaBinary lim) ≤ lim := by
      split <;> omega
    rw [Node.mem_nodes_binary] at hm
    rcases hm with hm | ⟨c, hc, hm⟩ | ⟨c, hc, hm⟩
    · rw [hm]; exact ⟨lim, le_refl _, h⟩
    · rw [Node.Age_binary] at h
      obtain ⟨l2, hl2, h2⟩ := ih0 c hc _ (h.2.1 c hc) m hm
      exact ⟨l2, by omega, h2⟩
    · rw [Node.Age_binary] at h
      obtain ⟨l2, hl2, h2⟩ := ih1 c hc _ (h.2.2 c hc) m hm
      exact ⟨l2, by omega, h2⟩

/-- A node whose counter is not finalized after its poll returns itself. -/
theorem Node.RecordPoll_ret_of_not_finalized (p : Parameters) (n : Node) (votes : Bag)
    (reset : Bool) (h : (n.RecordPoll p votes reset).self.Finalized = false) :
    (n.RecordPoll p votes reset).ret = (n.RecordPoll p votes reset).self := by
  cases n with
  | unary pr dp cp snow sr child =>
    rw [Node.RecordPoll_unary] at h ⊢
    split
    · rfl
    · rw [if_neg (by assumption)] at h
      refine (Node.unaryFinish_ret _ _ _ _ _ _).2 ?_
      cases child with
      | none => exact Or.inl rfl
      | some c =>
        rw [Option.map_some'] at h
        cases hf : ((if reset = true then snow.RecordUnsuccessfulPoll else snow).RecordPoll p
            votes.Len).Finalized with
        | false => exact Or.inr rfl
        | true =>
          rw [Node.unaryFinish_fin _ _ _ _ _ _ hf] at h
          rw [Node.Finalized, hf] at h
          cases h
  | binary p0 p1 bit snow sr0 sr1 c0 c1 =>
    rw [Node.RecordPoll_binary_pollBit] at h ⊢
    split
    · rfl
    · rw [if_neg (by assumption)] at h
      rw [Node.binaryFinish_self_Finalized] at h
      exact (Node.binaryFinish_ret _ _ _ _ _ _ _ _ _).2 (Or.inr h)

/-! ## A unary node finalizes no later than its child -/

theorem Reachable.below_unary {p : Parameters} {a : ID} {t : Tree}
    (hβ : p.BetaUnary ≤ p.BetaBinary) (hr : Reachable p a t) (pr : ID) (dp cp : Nat)
    (snow : Unary) (sr : Bool) (c : Node)
    (hm : Node.unary pr dp cp snow sr (some c) ∈ t.node.nodes)
    (hs : snow.Finalized = false) : ∀ m, m ∈ c.nodes → m.Finalized = false := by
  intro m hmc
  obtain ⟨l, _, hl⟩ := Node.Age_below p t.node _ (hr.age hβ) _ hm
  rw [Node.Age_unary] at hl
  have hc := hl.2 c rfl
  have hs2 : snow.finalized = false := hs
  rw [hs2] at hc
  simp only [Bool.false_eq_true, if_false] at hc
  obtain ⟨l2, hl2, h2⟩ := Node.Age_below p c _ hc m hmc
  exact Node.Age_not_finalized p hβ m l2 h2 (by omega)

/-- C36: in every tree reachable from `NewTree` with `beta_unary <= beta_binary` (after
every call, so after every `RecordPoll`), whenever the child of a unary node has a
finalized counter, the counter of the unary node is finalized too; no counter at all is
finalized below a unary node whose counter is not. -/
theorem unary_finalizes_before_child (p : Parameters) (a : ID) (t : Tree)
    (hβ : p.BetaUnary ≤ p.BetaBinary) (hr : Reachable p a t) :
    ∀ pr dp cp snow sr c, Node.unary pr dp cp snow sr (some c) ∈ t.node.nodes →
      (c.Finalized = true → snow.Finalized = true) ∧
      (snow.Finalized = false → ∀ m, m ∈ c.nodes → m.Finalized = false) := by
  intro pr dp cp snow sr c hm
  refine ⟨?_, hr.below_unary hβ pr dp cp snow sr c hm⟩
  intro hc
  cases hs : snow.Finalized with
  | true => rfl
  | false =>
    have := hr.below_unary hβ pr dp cp snow sr c hm hs c (Node.self_mem_nodes c)
    rw [this] at hc
    cases hc

/-- The unary root above the binary node at bit 2, after one poll, for C36. -/
theorem unary_finalizes_before_child_witness :
    scenarioParams.BetaUnary ≤ scenarioParams.BetaBinary ∧
    Reachable scenarioParams idZero runPolledOnce ∧
    runPolledOnce.node.nodes.length = 4 ∧
    ∀ pr dp cp snow sr c, Node.unary pr dp cp snow sr (some c) ∈ runPolledOnce.node.nodes →
      (c.Finalized = true → snow.Finalized = true) ∧
      (snow.Finalized = false → ∀ m, m ∈ c.nodes → m.Finalized = false) :=
  ⟨by decide, Reachable.recordPoll _ _ (Reachable.add _ _ Reachable.newTree), by decide,
    unary_finalizes_before_child scenarioParams idZero runPolledOnce (by decide)
      (Reachable.recordPoll _ _ (Reachable.add _ _ Reachable.newTree))⟩

/-! ## The preference of a unary node after a poll -/

theorem Node.pollTrace_unary (p : Parameters) (pr : ID) (dp cp : Nat) (snow : Unary) (sr : Bool)
    (child : Option Node) (votes : Bag) (reset : Bool) :
    Node.pollTrace p (.unary pr dp cp snow sr child) votes reset =
      (.unary pr dp cp snow sr child, votes, reset) ::
        (if votes.Len < p.AlphaPreference then []
         else (child.map fun c => c.pollTrace p votes (reset || sr)).getD []) := by
  cases child <;> cases reset <;> rfl

theorem Node.pollTrace_binary (p : Parameters) (p0 p1 : ID) (bit : Nat) (snow : Binary)
    (sr0 sr1 : Bool) (c0 c1 : Option Node) (votes : Bag) (reset : Bool) :
    Node.pollTrace p (.binary p0 p1 bit snow sr0 sr1 c0 c1) votes reset =
      (.binary p0 p1 bit snow sr0 sr1 c0 c1, votes, reset) ::
        (if (Node.prunedVotes p bit votes).Len < p.AlphaPreference then []
         else ((sel (Node.pollBit p bit votes) c0 c1).map fun c =>
           c.pollTrace p (Node.prunedVotes p bit votes)
             (reset || sel (Node.pollBit p bit votes) sr0 sr1)).getD []) := by
  rw [Node.pollTrace.eq_def]
  simp only [Node.prunedVotes, Node.pollBit]
  cases decide (p.AlphaPreference ≤ (votes.Split fun id => id.Bit bit).2.Len) <;>
    cases c0 <;> cases c1 <;> cases reset <;> rfl

/-- Every call that a poll makes finds its receiver under the confidence invariant, with
the argument `reset` of the call as the pending reset, and under the order of
finalization. -/
theorem Node.pollTrace_inv (p : Parameters) (n : Node) :
    ∀ (pend : Bool) (cap lim : Nat) (votes : Bag), n.Dom pend cap → n.Age p lim →
      ∀ call, call ∈ n.pollTrace p votes pend →
        ∃ cap2 lim2, call.1.Dom call.2.2 cap2 ∧ call.1.Age p lim2 := by
  induction n using Node.induct with
  | unary pr dp cp snow sr child ih =>
    intro pend cap lim votes hd ha call hc
    rw [Node.pollTrace_unary, List.mem_cons] at hc
    rcases hc with hc | hc
    · rw [hc]; exact ⟨cap, lim, hd, ha⟩
    · split at hc
      · cases hc
      · cases child with
        | none => cases hc
        | some ch =>
          rw [Option.map_some', Option.getD_some] at hc
          rw [Node.Dom_unary] at hd
          rw [Node.Age_unary] at ha
          exact ih ch rfl _ _ _ _ (hd.2 ch rfl) (ha.2 ch rfl) call hc
  | binary p0 p1 bit snow sr0 sr1 c0 c1 ih0 ih1 =>
    intro pend cap lim votes hd ha call hc
    rw [Node.pollTrace_binary, List.mem_cons] at hc
    rcases hc with hc | hc
    · rw [hc]; exact ⟨cap, lim, hd, ha⟩
    · split at hc
      · cases hc
      · rw [Node.Dom_binary] at hd
        rw [Node.Age_binary] at ha
        generalize Node.pollBit p bit votes = side at hc
        cases side with
        | false =>
          simp only [sel_false] at hc
          cases c0 with
          | none => cases hc
          | some ch =>
            rw [Option.map_some', Option.getD_some] at hc
            exact ih0 ch rfl _ _ _ _ (hd.2.2.2.2.1 ch rfl) (ha.2.1 ch rfl) call hc
        | true =>
          simp only [sel_true] at hc
          cases c1 with
          | none => cases hc
          | some ch =>
            rw [Option.map_some', Option.getD_some] at hc
            exact ih1 ch rfl _ _ _ _ (hd.2.2.2.2.2 ch rfl) (ha.2.2 ch rfl) call hc

/-- The receiver of every call that a poll makes is a node of the subtree, as it is
before the poll. -/
theorem Node.pollTrace_mem_nodes (p : Parameters) (n : Node) :
    ∀ (votes : Bag) (reset : Bool) call, call ∈ n.pollTrace p votes reset →
      call.1 ∈ n.nodes := by
  induction n using Node.induct with
  | unary pr dp cp snow sr child ih =>
    intro votes reset call hc
    rw [Node.pollTrace_unary, List.mem_cons] at hc
    rw [Node.mem_nodes_unary]
    rcases hc with hc | hc
    · rw [hc]; exact Or.inl rfl
    · split at hc
      · cases hc
      · cases child with
        | none => cases hc
        | some ch =>
          rw [Option.map_some', Option.getD_some] at hc
          exact Or.inr ⟨ch, rfl, ih ch rfl _ _ call hc⟩
  | binary p0 p1 bit snow sr0 sr1 c0 c1 ih0 ih1 =>
    intro votes reset call hc
    rw [Node.pollTrace_binary, List.mem_cons] at hc
    rw [Node.mem_nodes_binary]
    rcases hc with hc | hc
    · rw [hc]; exact Or.inl rfl
    · split at hc
      · cases hc
      · generalize Node.pollBit p bit votes = side at hc
        cases side with
        | false =>
          simp only [sel_false] at hc
          cases c0 with
          | none => cases hc
          | some ch =>
            rw [Option.map_some', Option.getD_some] at hc
            exact Or.inr (Or.inl ⟨ch, rfl, ih0 ch rfl _ _ call hc⟩)
        | true =>
          simp only [sel_true] at hc
          cases c1 with
          | none => cases hc
          | some ch =>
            rw [Option.map_some', Option.getD_some] at hc
            exact Or.inr (Or.inr ⟨ch, rfl, ih1 ch rfl _ _ call hc⟩)

/-- The trace lists the calls that `Node.pollCalls` counts. -/
theorem Node.pollTrace_length (p : Parameters) (n : Node) :
    ∀ (votes : Bag) (reset : Bool), (n.pollTrace p votes reset).length = n.pollCalls p votes := by
  induction n using Node.induct with
  | unary pr dp cp snow sr child ih =>
    intro votes reset
    rw [Node.pollTrace_unary]
    cases child with
    | none =>
      simp only [Node.pollCalls, Option.map_none', Option.getD_none, List.length_cons]
      split <;> rfl
    | some ch =>
      simp only [Node.pollCalls, Option.map_some', Option.getD_some, List.length_cons]
      split
      · rfl
      · rw [ih ch rfl]; omega
  | binary p0 p1 bit snow sr0 sr1 c0 c1 ih0 ih1 =>
    intro votes reset
    cases c0 with
    | none =>
      cases c1 with
      | none =>
        simp only [Node.pollTrace, Node.pollCalls]
        split <;> (try split) <;> simp only [List.length_cons, List.length_nil]
      | some b =>
        simp only [Node.pollTrace, Node.pollCalls]
        split <;> (try split) <;> simp only [List.length_cons, List.length_nil]
        rw [ih1 b rfl]; omega
    | some a =>
      cases c1 with
      | none =>
        simp only [Node.pollTrace, Node.pollCalls]
        split <;> (try split) <;> simp only [List.length_cons, List.length_nil]
        rw [ih0 a rfl]; omega
      | some b =>
        simp only [Node.pollTrace, Node.pollCalls]
        split <;> (try split) <;> simp only [List.length_cons, List.length_nil] <;>
          first | (rw [ih0 a rfl]; omega) | (rw [ih1 b rfl]; omega)

/-- A unary node under the invariants whose counter is not finalized after a poll finds
the counter of its child not finalized either: the child returned itself and the
preference read from the child is the preference of the node returned. -/
theorem Node.RecordPoll_unary_child_stays (p : Parameters) (hβ : p.BetaUnary ≤ p.BetaBinary)
    (pr : ID) (dp cp : Nat) (snow : Unary) (sr : Bool) (c : Node) (votes : Bag)
    (reset : Bool) (cap lim : Nat)
    (hd : (Node.unary pr dp cp snow sr (some c)).Dom reset cap)
    (ha : (Node.unary pr dp cp snow sr (some c)).Age p lim)
    (hn : p.AlphaPreference ≤ votes.Len)
    (hf : (Node.RecordPoll p (.unary pr dp cp snow sr (some c)) votes reset).self.Finalized
      = false) :
    (c.RecordPoll p votes (reset || sr)).ret = (c.RecordPoll p votes (reset || sr)).self ∧
    (Node.RecordPoll p (.unary pr dp cp snow sr (some c)) votes reset).self.Preference =
      (c.RecordPoll p votes (reset || sr)).ret.Preference ∧
    (Node.RecordPoll p (.unary pr dp cp snow sr (some c)) votes reset).ret =
      (Node.RecordPoll p (.unary pr dp cp snow sr (some c)) votes reset).self := by
  have hself := Node.RecordPoll_Age_self p hβ _ reset cap (if reset = true then 1 else cap + 1)
    lim (max lim (p.BetaBinary + 1)) votes hd ha (fun _ => le_refl _) (fun h => by omega)
    (by omega)
  have hret := Node.RecordPoll_ret_of_not_finalized p _ votes reset hf
  rw [Node.RecordPoll_self_Finalized_unary p pr dp cp snow sr _ votes reset hn] at hf
  rw [Node.RecordPoll_unary, if_neg (by omega), Option.map_some',
    Node.unaryFinish_notFin _ _ _ _ _ _ hf] at hself hret ⊢
  rw [Node.Age_unary] at hself
  have hc := hself.2 _ rfl
  have hf2 : ((if reset = true then snow.RecordUnsuccessfulPoll else snow).RecordPoll p
      votes.Len).finalized = false := hf
  rw [hf2] at hc
  simp only [Bool.false_eq_true, if_false] at hc
  have hcf := Node.Age_not_finalized p hβ _ _ hc (by omega)
  have hcr := Node.RecordPoll_ret_of_not_finalized p c votes (reset || sr) hcf
  refine ⟨hcr, ?_, rfl⟩
  rw [hcr]
  rfl

/-- C32: in every tree reachable with `beta_unary <= beta_binary`, for every call of
`unaryNode.RecordPoll` that `Tree.RecordPoll` makes (on any bag) on a node with a child
and at least `alpha_preference` votes, if the counter of the node is not finalized after
the call, the preference of the node after the call equals the preference of the node
returned by the `RecordPoll` of the child (`newChild.Preference()`), which is the child
itself. -/
theorem unary_preference_refresh (p : Parameters) (a : ID) (t : Tree)
    (hβ : p.BetaUnary ≤ p.BetaBinary) (hr : Reachable p a t) (votes : Bag) :
    ∀ pr dp cp snow sr c v reset,
      (Node.unary pr dp cp snow sr (some c), v, reset) ∈
        t.node.pollTrace t.params (t.legalVotes votes) t.shouldReset →
      p.AlphaPreference ≤ v.Len →
      (Node.RecordPoll p (.unary pr dp cp snow sr (some c)) v reset).self.Finalized = false →
      (Node.RecordPoll p (.unary pr dp cp snow sr (some c)) v reset).self.Preference =
          (c.RecordPoll p v (reset || sr)).ret.Preference ∧
        (c.RecordPoll p v (reset || sr)).ret = (c.RecordPoll p v (reset || sr)).self := by
  intro pr dp cp snow sr c v reset hcall hn hf
  obtain ⟨cap, hdom⟩ := (hr.inv hβ).2.2
  rw [hr.wf.2] at hcall
  obtain ⟨cap2, lim2, hd, ha⟩ := Node.pollTrace_inv p t.node _ _ _ _ hdom (hr.age hβ) _ hcall
  have := Node.RecordPoll_unary_child_stays p hβ pr dp cp snow sr c v reset cap2 lim2 hd ha hn hf
  exact ⟨this.2.1, this.1⟩

/-- The poll of three votes for `0...0` on the unary root above the binary node at bit 2,
for C32: the root is not finalized after the call and takes the preference of the node
its child returns. -/
theorem unary_preference_refresh_witness :
    scenarioParams.BetaUnary ≤ scenarioParams.BetaBinary ∧
    Reachable scenarioParams idZero ((NewTree scenarioParams idZero).Add idFour) ∧
    (Node.RecordPoll scenarioParams
        (.unary idZero 0 2 ⟨0, false⟩ false
          (some (.binary idZero idFour 2 ⟨0, 0, false, false⟩ false false
            (some (.unary idZero 3 256 ⟨0, false⟩ false none))
            (some (.unary idFour 3 256 ⟨0, false⟩ false none)))))
        (List.replicate 3 idZero) false).self.Preference =
      ((Node.binary idZero idFour 2 ⟨0, 0, false, false⟩ false false
          (some (.unary idZero 3 256 ⟨0, false⟩ false none))
          (some (.unary idFour 3 256 ⟨0, false⟩ false none))).RecordPoll scenarioParams
        (List.replicate 3 idZero) (false || false)).ret.Preference ∧
    ((Node.binary idZero idFour 2 ⟨0, 0, false, false⟩ false false
          (some (.unary idZero 3 256 ⟨0, false⟩ false none))
          (some (.unary idFour 3 256 ⟨0, false⟩ false none))).RecordPoll scenarioParams
        (List.replicate 3 idZero) (false || false)).ret =
      ((Node.binary idZero idFour 2 ⟨0, 0, false, false⟩ false false
          (some (.unary idZero 3 256 ⟨0, false⟩ false none))
          (some (.unary idFour 3 256 ⟨0, false⟩ false none))).RecordPoll scenarioParams
        (List.replicate 3 idZero) (false || false)).self :=
  ⟨by decide, Reachable.add _ _ Reachable.newTree,
    unary_preference_refresh scenarioParams idZero ((NewTree scenarioParams idZero).Add idFour)
      (by decide) (Reachable.add _ _ Reachable.newTree) (List.replicate 3 idZero)
      idZero 0 2 ⟨0, false⟩ false
      (.binary idZero idFour 2 ⟨0, 0, false, false⟩ false false
        (some (.unary idZero 3 256 ⟨0, false⟩ false none))
        (some (.unary idFour 3 256 ⟨0, false⟩ false none)))
      (List.replicate 3 idZero) false (List.Mem.head _) (by decide) (by decide)⟩

/-! ## Finalized nodes inside the tree -/

theorem Node.nodes_of_childless (n : Node) (h : n.hasChild = false) : n.nodes = [n] := by
  cases n with
  | unary pr dp cp snow sr child =>
    cases child with
    | none => rfl
    | some c => cases h
  | binary p0 p1 bit snow sr0 sr1 c0 c1 =>
    cases c0 with
    | none =>
      cases c1 with
      | none => rfl
      | some c => cases h
    | some c => cases h

/-- Below a counter that is not finalized every node keeps the order of finalization
under a limit that is at most `beta_binary`. -/
theorem Node.Age_below_open (p : Parameters) (hβ : p.BetaUnary ≤ p.BetaBinary) (n : Node)
    (lim : Nat) (h : n.Age p lim) (hf : n.Finalized = false) (m : Node) (hm : m ∈ n.nodes) :
    m = n ∨ ∃ lim2, lim2 ≤ p.BetaBinary ∧ m.Age p lim2 := by
  cases n with
  | unary pr dp cp snow sr child =>
    have hs : snow.finalized = false := hf
    rw [Node.mem_nodes_unary] at hm
    rcases hm with hm | ⟨c, hc, hm⟩
    · exact Or.inl hm
    · rw [Node.Age_unary, hs] at h
      obtain ⟨l2, hl2, h2⟩ := Node.Age_below p c _ (h.2 c hc) m hm
      simp only [Bool.false_eq_true, if_false] at hl2
      exact Or.inr ⟨l2, by omega, h2⟩
  | binary p0 p1 bit snow sr0 sr1 c0 c1 =>
    have hs : snow.finalized = false := hf
    rw [Node.mem_nodes_binary] at hm
    rw [Node.Age_binary, hs] at h
    rcases hm with hm | ⟨c, hc, hm⟩ | ⟨c, hc, hm⟩
    · exact Or.inl hm
    · obtain ⟨l2, hl2, h2⟩ := Node.Age_below p c _ (h.2.1 c hc) m hm
      simp only [Bool.false_eq_true, if_false] at hl2
      exact Or.inr ⟨l2, by omega, h2⟩
    · obtain ⟨l2, hl2, h2⟩ := Node.Age_below p c _ (h.2.2 c hc) m hm
      simp only [Bool.false_eq_true, if_false] at hl2
      exact Or.inr ⟨l2, by omega, h2⟩

/-- C37 fails as stated: with `beta_unary = 1 < beta_binary = 2`, after `Add(1000...0)`,
`Add(0010...0)` and one completed `RecordPoll` of three votes for `0...0` the tree is
not finalized and has six nodes, in pre-order the binary root at bit 0, the unary node
for bit 1, the binary node at bit 2, the leaves of `0...0` and `0010...0`, and the leaf
of `1000...0`; the unary node for bit 1, which has a child, and the leaf of `0...0` have
a finalized counter. -/
theorem finalized_nodes_stay_below_binary :
    Reachable unequalBetaParams idZero decidedBelowBinary ∧
    unequalBetaParams.BetaUnary ≤ unequalBetaParams.BetaBinary ∧
    decidedBelowBinary.Finalized = false ∧
    decidedBelowBinary.node.nodes.map Node.DecidedPrefix = [0, 1, 2, 3, 3, 1] ∧
    decidedBelowBinary.node.nodes.map Node.Finalized
      = [false, true, false, true, false, false] ∧
    decidedBelowBinary.node.nodes.map Node.hasChild
      = [true, true, true, false, false, false] :=
  ⟨Reachable.recordPoll _ _ (Reachable.add _ _ (Reachable.add _ _ Reachable.newTree)),
    by decide, by decide, by decide, by decide, by decide⟩

/-- C37, amended: in every tree reachable from `NewTree` with
`beta_unary <= beta_binary` (after every call, so after each completed
`Tree.RecordPoll`), a node with a finalized counter is the childless root, or it is a
unary node of a tree that is not finalized and `beta_unary < beta_binary`; so no binary
node other than a childless root has a finalized counter, and with
`beta_unary = beta_binary` no node other than a childless root has one. -/
theorem finalized_nodes_of_reachable_tree (p : Parameters) (a : ID) (t : Tree)
    (hβ : p.BetaUnary ≤ p.BetaBinary) (hr : Reachable p a t) :
    (∀ m, m ∈ t.node.nodes → m.Finalized = true →
      (m = t.node ∧ t.node.hasChild = false) ∨
        (p.BetaUnary < p.BetaBinary ∧ t.Finalized = false ∧
          ∃ pr dp cp snow sr child, m = .unary pr dp cp snow sr child)) ∧
    (∀ p0 p1 bit snow sr0 sr1 c0 c1,
      Node.binary p0 p1 bit snow sr0 sr1 c0 c1 ∈ t.node.nodes → snow.Finalized = true →
        t.node = .binary p0 p1 bit snow sr0 sr1 c0 c1 ∧ t.node.hasChild = false) ∧
    (p.BetaUnary = p.BetaBinary → ∀ m, m ∈ t.node.nodes → m.Finalized = true →
      m = t.node ∧ t.node.hasChild = false) := by
  have main : ∀ m, m ∈ t.node.nodes → m.Finalized = true →
      (m = t.node ∧ t.node.hasChild = false) ∨
        (p.BetaUnary < p.BetaBinary ∧ t.Finalized = false ∧
          ∃ pr dp cp snow sr child, m = .unary pr dp cp snow sr child) := by
    intro m hm hf
    cases hroot : t.node.Finalized with
    | true =>
      have hc := (hr.inv hβ).2.1 hroot
      rw [Node.nodes_of_childless _ hc, List.mem_singleton] at hm
      exact Or.inl ⟨hm, hc⟩
    | false =>
      rcases Node.Age_below_open p hβ t.node _ (hr.age hβ) hroot m hm with h | ⟨l2, hl2, h2⟩
      · rw [h, hroot] at hf
        cases hf
      · refine Or.inr ?_
        cases m with
        | unary pr dp cp snow sr child =>
          rw [Node.Age_unary] at h2
          have := h2.1 hf
          exact ⟨by omega, hroot, pr, dp, cp, snow, sr, child, rfl⟩
        | binary p0 p1 bit snow sr0 sr1 c0 c1 =>
          rw [Node.Age_binary] at h2
          have := h2.1 hf
          omega
  refine ⟨main, ?_, ?_⟩
  · intro p0 p1 bit snow sr0 sr1 c0 c1 hm hf
    rcases main _ hm hf with h | ⟨_, _, pr, dp, cp, s, sr, child, h⟩
    · exact ⟨h.1.symm, h.2⟩
    · cases h
  · intro he m hm hf
    rcases main m hm hf with h | ⟨h, _⟩
    · exact h
    · omega

/-- The tree with two finalized unary nodes below the binary root, for C37 as amended. -/
theorem finalized_nodes_of_reachable_tree_witness :
    unequalBetaParams.BetaUnary ≤ unequalBetaParams.BetaBinary ∧
    Reachable unequalBetaParams idZero decidedBelowBinary ∧
    (∀ m, m ∈ decidedBelowBinary.node.nodes → m.Finalized = true →
      (m = decidedBelowBinary.node ∧ decidedBelowBinary.node.hasChild = false) ∨
        (unequalBetaParams.BetaUnary < unequalBetaParams.BetaBinary ∧
          decidedBelowBinary.Finalized = false ∧
          ∃ pr dp cp snow sr child, m = .unary pr dp cp snow sr child)) ∧
    (∀ p0 p1 bit snow sr0 sr1 c0 c1,
      Node.binary p0 p1 bit snow sr0 sr1 c0 c1 ∈ decidedBelowBinary.node.nodes →
        snow.Finalized = true →
        decidedBelowBinary.node = .binary p0 p1 bit snow sr0 sr1 c0 c1 ∧
          decidedBelowBinary.node.hasChild = false) ∧
    (unequalBetaParams.BetaUnary = unequalBetaParams.BetaBinary →
      ∀ m, m ∈ decidedBelowBinary.node.nodes → m.Finalized = true →
        m = decidedBelowBinary.node ∧ decidedBelowBinary.node.hasChild = false) :=
  ⟨by decide,
    Reachable.recordPoll _ _ (Reachable.add _ _ (Reachable.add _ _ Reachable.newTree)),
    finalized_nodes_of_reachable_tree unequalBetaParams idZero decidedBelowBinary (by decide)
      (Reachable.recordPoll _ _ (Reachable.add _ _ (Reachable.add _ _ Reachable.newTree)))⟩

/-! ## A unanimous poll -/

theorem Node.binary_Preference_eq (p0 p1 : ID) (bit : Nat) (snow : Binary) (sr0 sr1 : Bool)
    (c0 c1 : Option Node) (side : Bool) (h : snow.preference = side) :
    (Node.binary p0 p1 bit snow sr0 sr1 c0 c1).Preference = sel side p0 p1 := by
  show sel snow.preference p0 p1 = _
  rw [h]

/-- With binary counters whose preferred side is the side of their last poll, as
`Binary.RecordPoll` has it here: a poll of at least `alpha_confidence` votes, all for an
id represented below a node of a reachable tree, is successful and returns a node that
prefers the id.  A counter that keeps a separate preferred side need not follow. -/
theorem Node.RecordPoll_unanimous (p : Parameters) (hβ : p.BetaUnary ≤ p.BetaBinary)
    (h1 : 1 ≤ p.AlphaPreference) (hα : p.AlphaPreference ≤ p.AlphaConfidence) (x : ID)
    (k : Nat) (hk : p.AlphaConfidence ≤ k) (n : Node) :
    ∀ (pend : Bool) (cap lim : Nat), n.WF → n.Dom pend cap → n.Age p lim →
      (lim ≤ p.BetaBinary ∨ n.Finalized = false) → x ∈ n.represented →
      (n.RecordPoll p (List.replicate k x) pend).successful = true ∧
        (n.RecordPoll p (List.replicate k x) pend).ret.Preference = x := by
  induction n using Node.induct with
  | unary pr dp cp snow sr child ih =>
    intro pend cap lim hwf hd ha hl hx
    have hn : p.AlphaPreference ≤ Bag.Len (List.replicate k x) := by
      rw [Bag.Len_replicate]; omega
    have hsucc : (Node.RecordPoll p (.unary pr dp cp snow sr child) (List.replicate k x)
        pend).successful = true := by
      rw [Node.RecordPoll_unary, if_neg (by omega)]
      exact Node.unaryFinish_successful _ _ _ _ _ _
    refine ⟨hsucc, ?_⟩
    rw [Node.mem_represented_unary] at hx
    rcases hx with ⟨hc, hx⟩ | ⟨ch, hc, hx⟩
    · subst hc
      subst hx
      rw [Node.RecordPoll_unary, if_neg (by omega), Option.map_none', Node.unaryFinish_none]
      rfl
    · subst hc
      have hdc := ((Node.Dom_unary _ _ _ _ _ _ _ _).1 hd).2 ch rfl
      have hac := ((Node.Age_unary _ _ _ _ _ _ _ _).1 ha).2 ch rfl
      have hwc := (((Node.WF_unary _ _ _ _ _ _).1 hwf).2.2.2 ch rfl).2.2
      have hlc : (if snow.finalized = true then lim else min p.BetaUnary lim) ≤ p.BetaBinary := by
        cases hs : snow.finalized with
        | true =>
          rcases hl with hl | hl
          · simpa using hl
          · have : snow.finalized = false := hl
            rw [hs] at this
            cases this
        | false =>
          simp only [Bool.false_eq_true, if_false]
          omega
      have hih := ih ch rfl _ _ _ hwc hdc hac (Or.inl hlc) hx
      cases hf : (Node.RecordPoll p (.unary pr dp cp snow sr (some ch)) (List.replicate k x)
          pend).self.Finalized with
      | false =>
        obtain ⟨_, e2, e3⟩ := Node.RecordPoll_unary_child_stays p hβ pr dp cp snow sr ch
          (List.replicate k x) pend cap lim hd ha hn hf
        rw [e3, e2]
        exact hih.2
      | true =>
        rw [Node.RecordPoll_self_Finalized_unary p pr dp cp snow sr _ _ pend hn] at hf
        rw [Node.RecordPoll_unary, if_neg (by omega), Option.map_some',
          Node.unaryFinish_fin _ _ _ _ _ _ hf]
        exact hih.2
  | binary p0 p1 bit snow sr0 sr1 c0 c1 ih0 ih1 =>
    intro pend cap lim hwf hd ha hl hx
    rw [Node.WF_binary] at hwf
    obtain ⟨_, _, w0, w1, _, _, wc0, wc1⟩ := hwf
    rw [Node.Dom_binary] at hd
    obtain ⟨_, hz, hsome, _, hd0, hd1⟩ := hd
    rw [Node.Age_binary] at ha
    obtain ⟨haown, ha0, ha1⟩ := ha
    have hs : snow.finalized = false := by
      cases hs : snow.finalized with
      | false => rfl
      | true =>
        have := haown hs
        rcases hl with hl | hl
        · omega
        · have : snow.finalized = false := hl
          rw [hs] at this
          cases this
    rw [hs] at ha0 ha1
    simp only [Bool.false_eq_true, if_false] at ha0 ha1
    have hlc : min p.BetaBinary lim ≤ p.BetaBinary := by omega
    rw [Node.RecordPoll_binary]
    have hside : decide (p.AlphaPreference ≤
        (Bag.Filter (List.replicate k x) fun y => y.Bit bit).Len) = x.Bit bit := by
      rw [(Bag.filter_replicate_bit k x bit).1]
      cases x.Bit bit
      · simp only [Bool.false_eq_true, if_false, decide_eq_false_iff_not]
        show ¬ p.AlphaPreference ≤ 0
        omega
      · simp only [if_true, decide_eq_true_eq, Bag.Len_replicate]
        omega
    have hvs : sel (x.Bit bit) (Bag.Filter (List.replicate k x) fun y => !y.Bit bit)
        (Bag.Filter (List.replicate k x) fun y => y.Bit bit) = List.replicate k x := by
      rw [(Bag.filter_replicate_bit k x bit).1, (Bag.filter_replicate_bit k x bit).2]
      cases x.Bit bit <;> rfl
    rw [hside, hvs, Bag.Len_replicate, if_neg (by omega)]
    refine ⟨Node.binaryFinish_successful _ _ _ _ _ _ _ _ _, ?_⟩
    obtain ⟨e1, _, _, _⟩ := Binary.pollSide_high p snow pend k (x.Bit bit) hs hk hz
    generalize (if pend = true then snow.RecordUnsuccessfulPoll else snow).RecordPoll p k
      (x.Bit bit) = s1 at e1 ⊢
    -- the side of the id
    have hbit0 : ∀ c, c0 = some c → x ∈ c.represented → x.Bit bit = false := by
      intro c hc hxc
      obtain ⟨q1, q2, q3⟩ := wc0 c hc
      have h3 := Node.WF_represented_agree c q3 x hxc
      rw [q1] at h3
      rw [← h3 bit (by omega), ← q2 bit (by omega)]
      exact w0
    have hbit1 : ∀ c, c1 = some c → x ∈ c.represented → x.Bit bit = true := by
      intro c hc hxc
      obtain ⟨q1, q2, q3⟩ := wc1 c hc
      have h3 := Node.WF_represented_agree c q3 x hxc
      rw [q1] at h3
      rw [← h3 bit (by omega), ← q2 bit (by omega)]
      exact w1
    rw [Node.mem_represented_binary] at hx
    rcases hx with ⟨hc0, hc1, hx⟩ | ⟨c, hc, hx⟩ | ⟨c, hc, hx⟩
    · subst hc0
      subst hc1
      rcases hx with hx | hx
      · subst hx
        rw [w0] at e1 ⊢
        simp only [sel_false]
        rw [Option.map_none', Node.binaryFinish_none_false]
        exact Node.binary_Preference_eq _ _ _ _ _ _ _ _ false e1
      · subst hx
        rw [w1] at e1 ⊢
        simp only [sel_true]
        rw [Option.map_none', Node.binaryFinish_none_true]
        exact Node.binary_Preference_eq _ _ _ _ _ _ _ _ true e1
    · subst hc
      have hb := hbit0 c rfl hx
      rw [hb] at e1 ⊢
      have hih := ih0 c rfl _ _ _ (wc0 c rfl).2.2 (hd0 c rfl) (ha0 c rfl) (Or.inl hlc) hx
      simp only [sel_false]
      rw [Option.map_some']
      cases hf : s1.Finalized with
      | true =>
        rw [Node.binaryFinish_fin_false _ _ _ _ _ _ _ _ hf]
        exact hih.2
      | false =>
        rw [Node.binaryFinish_notFin_false _ _ _ _ _ _ _ _ hf]
        rw [Node.binary_Preference_eq _ _ _ _ _ _ _ _ false e1]
        exact hih.2
    · subst hc
      have hb := hbit1 c rfl hx
      rw [hb] at e1 ⊢
      have hih := ih1 c rfl _ _ _ (wc1 c rfl).2.2 (hd1 c rfl) (ha1 c rfl) (Or.inl hlc) hx
      simp only [sel_true]
      rw [Option.map_some']
      cases hf : s1.Finalized with
      | true =>
        rw [Node.binaryFinish_fin_true _ _ _ _ _ _ _ _ hf]
        exact hih.2
      | false =>
        rw [Node.binaryFinish_notFin_true _ _ _ _ _ _ _ _ hf]
        rw [Node.binary_Preference_eq _ _ _ _ _ _ _ _ true e1]
        exact hih.2

theorem Node.flush_unary (q : Bool) (pr : ID) (dp cp : Nat) (snow : Unary) (sr : Bool)
    (child : Option Node) :
    Node.flush q (.unary pr dp cp snow sr child) =
      .unary pr dp cp (if q then snow.RecordUnsuccessfulPoll else snow) false
        (child.map (Node.flush (q || sr))) := by
  cases child <;> rfl

theorem Node.flush_binary (q : Bool) (p0 p1 : ID) (bit : Nat) (snow : Binary) (sr0 sr1 : Bool)
    (c0 c1 : Option Node) :
    Node.flush q (.binary p0 p1 bit snow sr0 sr1 c0 c1) =
      .binary p0 p1 bit (if q then snow.RecordUnsuccessfulPoll else snow) false false
        (c0.map (Node.flush (q || sr0))) (c1.map (Node.flush (q || sr1))) := by
  cases c0 <;> cases c1 <;> rfl

theorem Node.resetAll_unary (pr : ID) (dp cp : Nat) (snow : Unary) (sr : Bool)
    (child : Option Node) :
    (Node.unary pr dp cp snow sr child).resetAll =
      .unary pr dp cp snow.RecordUnsuccessfulPoll sr (child.map Node.resetAll) := by
  cases child <;> rfl

theorem Node.resetAll_binary (p0 p1 : ID) (bit : Nat) (snow : Binary) (sr0 sr1 : Bool)
    (c0 c1 : Option Node) :
    (Node.binary p0 p1 bit snow sr0 sr1 c0 c1).resetAll =
      .binary p0 p1 bit snow.RecordUnsuccessfulPoll sr0 sr1 (c0.map Node.resetAll)
        (c1.map Node.resetAll) := by
  cases c0 <;> cases c1 <;> rfl

theorem Node.resetChild_eq_map (o : Option Node) : Node.resetChild o = o.map Node.resetAll := by
  cases o <;> rfl

theorem Unary.reset_reset (s : Unary) (q : Bool) :
    (if q = true then s.RecordUnsuccessfulPoll else s).RecordUnsuccessfulPoll
      = s.RecordUnsuccessfulPoll := by
  cases q <;> rfl

theorem Binary.resetSide_reset (s : Binary) (q : Bool) :
    (if q = true then s.RecordUnsuccessfulPoll else s).RecordUnsuccessfulPoll
      = s.RecordUnsuccessfulPoll := by
  cases q <;> rfl

/-- A reset of the whole subtree overrides the resets that were pending. -/
theorem Node.resetAll_flush (n : Node) : ∀ q : Bool, (n.flush q).resetAll = n.flush true := by
  induction n using Node.induct with
  | unary pr dp cp snow sr child ih =>
    intro q
    rw [Node.flush_unary, Node.flush_unary, Node.resetAll_unary, Unary.reset_reset]
    cases child with
    | none => rfl
    | some c =>
      simp only [Option.map_some', if_true, Bool.true_or]
      rw [ih c rfl]
  | binary p0 p1 bit snow sr0 sr1 c0 c1 ih0 ih1 =>
    intro q
    rw [Node.flush_binary, Node.flush_binary, Node.resetAll_binary, Binary.resetSide_reset]
    have h0 : (c0.map (Node.flush (q || sr0))).map Node.resetAll
        = c0.map (Node.flush (true || sr0)) := by
      cases c0 with
      | none => rfl
      | some c => simp only [Option.map_some', Bool.true_or]; rw [ih0 c rfl]
    have h1 : (c1.map (Node.flush (q || sr1))).map Node.resetAll
        = c1.map (Node.flush (true || sr1)) := by
      cases c1 with
      | none => rfl
      | some c => simp only [Option.map_some', Bool.true_or]; rw [ih1 c rfl]
    rw [h0, h1]
    rfl

theorem Node.resetChild_flush (o : Option Node) (q : Bool) :
    Node.resetChild (o.map (Node.flush q)) = o.map (Node.flush true) := by
  cases o with
  | none => rfl
  | some c => exact congrArg some (Node.resetAll_flush c q)

end Snowball
